import Mathlib

/-!
flatco: a shallow embedding of `src/flatco.cpp`

The source buffer is a `List Char` (one `Char` per byte); every pointer of the
C++ code is an `Int` offset into that buffer (the cursor of a fresh `Lexer`
is one before its first byte, hence `Int`).  A `std::string_view` is modelled
by the bytes it designates.  `throw BlError` is the outcome `Res.err`; loops
are unrolled by structural recursion on a bound computed from the remaining
input, and reaching the bound is the separate outcome `Res.fuel`.
`assert(..)` lines do not alter control flow in the model: they are proof
obligations, recorded in the doc comments of the definitions that carry them, and
the outcomes of the model are those of the program with the assertions compiled
out.  The condition asserted by `Lexer::getSizeFrom` is the definition
`Lexer.getSizeFromAssert`: where it is false, the program with its assertions
stops at that call.
`size_t` counters (rows, columns, sequence ids) are `Nat`.
-/

namespace Flatco

/-! ## Characters and keywords -/

/-- The byte 0: what `Lexer::get` returns at the end of its range. -/
def NUL : Char := Char.ofNat 0

/-- Source `enum ItemKind`. -/
inductive ItemKind where
  | CODE
  | BL_func
  | BL_call
  | BL_return
deriving DecidableEq, Repr

/-- Source `IsIdentFirst`. -/
def IsIdentFirst (c : Char) : Bool :=
  (decide ('A' ≤ c) && decide (c ≤ 'Z')) || (decide ('a' ≤ c) && decide (c ≤ 'z')) || c == '_'

/-- Source `IsIdentOther`. -/
def IsIdentOther (c : Char) : Bool :=
  (decide ('A' ≤ c) && decide (c ≤ 'Z')) || (decide ('a' ≤ c) && decide (c ≤ 'z'))
    || (decide ('0' ≤ c) && decide (c ≤ '9')) || c == '_'

/-- Source `IsSpaceChar`. -/
def IsSpaceChar (c : Char) : Bool :=
  c == ' ' || c == '\t' || c == '\n' || c == '\r'

/-- Read one byte of the buffer at a pointer (offset). -/
def deref (buf : List Char) (p : Int) : Char :=
  if p < 0 then NUL else buf.getD p.toNat NUL

/-- The bytes `[p, p+n)` of the buffer: `std::string(p, n)` / `std::string_view(p, n)`. -/
def slice (buf : List Char) (p : Int) (n : Nat) : List Char :=
  (buf.drop p.toNat).take n

/-- C `strncmp(a, lit, n) == 0`, where `a` points into the buffer and `lit` is a
NUL-terminated literal: at most `n` bytes are compared, the comparison stops at
the first difference or at a common NUL. -/
def strncmpEq (buf : List Char) (a : Int) (lit : List Char) : Nat → Nat → Bool
  | 0, _ => true
  | n + 1, i =>
    let x := deref buf (a + i)
    let y := lit.getD i NUL
    if x ≠ y then false
    else if x = NUL then true
    else strncmpEq buf a lit n (i + 1)

/-- Source `CheckKeyword(p, n)`. -/
def CheckKeyword (buf : List Char) (p : Int) (n : Nat) : ItemKind :=
  if n < 7 ∨ deref buf p ≠ 'B' ∨ deref buf (p + 1) ≠ 'L' ∨ deref buf (p + 2) ≠ '_' then .CODE
  else if strncmpEq buf (p + 3) "func".toList (n - 3) 0 then .BL_func
  else if strncmpEq buf (p + 3) "call".toList (n - 3) 0 then .BL_call
  else if strncmpEq buf (p + 3) "return".toList (n - 3) 0 then .BL_return
  else .CODE

/-! ## Errors and outcomes -/

/-- Source `struct BlError`. -/
structure BlError where
  row : Nat
  col : Nat
  s : String
deriving DecidableEq, Repr

/-- Outcome of a routine: a value, a thrown `BlError`, the unrolling bound of a
loop reached, or undefined behaviour (an out-of-range `operator[]`). -/
inductive Res (α : Type) where
  | ok (a : α)
  | err (e : BlError)
  | fuel
  | ub
deriving DecidableEq, Repr

/-- Sequencing of outcomes: the first non-`ok` outcome ends the computation. -/
def Res.bind {α β : Type} (x : Res α) (f : α → Res β) : Res β :=
  match x with
  | .ok a => f a
  | .err e => .err e
  | .fuel => .fuel
  | .ub => .ub

instance : Monad Res where
  pure := Res.ok
  bind := Res.bind

/-- Source `struct Token`. -/
structure Token where
  row : Nat
  col : Nat
  s : Int
  len : Nat
deriving DecidableEq, Repr

/-! ## Lexer -/

/-- Source `class Lexer`; `buf` is the memory its pointers refer to. -/
structure Lexer where
  buf : List Char
  src_ : Int
  pe_ : Int
  p_ : Int
  row_ : Nat
  col_ : Nat
deriving DecidableEq, Repr

/-- Source `Lexer::Lexer(const char* s, size_t len)`. -/
def Lexer.new (buf : List Char) (s : Int) (len : Nat) : Lexer :=
  { buf := buf, src_ := s, p_ := s - 1, pe_ := s + len, row_ := 0, col_ := 1 }

/-- Source `Lexer::Lexer(const Lexer& lex, const char* s, size_t len, size_t row, size_t col)`. -/
def Lexer.sub (lex : Lexer) (s : Int) (len : Nat) (row col : Nat) : Lexer :=
  { buf := lex.buf, src_ := lex.src_, p_ := s - 1, pe_ := s + len, row_ := row, col_ := col }

/-- Source `Lexer::reset`. -/
def Lexer.reset (l : Lexer) (s : Int) (len : Nat) (row col : Nat) : Lexer :=
  { l with p_ := s - 1, pe_ := s + len, row_ := row, col_ := col }

/-- Bound on the number of iterations of any scanning loop started at the cursor. -/
def Lexer.bound (l : Lexer) : Nat := (l.pe_ - l.p_).toNat + 2

/-- Source `Lexer::get`. -/
def Lexer.get (l : Lexer) : Char × Lexer :=
  let p := l.p_
  if p + 1 ≥ l.pe_ then (NUL, { l with p_ := l.pe_ })
  else
    let c := deref l.buf (p + 1)
    let l1 := { l with p_ := p + 1 }
    let l2 := if p < l.src_ ∨ deref l.buf p = '\n' then { l1 with row_ := l1.row_ + 1, col_ := 0 } else l1
    let l3 := if c ≠ '\r' then { l2 with col_ := l2.col_ + 1 } else l2
    (c, l3)

/-- Source `Lexer::skipGet`; carries `assert(p_ <= pe_)`. -/
def Lexer.skipGet (l : Lexer) (n : Nat) : Char × Lexer :=
  let l1 := { l with p_ := l.p_ + n, col_ := l.col_ + n }
  if l1.p_ < l1.pe_ then (deref l1.buf l1.p_, l1) else (NUL, l1)

/-- Source `Lexer::backward`; carries `assert(p_ >= src_)`. -/
def Lexer.backward (l : Lexer) (n : Nat) : Char × Lexer :=
  let l1 := { l with p_ := l.p_ - n, col_ := l.col_ - n }
  (deref l1.buf l1.p_, l1)

/-- Source `Lexer::loadPos`. -/
def Lexer.loadPos (l : Lexer) (row col : Nat) (p : Int) : Lexer :=
  { l with row_ := row, col_ := col, p_ := p }

/-- The `while (c)` loop of `Lexer::skipMultilineComment`. -/
def Lexer.skipMultilineCommentLoop : Nat → Bool → Char → Lexer → Res Lexer
  | 0, _, _, _ => .fuel
  | n + 1, findStar, c, l =>
    if c = NUL then .err ⟨l.row_, l.col_, "Multi-line comments are not closed"⟩
    else if !findStar then
      Lexer.skipMultilineCommentLoop n (decide (c = '*')) l.get.1 l.get.2
    else if c = '/' then .ok l
    else Lexer.skipMultilineCommentLoop n false l.get.1 l.get.2

/-- Source `Lexer::skipMultilineComment`. -/
def Lexer.skipMultilineComment (l : Lexer) : Res Lexer :=
  Lexer.skipMultilineCommentLoop l.bound false l.get.1 l.get.2

/-- The loop `while (c && c != '\n') c = get();` of `Lexer::skipCommentsGet`. -/
def Lexer.skipLineLoop : Nat → Char → Lexer → Res Lexer
  | 0, _, _ => .fuel
  | n + 1, c, l =>
    if c ≠ NUL ∧ c ≠ '\n' then Lexer.skipLineLoop n l.get.1 l.get.2 else .ok l

/-- Source `Lexer::skipCommentsGet`. -/
def Lexer.skipCommentsGet (l : Lexer) : Res (Char × Lexer) :=
  let l1 := l.get.2
  if l.get.1 ≠ '/' then .ok (l.get.1, l1)
  else
    let c := l1.get.1
    let l2 := l1.get.2
    if c = '*' then
      (l2.skipMultilineComment).bind fun l3 => .ok (' ', l3)
    else if c = '/' then
      (Lexer.skipLineLoop l2.bound l2.get.1 l2.get.2).bind fun l3 => .ok (' ', l3)
    else .ok ('/', l2.loadPos l1.row_ l1.col_ l1.p_)

/-- The loop of `Lexer::getString`, with the two `throw`s that follow it. -/
def Lexer.getStringLoop (start : Char) : Nat → Char → Lexer → Res Lexer
  | 0, _, _ => .fuel
  | n + 1, c, l =>
    if c ≠ NUL ∧ c ≠ start then
      if c = '\n' then .err ⟨l.row_, l.col_, "String cross over line"⟩
      else if c = '\\' then
        if l.get.1 ≠ NUL then Lexer.getStringLoop start n l.get.2.get.1 l.get.2.get.2
        else Lexer.getStringLoop start n l.get.1 l.get.2
      else Lexer.getStringLoop start n l.get.1 l.get.2
    else if c = NUL then .err ⟨l.row_, l.col_, "String hasn't end"⟩
    else .ok l

/-- Source `Lexer::getString`. -/
def Lexer.getString (l : Lexer) (start : Char) : Res (Token × Lexer) :=
  (Lexer.getStringLoop start l.bound l.get.1 l.get.2).bind fun l2 =>
    .ok ({ row := l.row_, col := l.col_, s := l.p_, len := 1 + (l2.p_ - l.p_).toNat }, l2)

/-- The `while (q < pe_)` loop of `Lexer::peekIdent`; the bound is exact: started
with `pe_ - q` it is 0 only when `q >= pe_`. -/
def Lexer.identEnd (l : Lexer) : Nat → Int → Int
  | 0, q => q
  | n + 1, q =>
    if q < l.pe_ ∧ IsIdentOther (deref l.buf q) = true then Lexer.identEnd l n (q + 1) else q

/-- Source `Lexer::peekIdent`; carries `assert(IsIdentFirst(*p))`. -/
def Lexer.peekIdent (l : Lexer) : Token :=
  let q := Lexer.identEnd l (l.pe_ - (l.p_ + 1)).toNat (l.p_ + 1)
  { row := l.row_, col := l.col_, s := l.p_, len := (q - l.p_).toNat }

/-- Source `Lexer::getIdent`. -/
def Lexer.getIdent (l : Lexer) : Token × Lexer :=
  let tok := l.peekIdent
  let n := tok.len - 1
  (tok, { l with p_ := l.p_ + n, col_ := l.col_ + n })

/-- Source `Lexer::getSizeFrom`: `p_ - last`; carries `assert(p_ > last)`, whose
condition is `Lexer.getSizeFromAssert`. -/
def Lexer.getSizeFrom (l : Lexer) (last : Int) : Nat := (l.p_ - last).toNat

/-- The condition asserted by `Lexer::getSizeFrom`. -/
def Lexer.getSizeFromAssert (l : Lexer) (last : Int) : Bool := decide (l.p_ > last)

/-- The `while (IsSpaceChar(c))` loop of `Lexer::skipBlanks`. -/
def Lexer.skipBlanksLoop : Nat → Char → Lexer → Res (Char × Lexer)
  | 0, _, _ => .fuel
  | n + 1, c, l =>
    if IsSpaceChar c = true then
      l.skipCommentsGet.bind fun r => Lexer.skipBlanksLoop n r.1 r.2
    else .ok (c, l)

/-- Source `Lexer::skipBlanks`. -/
def Lexer.skipBlanks (l : Lexer) (c : Char) : Res (Char × Lexer) :=
  Lexer.skipBlanksLoop l.bound c l

/-- Source `Lexer::skipBlanksGet`. -/
def Lexer.skipBlanksGet (l : Lexer) : Res (Char × Lexer) :=
  l.skipCommentsGet.bind fun r => r.2.skipBlanks r.1

/-- Source `Lexer::skipSkipBlanksGet`. -/
def Lexer.skipSkipBlanksGet (l : Lexer) (n : Nat) : Res (Char × Lexer) :=
  (l.skipGet n).2.skipBlanks (l.skipGet n).1

/-- The closing bracket chosen at the head of `Lexer::getBrackets`. -/
def closingOf (start : Char) : Option Char :=
  if start = '(' then some ')'
  else if start = '[' then some ']'
  else if start = '\x7b' then some '\x7d'
  else if start = '<' then some '>'
  else none

/-- The `while (c)` loop of `Lexer::getBrackets` and the `throw` after it; `t0`
holds the saved position, `level` is the C++ `int level`. -/
def Lexer.getBracketsLoop (start stop : Char) (t0 : Token) :
    Nat → Int → Char → Lexer → Res (Token × Lexer)
  | 0, _, _, _ => .fuel
  | n + 1, level, c, l =>
    if c = NUL then .err ⟨l.row_, l.col_, "No matched right bracket till end of file"⟩
    else if c = stop then
      if level ≤ 0 then .err ⟨l.row_, l.col_, "No matched left bracket"⟩
      else if level - 1 = 0 then
        .ok ({ t0 with len := 1 + (l.p_ - t0.s).toNat }, l)
      else l.skipCommentsGet.bind fun r => Lexer.getBracketsLoop start stop t0 n (level - 1) r.1 r.2
    else if c = start then
      l.skipCommentsGet.bind fun r => Lexer.getBracketsLoop start stop t0 n (level + 1) r.1 r.2
    else if c = '"' ∨ c = '\'' then
      (l.getString c).bind fun s =>
        s.2.skipCommentsGet.bind fun r => Lexer.getBracketsLoop start stop t0 n level r.1 r.2
    else l.skipCommentsGet.bind fun r => Lexer.getBracketsLoop start stop t0 n level r.1 r.2

/-- Source `Lexer::getBrackets`. -/
def Lexer.getBrackets (l : Lexer) (start : Char) : Res (Token × Lexer) :=
  match closingOf start with
  | none => .err ⟨l.row_, l.col_, "Not a left bracket"⟩
  | some stop =>
    l.skipCommentsGet.bind fun r =>
      Lexer.getBracketsLoop start stop { row := l.row_, col := l.col_, s := l.p_, len := 0 }
        l.bound 1 r.1 r.2

/-- Source `Lexer::getIdentSkipBlanks`. -/
def Lexer.getIdentSkipBlanks (l : Lexer) (c : Char) : Res (Token × Lexer) :=
  if IsIdentFirst c = true then .ok l.getIdent
  else .err ⟨l.row_, l.col_, "Identifier should start with A-Za-z_"⟩

/-- The test `strncmp(tokN.s, "const", tokN.len) != 0 && strncmp(tokN.s, "volatile", tokN.len) != 0`
of `Lexer::getType`. -/
def notQualifier (buf : List Char) (tokN : Token) : Bool :=
  !(strncmpEq buf tokN.s "const".toList tokN.len 0) && !(strncmpEq buf tokN.s "volatile".toList tokN.len 0)

/-- The `for (;;)` loop of `Lexer::getType`; `t0` holds the saved position.  The
result is `(some tok, ch)` for `return true` and `(none, ch)` for `return false`. -/
def Lexer.getTypeLoop (t0 : Token) : Nat → Bool → Char → Lexer → Res (Option Token × Char × Lexer)
  | 0, _, _, _ => .fuel
  | n + 1, gotTypeName, c, l =>
    if gotTypeName then
      if IsIdentFirst c = true then
        let tokN := l.getIdent.1
        let l1 := l.getIdent.2
        if notQualifier l.buf tokN = true then
          let l2 := (l1.backward (tokN.len - 1)).2
          .ok (some { t0 with len := l2.getSizeFrom t0.s }, (l1.backward (tokN.len - 1)).1, l2)
        else l1.skipBlanksGet.bind fun r => Lexer.getTypeLoop t0 n gotTypeName r.1 r.2
      else if c = '<' then
        (l.getBrackets c).bind fun b =>
          b.2.skipBlanksGet.bind fun r => Lexer.getTypeLoop t0 n gotTypeName r.1 r.2
      else if c ≠ '*' ∧ c ≠ '&' then
        .ok (some { t0 with len := l.getSizeFrom t0.s }, c, l)
      else l.skipBlanksGet.bind fun r => Lexer.getTypeLoop t0 n gotTypeName r.1 r.2
    else
      if IsIdentFirst c = false then .ok (none, c, l)
      else
        let tokN := l.getIdent.1
        let l1 := l.getIdent.2
        l1.skipBlanksGet.bind fun r => Lexer.getTypeLoop t0 n (notQualifier l.buf tokN) r.1 r.2

/-- Source `Lexer::getType`. -/
def Lexer.getType (l : Lexer) : Res (Option Token × Char × Lexer) :=
  l.skipBlanksGet.bind fun r =>
    Lexer.getTypeLoop { row := r.2.row_, col := r.2.col_, s := r.2.p_, len := 0 } l.bound false r.1 r.2

/-- The `while (c && c != end)` loop of `Lexer::getExpr`. -/
def Lexer.getExprLoop (stop : Char) : Nat → Char → Lexer → Res (Char × Lexer)
  | 0, _, _ => .fuel
  | n + 1, c, l =>
    if c ≠ NUL ∧ c ≠ stop then
      if c = '"' ∨ c = '\'' then
        (l.getString c).bind fun s =>
          s.2.skipBlanksGet.bind fun r => Lexer.getExprLoop stop n r.1 r.2
      else if c = '\x7b' ∨ c = '[' ∨ c = '(' then
        (l.getBrackets c).bind fun b =>
          b.2.skipBlanksGet.bind fun r => Lexer.getExprLoop stop n r.1 r.2
      else l.skipBlanksGet.bind fun r => Lexer.getExprLoop stop n r.1 r.2
    else .ok (c, l)

/-- Source `Lexer::getExpr`: the token, the character `c` left in the reference
argument, and the lexer. -/
def Lexer.getExpr (l : Lexer) (stop : Char) : Res (Token × Char × Lexer) :=
  l.skipBlanksGet.bind fun r =>
    (Lexer.getExprLoop stop l.bound r.1 r.2).bind fun e =>
      .ok ({ row := r.2.row_, col := r.2.col_, s := r.2.p_, len := (e.2.p_ - r.2.p_).toNat }, e.1, e.2)

/-! ## Parsed items -/

/-- Source `std::map<std::string, size_t>`, as an association list without
duplicate keys. -/
abbrev NameMap := List (List Char × Nat)

/-- Source `std::map::find`. -/
def NameMap.find : NameMap → List Char → Option Nat
  | [], _ => none
  | (k, v) :: m, key => if k = key then some v else NameMap.find m key

/-- Source `std::map::insert`: the map and the `.second` of the returned pair
(false, and nothing inserted, when the key is present). -/
def NameMap.insert (m : NameMap) (key : List Char) (v : Nat) : NameMap × Bool :=
  match NameMap.find m key with
  | some _ => (m, false)
  | none => (m ++ [(key, v)], true)

/-- Source `struct SeqInsertable`. -/
structure SeqInsertable where
  s : List Char
  seqPositions : List Nat
deriving DecidableEq, Repr

/-- Source `SeqInsertable{}`. -/
def SeqInsertable.empty : SeqInsertable := { s := [], seqPositions := [] }

/-- Source `struct CxxItem`. -/
structure CxxItem where
  row : Nat
  col : Nat
  kind : ItemKind
  s : SeqInsertable
  index : Nat
deriving DecidableEq, Repr

/-- Source `struct FuncParam`. -/
structure FuncParam where
  type : Token
  name : Token
deriving DecidableEq, Repr

/-- Source `struct ReturnItem`. -/
structure ReturnItem where
  row : Nat
  col : Nat
  seqInsertable : SeqInsertable
deriving DecidableEq, Repr

/-- Source `struct CallItem`. -/
structure CallItem where
  row : Nat
  col : Nat
  name : List Char
  lval : SeqInsertable
  params : List SeqInsertable
  funcIndex : Nat
deriving DecidableEq, Repr

/-- Source `struct FuncItem`. -/
structure FuncItem where
  name : Token
  params : List FuncParam
  paramIndexes : NameMap
  items : List CxxItem
  returns : List ReturnItem
  calls : List CallItem
  callers : List Nat
  retvoid : Bool
deriving DecidableEq, Repr

/-! ## Hygiene scanner -/

/-- The `while (--s >= src)` loop of `CheckParamPrefix`.  The bound is exact: it
is started with `s - src + 1` and an iteration recurses only when `s - 1 >= src`. -/
def CheckParamPrefixLoop (buf : List Char) (src : Int) : Nat → Int → Bool
  | 0, _ => true
  | n + 1, s =>
    if s - 1 ≥ src then
      let c := deref buf (s - 1)
      if IsSpaceChar c = true then CheckParamPrefixLoop buf src n (s - 1)
      else if c = '.' then false
      else if s - 2 < src then true
      else
        let c2 := deref buf (s - 2)
        if (c2 = ':' ∧ c = ':') ∨ (c2 = '-' ∧ c = '>') ∨ (c2 = '.' ∧ c = '*') then false
        else if s - 3 < src then true
        else !(decide (deref buf (s - 3) = '-' ∧ c2 = '>' ∧ c = '*'))
    else true

/-- Source `CheckParamPrefix(s, src)`. -/
def CheckParamPrefix (buf : List Char) (s src : Int) : Bool :=
  CheckParamPrefixLoop buf src ((s - src).toNat + 1) s

/-- The `while (c)` loop of `FindParams` over the span `s`. -/
def FindParamsLoop (s : List Char) (paramIndexes : NameMap) :
    Nat → Char → Lexer → List Nat → Res (List Nat)
  | 0, _, _, _ => .fuel
  | n + 1, c, lex, positions =>
    if c = NUL then .ok positions
    else if IsIdentFirst c = true then
      let tok := lex.getIdent.1
      let positions1 :=
        match NameMap.find paramIndexes (slice s tok.s tok.len) with
        | some _ => if CheckParamPrefix s tok.s 0 = true then positions ++ [tok.s.toNat] else positions
        | none => positions
      lex.getIdent.2.skipBlanksGet.bind fun r => FindParamsLoop s paramIndexes n r.1 r.2 positions1
    else lex.skipBlanksGet.bind fun r => FindParamsLoop s paramIndexes n r.1 r.2 positions

/-- Source `FindParams(s, paramIndexes)`; the lexer runs over the span alone. -/
def FindParams (s : List Char) (paramIndexes : NameMap) : Res SeqInsertable :=
  if paramIndexes.length > 0 then
    (Lexer.new s 0 s.length).skipBlanksGet.bind fun r =>
      (FindParamsLoop s paramIndexes (Lexer.new s 0 s.length).bound r.1 r.2 []).bind fun ps =>
        .ok { s := s, seqPositions := ps }
  else .ok { s := s, seqPositions := [] }

/-! ## Call sites and returns -/

/-- Source `BlError::BlError(const Lexer& lex, const char* sA)`. -/
def BlError.at (lex : Lexer) (s : String) : BlError := ⟨lex.row_, lex.col_, s⟩

/-- The `for (;;)` loop over the arguments in `ParseBlCall`. -/
def ParseBlCallArgs (paramIndexes : NameMap) :
    Nat → Token → Char → Lexer → List SeqInsertable → Res (Char × Lexer × List SeqInsertable)
  | 0, _, _, _, _ => .fuel
  | n + 1, tokPara, c, paramLex, params =>
    (if tokPara.len > 0 then
        (FindParams (slice paramLex.buf tokPara.s tokPara.len) paramIndexes).bind fun si =>
          .ok (params ++ [si])
      else .ok params).bind fun params1 =>
      if c ≠ ',' then .ok (c, paramLex, params1)
      else (paramLex.getExpr ',').bind fun e =>
        ParseBlCallArgs paramIndexes n e.1 e.2.1 e.2.2 params1

/-- Source `ParseBlCall(lex, items, calls, paramIndexes)`. -/
def ParseBlCall (lex : Lexer) (items : List CxxItem) (calls : List CallItem)
    (paramIndexes : NameMap) : Res (Lexer × List CxxItem × List CallItem) :=
  (lex.skipSkipBlanksGet 7).bind fun r0 =>
  if r0.1 ≠ '(' then .err (BlError.at r0.2 "Should be '(' after BL_call") else
  (r0.2.getBrackets r0.1).bind fun b =>
  let tok := b.1
  let lex1 := b.2
  (Lexer.getExpr (Lexer.sub lex1 (tok.s + 1) (tok.len - 2) tok.row (tok.col + 1)) '=').bind fun e =>
  let tokLval := e.1
  let callLex := e.2.2
  (if e.2.1 = '=' then
      if tokLval.len ≤ 0 then .err (BlError.at callLex "BL_call expected left value before '='")
      else (FindParams (slice lex.buf tokLval.s tokLval.len) paramIndexes).bind fun lval =>
        .ok (lval, callLex.reset (callLex.p_ + 1)
          ((tok.len : Int) - 3 - (callLex.p_ - tokLval.s)).toNat callLex.row_ (callLex.col_ + 1))
    else .ok (SeqInsertable.empty, callLex.reset (tok.s + 1) (tok.len - 2) tok.row (tok.col + 1))).bind
  fun lv =>
  let lval := lv.1
  lv.2.skipBlanksGet.bind fun r1 =>
  (r1.2.getIdentSkipBlanks r1.1).bind fun nm =>
  let tokName := nm.1
  nm.2.skipBlanksGet.bind fun r2 =>
  if r2.1 ≠ '(' then .err (BlError.at r2.2 "Should be '(' after function name") else
  (r2.2.getBrackets r2.1).bind fun pb =>
  let tokParams := pb.1
  pb.2.skipBlanksGet.bind fun r3 =>
  if r3.1 ≠ NUL then .err (BlError.at r3.2 "BL_call syntax error after ')'") else
  let paramLex := Lexer.sub r3.2 (tokParams.s + 1) (tokParams.len - 2) tokParams.row (tokParams.col + 1)
  (paramLex.getExpr ',').bind fun a =>
  (ParseBlCallArgs paramIndexes paramLex.bound a.1 a.2.1 a.2.2 []).bind fun args =>
  if args.1 ≠ NUL then .err (BlError.at args.2.1 "',' expected") else
  let calls1 := calls ++ [{ row := tokName.row, col := tokName.col,
                            name := slice lex.buf tokName.s tokName.len,
                            lval := lval, params := args.2.2, funcIndex := 0 }]
  .ok (lex1, items ++ [{ row := tok.row, col := tok.col, kind := .BL_call,
                         s := SeqInsertable.empty, index := calls1.length - 1 }], calls1)

/-- Source `ParseBlReturn(lex, items, returns, paramIndexes)`. -/
def ParseBlReturn (lex : Lexer) (items : List CxxItem) (returns : List ReturnItem)
    (paramIndexes : NameMap) : Res (Lexer × List CxxItem × List ReturnItem) :=
  (lex.skipSkipBlanksGet 9).bind fun r0 =>
  if r0.1 ≠ '(' then .err (BlError.at r0.2 "Should be '(' after BL_return") else
  (r0.2.getBrackets r0.1).bind fun b =>
  let tok := b.1
  (FindParams (slice lex.buf (tok.s + 1) (tok.len - 2)) paramIndexes).bind fun si =>
  let returns1 := returns ++ [{ row := tok.row, col := tok.col, seqInsertable := si }]
  .ok (b.2, items ++ [{ row := tok.row, col := tok.col, kind := .BL_return,
                        s := SeqInsertable.empty, index := returns1.length - 1 }], returns1)

/-! ## Parser -/

/-- Source `class Parser`. -/
structure Parser where
  lex_ : Lexer
  items_ : List CxxItem
  funcs_ : List FuncItem
  calls_ : List CallItem
  name2Func_ : NameMap
deriving DecidableEq, Repr

/-- Source `Parser::checkAddCode`. -/
def Parser.checkAddCode (P : Parser) (row col : Nat) (p : Int) : Parser :=
  let n := P.lex_.getSizeFrom p
  if n > 0 then
    { P with items_ := P.items_ ++ [{ row := row, col := col, kind := .CODE,
                                      s := { s := slice P.lex_.buf p n, seqPositions := [] },
                                      index := 0 }] }
  else P

/-- The `while (paramLex.getType(tokParamType, c))` loop of `Parser::parseBlFunc`;
the result carries the last value of `c`. -/
def parseParamsLoop : Nat → Lexer → List FuncParam → NameMap →
    Res (Char × Lexer × List FuncParam × NameMap)
  | 0, _, _, _ => .fuel
  | n + 1, paramLex, params, paramIndexes =>
    paramLex.getType.bind fun t =>
      match t.1 with
      | none => .ok (t.2.1, t.2.2, params, paramIndexes)
      | some tokParamType =>
        (t.2.2.getIdentSkipBlanks t.2.1).bind fun nm =>
          let tokParamName := nm.1
          let params1 := params ++ [{ type := tokParamType, name := tokParamName }]
          let ins := NameMap.insert paramIndexes (slice paramLex.buf tokParamName.s tokParamName.len)
                      (params1.length - 1)
          if ins.2 = false then
            .err ⟨tokParamName.row, tokParamName.col, "BL_func parameter is duplicated"⟩
          else nm.2.skipBlanksGet.bind fun r =>
            if r.1 ≠ ',' then .ok (r.1, r.2, params1, ins.1)
            else parseParamsLoop n r.2 params1 ins.1

/-- The local state of the body scan of `Parser::parseBlFunc`. -/
structure BodyScan where
  c : Char
  bodyLex : Lexer
  row : Nat
  col : Nat
  p : Int
  items : List CxxItem
  returns : List ReturnItem
  calls : List CallItem
deriving DecidableEq, Repr

/-- The flush of the opaque text before a keyword or at the end of a body:
`n = bodyLex.getSizeFrom(p); if (n > 0) items.emplace_back(.. FindParams ..)`. -/
def BodyScan.addCode (b : BodyScan) (paramIndexes : NameMap) : Res BodyScan :=
  let n := b.bodyLex.getSizeFrom b.p
  if n > 0 then
    (FindParams (slice b.bodyLex.buf b.p n) paramIndexes).bind fun si =>
      .ok { b with items := b.items ++ [{ row := b.row, col := b.col, kind := .CODE, s := si, index := 0 }] }
  else .ok b

/-- The `while (c)` loop over the body in `Parser::parseBlFunc`. -/
def bodyLoop (paramIndexes : NameMap) : Nat → BodyScan → Res BodyScan
  | 0, _ => .fuel
  | n + 1, b =>
    if b.c = NUL then .ok b
    else if b.c = '"' ∨ b.c = '\'' then
      (b.bodyLex.getString b.c).bind fun s =>
        s.2.skipCommentsGet.bind fun r =>
          bodyLoop paramIndexes n { b with c := r.1, bodyLex := r.2 }
    else if IsIdentFirst b.c = true then
      let tok := b.bodyLex.peekIdent
      let kind := CheckKeyword b.bodyLex.buf tok.s tok.len
      (if kind ≠ .CODE then b.addCode paramIndexes else .ok b).bind fun b1 =>
        match kind with
        | .BL_return =>
          (ParseBlReturn b1.bodyLex b1.items b1.returns paramIndexes).bind fun x =>
            x.1.skipCommentsGet.bind fun r =>
              bodyLoop paramIndexes n
                { c := r.1, bodyLex := r.2, row := r.2.row_, col := r.2.col_, p := r.2.p_,
                  items := x.2.1, returns := x.2.2, calls := b1.calls }
        | .BL_call =>
          (ParseBlCall b1.bodyLex b1.items b1.calls paramIndexes).bind fun x =>
            x.1.skipCommentsGet.bind fun r =>
              bodyLoop paramIndexes n
                { c := r.1, bodyLex := r.2, row := r.2.row_, col := r.2.col_, p := r.2.p_,
                  items := x.2.1, returns := b1.returns, calls := x.2.2 }
        | .BL_func => .err ⟨tok.row, tok.col, "Can't use BL_func inside BL_func"⟩
        | .CODE =>
          (b1.bodyLex.skipSkipBlanksGet tok.len).bind fun r =>
            bodyLoop paramIndexes n { b1 with c := r.1, bodyLex := r.2 }
    else
      b.bodyLex.skipCommentsGet.bind fun r =>
        bodyLoop paramIndexes n { b with c := r.1, bodyLex := r.2 }

/-- Source `Parser::parseBlFunc`. -/
def Parser.parseBlFunc (P : Parser) : Res Parser :=
  let row0 := P.lex_.row_
  let col0 := P.lex_.col_
  (P.lex_.skipSkipBlanksGet 7).bind fun r0 =>
  if r0.1 ≠ '(' then .err (BlError.at r0.2 "Shoud be '(' following BL_func") else
  (r0.2.getBrackets r0.1).bind fun b0 =>
  b0.2.getType.bind fun t =>
  match t.1 with
  | none => .err (BlError.at t.2.2 "BL_func return type expected")
  | some _ =>
  (t.2.2.getIdentSkipBlanks t.2.1).bind fun fn =>
  let tokFuncName := fn.1
  fn.2.skipBlanksGet.bind fun r1 =>
  if r1.1 ≠ '(' then .err (BlError.at r1.2 "Should be '(' after function name") else
  (r1.2.getBrackets r1.1).bind fun pb =>
  let tokParams := pb.1
  let paramLex := Lexer.sub pb.2 (tokParams.s + 1) (tokParams.len - 2) tokParams.row tokParams.col
  (parseParamsLoop paramLex.bound paramLex [] []).bind fun ps =>
  if ps.1 ≠ NUL then .err (BlError.at ps.2.1 "Syntax error or missing ','") else
  let params := ps.2.2.1
  let paramIndexes := ps.2.2.2
  pb.2.skipBlanksGet.bind fun r2 =>
  if r2.1 ≠ '\x7b' then .err (BlError.at r2.2 "Should be '\x7b' after function prototype") else
  (r2.2.getBrackets r2.1).bind fun bb =>
  let tokBody := bb.1
  let lex1 := bb.2
  let bodyLex := Lexer.sub lex1 (tokBody.s + 1) (tokBody.len - 2) tokBody.row (tokBody.col + 1)
  bodyLex.skipCommentsGet.bind fun r3 =>
  (bodyLoop paramIndexes bodyLex.bound
    { c := r3.1, bodyLex := r3.2, row := r3.2.row_, col := r3.2.col_, p := r3.2.p_,
      items := [], returns := [], calls := [] }).bind fun b =>
  (b.addCode paramIndexes).bind fun b1 =>
  let funcs1 := P.funcs_ ++ [{ name := tokFuncName, params := params, paramIndexes := paramIndexes,
                               items := b1.items, returns := b1.returns, calls := b1.calls,
                               callers := [], retvoid := true }]
  .ok { P with lex_ := lex1, funcs_ := funcs1,
               items_ := P.items_ ++ [{ row := row0, col := col0, kind := .BL_func,
                                        s := SeqInsertable.empty, index := funcs1.length - 1 }] }

/-- The local state of the top-level scan in the constructor `Parser::Parser`. -/
structure TopScan where
  c : Char
  P : Parser
  row : Nat
  col : Nat
  p : Int
deriving DecidableEq, Repr

/-- The `while (c)` loop of the constructor `Parser::Parser`. -/
def topLoop : Nat → TopScan → Res TopScan
  | 0, _ => .fuel
  | n + 1, t =>
    if t.c = NUL then .ok t
    else if t.c = '"' ∨ t.c = '\'' then
      (t.P.lex_.getString t.c).bind fun s =>
        s.2.skipCommentsGet.bind fun r =>
          topLoop n { t with c := r.1, P := { t.P with lex_ := r.2 } }
    else if IsIdentFirst t.c = true then
      let tok := t.P.lex_.peekIdent
      match CheckKeyword t.P.lex_.buf tok.s tok.len with
      | .CODE =>
        (t.P.lex_.skipSkipBlanksGet tok.len).bind fun r =>
          topLoop n { t with c := r.1, P := { t.P with lex_ := r.2 } }
      | .BL_func =>
        (Parser.parseBlFunc (t.P.checkAddCode t.row t.col t.p)).bind fun P1 =>
          P1.lex_.skipCommentsGet.bind fun r =>
            topLoop n { c := r.1, P := { P1 with lex_ := r.2 }, row := r.2.row_, col := r.2.col_, p := r.2.p_ }
      | .BL_call =>
        let P0 := t.P.checkAddCode t.row t.col t.p
        (ParseBlCall P0.lex_ P0.items_ P0.calls_ []).bind fun x =>
          x.1.skipCommentsGet.bind fun r =>
            topLoop n { c := r.1, P := { P0 with lex_ := r.2, items_ := x.2.1, calls_ := x.2.2 },
                        row := r.2.row_, col := r.2.col_, p := r.2.p_ }
      | .BL_return => .err ⟨tok.row, tok.col, "Can't use BL_return outside BL_func"⟩
    else
      t.P.lex_.skipCommentsGet.bind fun r =>
        topLoop n { t with c := r.1, P := { t.P with lex_ := r.2 } }

/-- The constructor `Parser::Parser(src, len)` up to, and without, its last
statement `prepare()`. -/
def Parser.parse (src : List Char) : Res Parser :=
  let lex := Lexer.new src 0 src.length
  lex.skipCommentsGet.bind fun r =>
    (topLoop lex.bound
      { c := r.1, P := { lex_ := r.2, items_ := [], funcs_ := [], calls_ := [], name2Func_ := [] },
        row := r.2.row_, col := r.2.col_, p := r.2.p_ }).bind fun t =>
      .ok (t.P.checkAddCode t.row t.col t.p)

/-! ## Validation: `Parser::prepare` -/

/-- The inner loop of the first loop of `Parser::prepare`: the consistency of the
`BL_return` sites of one function.  `first` and `retvoid` are the local `first`
and the field `func.retvoid`; the result is the final `func.retvoid`. -/
def checkReturns : List ReturnItem → Bool → Bool → Res Bool
  | [], _, retvoid => .ok retvoid
  | ret :: rest, first, retvoid =>
    if first then checkReturns rest false ret.seqInsertable.s.isEmpty
    else if retvoid ≠ ret.seqInsertable.s.isEmpty then
      .err ⟨ret.row, ret.col,
        "Multiple BL_return returns are inconsistent, some have no return value, some have"⟩
    else checkReturns rest false retvoid

/-- The first loop of `Parser::prepare`, from index `i` on: the name table and
the `retvoid` flags. -/
def prepareFuncs (buf : List Char) : List FuncItem → Nat → NameMap → Res (NameMap × List FuncItem)
  | [], _, name2Func => .ok (name2Func, [])
  | func :: rest, i, name2Func =>
    let ins := NameMap.insert name2Func (slice buf func.name.s func.name.len) i
    if ins.2 = false then .err ⟨func.name.row, func.name.col, "Duplicated BL_func"⟩
    else (checkReturns func.returns true func.retvoid).bind fun rv =>
      (prepareFuncs buf rest (i + 1) ins.1).bind fun r =>
        .ok (r.1, { func with retvoid := rv } :: r.2)

/-- Source `std::set<size_t>::insert`, the set being a duplicate-free list. -/
def setInsert (s : List Nat) (x : Nat) : List Nat := if x ∈ s then s else s ++ [x]

/-- Source `std::set<size_t>::erase`. -/
def setErase (s : List Nat) (x : Nat) : List Nat := s.filter fun y => y ≠ x

/-- Source `std::map<size_t, std::set<size_t>>`: the entries in key order. -/
abbrev Dag := List (Nat × List Nat)

/-- The map after `for (i < nFuncs) callDag[i] = {}`. -/
def Dag.init (n : Nat) : Dag := (List.range n).map fun i => (i, [])

/-- Source `std::map::find`. -/
def Dag.find : Dag → Nat → Option (List Nat)
  | [], _ => none
  | (k, v) :: d, key => if k = key then some v else Dag.find d key

/-- Source `std::map::erase` of the entry with a key. -/
def Dag.erase (d : Dag) (key : Nat) : Dag := d.filter fun e => e.1 ≠ key

/-- Apply `f` to the set stored under a key. -/
def Dag.modifySet (d : Dag) (key : Nat) (f : List Nat → List Nat) : Dag :=
  d.map fun e => if e.1 = key then (e.1, f e.2) else e

/-- Source `std::map::operator[]`: the entry is created, empty, in key order when
the key is absent. -/
def Dag.touch : Dag → Nat → Dag
  | [], key => [(key, [])]
  | (k, v) :: d, key =>
    if key < k then (key, []) :: (k, v) :: d
    else if key = k then (k, v) :: d
    else (k, v) :: Dag.touch d key

/-- The key of `callDag.begin()`. -/
def Dag.firstKey (d : Dag) : Option Nat := d.head?.map fun e => e.1

/-- The key of `++it` for the iterator at `key`: the next larger key. -/
def Dag.nextKey (d : Dag) (key : Nat) : Option Nat := (d.find? fun e => key < e.1).map fun e => e.1

/-- The state of the second loop of `Parser::prepare`. -/
structure PrepState where
  funcs : List FuncItem
  callDag : Dag
deriving DecidableEq, Repr

/-- The body of the loop over `func.calls` in `Parser::prepare`, for the call
`callItem` at index `j` of function `i`; `it2->second` on an absent key is `ub`
(the code asserts `it2 != callDag.cend()`). -/
def prepareCall (name2Func : NameMap) (i j : Nat) (callItem : CallItem) (st : PrepState) :
    Res PrepState :=
  match NameMap.find name2Func callItem.name with
  | none => .err ⟨callItem.row, callItem.col, "BL_call undefined BL_func"⟩
  | some k =>
    if k = i then .err ⟨callItem.row, callItem.col, "BL_call itself"⟩
    else
      let funcs1 := List.modify
        (fun f => { f with calls := List.modify (fun c => { c with funcIndex := k }) j f.calls }) i st.funcs
      let funcs2 := List.modify (fun f => { f with callers := f.callers ++ [i] }) k funcs1
      match funcs2[k]? with
      | none => .ub
      | some callee =>
        if callItem.params.length ≠ callee.params.length then
          .err ⟨callItem.row, callItem.col,
            "The number of parameters of the calling and called functions are not equal"⟩
        else if callItem.lval.s.isEmpty = false ∧ callee.retvoid = true then
          .err ⟨callItem.row, callItem.col,
            "The caller needs a return value but the called BL_func returns void"⟩
        else
          match Dag.find st.callDag i with
          | none => .ub
          | some _ => .ok { funcs := funcs2, callDag := Dag.modifySet st.callDag i fun s => setInsert s k }

/-- The loop `for (auto& callItem : func.calls)` of function `i`, from index `j` on.
The visited elements are those of the vector at loop entry: the body resizes no
vector and writes only `funcIndex` in `func.calls`. -/
def prepareCallsOf (name2Func : NameMap) (i : Nat) : List CallItem → Nat → PrepState → Res PrepState
  | [], _, st => .ok st
  | callItem :: rest, j, st =>
    (prepareCall name2Func i j callItem st).bind fun st1 => prepareCallsOf name2Func i rest (j + 1) st1

/-- The second loop of `Parser::prepare`, from function `i` on. -/
def prepareCalls (name2Func : NameMap) : List FuncItem → Nat → PrepState → Res PrepState
  | [], _, st => .ok st
  | func :: rest, i, st =>
    (prepareCallsOf name2Func i func.calls 0 st).bind fun st1 => prepareCalls name2Func rest (i + 1) st1

/-- The loop over the top-level calls `calls_` in `Parser::prepare`. -/
def prepareTopCalls (name2Func : NameMap) : List CallItem → Res (List CallItem)
  | [] => .ok []
  | callItem :: rest =>
    match NameMap.find name2Func callItem.name with
    | none => .err ⟨callItem.row, callItem.col, "BL_call undefined BL_func"⟩
    | some k => (prepareTopCalls name2Func rest).bind fun r => .ok ({ callItem with funcIndex := k } :: r)

/-- The state of the leaf-removal loop of `Parser::prepare`. -/
structure SortState where
  callDag : Dag
  sorted : List Nat
deriving DecidableEq, Repr

/-- The loop `for (auto caller : funcs_[funcIndex].callers) callDag[caller].erase(funcIndex)`. -/
def eraseFromCallers (funcIndex : Nat) : List Nat → Dag → Dag
  | [], d => d
  | caller :: rest, d =>
    eraseFromCallers funcIndex rest (Dag.modifySet (Dag.touch d caller) caller fun s => setErase s funcIndex)

/-- One iteration of the `for` loop over `callDag`, the iterator being at `key`:
the new state and the value assigned to `foundLeaf`. -/
def leafStep (funcs : List FuncItem) (key : Nat) (st : SortState) : Res (SortState × Bool) :=
  match Dag.find st.callDag key with
  | none => .ub
  | some callees =>
    if callees.length = 0 then
      match funcs[key]? with
      | none => .ub
      | some func =>
        .ok ({ callDag := eraseFromCallers key func.callers (Dag.erase st.callDag key),
               sorted := st.sorted ++ [key] }, true)
    else .ok (st, false)

/-- The `for (auto it = callDag.begin(); it != callDag.end(); )` loop: `it` is the
key under the iterator (`none` at `end()`), `foundLeaf` the current value of the
variable; `itNext` is taken before the entry is erased. -/
def leafPass (funcs : List FuncItem) : Nat → Option Nat → SortState → Bool → Res (SortState × Bool)
  | 0, _, _, _ => .fuel
  | _ + 1, none, st, foundLeaf => .ok (st, foundLeaf)
  | n + 1, some key, st, _ =>
    (leafStep funcs key st).bind fun r =>
      leafPass funcs n (Dag.nextKey st.callDag key) r.1 r.2

/-- The `do { .. } while (foundLeaf)` loop of `Parser::prepare`. -/
def sortLoop (funcs : List FuncItem) : Nat → SortState → Res SortState
  | 0, _ => .fuel
  | n + 1, st =>
    (leafPass funcs (funcs.length + 1) (Dag.firstKey st.callDag) st false).bind fun r =>
      if r.2 = true then sortLoop funcs n r.1 else .ok r.1

/-- The loop that builds the error of `Parser::prepare` for the functions left in
`callDag`: the accumulated `funcNames`, `row` and `col`. -/
def recursiveNames (buf : List Char) (funcs : List FuncItem) :
    Dag → String × Nat × Nat → Res (String × Nat × Nat)
  | [], acc => .ok acc
  | (k, _) :: d, acc =>
    match funcs[k]? with
    | none => .ub
    | some func =>
      recursiveNames buf funcs d
        (acc.1 ++ (" " ++ String.mk (slice buf func.name.s func.name.len)),
         if acc.2.1 = 0 then func.name.row else acc.2.1,
         if acc.2.1 = 0 then func.name.col else acc.2.2)

/-- Source `Parser::prepare`; the check `sorted.size() != funcs_.size()` carries
`assert(callDag.size() > 0)`. -/
def Parser.prepare (P : Parser) : Res Parser :=
  (prepareFuncs P.lex_.buf P.funcs_ 0 P.name2Func_).bind fun r1 =>
  (prepareCalls r1.1 r1.2 0 { funcs := r1.2, callDag := Dag.init r1.2.length }).bind fun st =>
  (prepareTopCalls r1.1 P.calls_).bind fun calls1 =>
  (sortLoop st.funcs (st.funcs.length + 1) { callDag := st.callDag, sorted := [] }).bind fun ss =>
  if ss.sorted.length ≠ st.funcs.length then
    (recursiveNames P.lex_.buf st.funcs ss.callDag ("", 0, 0)).bind fun m =>
      .err ⟨m.2.1, m.2.2, "There is recursive calls:" ++ m.1⟩
  else .ok { P with funcs_ := st.funcs, calls_ := calls1, name2Func_ := r1.1 }

/-- The constructor `Parser::Parser(src, len)`: the scan, then `prepare()`. -/
def Parser.new (src : List Char) : Res Parser :=
  (Parser.parse src).bind fun P => P.prepare

/-! ## Code generation: `Parser::gen` and `Parser::expand` -/

/-- The output of `printf("%zx", n)`. -/
def hex (n : Nat) : List Char := Nat.toDigits 16 n

/-- The output of `printf("%zu", n)`. -/
def dec (n : Nat) : List Char := Nat.toDigits 10 n

/-- What `printf("%s", s.c_str())` writes: the bytes before the first NUL. -/
def cstr (s : List Char) : List Char := s.takeWhile fun c => c ≠ NUL

/-- Source `std::string_view::substr(pos, count)`; `pos > size()` throws
`std::out_of_range`, which nothing catches. -/
def substr (s : List Char) (pos count : Nat) : Res (List Char) :=
  if pos > s.length then .ub else .ok ((s.drop pos).take count)

/-- The tag `snprintf(buf, sizeof(buf), "_BLparam%zx_", seq)` with `char buf[32]`. -/
def seqTag (seq : Nat) : List Char := ("_BLparam".toList ++ hex seq ++ "_".toList).take 31

/-- The `for (i = 1; i < n; ++i)` loop of `FromSeqInsertable` and the two
statements after it; `prev` is `seqPositions[i - 1]`, the count of `substr` is the
`size_t` difference. -/
def fromSeqLoop (s tag : List Char) : Nat → List Nat → List Char → Res (List Char)
  | prev, [], acc => (substr s prev (s.length - prev)).bind fun t => .ok (acc ++ tag ++ t)
  | prev, p :: ps, acc =>
    (substr s prev (((p : Int) - (prev : Int)) % 2 ^ 64).toNat).bind fun t =>
      fromSeqLoop s tag p ps (acc ++ tag ++ t)

/-- Source `FromSeqInsertable(si, seq)`. -/
def FromSeqInsertable (si : SeqInsertable) (seq : Nat) : Res (List Char) :=
  match si.seqPositions with
  | [] => .ok si.s
  | p0 :: rest =>
    (substr si.s 0 p0).bind fun s0 => fromSeqLoop si.s (seqTag seq) p0 rest s0

/-- The loop `while (--p >= p0)` of `CheckBlInclude`: `none` for `return false`,
`some p` for the value of `p` with which the code goes on.  The bound is exact. -/
def lastNonSpace (s : List Char) (p0 : Int) (c : Char) : Nat → Int → Option Int
  | 0, p => some (p - 1)
  | n + 1, p =>
    if p - 1 ≥ p0 then
      if IsSpaceChar (deref s (p - 1)) = true then lastNonSpace s p0 c n (p - 1)
      else if deref s (p - 1) ≠ c then none
      else some (p - 1)
    else some (p - 1)

/-- Source `CheckBlInclude(s)`; the lexer runs over the line alone. -/
def CheckBlInclude (s : List Char) : Res Bool :=
  (Lexer.new s 0 s.length).skipBlanksGet.bind fun r0 =>
  if r0.1 = NUL then .ok false
  else if r0.1 ≠ '#' then .ok false
  else r0.2.skipBlanksGet.bind fun r1 =>
  if IsIdentFirst r1.1 = false then .ok false
  else
  let tok := r1.2.getIdent.1
  if strncmpEq s tok.s "include".toList tok.len 0 = false then .ok false
  else r1.2.getIdent.2.skipBlanksGet.bind fun r2 =>
  if r2.1 ≠ '<' ∧ r2.1 ≠ '"' then .ok false
  else
  let c := if r2.1 = '<' then '>' else r2.1
  let p0 := r2.2.p_
  match lastNonSpace s p0 c ((s.length : Int) - p0).toNat s.length with
  | none => .ok false
  | some p =>
    if p0 + 8 ≥ p then .ok false
    else if strncmpEq s (p - 8) "flatco.h".toList 8 0 = false then .ok false
    else if p0 + 9 = p then .ok true
    else .ok (decide (deref s (p - 9) = '/'))

/-- Source `std::string_view::find_first_of('\n', off)`; `none` is `npos`. -/
def findNewline (s : List Char) (off : Nat) : Option Nat :=
  if ((s.drop off).takeWhile fun c => c ≠ '\n').length + off < s.length then
    some (((s.drop off).takeWhile fun c => c ≠ '\n').length + off)
  else none

/-- The `for (size_t off = 0;; off = pos + 1)` loop of `GetRidBlInclude` and the
`fwrite` after it: the bytes written. -/
def getRidLoop (s : List Char) : Nat → Nat → Res (List Char)
  | 0, _ => .fuel
  | n + 1, off =>
    let pos := findNewline s off
    let t := match pos with
      | none => s.drop off
      | some q => (s.drop off).take (q - off)
    (CheckBlInclude t).bind fun found =>
      if found = true then .ok (s.take off ++ "//".toList ++ s.drop off)
      else match pos with
        | none => .ok s
        | some q => getRidLoop s n (q + 1)

/-- Source `GetRidBlInclude(fOut, s)`: the bytes written to `fOut`. -/
def GetRidBlInclude (s : List Char) : Res (List Char) := getRidLoop s (s.length + 1) 0

/-- The output stream and the counter `seq` of one `gen` pass; `seqs` records,
in the order in which the invocations of `expand` begin, the value `seqCurrent`
each of them takes. -/
structure GenState where
  out : List Char
  seq : Nat
  seqs : List Nat
deriving DecidableEq, Repr

/-- Write bytes to `fOut`. -/
def GenState.write (g : GenState) (s : List Char) : GenState := { g with out := g.out ++ s }

/-- The line marker `"\n#line %zu \"%s\"\n"`. -/
def lineMarker (row : Nat) (srcFileName : List Char) : List Char :=
  "\n#line ".toList ++ dec row ++ " \"".toList ++ cstr srcFileName ++ "\"\n".toList

/-- The name `_BLparam%zx_%s` that `expand` declares for a parameter. -/
def tempName (seq : Nat) (name : List Char) : List Char :=
  "_BLparam".toList ++ hex seq ++ "_".toList ++ cstr name

/-- The exit label `_BLexit%zx` of an expansion. -/
def exitLabel (seq : Nat) : List Char := "_BLexit".toList ++ hex seq

/-- The loop `for (auto& pi : func.params)` of `Parser::expand`, `i` being the
running index into the caller's `params`; `params[i]` out of range is `ub` (the
code asserts `params.size() == func.params.size()`). -/
def emitParams (buf : List Char) (seqCurrent : Nat) (params : List (List Char)) :
    List FuncParam → Nat → GenState → Res GenState
  | [], _, g => .ok g
  | pi :: rest, i, g =>
    match params[i]? with
    | none => .ub
    | some arg =>
      emitParams buf seqCurrent params rest (i + 1)
        (g.write (cstr (slice buf pi.type.s pi.type.len) ++ " ".toList
          ++ tempName seqCurrent (slice buf pi.name.s pi.name.len) ++ "=".toList ++ cstr arg ++ ";".toList))

/-- Apply `FromSeqInsertable` to every argument of a call. -/
def fromSeqAll (seq : Nat) : List SeqInsertable → Res (List (List Char))
  | [] => .ok []
  | v :: rest =>
    (FromSeqInsertable v seq).bind fun x => (fromSeqAll seq rest).bind fun xs => .ok (x :: xs)

/-- The loop `for (auto& item : func.items)` of `Parser::expand`; `recurse` is the
recursive call of `expand`.  An item of kind `BL_func` meets `assert(false)`. -/
def expandItems (srcFileName : List Char) (func : FuncItem) (seqCurrent : Nat) (lval : List Char)
    (recurse : Nat → List Char → List (List Char) → GenState → Res GenState) :
    List CxxItem → GenState → Res GenState
  | [], g => .ok g
  | item :: rest, g =>
    (match item.kind with
      | .CODE =>
        (FromSeqInsertable item.s seqCurrent).bind fun s =>
          .ok (g.write (lineMarker item.row srcFileName ++ cstr s))
      | .BL_call =>
        match func.calls[item.index]? with
        | none => .ub
        | some call =>
          (fromSeqAll seqCurrent call.params).bind fun params =>
            (FromSeqInsertable call.lval seqCurrent).bind fun lv =>
              recurse call.funcIndex lv params g
      | .BL_return =>
        match func.returns[item.index]? with
        | none => .ub
        | some ri =>
          (FromSeqInsertable ri.seqInsertable seqCurrent).bind fun rets =>
            .ok (g.write ("do\x7b ".toList ++ (if lval.isEmpty then [] else cstr lval)
              ++ [if lval.isEmpty then ' ' else '='] ++ cstr rets ++ "; goto ".toList
              ++ exitLabel seqCurrent ++ "; \x7dwhile(0)".toList))
      | .BL_func => .ok g).bind fun g1 =>
      expandItems srcFileName func seqCurrent lval recurse rest g1

/-- Source `Parser::expand`; the first argument bounds the depth of the recursion. -/
def expand (buf : List Char) (funcs : List FuncItem) (srcFileName : List Char) :
    Nat → Nat → List Char → List (List Char) → GenState → Res GenState
  | 0, _, _, _, _ => .fuel
  | d + 1, funcIndex, lval, params, g =>
    match funcs[funcIndex]? with
    | none => .ub
    | some func =>
      let seqCurrent := g.seq
      let g1 := { g with seq := g.seq + 1, seqs := g.seqs ++ [seqCurrent] }
      (emitParams buf seqCurrent params func.params 0 (g1.write "do \x7b".toList)).bind fun g2 =>
        (expandItems srcFileName func seqCurrent lval (expand buf funcs srcFileName d) func.items g2).bind
          fun g3 => .ok (g3.write (exitLabel seqCurrent ++ ":;\x7dwhile(0)".toList))

/-- The loop `for (auto& item : items_)` of `Parser::gen`; `firstCode` is the
local variable, `depth` the bound given to `expand`. -/
def genItems (P : Parser) (srcFileName : List Char) (depth : Nat) :
    List CxxItem → Bool → GenState → Res GenState
  | [], _, g => .ok g
  | item :: rest, firstCode, g =>
    match item.kind with
    | .CODE =>
      if firstCode then
        (GetRidBlInclude item.s.s).bind fun t =>
          genItems P srcFileName depth rest false (g.write (lineMarker item.row srcFileName ++ t))
      else genItems P srcFileName depth rest false (g.write (lineMarker item.row srcFileName ++ item.s.s))
    | .BL_call =>
      match P.calls_[item.index]? with
      | none => .ub
      | some call =>
        (expand P.lex_.buf P.funcs_ srcFileName depth call.funcIndex call.lval.s
            (call.params.map fun v => v.s) g).bind fun g1 =>
          genItems P srcFileName depth rest firstCode g1
    | _ => genItems P srcFileName depth rest firstCode g

/-- Source `Parser::gen`: the final stream state.  The recursion of `expand` is
unrolled to depth `funcs_.size() + 1`. -/
def Parser.gen (P : Parser) (srcFileName : List Char) : Res GenState :=
  genItems P srcFileName (P.funcs_.length + 1) P.items_ true { out := [], seq := 0, seqs := [] }

/-- The `try` block of `main` on the bytes of the input file: the bytes written
to the output file. -/
def flatco (src srcFileName : List Char) : Res (List Char) :=
  (Parser.new src).bind fun P => (P.gen srcFileName).bind fun g => .ok g.out

/-! ## Inputs used in the statements -/

/-- A two-parameter function and a top-level call with one argument. -/
def arityTopSrc : List Char :=
  "BL_func(x) int Add(int a, int b) { BL_return(a+b); }\nBL_call(r = Add(1));".toList

/-- The same call, made from the body of another `BL_func`. -/
def arityBodySrc : List Char :=
  "BL_func(x) int Add(int a, int b) { BL_return(a+b); }\nBL_func(x) int W() { BL_call(r = Add(1)); }".toList

/-- A function whose only `BL_return` carries no value and a top-level call with
an assignment target. -/
def voidTopSrc : List Char :=
  "BL_func(x) void Log(int a) { BL_return(); }\nBL_call(r = Log(1));".toList

/-- The same call, made from the body of another `BL_func`. -/
def voidBodySrc : List Char :=
  "BL_func(x) void Log(int a) { BL_return(); }\nBL_func(x) int W() { BL_call(r = Log(1)); }".toList

/-- An acyclic unit: `B` calls `C`, then `C`, then `A` calls `B`. -/
def orderBCASrc : List Char :=
  "BL_func(x) void B() { BL_call(C()); }\nBL_func(x) void C() { }\nBL_func(x) void A() { BL_call(B()); }\nBL_call(A());".toList

/-- The same three functions, defined in the order `C`, `B`, `A`. -/
def orderCBASrc : List Char :=
  "BL_func(x) void C() { }\nBL_func(x) void B() { BL_call(C()); }\nBL_func(x) void A() { BL_call(B()); }\nBL_call(A());".toList

/-- The source of the `Add` example: the definition, a newline, the top-level call. -/
def addSrc : List Char :=
  "BL_func(x) int Add(int a, int b) { BL_return(a+b); }\nBL_call(r = Add(1, 2));".toList

/-- The identifiers of a text: its maximal runs of identifier characters that
start with an identifier-first character, in order. -/
def identifiersOf : List Char → List Char → Bool → List (List Char)
  | [], cur, _ => if cur.isEmpty then [] else [cur]
  | c :: rest, cur, inNumber =>
    if cur.isEmpty then
      if inNumber then identifiersOf rest [] (IsIdentOther c)
      else if IsIdentFirst c then identifiersOf rest [c] false
      else identifiersOf rest [] (IsIdentOther c)
    else if IsIdentOther c then identifiersOf rest (cur ++ [c]) false
    else cur :: identifiersOf rest [] false

/-- For every function of a validated parser, in definition order: the names of
the functions it calls. -/
def calleeNames (P : Parser) : List (List String) :=
  P.funcs_.map fun f => f.calls.map fun c => String.mk c.name

/-- A `BL_return` site carries no value: `ret.seqInsertable.s.empty()`. -/
def ReturnItem.isVoid (r : ReturnItem) : Bool := r.seqInsertable.s.isEmpty

/-- The text of the message of the return-consistency error. -/
def inconsistentMsg : String :=
  "Multiple BL_return returns are inconsistent, some have no return value, some have"

/-- The name of a function: `std::string(func.name.s, func.name.len)`. -/
def FuncItem.nameText (buf : List Char) (f : FuncItem) : List Char := slice buf f.name.s f.name.len

/-- An outcome that is a value satisfying `Q` or a thrown `BlError`: the
unrolling bound was not reached and no undefined behaviour was met. -/
def Res.OkOrErr {α : Type} (Q : α → Prop) : Res α → Prop
  | .ok a => Q a
  | .err _ => True
  | .fuel => False
  | .ub => False

/-- The keys of the map, in order. -/
def Dag.keys (d : Dag) : List Nat := d.map fun e => e.1

/-- What the second loop of `prepare` never changes in a function. -/
def FuncItem.sig (f : FuncItem) : Token × List FuncParam × Bool := (f.name, f.params, f.retvoid)

/-- The state of the second loop of `prepare` is consistent for `n` functions:
there are `n` of them and each has its entry in `callDag`. -/
structure PrepInv (n : Nat) (st : PrepState) : Prop where
  len : st.funcs.length = n
  keys : Dag.keys st.callDag = List.range n

/-- Every recorded caller of a function has that function in its set. -/
def CallersInDag (funcs : List FuncItem) (d : Dag) : Prop :=
  ∀ j f, funcs[j]? = some f → ∀ c ∈ f.callers, ∃ s, Dag.find d c = some s ∧ j ∈ s

/-- The state `st'` extends `st`: same functions up to `callers` and `funcIndex`,
same keys, larger sets. -/
structure PrepExt (st st' : PrepState) : Prop where
  sig : ∀ x : Nat, (st'.funcs[x]?).map FuncItem.sig = (st.funcs[x]?).map FuncItem.sig
  mono : ∀ x s, Dag.find st.callDag x = some s → ∃ s', Dag.find st'.callDag x = some s' ∧ s ⊆ s'

/-- The parser state built by the scan of a source text (the empty state when the
scan throws). -/
def parsed (src : List Char) : Parser :=
  match Parser.parse src with
  | .ok P => P
  | _ => { lex_ := Lexer.new src 0 src.length, items_ := [], funcs_ := [], calls_ := [], name2Func_ := [] }

/-- A unit whose function `F` calls the undefined `G`. -/
def undefinedBodySrc : List Char := "BL_func(x) void F() { BL_call(G()); }\n".toList

/-- A unit with a top-level call of the undefined `G`. -/
def undefinedTopSrc : List Char := "BL_func(x) void F() { }\nBL_call(G());".toList

/-- A unit whose function `F` calls itself, with a wrong number of arguments and a
target. -/
def selfCallSrc : List Char := "BL_func(x) void F(int a) { BL_call(r = F()); }\n".toList

/-- The first call recorded in the body of the first function of a parser state. -/
def firstBodyCall (P : Parser) : CallItem :=
  (P.funcs_.headD ⟨⟨0, 0, 0, 0⟩, [], [], [], [], [], [], true⟩).calls.headD
    ⟨0, 0, [], SeqInsertable.empty, [], 0⟩

/-- The first top-level call recorded in a parser state. -/
def firstTopCall (P : Parser) : CallItem := P.calls_.headD ⟨0, 0, [], SeqInsertable.empty, [], 0⟩

/-- The stream state `g'` continues `g`: the counter did not decrease and the
ids taken in between are `g.seq, g.seq + 1, ..`, one per begun expansion. -/
def SeqStep (g g' : GenState) : Prop :=
  g.seq ≤ g'.seq ∧ g'.seqs = g.seqs ++ List.range' g.seq (g'.seq - g.seq)

/-- The value of a hexadecimal digit. -/
def hexDigitVal (c : Char) : Nat :=
  if c = '0' then 0 else if c = '1' then 1 else if c = '2' then 2 else if c = '3' then 3
  else if c = '4' then 4 else if c = '5' then 5 else if c = '6' then 6 else if c = '7' then 7
  else if c = '8' then 8 else if c = '9' then 9 else if c = 'a' then 10 else if c = 'b' then 11
  else if c = 'c' then 12 else if c = 'd' then 13 else if c = 'e' then 14 else 15

/-- The number a string of hexadecimal digits denotes, continuing from `acc`. -/
def hexValue (acc : Nat) (l : List Char) : Nat := l.foldl (fun a c => a * 16 + hexDigitVal c) acc

/-- The final stream state of `gen` on the validated parser of a source text
(the initial state when the construction or the generation does not end well). -/
def genStateOf (src srcFileName : List Char) : GenState :=
  match (Parser.new src).bind fun P => P.gen srcFileName with
  | .ok g => g
  | _ => { out := [], seq := 0, seqs := [] }

/-- The validated parser of a source text (the scanned state when `prepare` throws). -/
def validated (src : List Char) : Parser :=
  match Parser.new src with
  | .ok P => P
  | _ => parsed src

/-- A unit in which `G` calls `Add` and the top level calls `G` twice. -/
def nestedSrc : List Char :=
  "BL_func(x) int Add(int a, int b) { BL_return(a+b); }\nBL_func(x) int G(int k) { BL_call(k = Add(k, k)); BL_return(k); }\nvoid g() { BL_call(x = G(2)); BL_call(x = G(3)); }".toList

/-- The call relation among the functions of a parser state: a call in the body
of function `i` names function `j`. -/
def callEdge (P : Parser) (i j : Nat) : Prop :=
  ∃ f g c, P.funcs_[i]? = some f ∧ P.funcs_[j]? = some g ∧ c ∈ f.calls
    ∧ c.name = g.nameText P.lex_.buf

/-- Function `v` lies on a cycle of the call graph. -/
def OnCycle (P : Parser) (v : Nat) : Prop := Relation.TransGen (callEdge P) v v

/-- The invariant of the leaf-removal loop of `prepare` for `n` functions `funcs`
and a set `C` of functions each of which calls a function of `C`. -/
structure SortInv (n : Nat) (funcs : List FuncItem) (C : Nat → Prop) (st : SortState) : Prop where
  sortedKeys : (Dag.keys st.callDag).Pairwise (· < ·)
  bound : ∀ k ∈ Dag.keys st.callDag, k < n
  callers : ∀ j ∈ Dag.keys st.callDag, ∀ f, funcs[j]? = some f → ∀ c ∈ f.callers,
    ∃ s, Dag.find st.callDag c = some s ∧ j ∈ s
  cyc : ∀ v, C v → ∃ s, Dag.find st.callDag v = some s ∧ ∃ w, C w ∧ w ∈ s
  count : st.sorted.length + st.callDag.length = n

/-- The number of entries the `for` loop over `callDag` has still to visit when its
iterator is at `it`. -/
def passMeasure (d : Dag) : Option Nat → Nat
  | none => 0
  | some k => 1 + ((Dag.keys d).filter fun x => decide (k < x)).length

/-- A unit in which `A` calls `B` and `B` calls `A`. -/
def mutualSrc : List Char :=
  "BL_func(x) void A() { BL_call(B()); }\nBL_func(x) void B() { BL_call(A()); }\n".toList

/-- The function at an index of a parser state (an empty one past the end). -/
def funcAt (P : Parser) (i : Nat) : FuncItem :=
  P.funcs_.getD i ⟨⟨0, 0, 0, 0⟩, [], [], [], [], [], [], true⟩

/-- The first call in the body of the function at an index. -/
def firstCallOf (P : Parser) (i : Nat) : CallItem :=
  (funcAt P i).calls.headD ⟨0, 0, [], SeqInsertable.empty, [], 0⟩

/-- What the scan guarantees about the tables it hands to `prepare`: the name
table is empty, and every function has no recorded caller and the flag `retvoid`
set. -/
def Parser.Fresh (P : Parser) : Prop :=
  P.name2Func_ = [] ∧ ∀ f ∈ P.funcs_, f.callers = [] ∧ f.retvoid = true

/-- The lexer `l'` is `l` moved on: same buffer and range, the cursor not moved
back and not past the end of the range. -/
structure Lexer.Le (l l' : Lexer) : Prop where
  buf : l'.buf = l.buf
  src : l'.src_ = l.src_
  pe : l'.pe_ = l.pe_
  mono : l.p_ ≤ l'.p_
  inRange : l'.p_ ≤ l'.pe_

/-- The character `c` is the one under the cursor, inside the range. -/
def Lexer.At (c : Char) (l : Lexer) : Prop := l.p_ < l.pe_ ∧ c = deref l.buf l.p_

/-- What a character fetch guarantees: the lexer moved on, strictly when the
character is not NUL, and a character other than NUL and blank is the one under the
cursor. -/
def Lexer.Step (l : Lexer) (r : Char × Lexer) : Prop :=
  Lexer.Le l r.2 ∧ (r.1 ≠ NUL → l.p_ < r.2.p_) ∧ (r.1 ≠ NUL → r.1 ≠ ' ' → Lexer.At r.1 r.2)

/-- The number of characters left in the range. -/
def Lexer.rest (l : Lexer) : Nat := (l.pe_ - l.p_).toNat

/-- The number of iterations a scanning loop may still need when it holds the
character `c`. -/
def Lexer.need (c : Char) (l : Lexer) : Nat := if c = NUL then 0 else l.rest + 1

/-- The `k`-th character before offset `pos` of a text (`k` from 1). -/
def charBefore (s : List Char) (pos k : Nat) : Option Char := if k ≤ pos then s[pos - k]? else none

/-- The offset is preceded, after skipping whitespace, by `.`. -/
def PrecededByDot (s : List Char) (pos : Nat) : Prop :=
  ∃ k, 1 ≤ k ∧ charBefore s pos k = some '.' ∧
    ∀ j, 1 ≤ j → j < k → ∃ c, charBefore s pos j = some c ∧ IsSpaceChar c = true

/-- The two characters immediately before the offset are `a` then `b`. -/
def PrecededBy2 (s : List Char) (pos : Nat) (a b : Char) : Prop :=
  charBefore s pos 2 = some a ∧ charBefore s pos 1 = some b

/-- The three characters immediately before the offset are `a`, `b`, `c`. -/
def PrecededBy3 (s : List Char) (pos : Nat) (a b c : Char) : Prop :=
  charBefore s pos 3 = some a ∧ charBefore s pos 2 = some b ∧ charBefore s pos 1 = some c

/-- The text is an identifier: `[A-Za-z_][A-Za-z0-9_]*`. -/
def IsIdent (name : List Char) : Prop :=
  ∃ c rest, name = c :: rest ∧ IsIdentFirst c = true ∧ ∀ x ∈ rest, IsIdentOther x = true

/-- The text does not go on with an identifier character: it is empty, or its first
character is none of `[A-Za-z0-9_]`. -/
def EndsIdent (rest : List Char) : Prop := IsIdentOther (rest.headD NUL) = false

/-- A character after which `CheckParamPrefix` accepts a name at once: no
whitespace and none of `.`, `:`, `>`, `*`; it is also no identifier character, no
`/` and not NUL, so that the scan of `FindParams` stops on it. -/
def IsPlainOperator (op : Char) : Prop :=
  IsSpaceChar op = false ∧ op ≠ '.' ∧ op ≠ ':' ∧ op ≠ '>' ∧ op ≠ '*'
    ∧ IsIdentOther op = false ∧ op ≠ '/' ∧ op ≠ NUL

/-- The lexer runs over the whole of the span `s`, as the one `FindParams` builds. -/
def Lexer.Over (s : List Char) (l : Lexer) : Prop := l.buf = s ∧ l.src_ = 0 ∧ l.pe_ = s.length

/-- The identifier `name` stands at offset `pos` of the span and ends there: the
span does not go on with an identifier character. -/
def TokenAt (s : List Char) (pos : Nat) (name : List Char) : Prop :=
  IsIdent name ∧ slice s pos name.length = name
    ∧ IsIdentOther (deref s ((pos : Int) + name.length)) = false

/-- Before the offset the span holds no NUL and no `//` or `/*`: no comment starts
before it. -/
def NoCommentBefore (s : List Char) (pos : Nat) : Prop :=
  ∀ i : Nat, i < pos → deref s i ≠ NUL ∧
    (deref s i = '/' → deref s ((i + 1 : Nat) : Int) ≠ '/' ∧ deref s ((i + 1 : Nat) : Int) ≠ '*')

/-- The character before the offset, if there is one, is no identifier character:
an identifier may start at the offset. -/
def StartsToken (s : List Char) (pos : Nat) : Prop :=
  ∀ i : Nat, i + 1 = pos → IsIdentOther (deref s i) = false

/-- The first non-blank character before the offset is `c`, `k` characters back:
blanks alone stand between it and the offset. -/
def LastNonBlank (s : List Char) (pos k : Nat) (c : Char) : Prop :=
  charBefore s pos k = some c ∧ IsSpaceChar c = false ∧
    ∀ j, 1 ≤ j → j < k → ∃ d, charBefore s pos j = some d ∧ IsSpaceChar d = true

/-- The text that ends with the character `c`, `k` characters before the offset,
ends in one of `.`, `::`, `->`, `.*`, `->*`. -/
def QualifierAt (s : List Char) (pos k : Nat) (c : Char) : Prop :=
  c = '.' ∨ (charBefore s pos (k + 1) = some ':' ∧ c = ':')
    ∨ (charBefore s pos (k + 1) = some '-' ∧ c = '>')
    ∨ (charBefore s pos (k + 1) = some '.' ∧ c = '*')
    ∨ (charBefore s pos (k + 2) = some '-' ∧ charBefore s pos (k + 1) = some '>' ∧ c = '*')

/-- The offset is qualified: going back over blanks, the text before it ends in
one of `.`, `::`, `->`, `.*`, `->*`. -/
def Qualified (s : List Char) (pos : Nat) : Prop :=
  ∃ k c, 1 ≤ k ∧ LastNonBlank s pos k c ∧ QualifierAt s pos k c

/-- The identifiers the loop of `FindParams` visits: the same loop, which collects
every identifier token instead of testing it against the parameters. -/
def identScanLoop : Nat → Char → Lexer → List Token → Res (List Token)
  | 0, _, _, _ => .fuel
  | n + 1, c, lex, toks =>
    if c = NUL then .ok toks
    else if IsIdentFirst c = true then
      lex.getIdent.2.skipBlanksGet.bind fun r => identScanLoop n r.1 r.2 (toks ++ [lex.getIdent.1])
    else lex.skipBlanksGet.bind fun r => identScanLoop n r.1 r.2 toks

/-- The identifiers the scan of `FindParams` recognises in a span, in scan order. -/
def identScan (s : List Char) : Res (List Token) :=
  (Lexer.new s 0 s.length).skipBlanksGet.bind fun r =>
    identScanLoop (Lexer.new s 0 s.length).bound r.1 r.2 []

/-- The offsets `FindParams` keeps of a list of identifier tokens: those of the
tokens that are parameter names and pass `CheckParamPrefix`. -/
def recordedOf (s : List Char) (params : NameMap) (toks : List Token) : List Nat :=
  (toks.filter fun t =>
    (NameMap.find params (slice s t.s t.len)).isSome && CheckParamPrefix s t.s 0).map
    fun t => t.s.toNat

/-- A unit whose only text is a declaration of the ordinary identifier `BL_retu`. -/
def prefixKeywordSrc : List Char := "int BL_retu = 0;".toList

/-- A unit without keyword whose second line opens a block comment that the third
line closes. -/
def commentLinesSrc : List Char := "int x;\n/* a\n*/\n".toList

/-- The same unit, followed by the include line of `flatco.h`. -/
def commentThenIncludeSrc : List Char := "int x;\n/* a\n*/\n#include \"flatco.h\"\n".toList

/-- A unit with two include lines of `flatco.h` in its first chunk, after another
include line. -/
def twoIncludesSrc : List Char :=
  "#include <a.h>\n#include \"flatco.h\"\nint x;\n#include \"flatco.h\"\n".toList

/-- A unit with an include line of `flatco.h` in its first chunk and one in a later
chunk. -/
def includeLaterChunkSrc : List Char :=
  "#include \"flatco.h\"\nBL_func(x) void F() { }\n#include \"flatco.h\"\n".toList

/-- A unit whose one-parameter `F` is called with a comma after the argument. -/
def trailingCommaSrc : List Char := "BL_func(x) void F(int a) { }\nBL_call(F(1,));".toList

/-- A unit whose one-parameter `F` is called with a comma before the argument. -/
def leadingCommaSrc : List Char := "BL_func(x) void F(int a) { }\nBL_call(F(,1));".toList

/-- A unit whose two-parameter `F` is called with two commas between the arguments. -/
def doubleCommaSrc : List Char := "BL_func(x) void F(int a, int b) { }\nBL_call(F(1,,2));".toList

/-- The arguments recorded for the top-level calls of a unit. -/
def topCallArgs (src : List Char) : Res (List (List String)) :=
  (Parser.new src).bind fun P => .ok (P.calls_.map fun c => c.params.map fun p => String.mk p.s)

/-- The lexer of `Parser::Parser` when the top-level scan stands on the first
character of the source. -/
def lexerAtStart (src : List Char) : Lexer := (Lexer.new src 0 src.length).get.2

/-- A call with a target and a blank before the target. -/
def blankBeforeTargetSrc : List Char :=
  "BL_func(x) int F(int a) { BL_return(a); }\nBL_call( r = F(1));".toList

/-- The same call without the blank before the target. -/
def noBlankBeforeTargetSrc : List Char :=
  "BL_func(x) int F(int a) { BL_return(a); }\nBL_call(r = F(1));".toList

/-- A call without target, with blanks around every token. -/
def blanksNoTargetSrc : List Char :=
  "BL_func(x) int F(int a, int b) { BL_return(a); }\nBL_call( F ( 1 , 2 ) );".toList

/-- What is recorded for the top-level calls of a unit: name, target, arguments. -/
def topCallTexts (src : List Char) : Res (List (String × String × List String)) :=
  (Parser.new src).bind fun P =>
    .ok (P.calls_.map fun c => (String.mk c.name, String.mk c.lval.s, c.params.map fun p => String.mk p.s))

/-- The 1-based line number and the 1-based column of the offset `i` of a text. -/
def lineColAt (s : List Char) (i : Nat) : Nat × Nat :=
  (1 + (s.take i).count '\n', 1 + ((s.take i).reverse.takeWhile fun c => c ≠ '\n').length)

/-- A top-level call, without target, of a defined function. -/
def topCallSrc : List Char := "BL_func(x) void F() { }\nBL_call(F());".toList

/-- A unit with the top-level call `BL_call(r = G())` of an undefined function. -/
def undefinedTargetSrc : List Char := "BL_call(r = G());".toList

/-- A unit in which the body of `G` calls `F` with too few arguments. -/
def arityColSrc : List Char :=
  "BL_func(x) void F(int a) { }\nBL_func(x) void G() { BL_call(F()); }".toList

/-- The row and column recorded for the top-level calls of a unit. -/
def topCallPositions (src : List Char) : Res (List (Nat × Nat)) :=
  (Parser.new src).bind fun P => .ok (P.calls_.map fun c => (c.row, c.col))
/-- A unit whose function has two parameters named `a`. -/
def duplicateParamSrc : List Char := "BL_func(x) void F(int a, int a) { }\n".toList

/-- The token is an identifier of the span: it lies in the span, starts with an
identifier-first character, goes on with identifier characters and is not followed
by one. -/
def Token.IsIdentOf (s : List Char) (t : Token) : Prop :=
  0 ≤ t.s ∧ t.s + t.len ≤ s.length ∧ 1 ≤ t.len
    ∧ IsIdentFirst (deref s t.s) = true
    ∧ (∀ j : Int, t.s < j → j < t.s + t.len → IsIdentOther (deref s j) = true)
    ∧ IsIdentOther (deref s (t.s + t.len)) = false
/-- Unless the cursor is at the end of the range: when the character under the
cursor is an identifier character, it is the character `c` the lexer returned. -/
def Lexer.Shown (c : Char) (l : Lexer) : Prop :=
  l.p_ < l.pe_ → IsIdentOther (deref l.buf l.p_) = true → c = deref l.buf l.p_

/-- The character before the cursor is no identifier character. -/
def Lexer.PrevNotOther (l : Lexer) : Prop := IsIdentOther (deref l.buf (l.p_ - 1)) = false

/-- No identifier that starts before the offset runs up to it: between an earlier
identifier start and the offset stands a character that is no identifier character. -/
def LeftComplete (s : List Char) (pos : Int) : Prop :=
  ∀ j : Int, j < pos → IsIdentFirst (deref s j) = true →
    ∃ k : Int, j < k ∧ k < pos ∧ IsIdentOther (deref s k) = false

/-- A span with the parameter `a` twice and the parameter `b` once. -/
def twiceSrc : List Char := "a+b*a".toList

/-- The parameter lists `a, b`, numbered as `parseBlFunc` does. -/
def abParams : NameMap := [("a".toList, 0), ("b".toList, 1)]

/-- The pieces of the text from `prev` on, cut at the offsets. -/
def cutAt (s : List Char) : Nat → List Nat → List (List Char)
  | prev, [] => [s.drop prev]
  | prev, p :: ps => (s.drop prev).take (p - prev) :: cutAt s p ps

/-- The tag `_BLparam<q in lowercase hex>_`. -/
def tagOf (q : Nat) : List Char := "_BLparam".toList ++ hex q ++ "_".toList

/-- The pieces with the tag between each two of them, in one text. -/
def joinWith (tag : List Char) : List (List Char) → List Char
  | [] => []
  | [x] => x
  | x :: y :: ys => x ++ tag ++ joinWith tag (y :: ys)

/-- The state of a scan over the whole of a text `s` that holds the character `c`:
`c` is the character under the cursor, or NUL with the cursor at the end. -/
def Lexer.Good (s : List Char) (c : Char) (l : Lexer) : Prop :=
  Lexer.Over s l ∧ -1 ≤ l.p_ ∧ l.p_ ≤ l.pe_ ∧ (c ≠ NUL → Lexer.At c l) ∧ (c = NUL → l.p_ = l.pe_)

/-- The text holds none of the keywords as `CheckKeyword` accepts them: none of
`BL_func`, `BL_call` and `BL_retu` (of which `BL_return` is a continuation) occurs
in it. -/
def NoKeywordText (s : List Char) : Prop :=
  ¬ "BL_func".toList <:+: s ∧ ¬ "BL_call".toList <:+: s ∧ ¬ "BL_retu".toList <:+: s

/-- The errors `getString` throws: a string or character literal that is not closed
on its line. -/
def LiteralError (e : BlError) : Prop :=
  e.s = "String cross over line" ∨ e.s = "String hasn't end"

/-- The text holds a quote character. -/
def HasQuote (s : List Char) : Prop := ∃ c ∈ s, c = '"' ∨ c = '\''

/-- The line of the text that starts at offset `off`: the characters up to the next
newline. -/
def lineFrom (s : List Char) (off : Nat) : List Char := (s.drop off).takeWhile fun c => c ≠ '\n'

/-- A line starts at the offset: it is 0, or a newline stands before it. -/
def IsLineStart (s : List Char) (off : Nat) : Prop := off = 0 ∨ s[off - 1]? = some '\n'

/-- What `GetRidBlInclude` writes for a text: the text itself when no line is an
include of flatco.h; otherwise the text with `//` put before the first line that
is one. -/
def GetRidResult (s out : List Char) : Prop :=
  (out = s ∧ ∀ o : Nat, o ≤ s.length → IsLineStart s o →
      CheckBlInclude (lineFrom s o) = .ok false)
  ∨ ∃ off : Nat, off ≤ s.length ∧ IsLineStart s off
      ∧ CheckBlInclude (lineFrom s off) = .ok true
      ∧ (∀ o : Nat, o < off → IsLineStart s o → CheckBlInclude (lineFrom s o) = .ok false)
      ∧ out = s.take off ++ "//".toList ++ s.drop off

/-- A unit without keyword that includes flatco.h. -/
def includeSrc : List Char := "#include \"flatco.h\"\nint x;\n".toList

/-- The span `getBrackets` returns for a text that starts with a bracket, the cursor
being on that bracket: the offset and the length of the span, and the offset of the
cursor afterwards. -/
def bracketSpan (s : List Char) : Res (Int × Nat × Int) :=
  ((lexerAtStart s).getBrackets (s.headD NUL)).bind fun r => .ok (r.1.s, r.1.len, r.2.p_)

/-- The parameters recorded for the functions of a unit: the texts of the type and
of the name of each. -/
def paramTexts (src : List Char) : Res (List (List (String × String))) :=
  (Parser.new src).bind fun P =>
    .ok (P.funcs_.map fun f => f.params.map fun p =>
      (String.mk (slice P.lex_.buf p.type.s p.type.len),
       String.mk (slice P.lex_.buf p.name.s p.name.len)))

/-- A function whose parameters are named `c` and `v`. -/
def shortNamesSrc : List Char := "BL_func(x) void F(int c, int v) \x7b \x7d".toList

/-- The same function with the parameters named `a` and `b`. -/
def plainNamesSrc : List Char := "BL_func(x) void F(int a, int b) \x7b \x7d".toList

/-- What is recorded in the bodies of the functions of a unit: for each item its
row, whether it is a code chunk, and its text. -/
def bodyItems (src : List Char) : Res (List (List (Nat × Bool × String))) :=
  (Parser.new src).bind fun P =>
    .ok (P.funcs_.map fun f => f.items.map fun i =>
      (i.row, decide (i.kind = .CODE), String.mk i.s.s))

/-- A function in whose body the identifier `BL_retur` is followed by a newline. -/
def prefixReturnSrc : List Char := "BL_func(x) int F() \x7b BL_retur\n(1); x \x7d\n".toList

/-- The same function with the keyword `BL_return` followed by a newline. -/
def returnNewlineSrc : List Char := "BL_func(x) int F() \x7b BL_return\n(1); x \x7d\n".toList

/-- A top-level declaration with a comment right after the identifier. -/
def commentAfterIdentSrc : List Char := "int x/*BL_return()*/;".toList

/-- The same declaration with a blank before the comment. -/
def commentAfterBlankSrc : List Char := "int x /*BL_return()*/;".toList

/-- A function body with a line comment right after `else`. -/
def lineCommentAfterIdentSrc : List Char :=
  "BL_func(x) void F() \x7b if (a) b; else// BL_call(G())\n c; \x7d".toList

/-- The same body with a blank before the line comment. -/
def lineCommentAfterBlankSrc : List Char :=
  "BL_func(x) void F() \x7b if (a) b; else // BL_call(G())\n c; \x7d".toList

/-- A function body with a block comment right after an identifier. -/
def bodyCommentAfterIdentSrc : List Char := "BL_func(x) void F() \x7b x/*BL_return()*/; \x7d".toList

/-- The number of `BL_return` sites recorded for the functions of a unit. -/
def returnCounts (src : List Char) : Res (List Nat) :=
  (Parser.new src).bind fun P => .ok (P.funcs_.map fun f => f.returns.length)

/-- A function with the parameter `a` whose body holds `a` in a string literal, with
a top-level call of it. -/
def literalSrc : List Char :=
  "BL_func(x) void F(int a) \x7b puts(\"a\"); use(a); \x7d\nBL_call(F(1));".toList

/-- The condition asserted by `getSizeFrom` in the last statement of the constructor
`Parser::Parser`, the call `checkAddCode(row, col, p)` that measures the final
tail. -/
def tailAssert (src : List Char) : Res Bool :=
  let lex := Lexer.new src 0 src.length
  lex.skipCommentsGet.bind fun r =>
    (topLoop lex.bound
      { c := r.1, P := { lex_ := r.2, items_ := [], funcs_ := [], calls_ := [], name2Func_ := [] },
        row := r.2.row_, col := r.2.col_, p := r.2.p_ }).bind fun t =>
      .ok (t.P.lex_.getSizeFromAssert t.p)

/-- The names of the calls in the bodies of the functions, function by function. -/
def callNames (funcs : List FuncItem) : List (List (List Char)) :=
  funcs.map fun f => f.calls.map fun c => c.name

/-- The calls of the functions before `i`, and the calls before `j` of function `i`,
carry the index the name table gives for their name. -/
def ResolvedTo (m : NameMap) (funcs : List FuncItem) (i j : Nat) : Prop :=
  ∀ (x : Nat) (f : FuncItem), funcs[x]? = some f → ∀ (y : Nat) (c : CallItem),
    f.calls[y]? = some c → (x < i ∨ (x = i ∧ y < j)) → NameMap.find m c.name = some c.funcIndex

/-- The call relation `expand` follows: a call in the body of function `i` carries
the index `k`. -/
def resolvedEdge (P : Parser) (i k : Nat) : Prop :=
  ∃ f c, P.funcs_[i]? = some f ∧ c ∈ f.calls ∧ c.funcIndex = k

/-- A unit whose function multiplies its parameter `f` by the number `2.0f`. -/
def numberSuffixSrc : List Char :=
  "int y;\nBL_func(x) void F(float f) \x7b y = 2.0f * f; \x7d\nBL_call(F(1));\n".toList

/-- The condition asserted by `getSizeFrom` at the first `checkAddCode(row, col, p)`
of the loop of the constructor `Parser::Parser`, for a source that begins with a
keyword: the first character is fetched and the position saved, the identifier
under the cursor is classified, and for a keyword the opaque text before it is
measured. `none` when the source does not begin with a keyword. -/
def firstFlushAssert (src : List Char) : Res (Option Bool) :=
  let lex := Lexer.new src 0 src.length
  lex.skipCommentsGet.bind fun r =>
    if r.1 ≠ NUL ∧ ¬ (r.1 = '"' ∨ r.1 = '\'') ∧ IsIdentFirst r.1 = true then
      if CheckKeyword r.2.buf r.2.peekIdent.s r.2.peekIdent.len ≠ .CODE then
        .ok (some (r.2.getSizeFromAssert r.2.p_))
      else .ok none
    else .ok none

/-- The `BL_return` sites are of one kind: all without a value, or all with one. -/
def UniformReturns (rs : List ReturnItem) : Prop := ∀ r ∈ rs, ∀ r' ∈ rs, r.isVoid = r'.isVoid

/-- The kind of the returns of a function: that of its first `BL_return` site, void
when it has none. -/
def returnKind (rs : List ReturnItem) : Bool := (rs.head?.map ReturnItem.isVoid).getD true

/-- The flag `retvoid` of a function after the return loop of `prepare`: the kind of
its first `BL_return` site, the flag `b` it had when it has none. -/
def flagAfter (rs : List ReturnItem) (b : Bool) : Bool := (rs.head?.map ReturnItem.isVoid).getD b

/-- The names of the definitions differ from one another. -/
def DistinctNames (buf : List Char) (fs : List FuncItem) : Prop :=
  (fs.map fun f => f.nameText buf).Nodup

/-- What the second and third loops of `prepare` leave as they are in a function. -/
def FuncItem.kept (f : FuncItem) : Token × List ReturnItem × Bool := (f.name, f.returns, f.retvoid)

/-- The function with the flag `retvoid` the first loop of `prepare` stores in it. -/
def FuncItem.flagged (f : FuncItem) : FuncItem :=
  { f with retvoid := flagAfter f.returns f.retvoid }

/-- A unit in which `F` returns a value and the third `BL_return` of `G` is the
first without a value. -/
def mixedReturnsSrc : List Char :=
  "int x;\nBL_func(x) int F() \x7b BL_return(1); \x7d\nBL_func(x) int G() \x7b BL_return(1); BL_return(2); BL_return(); BL_return(); \x7d\n".toList

/-- A unit whose functions return a value twice, nothing once, and never. -/
def uniformReturnsSrc : List Char :=
  "int x;\nBL_func(x) int F() \x7b BL_return(2); BL_return(1); \x7d\nBL_func(x) void G() \x7b BL_return(); \x7d\nBL_func(x) void H() \x7b \x7d\n".toList

/-- A unit with two definitions of `F`, the second with mixed `BL_return` sites. -/
def duplicateThenMixedSrc : List Char :=
  "int x;\nBL_func(x) int F() \x7b \x7d\nBL_func(x) int F() \x7b BL_return(); BL_return(1); \x7d\n".toList

/-- A unit with two functions of different names, both with mixed `BL_return` sites. -/
def twoMixedSrc : List Char :=
  "int x;\nBL_func(x) int F() \x7b BL_return(); BL_return(1); \x7d\nBL_func(x) int G() \x7b BL_return(1); BL_return(); \x7d\n".toList

/-- A unit with two definitions of `F`, the first with mixed `BL_return` sites. -/
def mixedThenDuplicateSrc : List Char :=
  "int x;\nBL_func(x) int F() \x7b BL_return(); BL_return(1); \x7d\nBL_func(x) int F() \x7b \x7d\n".toList

/-- A unit with the definitions `F`, `G`, `F`, after a declaration. -/
def duplicateAfterCodeSrc : List Char :=
  "int x;\nBL_func(x) void F() \x7b \x7d\nBL_func(x) void G() \x7b BL_return(); \x7d\nBL_func(x) void F() \x7b \x7d\n".toList

/-- One of the texts `CheckKeyword` takes for a keyword: `BL_func`, `BL_call`,
`BL_return` and the beginnings `BL_retu`, `BL_retur` of the latter. -/
def KeywordLike (w : List Char) : Prop :=
  w = "BL_func".toList ∨ w = "BL_call".toList ∨ w = "BL_retu".toList
    ∨ w = "BL_retur".toList ∨ w = "BL_return".toList

/-- The run of identifier characters of the text from offset `i` on. -/
def identRunAt (s : List Char) (i : Nat) : List Char := (s.drop i).takeWhile fun c => IsIdentOther c

/-- No identifier of the text is a keyword: where a letter or underscore stands that
does not continue an identifier begun earlier (nothing but digits stands between it
and the character before the run), the run of identifier characters from there on
is none of `BL_func`, `BL_call`, `BL_return`, nor `BL_retu` or `BL_retur`. -/
def NoKeywordToken (s : List Char) : Prop :=
  ∀ i : Nat, i < s.length → IsIdentFirst (s.getD i NUL) = true → LeftComplete s i →
    ¬ KeywordLike (identRunAt s i)

/-- The text begins with a comment: with `//` or with `/*`. -/
def StartsWithComment (s : List Char) : Prop := s.take 2 = "//".toList ∨ s.take 2 = "/*".toList

/-- The errors of the scan of a text: a literal that is not closed on its line, in a
text with a quote character, or a block comment that is not closed, in a text in which
`/*` occurs. -/
def ScanError (s : List Char) (e : BlError) : Prop :=
  (LiteralError e ∧ HasQuote s)
    ∨ (e.s = "Multi-line comments are not closed" ∧ "/*".toList <:+: s)

/-- What the character `c` a scanning step returned and the lexer `l` it left
satisfy in the text `s`: the lexer runs over the text, with the cursor in range; a
character other than NUL and blank is the one under the cursor; NUL is returned at the
end of the text only; an identifier character under the cursor is the character
returned; and an identifier character is returned only where no identifier begun
earlier runs up to. -/
structure Lexer.Fair (s : List Char) (c : Char) (l : Lexer) : Prop where
  over : Lexer.Over s l
  lo : -1 ≤ l.p_
  hi : l.p_ ≤ l.pe_
  cur : c ≠ NUL → c ≠ ' ' → Lexer.At c l
  fin : c = NUL → l.p_ = l.pe_
  shown : Lexer.Shown c l
  left : IsIdentOther c = true → LeftComplete s l.p_
/-- An `#include` line of the header flatco.h, in the words of the specification:
blanks, `#`, blanks, `include`, blanks, then the name `flatco.h`, alone or after a
directory that ends with `/`, between `"` and `"` or between `<` and `>`, and nothing
but blanks after the closing delimiter. -/
def IsFlatcoInclude (line : List Char) : Prop :=
  ∃ (b1 b2 b3 b4 dir : List Char) (o cl : Char),
    line = b1 ++ '#' :: (b2 ++ ("include".toList ++ (b3 ++ o :: (dir ++ ("flatco.h".toList ++ cl :: b4)))))
    ∧ (∀ c ∈ b1 ++ b2 ++ b3 ++ b4, IsSpaceChar c = true)
    ∧ ((o = '<' ∧ cl = '>') ∨ (o = '"' ∧ cl = '"'))
    ∧ (dir = [] ∨ dir.getLast? = some '/')
instance : DecidablePred KeywordLike := fun w => by
  unfold KeywordLike
  infer_instance

/-- A unit without keyword, with a block comment, a line comment, a string literal, a
division, and identifiers that hold a keyword text. -/
def commentedSrc : List Char :=
  "#include <a.h>\n/* BL_funcs: none */\nint xBL_call = 4 / 2; // half\nconst char* s = \"a\";\n".toList

/-- A unit without keyword whose second line includes flatco.h. -/
def includeSecondLineSrc : List Char :=
  "int a; /* c */\n#include \"flatco.h\" \nint xBL_call; // BL_funcs\n".toList

/-! ## Theorems -/

/-- C1 (code defect): the top-level call `Add(1)` to the two-parameter `Add`
passes `Parser::Parser`: the call is resolved with 1 argument against 2 parameters,
and `expand` then reads `params[1]` past the end; the same call inside a
`BL_func` body is rejected. -/
theorem C1_top_level_arity_unchecked :
    ((Parser.new arityTopSrc).bind fun P =>
        .ok (P.calls_.map fun c =>
          (c.params.length, (P.funcs_[c.funcIndex]?).map fun f => f.params.length)))
      = .ok [(1, some 2)]
    ∧ flatco arityTopSrc "in.cxx".toList = .ub
    ∧ Parser.new arityBodySrc = .err ⟨2, 37,
        "The number of parameters of the calling and called functions are not equal"⟩ := by
  decide!

/-- C3 (code defect): the top-level call `r = Log(1)` to the void `Log` passes
`Parser::Parser`, and `gen` writes the assignment `r =;`; the same call inside a
`BL_func` body is rejected. -/
theorem C3_top_level_void_target_unchecked :
    ((Parser.new voidTopSrc).bind fun P =>
        .ok (P.calls_.map fun c =>
          (String.mk c.lval.s, (P.funcs_[c.funcIndex]?).map fun f => f.retvoid)))
      = .ok [("r ", some true)]
    ∧ flatco voidTopSrc "in.cxx".toList = .ok
        "\n#line 1 \"in.cxx\"\n\ndo \x7bint  _BLparam0_a=1;\n#line 1 \"in.cxx\"\n do\x7b r =; goto _BLexit0; \x7dwhile(0)\n#line 1 \"in.cxx\"\n; _BLexit0:;\x7dwhile(0)\n#line 2 \"in.cxx\"\n;".toList
    ∧ Parser.new voidBodySrc = .err ⟨2, 37,
        "The caller needs a return value but the called BL_func returns void"⟩ := by
  decide!

/-- C5 (code defect): the acyclic unit `B` calls `C`, then `C`, then `A` calls `B`
is rejected with the recursive-calls error, although the same functions defined
in the order `C`, `B`, `A` are accepted. -/
theorem C5_acyclic_unit_rejected :
    Parser.new orderBCASrc = .err ⟨1, 17, "There is recursive calls: B A"⟩
    ∧ ((Parser.new orderCBASrc).bind fun P => .ok (calleeNames P)) = .ok [[], ["C"], ["B"]] := by
  decide!

/-- C8 (code defect): the `Add` source begins with the keyword `BL_func`, so the
first `checkAddCode` of the constructor measures an empty chunk and the condition
`p_ > last` that `getSizeFrom` asserts is false there: with its assertions the
program stops at this point, before anything is validated or written. With the
assertion compiled out the empty chunk adds no item, parsing and validation succeed
and `gen` writes, between line markers, one `do {` .. `}while(0)` block that declares
`int  _BLparam0_a=1;` and `int  _BLparam0_b=2;`, assigns `_BLparam0_a+_BLparam0_b`
to `r`, jumps with `goto _BLexit0;` and ends with the label `_BLexit0:`; no
identifier of that output is `a` or `b`, and only one expansion is made. -/
theorem C8_add_source_fails_assertion :
    firstFlushAssert addSrc = .ok (some false)
    ∧ flatco addSrc "in.cxx".toList = .ok
      "\n#line 1 \"in.cxx\"\n\ndo \x7bint  _BLparam0_a=1;int  _BLparam0_b=2;\n#line 1 \"in.cxx\"\n do\x7b r =_BLparam0_a+_BLparam0_b; goto _BLexit0; \x7dwhile(0)\n#line 1 \"in.cxx\"\n; _BLexit0:;\x7dwhile(0)\n#line 2 \"in.cxx\"\n;".toList
    ∧ ((flatco addSrc "in.cxx".toList).bind fun out =>
        .ok ((identifiersOf out [] false).map String.mk))
      = .ok ["line", "in", "cxx", "do", "int", "_BLparam0_a", "int", "_BLparam0_b", "line", "in",
             "cxx", "do", "r", "_BLparam0_a", "_BLparam0_b", "goto", "_BLexit0", "while", "line",
             "in", "cxx", "_BLexit0", "while", "line", "in", "cxx"]
    ∧ ((Parser.new addSrc).bind fun P => (P.gen "in.cxx".toList).bind fun g => .ok g.seqs)
      = .ok [0] := by
  decide!

@[simp] theorem Res.bind_ok {α β : Type} (a : α) (f : α → Res β) : (Res.ok a).bind f = f a := rfl

@[simp] theorem Res.bind_err {α β : Type} (e : BlError) (f : α → Res β) :
    (Res.err e : Res α).bind f = .err e := rfl

@[simp] theorem Res.bind_fuel {α β : Type} (f : α → Res β) : (Res.fuel : Res α).bind f = .fuel := rfl

@[simp] theorem Res.bind_ub {α β : Type} (f : α → Res β) : (Res.ub : Res α).bind f = .ub := rfl

theorem Res.bind_eq_ok {α β : Type} {x : Res α} {f : α → Res β} {b : β}
    (h : x.bind f = .ok b) : ∃ a, x = .ok a ∧ f a = .ok b := by
  cases x <;> simp_all

/-- The constructor is the scan followed by `prepare`. -/
theorem new_of_parse (src : List Char) (P : Parser) (h : Parser.parse src = .ok P) :
    Parser.new src = P.prepare := by
  unfold Parser.new
  rw [h]
  rfl

/-- After the first site the loop keeps the flag while the sites agree with it. -/
theorem checkReturns_agree (rs : List ReturnItem) (k : Bool) (h : ∀ r ∈ rs, r.isVoid = k) :
    checkReturns rs false k = .ok k := by
  induction rs with
  | nil => rfl
  | cons r rs ih =>
    have hr : r.seqInsertable.s.isEmpty = k := h r (List.mem_cons_self _ _)
    have := ih fun x hx => h x (List.mem_cons_of_mem _ hx)
    simp [checkReturns, hr, this]

/-- After the first site the loop stops at the first site that disagrees. -/
theorem checkReturns_disagree (pre post : List ReturnItem) (r : ReturnItem) (k : Bool)
    (hpre : ∀ x ∈ pre, x.isVoid = k) (hr : r.isVoid ≠ k) :
    checkReturns (pre ++ r :: post) false k = .err ⟨r.row, r.col, inconsistentMsg⟩ := by
  induction pre with
  | nil =>
    have : ¬ k = r.seqInsertable.s.isEmpty := fun h => hr h.symm
    simp [checkReturns, this, inconsistentMsg]
  | cons x pre ih =>
    have hx : x.seqInsertable.s.isEmpty = k := hpre x (List.mem_cons_self _ _)
    have := ih fun y hy => hpre y (List.mem_cons_of_mem _ hy)
    simp [checkReturns, hx, this]

/-- The first loop of `prepare` over a concatenation. -/
theorem prepareFuncs_append (buf : List Char) (fs₁ fs₂ : List FuncItem) (i : Nat) (m : NameMap) :
    prepareFuncs buf (fs₁ ++ fs₂) i m =
      (prepareFuncs buf fs₁ i m).bind fun r =>
        (prepareFuncs buf fs₂ (i + fs₁.length) r.1).bind fun r' => .ok (r'.1, r.2 ++ r'.2) := by
  induction fs₁ generalizing i m with
  | nil =>
    simp only [List.nil_append, prepareFuncs, Res.bind_ok, List.length_nil, Nat.add_zero]
    cases prepareFuncs buf fs₂ i m <;> simp
  | cons f fs ih =>
    simp only [List.cons_append, prepareFuncs, List.length_cons]
    split
    · rfl
    · cases hc : checkReturns f.returns true f.retvoid <;> simp
      rw [ih]
      cases h1 : prepareFuncs buf fs (i + 1) (NameMap.insert m (slice buf f.name.s f.name.len) i).1 <;> simp
      have : i + 1 + fs.length = i + (fs.length + 1) := by omega
      rw [this]
      cases prepareFuncs buf fs₂ (i + (fs.length + 1)) _ <;> simp

/-! ### The name table -/

theorem NameMap.find_append (m₁ m₂ : NameMap) (key : List Char) :
    NameMap.find (m₁ ++ m₂) key =
      match NameMap.find m₁ key with
      | some v => some v
      | none => NameMap.find m₂ key := by
  induction m₁ with
  | nil => simp [NameMap.find]
  | cons e m ih =>
    obtain ⟨k, v⟩ := e
    by_cases h : k = key <;> simp [NameMap.find, h, ih]

theorem NameMap.insert_true {m : NameMap} {key : List Char} {v : Nat}
    (h : (NameMap.insert m key v).2 ≠ false) :
    NameMap.find m key = none ∧ (NameMap.insert m key v).1 = m ++ [(key, v)] := by
  unfold NameMap.insert at h ⊢
  cases hf : NameMap.find m key <;> simp_all

/-- What a successful first loop of `prepare` establishes. -/
theorem prepareFuncs_spec (buf : List Char) (fs : List FuncItem) :
    ∀ (i : Nat) (m m' : NameMap) (fs' : List FuncItem),
      prepareFuncs buf fs i m = .ok (m', fs') →
      (∀ key v, NameMap.find m key = some v → NameMap.find m' key = some v)
      ∧ (∀ key, (∀ f ∈ fs, f.nameText buf ≠ key) → NameMap.find m' key = NameMap.find m key)
      ∧ (∀ idx f, fs[idx]? = some f → NameMap.find m' (f.nameText buf) = some (i + idx))
      ∧ (∀ key k, NameMap.find m' key = some k →
          NameMap.find m key = some k ∨ (i ≤ k ∧ k < i + fs.length))
      ∧ List.Forall₂ (fun f f' => f' = { f with retvoid := f'.retvoid }) fs fs' := by
  induction fs with
  | nil =>
    intro i m m' fs' h
    simp only [prepareFuncs, Res.ok.injEq, Prod.mk.injEq] at h
    obtain ⟨rfl, rfl⟩ := h
    simp
    intro key k hk
    exact Or.inl hk
  | cons f rest ih =>
    intro i m m' fs' h
    simp only [prepareFuncs] at h
    split at h
    · exact absurd h (by simp)
    · rename_i hins
      obtain ⟨hnone, hm1⟩ := NameMap.insert_true hins
      rw [hm1] at h
      obtain ⟨rv, -, h⟩ := Res.bind_eq_ok h
      obtain ⟨r, hr, h⟩ := Res.bind_eq_ok h
      simp only [Res.ok.injEq, Prod.mk.injEq] at h
      obtain ⟨rfl, rfl⟩ := h
      obtain ⟨r1, r2⟩ := r
      obtain ⟨hM, hA, hB, hC, hD⟩ := ih (i + 1) _ _ _ hr
      have happ : ∀ key, NameMap.find (m ++ [(slice buf f.name.s f.name.len, i)]) key =
          match NameMap.find m key with
          | some v => some v
          | none => if slice buf f.name.s f.name.len = key then some i else none := by
        intro key
        rw [NameMap.find_append]
        simp [NameMap.find]
      refine ⟨?_, ?_, ?_, ?_, ?_⟩
      · intro key v hv
        apply hM
        rw [happ, hv]
      · intro key hkey
        have h1 : f.nameText buf ≠ key := hkey f (List.mem_cons_self _ _)
        rw [hA key fun g hg => hkey g (List.mem_cons_of_mem _ hg), happ]
        cases NameMap.find m key <;> simp_all [FuncItem.nameText]
      · intro idx g hg
        cases idx with
        | zero =>
          simp only [List.getElem?_cons_zero, Option.some.injEq] at hg
          subst hg
          apply hM
          rw [happ]
          simp [FuncItem.nameText, hnone]
        | succ idx =>
          simp only [List.getElem?_cons_succ] at hg
          rw [hB idx g hg]
          congr 1
          omega
      · intro key k hk
        rcases hC key k hk with h1 | h1
        · rw [happ] at h1
          cases hf : NameMap.find m key with
          | some v => left; simpa [hf] using h1
          | none =>
            right
            simp only [hf] at h1
            split at h1
            · simp only [Option.some.injEq] at h1
              simp only [List.length_cons]
              omega
            · exact absurd h1 (by simp)
        · right
          simp only [List.length_cons]
          omega
      · exact List.Forall₂.cons rfl hD

/-- The first loop of `prepare` ends with a value or a thrown error. -/
theorem prepareFuncs_okOrErr (buf : List Char) (fs : List FuncItem) (i : Nat) (m : NameMap) :
    (prepareFuncs buf fs i m).OkOrErr fun _ => True := by
  induction fs generalizing i m with
  | nil => simp [prepareFuncs, Res.OkOrErr]
  | cons f rest ih =>
    simp only [prepareFuncs]
    split
    · simp [Res.OkOrErr]
    · have hc : ∀ (rs : List ReturnItem) (a b : Bool), (checkReturns rs a b).OkOrErr fun _ => True := by
        intro rs
        induction rs with
        | nil => intro a b; simp [checkReturns, Res.OkOrErr]
        | cons r rs ihr =>
          intro a b
          simp only [checkReturns]
          split
          · exact ihr _ _
          · split
            · simp [Res.OkOrErr]
            · exact ihr _ _
      have h1 := hc f.returns true f.retvoid
      cases hcr : checkReturns f.returns true f.retvoid <;> simp [hcr, Res.OkOrErr] at h1 ⊢
      have h2 := ih (i + 1) (NameMap.insert m (slice buf f.name.s f.name.len) i).1
      cases hp : prepareFuncs buf rest (i + 1) (NameMap.insert m (slice buf f.name.s f.name.len) i).1 <;>
        simp [hp, Res.OkOrErr] at h2 ⊢

/-! ### The call table `callDag` -/

theorem Dag.find_isSome_iff (d : Dag) (x : Nat) : (Dag.find d x).isSome = true ↔ x ∈ Dag.keys d := by
  induction d with
  | nil => simp [Dag.find, Dag.keys]
  | cons e d ih =>
    obtain ⟨k, v⟩ := e
    by_cases h : k = x
    · simp [Dag.find, Dag.keys, h]
    · have h' : ¬ x = k := fun a => h a.symm
      simpa [Dag.find, Dag.keys, h, h'] using ih

theorem Dag.find_eq_none_iff (d : Dag) (x : Nat) : Dag.find d x = none ↔ x ∉ Dag.keys d := by
  rw [← Dag.find_isSome_iff]
  cases Dag.find d x <;> simp

theorem Dag.find_mapSnd (g : Nat → List Nat → List Nat) (d : Dag) (x : Nat) :
    Dag.find (d.map fun e => (e.1, g e.1 e.2)) x = (Dag.find d x).map (g x) := by
  induction d with
  | nil => simp [Dag.find]
  | cons e d ih =>
    obtain ⟨k, v⟩ := e
    by_cases h : k = x
    · subst h; simp [Dag.find]
    · simp only [List.map_cons, Dag.find, h, ↓reduceIte]
      exact ih

theorem Dag.modifySet_eq (d : Dag) (key : Nat) (f : List Nat → List Nat) :
    Dag.modifySet d key f = d.map fun e => (e.1, if e.1 = key then f e.2 else e.2) := by
  unfold Dag.modifySet
  apply List.map_congr_left
  intro e _
  split <;> rfl

theorem Dag.find_modifySet (d : Dag) (key : Nat) (f : List Nat → List Nat) (x : Nat) :
    Dag.find (Dag.modifySet d key f) x =
      if x = key then (Dag.find d x).map f else Dag.find d x := by
  rw [Dag.modifySet_eq, Dag.find_mapSnd (fun a s => if a = key then f s else s)]
  split
  · rfl
  · cases Dag.find d x <;> rfl

theorem Dag.keys_modifySet (d : Dag) (key : Nat) (f : List Nat → List Nat) :
    Dag.keys (Dag.modifySet d key f) = Dag.keys d := by
  induction d with
  | nil => rfl
  | cons e d ih =>
    simp only [Dag.keys, Dag.modifySet, List.map_cons, List.map_map] at ih ⊢
    refine congrArg₂ _ ?_ ih
    split <;> rfl

theorem Dag.keys_init (n : Nat) : Dag.keys (Dag.init n) = List.range n := by
  simp [Dag.keys, Dag.init, List.map_map, Function.comp_def]

theorem Dag.find_map_empty (l : List Nat) (x : Nat) :
    Dag.find (l.map fun i => (i, ([] : List Nat))) x = if x ∈ l then some [] else none := by
  induction l with
  | nil => simp [Dag.find]
  | cons a l ih =>
    by_cases h : a = x
    · simp [Dag.find, h]
    · have h' : ¬ x = a := fun e => h e.symm
      simp [Dag.find, h, h', ih]

theorem mem_setInsert (s : List Nat) (k x : Nat) : x ∈ setInsert s k ↔ x ∈ s ∨ x = k := by
  unfold setInsert
  split
  · constructor
    · exact Or.inl
    · rintro (h | rfl)
      · exact h
      · assumption
  · simp

/-! ### The second loop of `prepare` -/

theorem PrepExt_refl (st : PrepState) : PrepExt st st :=
  ⟨fun _ => rfl, fun _ s h => ⟨s, h, fun _ a => a⟩⟩

theorem PrepExt_trans {a b c : PrepState} (h₁ : PrepExt a b) (h₂ : PrepExt b c) : PrepExt a c :=
  ⟨fun x => (h₂.sig x).trans (h₁.sig x), fun x s h => by
    obtain ⟨s', hs', hsub⟩ := h₁.mono x s h
    obtain ⟨s'', hs'', hsub'⟩ := h₂.mono x s' hs'
    exact ⟨s'', hs'', fun _ a => hsub' (hsub a)⟩⟩

/-- The initial state of the second loop is consistent. -/
theorem PrepInv_init (fs : List FuncItem) :
    PrepInv fs.length { funcs := fs, callDag := Dag.init fs.length } :=
  ⟨rfl, Dag.keys_init _⟩

/-- Initially no caller is recorded, when the parser built the functions. -/
theorem CallersInDag_init (fs : List FuncItem) (d : Dag) (h : ∀ f ∈ fs, f.callers = []) :
    CallersInDag fs d := by
  intro j f hf c hc
  have := h f (List.getElem?_mem hf)
  simp [this] at hc

/-- One call that passes: the state stays consistent, is extended, and the edge
to the resolved callee is in `callDag`; a call never meets `ub`. -/
theorem prepareCall_spec (m : NameMap) (n i j : Nat) (c : CallItem) (st : PrepState)
    (hm : ∀ key k, NameMap.find m key = some k → k < n) (hinv : PrepInv n st) (hi : i < n) :
    (prepareCall m i j c st).OkOrErr fun st' =>
      PrepInv n st' ∧ PrepExt st st' ∧
        (CallersInDag st.funcs st.callDag → CallersInDag st'.funcs st'.callDag) ∧
        ∃ k, NameMap.find m c.name = some k ∧ k ≠ i ∧
          (∃ callee, st.funcs[k]? = some callee ∧ c.params.length = callee.params.length
            ∧ ¬ (c.lval.s.isEmpty = false ∧ callee.retvoid = true))
          ∧ ∃ s, Dag.find st'.callDag i = some s ∧ k ∈ s := by
  unfold prepareCall
  cases hfind : NameMap.find m c.name with
  | none => simp [Res.OkOrErr]
  | some k =>
    simp only
    by_cases hki : k = i
    · simp [hki, Res.OkOrErr]
    · simp only [hki, ↓reduceIte]
      have hk : k < n := hm _ _ hfind
      have hlen : k < st.funcs.length := by rw [hinv.len]; exact hk
      obtain ⟨s0, hs0⟩ : ∃ s, Dag.find st.callDag i = some s := by
        have : i ∈ Dag.keys st.callDag := by rw [hinv.keys]; simpa using hi
        have := (Dag.find_isSome_iff _ _).2 this
        exact Option.isSome_iff_exists.1 this
      have hik : ¬ i = k := fun a => hki a.symm
      simp only [List.getElem?_modify, hik, ↓reduceIte, List.getElem?_eq_getElem hlen,
        Option.map_eq_map, Option.map_some', hs0]
      split
      · simp [Res.OkOrErr]
      · rename_i hpar
        split
        · simp [Res.OkOrErr]
        · rename_i hvoid
          simp only [Res.OkOrErr]
          refine ⟨⟨by simp [hinv.len], by simp [Dag.keys_modifySet, hinv.keys]⟩, ⟨?_, ?_⟩, ?_, k, rfl,
            hki, ⟨st.funcs[k], List.getElem?_eq_getElem hlen, by simpa using hpar, hvoid⟩, ?_⟩
          · intro x
            simp only [List.getElem?_modify, Option.map_eq_map, Option.map_map]
            congr 1
            funext g
            simp only [Function.comp_apply]
            by_cases hx : k = x <;> by_cases hx' : i = x <;> simp [hx, hx', FuncItem.sig]
          · intro x s hs
            rw [Dag.find_modifySet]
            by_cases hxi : x = i
            · subst hxi
              exact ⟨setInsert s k, by simp [hs], fun _ a => (mem_setInsert _ _ _).2 (Or.inl a)⟩
            · exact ⟨s, by simp [hxi, hs], fun _ a => a⟩
          · intro hJ x f hf a ha
            simp only [List.getElem?_modify, Option.map_eq_map, Option.map_map,
              Option.map_eq_some'] at hf
            obtain ⟨g, hg, rfl⟩ := hf
            simp only [Function.comp_apply] at ha
            have hcases : a ∈ g.callers ∨ (x = k ∧ a = i) := by
              by_cases hx : k = x
              · by_cases hx' : i = x
                · exact absurd (hx'.trans hx.symm) hik
                · simp only [hx, ↓reduceIte, hx', List.mem_append, List.mem_singleton] at ha
                  rcases ha with ha | ha
                  · exact Or.inl ha
                  · exact Or.inr ⟨hx.symm, ha⟩
              · by_cases hx' : i = x
                · simp only [hx, ↓reduceIte, hx'] at ha
                  exact Or.inl ha
                · simp only [hx, ↓reduceIte, hx'] at ha
                  exact Or.inl ha
            rcases hcases with ha | ⟨rfl, rfl⟩
            · obtain ⟨s, hs, hxs⟩ := hJ x g hg a ha
              rw [Dag.find_modifySet]
              by_cases hai : a = i
              · subst hai
                exact ⟨setInsert s k, by simp [hs], (mem_setInsert _ _ _).2 (Or.inl hxs)⟩
              · exact ⟨s, by simp [hai, hs], hxs⟩
            · rw [Dag.find_modifySet]
              exact ⟨setInsert s0 x, by simp [hs0], (mem_setInsert _ _ _).2 (Or.inr rfl)⟩
          · rw [Dag.find_modifySet]
            exact ⟨setInsert s0 k, by simp [hs0], (mem_setInsert _ _ _).2 (Or.inr rfl)⟩

theorem prepareCall_undefined (m : NameMap) (i j : Nat) (c : CallItem) (st : PrepState)
    (h : NameMap.find m c.name = none) :
    prepareCall m i j c st = .err ⟨c.row, c.col, "BL_call undefined BL_func"⟩ := by
  simp [prepareCall, h]

theorem prepareCall_itself (m : NameMap) (i j : Nat) (c : CallItem) (st : PrepState)
    (h : NameMap.find m c.name = some i) :
    prepareCall m i j c st = .err ⟨c.row, c.col, "BL_call itself"⟩ := by
  simp [prepareCall, h]

/-- The loop over the calls of function `i`, when it ends without an error. -/
theorem prepareCallsOf_spec (m : NameMap) (n i : Nat)
    (hm : ∀ key k, NameMap.find m key = some k → k < n) (hi : i < n) (cs : List CallItem) :
    ∀ (j : Nat) (st : PrepState), PrepInv n st →
      (prepareCallsOf m i cs j st).OkOrErr fun st' =>
        PrepInv n st' ∧ PrepExt st st' ∧
        (CallersInDag st.funcs st.callDag → CallersInDag st'.funcs st'.callDag) ∧
        ∀ c ∈ cs, ∃ k, NameMap.find m c.name = some k ∧ k ≠ i ∧
          ∃ s, Dag.find st'.callDag i = some s ∧ k ∈ s := by
  induction cs with
  | nil =>
    intro j st hinv
    simp only [prepareCallsOf, Res.OkOrErr]
    exact ⟨hinv, PrepExt_refl _, id, by simp⟩
  | cons c rest ih =>
    intro j st hinv
    simp only [prepareCallsOf]
    have h1 := prepareCall_spec m n i j c st hm hinv hi
    cases hr : prepareCall m i j c st with
    | ok st1 =>
      rw [hr] at h1
      obtain ⟨hinv1, hext1, hJ1, k, hk, hki, -, s, hs, hks⟩ := h1
      simp only [Res.bind_ok]
      have h2 := ih (j + 1) st1 hinv1
      cases hr2 : prepareCallsOf m i rest (j + 1) st1 with
      | ok st2 =>
        rw [hr2] at h2
        obtain ⟨hinv2, hext2, hJ2, hall⟩ := h2
        refine ⟨hinv2, PrepExt_trans hext1 hext2, fun a => hJ2 (hJ1 a), ?_⟩
        intro c' hc'
        rcases List.mem_cons.1 hc' with rfl | hc'
        · obtain ⟨s', hs', hsub⟩ := hext2.mono i s hs
          exact ⟨k, hk, hki, s', hs', hsub hks⟩
        · exact hall c' hc'
      | err e => simp [Res.OkOrErr]
      | fuel => rw [hr2] at h2; exact h2
      | ub => rw [hr2] at h2; exact h2
    | err e => simp [Res.OkOrErr]
    | fuel => rw [hr] at h1; exact h1
    | ub => rw [hr] at h1; exact h1

/-- The loop over the calls of function `i` throws when one of the calls names
no function or names function `i` itself. -/
theorem prepareCallsOf_bad (m : NameMap) (n i : Nat)
    (hm : ∀ key k, NameMap.find m key = some k → k < n) (hi : i < n) (cs : List CallItem)
    (c : CallItem) (hc : c ∈ cs)
    (hbad : NameMap.find m c.name = none ∨ NameMap.find m c.name = some i) :
    ∀ (j : Nat) (st : PrepState), PrepInv n st → ∃ e, prepareCallsOf m i cs j st = .err e := by
  intro j st hinv
  have h := prepareCallsOf_spec m n i hm hi cs j st hinv
  cases hr : prepareCallsOf m i cs j st with
  | ok st' =>
    rw [hr] at h
    obtain ⟨-, -, -, hall⟩ := h
    obtain ⟨k, hk, hki, -⟩ := hall c hc
    rcases hbad with hb | hb
    · rw [hb] at hk; exact absurd hk (by simp)
    · rw [hb] at hk; exact absurd (Option.some.inj hk).symm hki
  | err e => exact ⟨e, rfl⟩
  | fuel => rw [hr] at h; exact absurd h id
  | ub => rw [hr] at h; exact absurd h id

/-- The second loop of `prepare`, when it ends without an error: every call of
every function is resolved and its edge is in `callDag`. -/
theorem prepareCalls_spec (m : NameMap) (n : Nat)
    (hm : ∀ key k, NameMap.find m key = some k → k < n) (fs : List FuncItem) :
    ∀ (i : Nat) (st : PrepState), i + fs.length ≤ n → PrepInv n st →
      (prepareCalls m fs i st).OkOrErr fun st' =>
        PrepInv n st' ∧ PrepExt st st' ∧
        (CallersInDag st.funcs st.callDag → CallersInDag st'.funcs st'.callDag) ∧
        ∀ idx f, fs[idx]? = some f → ∀ c ∈ f.calls,
          ∃ k, NameMap.find m c.name = some k ∧ k ≠ i + idx ∧
            ∃ s, Dag.find st'.callDag (i + idx) = some s ∧ k ∈ s := by
  induction fs with
  | nil =>
    intro i st _ hinv
    simp only [prepareCalls, Res.OkOrErr]
    exact ⟨hinv, PrepExt_refl _, id, by simp⟩
  | cons f rest ih =>
    intro i st hle hinv
    simp only [List.length_cons] at hle
    simp only [prepareCalls]
    have h1 := prepareCallsOf_spec m n i hm (by omega) f.calls 0 st hinv
    cases hr : prepareCallsOf m i f.calls 0 st with
    | ok st1 =>
      rw [hr] at h1
      obtain ⟨hinv1, hext1, hJ1, hall1⟩ := h1
      simp only [Res.bind_ok]
      have h2 := ih (i + 1) st1 (by omega) hinv1
      cases hr2 : prepareCalls m rest (i + 1) st1 with
      | ok st2 =>
        rw [hr2] at h2
        obtain ⟨hinv2, hext2, hJ2, hall2⟩ := h2
        refine ⟨hinv2, PrepExt_trans hext1 hext2, fun a => hJ2 (hJ1 a), ?_⟩
        intro idx g hg c hc
        cases idx with
        | zero =>
          simp only [List.getElem?_cons_zero, Option.some.injEq] at hg
          subst hg
          obtain ⟨k, hk, hki, s, hs, hks⟩ := hall1 c hc
          obtain ⟨s', hs', hsub⟩ := hext2.mono i s hs
          exact ⟨k, hk, hki, s', hs', hsub hks⟩
        | succ idx =>
          simp only [List.getElem?_cons_succ] at hg
          have := hall2 idx g hg c hc
          have e : i + 1 + idx = i + (idx + 1) := by omega
          rw [e] at this
          exact this
      | err e => simp [Res.OkOrErr]
      | fuel => rw [hr2] at h2; exact h2
      | ub => rw [hr2] at h2; exact h2
    | err e => simp [Res.OkOrErr]
    | fuel => rw [hr] at h1; exact h1
    | ub => rw [hr] at h1; exact h1

/-- The second loop of `prepare` throws when a call of a function names no
function or names the function it stands in. -/
theorem prepareCalls_bad (m : NameMap) (n : Nat)
    (hm : ∀ key k, NameMap.find m key = some k → k < n) (fs : List FuncItem)
    (i : Nat) (st : PrepState) (hle : i + fs.length ≤ n) (hinv : PrepInv n st)
    (idx : Nat) (f : FuncItem) (hf : fs[idx]? = some f) (c : CallItem) (hc : c ∈ f.calls)
    (hbad : NameMap.find m c.name = none ∨ NameMap.find m c.name = some (i + idx)) :
    ∃ e, prepareCalls m fs i st = .err e := by
  have h := prepareCalls_spec m n hm fs i st hle hinv
  cases hr : prepareCalls m fs i st with
  | ok st' =>
    rw [hr] at h
    obtain ⟨-, -, -, hall⟩ := h
    obtain ⟨k, hk, hki, -⟩ := hall idx f hf c hc
    rcases hbad with hb | hb
    · rw [hb] at hk; exact absurd hk (by simp)
    · rw [hb] at hk; exact absurd (Option.some.inj hk).symm hki
  | err e => exact ⟨e, rfl⟩
  | fuel => rw [hr] at h; exact absurd h id
  | ub => rw [hr] at h; exact absurd h id

/-- The loop over the top-level calls throws when one of them names no function,
and otherwise ends with a value. -/
theorem prepareTopCalls_spec (m : NameMap) (calls : List CallItem) :
    (prepareTopCalls m calls).OkOrErr fun _ =>
      ∀ c ∈ calls, ∃ k, NameMap.find m c.name = some k := by
  induction calls with
  | nil => simp [prepareTopCalls, Res.OkOrErr]
  | cons c rest ih =>
    simp only [prepareTopCalls]
    cases hf : NameMap.find m c.name with
    | none => simp [Res.OkOrErr]
    | some k =>
      simp only
      cases hr : prepareTopCalls m rest with
      | ok r =>
        rw [hr] at ih
        simp only [Res.bind_ok, Res.OkOrErr, List.mem_cons, forall_eq_or_imp] at ih ⊢
        exact ⟨⟨k, hf⟩, ih⟩
      | err e => simp [Res.OkOrErr]
      | fuel => rw [hr] at ih; exact ih
      | ub => rw [hr] at ih; exact ih

theorem forall₂_getElem? {α β : Type} {R : α → β → Prop} {l : List α} {l' : List β}
    (h : List.Forall₂ R l l') : ∀ (idx : Nat) (a : α), l[idx]? = some a →
      ∃ b, l'[idx]? = some b ∧ R a b := by
  induction h with
  | nil => intro idx a ha; simp at ha
  | cons hab _ ih =>
    intro idx a ha
    cases idx with
    | zero =>
      simp only [List.getElem?_cons_zero, Option.some.injEq] at ha
      subst ha
      exact ⟨_, by simp, hab⟩
    | succ idx =>
      simp only [List.getElem?_cons_succ] at ha ⊢
      exact ih idx a ha

/-- What the first loop of `prepare` establishes when the name table starts empty. -/
theorem prepareFuncs_table (buf : List Char) (funcs fs : List FuncItem) (m : NameMap)
    (h : prepareFuncs buf funcs 0 [] = .ok (m, fs)) :
    fs.length = funcs.length
    ∧ (∀ key k, NameMap.find m key = some k → k < fs.length)
    ∧ (∀ key, (∀ f ∈ funcs, f.nameText buf ≠ key) → NameMap.find m key = none)
    ∧ (∀ idx f, funcs[idx]? = some f → NameMap.find m (f.nameText buf) = some idx)
    ∧ (∀ (idx : Nat) (f : FuncItem), funcs[idx]? = some f →
        ∃ f' : FuncItem, fs[idx]? = some f' ∧ f' = { f with retvoid := f'.retvoid }) := by
  obtain ⟨-, hA, hB, hC, hD⟩ := prepareFuncs_spec buf funcs 0 [] m fs h
  have hlen : fs.length = funcs.length := (List.Forall₂.length_eq hD).symm
  refine ⟨hlen, ?_, ?_, ?_, ?_⟩
  · intro key k hk
    rcases hC key k hk with h1 | h1
    · simp [NameMap.find] at h1
    · omega
  · intro key hkey
    rw [hA key hkey]
    rfl
  · intro idx f hf
    simpa using hB idx f hf
  · intro idx f hf
    exact forall₂_getElem? hD idx f hf

/-- A call that names no function, or the function it stands in, makes `prepare`
throw. -/
theorem prepare_bad_body_call (P : Parser) (hn : P.name2Func_ = []) (idx : Nat) (f : FuncItem)
    (hf : P.funcs_[idx]? = some f) (c : CallItem) (hc : c ∈ f.calls)
    (hbad : (∀ g ∈ P.funcs_, g.nameText P.lex_.buf ≠ c.name) ∨ c.name = f.nameText P.lex_.buf) :
    ∃ e, P.prepare = .err e := by
  have h0 := prepareFuncs_okOrErr P.lex_.buf P.funcs_ 0 P.name2Func_
  unfold Parser.prepare
  cases h1 : prepareFuncs P.lex_.buf P.funcs_ 0 P.name2Func_ with
  | ok r =>
    obtain ⟨m, fs⟩ := r
    rw [hn] at h1
    obtain ⟨hlen, hm, hnone, hsome, hsame⟩ := prepareFuncs_table _ _ _ _ h1
    obtain ⟨f', hf', hff⟩ := hsame idx f hf
    have hc' : c ∈ f'.calls := by rw [hff]; exact hc
    have hbad' : NameMap.find m c.name = none ∨ NameMap.find m c.name = some (0 + idx) := by
      rcases hbad with hb | hb
      · exact Or.inl (hnone _ hb)
      · right; rw [hb, hsome idx f hf]; simp
    obtain ⟨e, he⟩ := prepareCalls_bad m fs.length hm fs 0 _ (by omega) (PrepInv_init fs) idx f' hf' c
      hc' hbad'
    exact ⟨e, by simp [he]⟩
  | err e => exact ⟨e, by simp⟩
  | fuel => rw [h1] at h0; exact absurd h0 id
  | ub => rw [h1] at h0; exact absurd h0 id

/-- C2: a call site, in a `BL_func` body or at top level, whose callee name is the
name of no `BL_func` of the unit makes `prepare` throw a `BlError`, and with it
the construction of the parser from every source the scan turns into this unit;
whenever the validation reaches that call (in the loop over the calls of a
function or in the loop over the top-level calls) the error thrown is the
undefined-callee error at the position of the call. -/
theorem C2_undefined_callee_rejected (P : Parser) (c : CallItem) (hn : P.name2Func_ = [])
    (hc : c ∈ P.calls_ ∨ ∃ f ∈ P.funcs_, c ∈ f.calls)
    (hundef : ∀ g ∈ P.funcs_, g.nameText P.lex_.buf ≠ c.name) :
    (∃ e, P.prepare = .err e)
    ∧ (∀ src, Parser.parse src = .ok P → ∃ e, Parser.new src = .err e)
    ∧ ∀ m fs, prepareFuncs P.lex_.buf P.funcs_ 0 P.name2Func_ = .ok (m, fs) →
        (∀ i j st, prepareCall m i j c st = .err ⟨c.row, c.col, "BL_call undefined BL_func"⟩)
        ∧ ∀ rest, prepareTopCalls m (c :: rest) = .err ⟨c.row, c.col, "BL_call undefined BL_func"⟩ := by
  have hprep : ∃ e, P.prepare = .err e := by
    rcases hc with hc | ⟨f, hf, hc⟩
    · have h0 := prepareFuncs_okOrErr P.lex_.buf P.funcs_ 0 P.name2Func_
      unfold Parser.prepare
      cases h1 : prepareFuncs P.lex_.buf P.funcs_ 0 P.name2Func_ with
      | ok r =>
        obtain ⟨m, fs⟩ := r
        rw [hn] at h1
        obtain ⟨hlen, hm, hnone, -, -⟩ := prepareFuncs_table _ _ _ _ h1
        have h2 := prepareCalls_spec m fs.length hm fs 0 _ (by omega) (PrepInv_init fs)
        simp only [Res.bind_ok]
        cases hr2 : prepareCalls m fs 0 { funcs := fs, callDag := Dag.init fs.length } with
        | ok st =>
          simp only [Res.bind_ok]
          have h3 := prepareTopCalls_spec m P.calls_
          cases hr3 : prepareTopCalls m P.calls_ with
          | ok calls1 =>
            rw [hr3] at h3
            obtain ⟨k, hk⟩ := h3 c hc
            rw [hnone _ hundef] at hk
            exact absurd hk (by simp)
          | err e => exact ⟨e, by simp⟩
          | fuel => rw [hr3] at h3; exact absurd h3 id
          | ub => rw [hr3] at h3; exact absurd h3 id
        | err e => exact ⟨e, by simp⟩
        | fuel => rw [hr2] at h2; exact absurd h2 id
        | ub => rw [hr2] at h2; exact absurd h2 id
      | err e => exact ⟨e, by simp⟩
      | fuel => rw [h1] at h0; exact absurd h0 id
      | ub => rw [h1] at h0; exact absurd h0 id
    · obtain ⟨idx, hidx⟩ := List.mem_iff_getElem?.1 hf
      exact prepare_bad_body_call P hn idx f hidx c hc (Or.inl hundef)
  refine ⟨hprep, fun src hs => by rw [new_of_parse src P hs]; exact hprep, ?_⟩
  · intro m fs h1
    rw [hn] at h1
    obtain ⟨-, -, hnone, -, -⟩ := prepareFuncs_table _ _ _ _ h1
    have hfind := hnone _ hundef
    exact ⟨fun i j st => prepareCall_undefined m i j c st hfind, fun rest => by
      simp [prepareTopCalls, hfind]⟩

/-- C2 at the function `F` that calls the undefined `G`, and at a top-level call
of `G`. -/
theorem C2_undefined_callee_rejected_witness :
    (∃ e, Parser.new undefinedBodySrc = .err e)
    ∧ (∃ e, Parser.new undefinedTopSrc = .err e) :=
  ⟨(C2_undefined_callee_rejected (parsed undefinedBodySrc) (firstBodyCall (parsed undefinedBodySrc))
      (by decide!) (by decide!) (by decide!)).2.1 undefinedBodySrc (by decide!),
   (C2_undefined_callee_rejected (parsed undefinedTopSrc) (firstTopCall (parsed undefinedTopSrc))
      (by decide!) (by decide!) (by decide!)).2.1 undefinedTopSrc (by decide!)⟩

/-- C6: a `BL_func` whose body holds a `BL_call` naming that same function makes
`prepare` throw, and with it the construction of the parser from every source the
scan turns into this unit; whenever the validation reaches that call, the error
thrown for it is the self-call error, whatever its arguments, its target and the
state of the call graph. -/
theorem C6_self_call_rejected (P : Parser) (i : Nat) (f : FuncItem) (c : CallItem)
    (hn : P.name2Func_ = []) (hf : P.funcs_[i]? = some f) (hc : c ∈ f.calls)
    (hself : c.name = f.nameText P.lex_.buf) :
    (∃ e, P.prepare = .err e)
    ∧ (∀ src, Parser.parse src = .ok P → ∃ e, Parser.new src = .err e)
    ∧ ∀ m fs, prepareFuncs P.lex_.buf P.funcs_ 0 P.name2Func_ = .ok (m, fs) →
        ∀ j st, prepareCall m i j c st = .err ⟨c.row, c.col, "BL_call itself"⟩ := by
  have hprep := prepare_bad_body_call P hn i f hf c hc (Or.inr hself)
  refine ⟨hprep, fun src hs => by rw [new_of_parse src P hs]; exact hprep, ?_⟩
  intro m fs h1 j st
  rw [hn] at h1
  obtain ⟨-, -, -, hsome, -⟩ := prepareFuncs_table _ _ _ _ h1
  exact prepareCall_itself m i j c st (by rw [hself, hsome i f hf])

/-- C6 at the function `F(int a)` whose body holds `BL_call(r = F())`. -/
theorem C6_self_call_rejected_witness :
    (∃ e, Parser.new selfCallSrc = .err e)
    ∧ Parser.new selfCallSrc = .err ⟨1, 43, "BL_call itself"⟩ :=
  ⟨(C6_self_call_rejected (parsed selfCallSrc) 0
      ((parsed selfCallSrc).funcs_.headD ⟨⟨0, 0, 0, 0⟩, [], [], [], [], [], [], true⟩)
      (firstBodyCall (parsed selfCallSrc))
      (by decide!) (by decide!) (by decide!) (by decide!)).2.1 selfCallSrc (by decide!),
   by decide!⟩

/-! ### Sequence ids -/

theorem SeqStep_refl (g : GenState) : SeqStep g g := by
  simp [SeqStep]

theorem range'_split (a b c : Nat) (hab : a ≤ b) (hbc : b ≤ c) :
    List.range' a (b - a) ++ List.range' b (c - b) = List.range' a (c - a) := by
  obtain ⟨m, rfl⟩ := Nat.exists_eq_add_of_le hab
  obtain ⟨k, rfl⟩ := Nat.exists_eq_add_of_le hbc
  have e1 : a + m - a = m := by omega
  have e2 : a + m + k - (a + m) = k := by omega
  have e3 : a + m + k - a = k + m := by omega
  rw [e1, e2, e3]
  exact List.range'_append_1 _ _ _

theorem SeqStep_trans {a b c : GenState} (h₁ : SeqStep a b) (h₂ : SeqStep b c) : SeqStep a c := by
  obtain ⟨h1, h1'⟩ := h₁
  obtain ⟨h2, h2'⟩ := h₂
  refine ⟨Nat.le_trans h1 h2, ?_⟩
  rw [h2', h1', List.append_assoc, range'_split _ _ _ h1 h2]

theorem SeqStep_write (g : GenState) (s : List Char) : SeqStep g (g.write s) := by
  simp [SeqStep, GenState.write]

theorem emitParams_seq (buf : List Char) (seqCurrent : Nat) (params : List (List Char))
    (ps : List FuncParam) : ∀ (i : Nat) (g g' : GenState),
      emitParams buf seqCurrent params ps i g = .ok g' → SeqStep g g' := by
  induction ps with
  | nil =>
    intro i g g' h
    simp only [emitParams, Res.ok.injEq] at h
    subst h
    exact SeqStep_refl _
  | cons p ps ih =>
    intro i g g' h
    simp only [emitParams] at h
    split at h
    · exact absurd h (by simp)
    · exact SeqStep_trans (SeqStep_write _ _) (ih _ _ _ h)

theorem expandItems_seq (srcFileName : List Char) (func : FuncItem) (seqCurrent : Nat)
    (lval : List Char) (recurse : Nat → List Char → List (List Char) → GenState → Res GenState)
    (hrec : ∀ fi lv ps g g', recurse fi lv ps g = .ok g' → SeqStep g g')
    (items : List CxxItem) : ∀ (g g' : GenState),
      expandItems srcFileName func seqCurrent lval recurse items g = .ok g' → SeqStep g g' := by
  induction items with
  | nil =>
    intro g g' h
    simp only [expandItems, Res.ok.injEq] at h
    subst h
    exact SeqStep_refl _
  | cons item rest ih =>
    intro g g' h
    simp only [expandItems] at h
    obtain ⟨g1, h1, h2⟩ := Res.bind_eq_ok h
    refine SeqStep_trans ?_ (ih _ _ h2)
    split at h1
    · obtain ⟨s, -, hs⟩ := Res.bind_eq_ok h1
      simp only [Res.ok.injEq] at hs
      subst hs
      exact SeqStep_write _ _
    · split at h1
      · exact absurd h1 (by simp)
      · obtain ⟨ps, -, h3⟩ := Res.bind_eq_ok h1
        obtain ⟨lv, -, h4⟩ := Res.bind_eq_ok h3
        exact hrec _ _ _ _ _ h4
    · split at h1
      · exact absurd h1 (by simp)
      · obtain ⟨s, -, hs⟩ := Res.bind_eq_ok h1
        simp only [Res.ok.injEq] at hs
        subst hs
        exact SeqStep_write _ _
    · simp only [Res.ok.injEq] at h1
      subst h1
      exact SeqStep_refl _

/-- An invocation of `expand` that returns took the id `g.seq` and left a larger
counter. -/
theorem expand_seq (buf : List Char) (funcs : List FuncItem) (srcFileName : List Char) (d : Nat) :
    ∀ (funcIndex : Nat) (lval : List Char) (params : List (List Char)) (g g' : GenState),
      expand buf funcs srcFileName d funcIndex lval params g = .ok g' →
        SeqStep g g' ∧ g.seq < g'.seq := by
  induction d with
  | zero => intro fi lv ps g g' h; simp [expand] at h
  | succ d ih =>
    intro fi lv ps g g' h
    simp only [expand] at h
    split at h
    · exact absurd h (by simp)
    · rename_i func _
      obtain ⟨g2, h2, h⟩ := Res.bind_eq_ok h
      obtain ⟨g3, h3, h⟩ := Res.bind_eq_ok h
      simp only [Res.ok.injEq] at h
      subst h
      have s1 : SeqStep g ({ g with seq := g.seq + 1, seqs := g.seqs ++ [g.seq] } : GenState) := by
        simp [SeqStep, List.range']
      have s2 := emitParams_seq _ _ _ _ _ _ _ h2
      have s3 := expandItems_seq _ _ _ _ _ (fun fi lv ps a b hab => (ih fi lv ps a b hab).1) _ _ _ h3
      have s4 := SeqStep_write g3 (exitLabel g.seq ++ ":;\x7dwhile(0)".toList)
      have s12 := SeqStep_trans (SeqStep_trans s1 (SeqStep_trans (SeqStep_write _ _) s2)) s3
      refine ⟨SeqStep_trans s12 s4, ?_⟩
      have := s2.1
      have := s3.1
      simp only [GenState.write] at *
      omega

theorem genItems_seq (P : Parser) (srcFileName : List Char) (depth : Nat) (items : List CxxItem) :
    ∀ (firstCode : Bool) (g g' : GenState),
      genItems P srcFileName depth items firstCode g = .ok g' → SeqStep g g' := by
  induction items with
  | nil =>
    intro fc g g' h
    simp only [genItems, Res.ok.injEq] at h
    subst h
    exact SeqStep_refl _
  | cons item rest ih =>
    intro fc g g' h
    simp only [genItems] at h
    split at h
    · split at h
      · obtain ⟨t, -, h⟩ := Res.bind_eq_ok h
        exact SeqStep_trans (SeqStep_write _ _) (ih _ _ _ h)
      · exact SeqStep_trans (SeqStep_write _ _) (ih _ _ _ h)
    · split at h
      · exact absurd h (by simp)
      · obtain ⟨g1, h1, h⟩ := Res.bind_eq_ok h
        exact SeqStep_trans (expand_seq _ _ _ _ _ _ _ _ _ h1).1 (ih _ _ _ h)
    · exact ih _ _ _ h

/-! ### Hexadecimal names -/

theorem hexDigitVal_digitChar (k : Nat) (hk : k < 16) : hexDigitVal (Nat.digitChar k) = k := by
  interval_cases k <;> rfl

theorem digitChar_ne_underscore (k : Nat) (hk : k < 16) : Nat.digitChar k ≠ '_' := by
  interval_cases k <;> decide

theorem toDigitsCore_hexValue (fuel : Nat) : ∀ (n : Nat) (ds : List Char), n < fuel →
    hexValue 0 (Nat.toDigitsCore 16 fuel n ds) = hexValue n ds := by
  induction fuel with
  | zero => intro n ds h; omega
  | succ fuel ih =>
    intro n ds h
    simp only [Nat.toDigitsCore]
    split
    · rename_i h0
      have hn : n % 16 = n := by omega
      simp [hexValue, hexDigitVal_digitChar n (by omega), hn]
    · rename_i h0
      rw [ih _ _ (by omega)]
      simp only [hexValue, List.foldl_cons, hexDigitVal_digitChar _ (Nat.mod_lt n (by decide))]
      congr 1
      omega

theorem toDigitsCore_no_underscore (fuel : Nat) : ∀ (n : Nat) (ds : List Char),
    (∀ c ∈ ds, c ≠ '_') → ∀ c ∈ Nat.toDigitsCore 16 fuel n ds, c ≠ '_' := by
  induction fuel with
  | zero => intro n ds h; simpa [Nat.toDigitsCore] using h
  | succ fuel ih =>
    intro n ds h
    have hd : ∀ c ∈ Nat.digitChar (n % 16) :: ds, c ≠ '_' := by
      intro c hc
      rcases List.mem_cons.1 hc with rfl | hc
      · exact digitChar_ne_underscore _ (Nat.mod_lt n (by decide))
      · exact h c hc
    simp only [Nat.toDigitsCore]
    split
    · exact hd
    · exact ih _ _ hd

theorem hex_injective {i j : Nat} (h : hex i = hex j) : i = j := by
  have hi := toDigitsCore_hexValue (i + 1) i [] (by omega)
  have hj := toDigitsCore_hexValue (j + 1) j [] (by omega)
  simp only [hex, Nat.toDigits] at h
  rw [h, hj] at hi
  simpa [hexValue] using hi.symm

theorem hex_no_underscore (i : Nat) : ∀ c ∈ hex i, c ≠ '_' :=
  toDigitsCore_no_underscore _ _ _ (by simp)

theorem takeWhile_hex (i : Nat) (rest : List Char) :
    (hex i ++ '_' :: rest).takeWhile (fun c => c ≠ '_') = hex i := by
  rw [List.takeWhile_append_of_pos (fun c hc => by simpa using hex_no_underscore i c hc)]
  simp

theorem Dag.find_erase (d : Dag) (k x : Nat) :
    Dag.find (Dag.erase d k) x = if x = k then none else Dag.find d x := by
  induction d with
  | nil => simp [Dag.find, Dag.erase]
  | cons e d ih =>
    obtain ⟨a, v⟩ := e
    unfold Dag.erase at ih ⊢
    rw [List.filter_cons]
    by_cases ha : a = k
    · have h1 : decide ((a, v).1 ≠ k) = false := by simp [ha]
      rw [h1]
      simp only [Bool.false_eq_true, ↓reduceIte]
      rw [ih]
      by_cases hx : x = k
      · simp [hx]
      · have hax : ¬ a = x := by rw [ha]; exact fun h => hx h.symm
        simp [hx, Dag.find, hax]
    · have h1 : decide ((a, v).1 ≠ k) = true := by simp [ha]
      rw [h1]
      simp only [↓reduceIte, Dag.find]
      by_cases hax : a = x
      · have hx : ¬ x = k := by rw [← hax]; exact ha
        simp [hax, hx]
      · simp only [hax, ↓reduceIte]
        exact ih

theorem Dag.keys_erase (d : Dag) (k : Nat) :
    Dag.keys (Dag.erase d k) = (Dag.keys d).filter fun x => decide (x ≠ k) := by
  simp [Dag.keys, Dag.erase, List.filter_map, Function.comp_def]

theorem Dag.length_keys (d : Dag) : (Dag.keys d).length = d.length := by
  simp [Dag.keys]

theorem Dag.touch_of_mem (d : Dag) (key : Nat) (hs : (Dag.keys d).Pairwise (· < ·))
    (hk : key ∈ Dag.keys d) : Dag.touch d key = d := by
  induction d with
  | nil => simp [Dag.keys] at hk
  | cons e d ih =>
    obtain ⟨a, v⟩ := e
    simp only [Dag.keys, List.map_cons, List.pairwise_cons, List.mem_cons] at hs hk
    simp only [Dag.touch]
    rcases hk with rfl | hk
    · simp
    · have hlt : a < key := hs.1 key hk
      have h1 : ¬ key < a := by omega
      have h2 : ¬ key = a := by omega
      simp only [h1, ↓reduceIte, h2]
      rw [ih hs.2 hk]

theorem eraseFromCallers_spec (k : Nat) (cs : List Nat) : ∀ (d : Dag),
    (Dag.keys d).Pairwise (· < ·) → (∀ c ∈ cs, c ∈ Dag.keys d) →
    Dag.keys (eraseFromCallers k cs d) = Dag.keys d
    ∧ ∀ x, Dag.find (eraseFromCallers k cs d) x =
        (Dag.find d x).map fun s => if x ∈ cs then setErase s k else s := by
  induction cs with
  | nil =>
    intro d _ _
    refine ⟨rfl, fun x => ?_⟩
    simp only [eraseFromCallers]
    cases Dag.find d x <;> simp
  | cons c cs ih =>
    intro d hs hc
    have hcd : c ∈ Dag.keys d := hc c (List.mem_cons_self _ _)
    simp only [eraseFromCallers, Dag.touch_of_mem d c hs hcd]
    have hk1 : Dag.keys (Dag.modifySet d c fun s => setErase s k) = Dag.keys d :=
      Dag.keys_modifySet _ _ _
    obtain ⟨h1, h2⟩ := ih (Dag.modifySet d c fun s => setErase s k) (by rw [hk1]; exact hs)
      (by rw [hk1]; exact fun a ha => hc a (List.mem_cons_of_mem _ ha))
    refine ⟨h1.trans hk1, fun x => ?_⟩
    rw [h2, Dag.find_modifySet]
    cases hf : Dag.find d x with
    | none => simp
    | some s =>
      by_cases hxc : x = c
      · subst hxc
        by_cases hxs : x ∈ cs
        · simp [hxs, setErase, List.filter_filter]
        · simp [hxs]
      · by_cases hxs : x ∈ cs <;> simp [hxc, hxs]

theorem mem_setErase (s : List Nat) (k x : Nat) : x ∈ setErase s k ↔ x ∈ s ∧ x ≠ k := by
  simp [setErase]

theorem Dag.nextKey_eq (d : Dag) (k : Nat) :
    Dag.nextKey d k = ((Dag.keys d).filter fun x => decide (k < x)).head? := by
  induction d with
  | nil => rfl
  | cons e d ih =>
    obtain ⟨a, v⟩ := e
    simp only [Dag.nextKey, Dag.keys, List.map_cons] at ih ⊢
    by_cases h : k < a
    · simp [List.find?, List.filter, h]
    · simp only [List.find?, h, decide_False, List.filter]
      exact ih

theorem length_filter_lt_of_imp (L : List Nat) (p q : Nat → Bool) (hpq : ∀ x, p x = true → q x = true)
    (x : Nat) (hx : x ∈ L) (hqx : q x = true) (hpx : p x = false) :
    (L.filter p).length < (L.filter q).length := by
  have e : L.filter p = (L.filter q).filter p := by
    rw [List.filter_filter]
    apply List.filter_congr
    intro y _
    cases hp : p y with
    | false => simp
    | true => simp [hpq y hp]
  rw [e]
  apply List.length_filter_lt_length_iff_exists.2
  exact ⟨x, List.mem_filter.2 ⟨hx, hqx⟩, by simp [hpx]⟩

/-- One step of the `for` loop at a key of the map. -/
theorem leafStep_spec (n : Nat) (funcs : List FuncItem) (C : Nat → Prop) (hn : funcs.length = n)
    (k : Nat) (st : SortState) (hinv : SortInv n funcs C st) (hk : k ∈ Dag.keys st.callDag) :
    ∃ st' b, leafStep funcs k st = .ok (st', b) ∧ SortInv n funcs C st'
      ∧ (∀ x, x ∈ Dag.keys st'.callDag ↔ x ∈ Dag.keys st.callDag ∧ (b = true → x ≠ k))
      ∧ (Dag.keys st'.callDag).Sublist (Dag.keys st.callDag)
      ∧ st'.callDag.length ≤ st.callDag.length
      ∧ (b = true → st'.callDag.length < st.callDag.length) := by
  obtain ⟨s, hs⟩ := Option.isSome_iff_exists.1 ((Dag.find_isSome_iff _ _).2 hk)
  have hkn : k < funcs.length := by rw [hn]; exact hinv.bound k hk
  unfold leafStep
  simp only [hs, List.getElem?_eq_getElem hkn]
  by_cases hleaf : s.length = 0
  · have hs0 : s = [] := List.length_eq_zero.1 hleaf
    subst hs0
    simp only [List.length_nil, ↓reduceIte]
    -- the callers of `k` are keys of the map other than `k`
    have hcall : ∀ c ∈ funcs[k].callers, c ∈ Dag.keys (Dag.erase st.callDag k) := by
      intro c hc
      obtain ⟨sc, hsc, hmem⟩ := hinv.callers k hk funcs[k] (List.getElem?_eq_getElem hkn) c hc
      have hck : c ≠ k := by
        rintro rfl
        rw [hs] at hsc
        cases hsc
        simp at hmem
      rw [← Dag.find_isSome_iff, Dag.find_erase]
      simp [hck, hsc]
    have hsorted : (Dag.keys (Dag.erase st.callDag k)).Pairwise (· < ·) := by
      rw [Dag.keys_erase]
      exact hinv.sortedKeys.filter _
    obtain ⟨hkeys, hfind⟩ := eraseFromCallers_spec k funcs[k].callers _ hsorted hcall
    have hmemkeys : ∀ x, x ∈ Dag.keys (eraseFromCallers k funcs[k].callers (Dag.erase st.callDag k))
        ↔ x ∈ Dag.keys st.callDag ∧ x ≠ k := by
      intro x
      rw [hkeys, Dag.keys_erase]
      simp
    have hfind' : ∀ x sx, x ≠ k → Dag.find st.callDag x = some sx →
        ∃ sx', Dag.find (eraseFromCallers k funcs[k].callers (Dag.erase st.callDag k)) x = some sx'
          ∧ ∀ y, y ∈ sx → y ≠ k → y ∈ sx' := by
      intro x sx hxk hsx
      rw [hfind, Dag.find_erase]
      simp only [hxk, ↓reduceIte, hsx, Option.map_some']
      refine ⟨_, rfl, fun y hy hyk => ?_⟩
      split
      · exact (mem_setErase _ _ _).2 ⟨hy, hyk⟩
      · exact hy
    have hlen : (eraseFromCallers k funcs[k].callers (Dag.erase st.callDag k)).length
        < st.callDag.length := by
      rw [← Dag.length_keys, hkeys, Dag.keys_erase, ← Dag.length_keys]
      exact List.length_filter_lt_length_iff_exists.2 ⟨k, hk, by simp⟩
    have hlen1 : (eraseFromCallers k funcs[k].callers (Dag.erase st.callDag k)).length + 1
        = st.callDag.length := by
      rw [← Dag.length_keys, hkeys, Dag.keys_erase, ← Dag.length_keys]
      have hnd : (Dag.keys st.callDag).Nodup :=
        hinv.sortedKeys.imp (fun h => Nat.ne_of_lt h)
      have hf : (List.filter (fun x => decide (x ≠ k)) (Dag.keys st.callDag))
          = (Dag.keys st.callDag).erase k := by
        rw [List.Nodup.erase_eq_filter hnd k]
        apply List.filter_congr
        intro x _
        by_cases h : x = k <;> simp [h]
      rw [hf, List.length_erase_of_mem hk]
      have : 0 < (Dag.keys st.callDag).length := List.length_pos_of_mem hk
      omega
    refine ⟨_, true, rfl, ⟨?_, ?_, ?_, ?_, ?_⟩, ?_,
      by rw [hkeys, Dag.keys_erase]; exact List.filter_sublist _, Nat.le_of_lt hlen, fun _ => hlen⟩
    · rw [hkeys]; exact hsorted
    · intro x hx
      exact hinv.bound x ((hmemkeys x).1 hx).1
    · intro j hj f hf c hc
      obtain ⟨hj1, hjk⟩ := (hmemkeys j).1 hj
      obtain ⟨sc, hsc, hmem⟩ := hinv.callers j hj1 f hf c hc
      have hck : c ≠ k := by
        rintro rfl
        rw [hs] at hsc
        cases hsc
        simp at hmem
      obtain ⟨sx', h1, h2⟩ := hfind' c sc hck hsc
      exact ⟨sx', h1, h2 j hmem hjk⟩
    · intro v hv
      obtain ⟨sv, hsv, w, hw, hwsv⟩ := hinv.cyc v hv
      have hvk : v ≠ k := by
        rintro rfl
        rw [hs] at hsv
        cases hsv
        simp at hwsv
      have hwk : w ≠ k := by
        rintro rfl
        obtain ⟨sw, hsw, u, -, husw⟩ := hinv.cyc w hw
        rw [hs] at hsw
        cases hsw
        simp at husw
      obtain ⟨sx', h1, h2⟩ := hfind' v sv hvk hsv
      exact ⟨sx', h1, w, hw, h2 w hwsv hwk⟩
    · have := hinv.count
      simp only [List.length_append, List.length_singleton]
      omega
    · intro x
      rw [hmemkeys]
      simp
  · simp only [hleaf, ↓reduceIte]
    exact ⟨st, false, rfl, hinv, fun x => by simp, List.Sublist.refl _, Nat.le_refl _,
      fun h => by simp at h⟩

/-- The `for` loop over `callDag` from its iterator on: it ends, keeps the
invariant, and leaves `foundLeaf` set only when it erased an entry. -/
theorem leafPass_spec (n : Nat) (funcs : List FuncItem) (C : Nat → Prop) (hn : funcs.length = n) :
    ∀ (fuel : Nat) (it : Option Nat) (st : SortState) (fl : Bool),
      SortInv n funcs C st → (∀ k, it = some k → k ∈ Dag.keys st.callDag) →
      passMeasure st.callDag it < fuel →
      ∃ st' fl', leafPass funcs fuel it st fl = .ok (st', fl') ∧ SortInv n funcs C st'
        ∧ st'.callDag.length ≤ st.callDag.length
        ∧ (fl' = true → (it = none ∧ fl = true) ∨ st'.callDag.length < st.callDag.length) := by
  intro fuel
  induction fuel with
  | zero => intro it st fl _ _ h; omega
  | succ fuel ih =>
    intro it st fl hinv hit hm
    cases it with
    | none => exact ⟨st, fl, rfl, hinv, Nat.le_refl _, fun h => Or.inl ⟨rfl, h⟩⟩
    | some k =>
      have hk := hit k rfl
      obtain ⟨st1, b, h1, hinv1, hkeys1, hsub1, hle1, hlt1⟩ := leafStep_spec n funcs C hn k st hinv hk
      simp only [leafPass, h1, Res.bind_ok]
      simp only [passMeasure] at hm
      have hnext : ∀ k2, Dag.nextKey st.callDag k = some k2 → k2 ∈ Dag.keys st.callDag ∧ k < k2 := by
        intro k2 h2
        rw [Dag.nextKey_eq] at h2
        have := List.mem_of_mem_head? h2
        simpa using this
      have hit1 : ∀ k2, Dag.nextKey st.callDag k = some k2 → k2 ∈ Dag.keys st1.callDag := by
        intro k2 h2
        obtain ⟨h3, h4⟩ := hnext k2 h2
        exact (hkeys1 k2).2 ⟨h3, fun _ => by omega⟩
      have hm1 : passMeasure st1.callDag (Dag.nextKey st.callDag k) < fuel := by
        cases h2 : Dag.nextKey st.callDag k with
        | none => simp only [passMeasure]; omega
        | some k2 =>
          obtain ⟨h3, h4⟩ := hnext k2 h2
          simp only [passMeasure]
          have a1 : ((Dag.keys st1.callDag).filter fun x => decide (k2 < x)).length
              ≤ ((Dag.keys st.callDag).filter fun x => decide (k2 < x)).length :=
            (hsub1.filter _).length_le
          have a2 := length_filter_lt_of_imp (Dag.keys st.callDag) (fun x => decide (k2 < x))
            (fun x => decide (k < x)) (fun x hx => by simp at hx ⊢; omega) k2 h3 (by simpa using h4)
            (by simp)
          omega
      obtain ⟨st', fl', h2, hinv', hle', hfl'⟩ := ih _ st1 b hinv1 hit1 hm1
      refine ⟨st', fl', h2, hinv', Nat.le_trans hle' hle1, fun hf => Or.inr ?_⟩
      rcases hfl' hf with ⟨-, hb⟩ | hlt
      · exact Nat.lt_of_le_of_lt hle' (hlt1 hb)
      · exact Nat.lt_of_lt_of_le hlt hle1

/-- The `do .. while (foundLeaf)` loop ends within its bound and keeps the invariant. -/
theorem sortLoop_spec (n : Nat) (funcs : List FuncItem) (C : Nat → Prop) (hn : funcs.length = n) :
    ∀ (fuel : Nat) (st : SortState), SortInv n funcs C st → st.callDag.length < fuel →
      ∃ st', sortLoop funcs fuel st = .ok st' ∧ SortInv n funcs C st' := by
  intro fuel
  induction fuel with
  | zero => intro st _ h; omega
  | succ fuel ih =>
    intro st hinv hlen
    have hfirst : ∀ k, Dag.firstKey st.callDag = some k → k ∈ Dag.keys st.callDag := by
      intro k hk
      simp only [Dag.firstKey, Dag.keys] at hk ⊢
      cases hd : st.callDag with
      | nil => rw [hd] at hk; simp at hk
      | cons e d =>
        rw [hd] at hk
        simp only [List.head?_cons, Option.map_some', Option.some.injEq] at hk
        simp [hk]
    have hcount := hinv.count
    have hm : passMeasure st.callDag (Dag.firstKey st.callDag) < funcs.length + 1 := by
      cases hk : Dag.firstKey st.callDag with
      | none => simp [passMeasure]
      | some k =>
        simp only [passMeasure]
        have := List.length_filter_lt_length_iff_exists.2
          (⟨k, hfirst k hk, by simp⟩ : ∃ x ∈ Dag.keys st.callDag, ¬ (decide (k < x)) = true)
        rw [Dag.length_keys] at this
        omega
    obtain ⟨st1, fl, h1, hinv1, hle1, hfl⟩ :=
      leafPass_spec n funcs C hn _ (Dag.firstKey st.callDag) st false hinv hfirst hm
    simp only [sortLoop, h1, Res.bind_ok]
    cases fl with
    | false => exact ⟨st1, by simp, hinv1⟩
    | true =>
      simp only [↓reduceIte]
      rcases hfl rfl with ⟨-, h⟩ | h
      · exact absurd h (by simp)
      · exact ih st1 hinv1 (by omega)

/-- The loop that builds the message lists the name of every function left. -/
theorem recursiveNames_spec (buf : List Char) (funcs : List FuncItem) (d : Dag) :
    ∀ (acc : String × Nat × Nat), (∀ k ∈ Dag.keys d, k < funcs.length) →
      ∃ r tail, recursiveNames buf funcs d acc = .ok r ∧ r.1 = acc.1 ++ tail
        ∧ ∀ k ∈ Dag.keys d, ∀ f, funcs[k]? = some f →
            ∃ a b, tail = a ++ (" " ++ String.mk (f.nameText buf)) ++ b := by
  induction d with
  | nil =>
    intro acc _
    exact ⟨acc, "", rfl, by simp, by simp [Dag.keys]⟩
  | cons e d ih =>
    obtain ⟨k, s⟩ := e
    intro acc hb
    have hk : k < funcs.length := hb k (by simp [Dag.keys])
    simp only [recursiveNames, List.getElem?_eq_getElem hk]
    obtain ⟨r, tail, h1, h2, h3⟩ := ih
      (acc.1 ++ (" " ++ String.mk (slice buf funcs[k].name.s funcs[k].name.len)),
        if acc.2.1 = 0 then funcs[k].name.row else acc.2.1,
        if acc.2.1 = 0 then funcs[k].name.col else acc.2.2)
      (fun x hx => hb x (by simp only [Dag.keys, List.map_cons, List.mem_cons] at hx ⊢; exact Or.inr hx))
    refine ⟨r, (" " ++ String.mk (slice buf funcs[k].name.s funcs[k].name.len)) ++ tail, h1, ?_, ?_⟩
    · rw [h2, String.append_assoc]
    · intro x hx f hf
      simp only [Dag.keys, List.map_cons, List.mem_cons] at hx
      rcases hx with rfl | hx
      · rw [List.getElem?_eq_getElem hk] at hf
        cases hf
        exact ⟨"", tail, by simp [FuncItem.nameText]⟩
      · obtain ⟨a, b, hab⟩ := h3 x hx f hf
        refine ⟨(" " ++ String.mk (slice buf funcs[k].name.s funcs[k].name.len)) ++ a, b, ?_⟩
        rw [hab]
        simp only [String.append_assoc]

/-- A function on a cycle calls a function on a cycle. -/
theorem OnCycle.next {P : Parser} {v : Nat} (h : OnCycle P v) :
    ∃ w, callEdge P v w ∧ OnCycle P w := by
  obtain ⟨w, hvw, hwv⟩ := Relation.TransGen.head'_iff.1 h
  exact ⟨w, hvw, Relation.TransGen.tail' hwv hvw⟩

/-- When the first three loops of `prepare` pass on a unit, the leaf-removal loop
ends with every function that lies on a cycle still in `callDag`, and `prepare`
throws the recursive-calls error, whose message lists them. -/
theorem prepare_cycle_error (P : Parser) (hn : P.name2Func_ = [])
    (hcallers : ∀ f ∈ P.funcs_, f.callers = []) (v : Nat) (hv : OnCycle P v)
    (m : NameMap) (fs : List FuncItem) (st : PrepState) (calls1 : List CallItem)
    (h1 : prepareFuncs P.lex_.buf P.funcs_ 0 P.name2Func_ = .ok (m, fs))
    (h2 : prepareCalls m fs 0 { funcs := fs, callDag := Dag.init fs.length } = .ok st)
    (h3 : prepareTopCalls m P.calls_ = .ok calls1) :
    ∃ row col names, P.prepare = .err ⟨row, col, "There is recursive calls:" ++ names⟩
      ∧ ∀ u f, OnCycle P u → P.funcs_[u]? = some f →
          ∃ a b, names = a ++ (" " ++ String.mk (f.nameText P.lex_.buf)) ++ b := by
  have h1' := h1
  rw [hn] at h1'
  obtain ⟨hlen, hm, -, hsome, hsame⟩ := prepareFuncs_table _ _ _ _ h1'
  have hspec := prepareCalls_spec m fs.length hm fs 0 _ (by omega) (PrepInv_init fs)
  rw [h2] at hspec
  obtain ⟨hinv, hext, hJ, hedges⟩ := hspec
  -- the functions after the first loop have no recorded caller
  have hfs : ∀ f ∈ fs, f.callers = [] := by
    intro f' hf'
    obtain ⟨idx, hidx⟩ := List.mem_iff_getElem?.1 hf'
    have hlt : idx < P.funcs_.length := by
      rw [← hlen]
      exact (List.getElem?_eq_some.1 hidx).1
    obtain ⟨f'', hf'', heq⟩ := hsame idx _ (List.getElem?_eq_getElem hlt)
    rw [hidx] at hf''
    cases hf''
    rw [heq]
    exact hcallers P.funcs_[idx] (List.getElem_mem hlt)
  have hJ' := hJ (CallersInDag_init fs _ hfs)
  -- every call edge is in the map
  have hedge : ∀ i j, callEdge P i j → ∃ s, Dag.find st.callDag i = some s ∧ j ∈ s := by
    rintro i j ⟨f, g, c, hf, hg, hc, hname⟩
    obtain ⟨f', hf', heq⟩ := hsame i f hf
    have hc' : c ∈ f'.calls := by rw [heq]; exact hc
    obtain ⟨k, hk, -, s, hs, hks⟩ := hedges i f' hf' c hc'
    rw [hname, hsome j g hg] at hk
    cases hk
    simp only [Nat.zero_add] at hs
    exact ⟨s, hs, hks⟩
  have hinit : SortInv fs.length st.funcs (OnCycle P) { callDag := st.callDag, sorted := [] } := by
    refine ⟨?_, ?_, ?_, ?_, ?_⟩
    · simp only [hinv.keys]; exact List.pairwise_lt_range _
    · intro k hk; simp only [hinv.keys] at hk; simpa using hk
    · intro j _ f hf c hc; exact hJ' j f hf c hc
    · intro u hu
      obtain ⟨w, huw, hw⟩ := hu.next
      obtain ⟨s, hs, hws⟩ := hedge u w huw
      exact ⟨s, hs, w, hw, hws⟩
    · simp only [List.length_nil, Nat.zero_add]
      rw [← Dag.length_keys, hinv.keys, List.length_range]
  obtain ⟨ss, hss, hsinv⟩ := sortLoop_spec fs.length st.funcs (OnCycle P) hinv.len
    (st.funcs.length + 1) _ hinit (by
      simp only
      rw [← Dag.length_keys, hinv.keys, List.length_range, hinv.len]
      omega)
  have hkeyOf : ∀ u, OnCycle P u → u ∈ Dag.keys ss.callDag := by
    intro u hu
    obtain ⟨s, hs, -⟩ := hsinv.cyc u hu
    exact (Dag.find_isSome_iff _ _).1 (by simp [hs])
  have hne : ss.sorted.length ≠ st.funcs.length := by
    have h4 := hsinv.count
    have h5 : 0 < ss.callDag.length := by
      rw [← Dag.length_keys]
      exact List.length_pos_of_mem (hkeyOf v hv)
    rw [hinv.len]
    omega
  obtain ⟨r, tail, hr, hr1, hr2⟩ := recursiveNames_spec P.lex_.buf st.funcs ss.callDag ("", 0, 0)
    (fun k hk => by rw [hinv.len]; exact hsinv.bound k hk)
  refine ⟨r.2.1, r.2.2, r.1, ?_, ?_⟩
  · unfold Parser.prepare
    rw [h1]
    simp only [Res.bind_ok]
    rw [h2]
    simp only [Res.bind_ok]
    rw [h3]
    simp only [Res.bind_ok]
    rw [hss]
    simp only [Res.bind_ok, if_pos hne]
    rw [hr]
    rfl
  · intro u f hu hf
    obtain ⟨f', hf', heq⟩ := hsame u f hf
    have hsig := hext.sig u
    simp only [hf', Option.map_some'] at hsig
    obtain ⟨f2, hf2, hsig2⟩ := Option.map_eq_some'.1 hsig
    obtain ⟨a, b, hab⟩ := hr2 u (hkeyOf u hu) f2 hf2
    refine ⟨a, b, ?_⟩
    have hname : f2.nameText P.lex_.buf = f.nameText P.lex_.buf := by
      have e1 : f2.name = f'.name := congrArg Prod.fst hsig2
      have e2 : f'.name = f.name := by rw [heq]
      simp only [FuncItem.nameText, e1, e2]
    rw [← hname, ← hab]
    simpa using hr1

/-- C4: when the call graph of the `BL_func` definitions has a cycle, `prepare`
throws a `BlError`, and with it the construction of the parser from every source
the scan turns into this unit; when the three loops before the leaf removal pass,
the error is the recursive-calls error and its message holds the name of every
function that lies on a cycle. -/
theorem C4_cycle_rejected (P : Parser) (v : Nat) (hn : P.name2Func_ = [])
    (hcallers : ∀ f ∈ P.funcs_, f.callers = []) (hv : OnCycle P v) :
    (∃ e, P.prepare = .err e)
    ∧ (∀ src, Parser.parse src = .ok P → ∃ e, Parser.new src = .err e)
    ∧ ∀ m fs st calls1, prepareFuncs P.lex_.buf P.funcs_ 0 P.name2Func_ = .ok (m, fs) →
        prepareCalls m fs 0 { funcs := fs, callDag := Dag.init fs.length } = .ok st →
        prepareTopCalls m P.calls_ = .ok calls1 →
        ∃ row col names, P.prepare = .err ⟨row, col, "There is recursive calls:" ++ names⟩
          ∧ ∀ u f, OnCycle P u → P.funcs_[u]? = some f →
              ∃ a b, names = a ++ (" " ++ String.mk (f.nameText P.lex_.buf)) ++ b := by
  suffices hprep : ∃ e, P.prepare = .err e from
    ⟨hprep, fun src hs => by rw [new_of_parse src P hs]; exact hprep,
      fun m fs st calls1 h1 h2 h3 => prepare_cycle_error P hn hcallers v hv m fs st calls1 h1 h2 h3⟩
  have h0 := prepareFuncs_okOrErr P.lex_.buf P.funcs_ 0 P.name2Func_
  cases h1 : prepareFuncs P.lex_.buf P.funcs_ 0 P.name2Func_ with
  | ok r =>
    obtain ⟨m, fs⟩ := r
    have h1' := h1
    rw [hn] at h1'
    obtain ⟨hlen, hm, -, -, -⟩ := prepareFuncs_table _ _ _ _ h1'
    have hspec := prepareCalls_spec m fs.length hm fs 0 _ (by omega) (PrepInv_init fs)
    cases h2 : prepareCalls m fs 0 { funcs := fs, callDag := Dag.init fs.length } with
    | ok st =>
      have htop := prepareTopCalls_spec m P.calls_
      cases h3 : prepareTopCalls m P.calls_ with
      | ok calls1 =>
        obtain ⟨row, col, names, he, -⟩ := prepare_cycle_error P hn hcallers v hv m fs st calls1 h1 h2 h3
        exact ⟨_, he⟩
      | err e => exact ⟨e, by simp [Parser.prepare, h1, h2, h3]⟩
      | fuel => rw [h3] at htop; exact absurd htop id
      | ub => rw [h3] at htop; exact absurd htop id
    | err e => exact ⟨e, by simp [Parser.prepare, h1, h2]⟩
    | fuel => rw [h2] at hspec; exact absurd hspec id
    | ub => rw [h2] at hspec; exact absurd hspec id
  | err e => exact ⟨e, by simp [Parser.prepare, h1]⟩
  | fuel => rw [h1] at h0; exact absurd h0 id
  | ub => rw [h1] at h0; exact absurd h0 id

/-- C4 at the unit in which `A` calls `B` and `B` calls `A`. -/
theorem C4_cycle_rejected_witness :
    (∃ e, Parser.new mutualSrc = .err e)
    ∧ Parser.new mutualSrc = .err ⟨1, 17, "There is recursive calls: A B"⟩ :=
  ⟨(C4_cycle_rejected (parsed mutualSrc) 0 (by decide!) (by decide!)
      (Relation.TransGen.tail
        (Relation.TransGen.single
          (show callEdge (parsed mutualSrc) 0 1 from
            ⟨funcAt (parsed mutualSrc) 0, funcAt (parsed mutualSrc) 1,
              firstCallOf (parsed mutualSrc) 0, by decide!, by decide!, by decide!, by decide!⟩))
        (show callEdge (parsed mutualSrc) 1 0 from
          ⟨funcAt (parsed mutualSrc) 1, funcAt (parsed mutualSrc) 0,
            firstCallOf (parsed mutualSrc) 1, by decide!, by decide!, by decide!, by decide!⟩))).2.1
      mutualSrc (by decide!),
   by decide!⟩

/-! ### What the scan hands to `prepare` -/

theorem checkAddCode_fresh (P : Parser) (row col : Nat) (p : Int) (h : P.Fresh) :
    (P.checkAddCode row col p).Fresh := by
  unfold Parser.checkAddCode
  by_cases hn : P.lex_.getSizeFrom p > 0
  · simp only [hn, ↓reduceIte]
    exact h
  · simp only [hn, ↓reduceIte]
    exact h

theorem parseBlFunc_fresh (P P' : Parser) (h : P.Fresh) (hp : P.parseBlFunc = .ok P') :
    P'.Fresh := by
  unfold Parser.parseBlFunc at hp
  obtain ⟨r0, -, hp⟩ := Res.bind_eq_ok hp
  split at hp
  · exact absurd hp (by simp)
  obtain ⟨b0, -, hp⟩ := Res.bind_eq_ok hp
  obtain ⟨t, -, hp⟩ := Res.bind_eq_ok hp
  split at hp
  · exact absurd hp (by simp)
  obtain ⟨fn, -, hp⟩ := Res.bind_eq_ok hp
  obtain ⟨r1, -, hp⟩ := Res.bind_eq_ok hp
  split at hp
  · exact absurd hp (by simp)
  obtain ⟨pb, -, hp⟩ := Res.bind_eq_ok hp
  obtain ⟨ps, -, hp⟩ := Res.bind_eq_ok hp
  split at hp
  · exact absurd hp (by simp)
  obtain ⟨r2, -, hp⟩ := Res.bind_eq_ok hp
  split at hp
  · exact absurd hp (by simp)
  obtain ⟨bb, -, hp⟩ := Res.bind_eq_ok hp
  obtain ⟨r3, -, hp⟩ := Res.bind_eq_ok hp
  obtain ⟨b, -, hp⟩ := Res.bind_eq_ok hp
  obtain ⟨b1, -, hp⟩ := Res.bind_eq_ok hp
  simp only [Res.ok.injEq] at hp
  subst hp
  refine ⟨h.1, ?_⟩
  intro f hf
  simp only [List.mem_append, List.mem_singleton] at hf
  rcases hf with hf | rfl
  · exact h.2 f hf
  · exact ⟨rfl, rfl⟩

theorem topLoop_fresh : ∀ (fuel : Nat) (t t' : TopScan), t.P.Fresh → topLoop fuel t = .ok t' →
    t'.P.Fresh := by
  intro fuel
  induction fuel with
  | zero => intro t t' _ h; simp [topLoop] at h
  | succ fuel ih =>
    intro t t' hf h
    simp only [topLoop] at h
    split at h
    · simp only [Res.ok.injEq] at h
      subst h
      exact hf
    · split at h
      · obtain ⟨s, -, h⟩ := Res.bind_eq_ok h
        obtain ⟨r, -, h⟩ := Res.bind_eq_ok h
        exact ih _ _ (by exact hf) h
      · split at h
        · split at h
          · obtain ⟨r, -, h⟩ := Res.bind_eq_ok h
            exact ih _ _ (by exact hf) h
          · obtain ⟨P1, hP1, h⟩ := Res.bind_eq_ok h
            obtain ⟨r, -, h⟩ := Res.bind_eq_ok h
            have hP1f := parseBlFunc_fresh _ P1 (checkAddCode_fresh _ _ _ _ hf) hP1
            exact ih _ _ (by exact ⟨hP1f.1, hP1f.2⟩) h
          · obtain ⟨x, -, h⟩ := Res.bind_eq_ok h
            obtain ⟨r, -, h⟩ := Res.bind_eq_ok h
            exact ih _ _ (by exact checkAddCode_fresh _ _ _ _ hf) h
          · exact absurd h (by simp)
        · obtain ⟨r, -, h⟩ := Res.bind_eq_ok h
          exact ih _ _ (by exact hf) h

/-- Every parser state the scan builds is fresh: the hypotheses on the name
table and on the recorded callers in the theorems on `prepare` hold for it. -/
theorem parse_fresh (src : List Char) (P : Parser) (h : Parser.parse src = .ok P) : P.Fresh := by
  unfold Parser.parse at h
  obtain ⟨r, -, h⟩ := Res.bind_eq_ok h
  obtain ⟨t, ht, h⟩ := Res.bind_eq_ok h
  simp only [Res.ok.injEq] at h
  subst h
  exact checkAddCode_fresh _ _ _ _ (topLoop_fresh _ _ _ ⟨rfl, by simp⟩ ht)

/-! ### The lexer moves forward -/

theorem Lexer.Le.refl (l : Lexer) (h : l.p_ ≤ l.pe_) : Lexer.Le l l :=
  ⟨rfl, rfl, rfl, Int.le_refl _, h⟩

theorem Lexer.Le.trans' {a b c : Lexer} (h₁ : Lexer.Le a b) (h₂ : Lexer.Le b c) : Lexer.Le a c :=
  ⟨h₂.buf.trans h₁.buf, h₂.src.trans h₁.src, h₂.pe.trans h₁.pe, Int.le_trans h₁.mono h₂.mono,
    h₂.inRange⟩

theorem Lexer.get_spec (l : Lexer) (h : l.p_ ≤ l.pe_) :
    Lexer.Le l l.get.2 ∧ (l.get.1 ≠ NUL → l.get.2.p_ = l.p_ + 1 ∧ Lexer.At l.get.1 l.get.2) := by
  unfold Lexer.get
  by_cases hend : l.p_ + 1 ≥ l.pe_
  · simp only [hend, ↓reduceIte]
    exact ⟨⟨rfl, rfl, rfl, h, Int.le_refl _⟩, fun hc => absurd rfl hc⟩
  · simp only [hend, ↓reduceIte]
    have hlt : l.p_ + 1 < l.pe_ := by omega
    refine ⟨⟨?_, ?_, ?_, ?_, ?_⟩, fun _ => ⟨?_, ?_, ?_⟩⟩ <;>
      (split <;> split <;> simp <;> omega)

theorem Lexer.get_step (l : Lexer) (h : l.p_ ≤ l.pe_) : Lexer.Step l l.get := by
  obtain ⟨h1, h2⟩ := Lexer.get_spec l h
  exact ⟨h1, fun hc => by rw [(h2 hc).1]; omega, fun hc _ => (h2 hc).2⟩

theorem Lexer.need_get_lt (l : Lexer) (h : l.p_ ≤ l.pe_) (c : Char) (hc : c ≠ NUL) (fuel : Nat)
    (hf : Lexer.need c l < fuel + 1) : Lexer.need l.get.1 l.get.2 < fuel := by
  obtain ⟨h1, h2⟩ := Lexer.get_spec l h
  simp only [Lexer.need, hc, ↓reduceIte, Lexer.rest] at hf ⊢
  split
  · omega
  · rename_i hne
    have := (h2 hne).1
    have := (h2 hne).2.1
    have := h1.pe
    omega

theorem Lexer.need_step_lt (l : Lexer) (r : Char × Lexer) (hs : Lexer.Step l r) (c : Char)
    (hc : c ≠ NUL) (fuel : Nat) (hf : Lexer.need c l < fuel + 1) : Lexer.need r.1 r.2 < fuel := by
  obtain ⟨h1, h2, -⟩ := hs
  simp only [Lexer.need, hc, ↓reduceIte, Lexer.rest] at hf ⊢
  split
  · omega
  · rename_i hne
    have := h2 hne
    have := h1.pe
    have := h1.inRange
    omega

theorem skipMultilineCommentLoop_spec : ∀ (fuel : Nat) (findStar : Bool) (c : Char) (l : Lexer),
    l.p_ ≤ l.pe_ → Lexer.need c l < fuel →
    (Lexer.skipMultilineCommentLoop fuel findStar c l).OkOrErr fun l' => Lexer.Le l l' := by
  intro fuel
  induction fuel with
  | zero => intro _ _ _ _ h; omega
  | succ fuel ih =>
    intro fs c l hl hf
    simp only [Lexer.skipMultilineCommentLoop]
    by_cases hc : c = NUL
    · simp [hc, Res.OkOrErr]
    · simp only [hc, ↓reduceIte]
      have hg := (Lexer.get_spec l hl).1
      have hrec : ∀ b, (Lexer.skipMultilineCommentLoop fuel b l.get.1 l.get.2).OkOrErr
          fun l' => Lexer.Le l l' := by
        intro b
        have := ih b l.get.1 l.get.2 hg.inRange (Lexer.need_get_lt l hl c hc fuel hf)
        cases hr : Lexer.skipMultilineCommentLoop fuel b l.get.1 l.get.2 with
        | ok l' => rw [hr] at this; exact hg.trans' this
        | err e => trivial
        | fuel => rw [hr] at this; exact this
        | ub => rw [hr] at this; exact this
      cases fs with
      | false => simpa using hrec _
      | true =>
        simp only [Bool.not_true, Bool.false_eq_true, ↓reduceIte]
        split
        · exact Lexer.Le.refl l hl
        · exact hrec _

theorem skipLineLoop_spec : ∀ (fuel : Nat) (c : Char) (l : Lexer),
    l.p_ ≤ l.pe_ → Lexer.need c l < fuel →
    (Lexer.skipLineLoop fuel c l).OkOrErr fun l' => Lexer.Le l l' := by
  intro fuel
  induction fuel with
  | zero => intro _ _ _ h; omega
  | succ fuel ih =>
    intro c l hl hf
    simp only [Lexer.skipLineLoop]
    split
    · rename_i hc
      have hg := (Lexer.get_spec l hl).1
      have := ih l.get.1 l.get.2 hg.inRange (Lexer.need_get_lt l hl c hc.1 fuel hf)
      cases hr : Lexer.skipLineLoop fuel l.get.1 l.get.2 with
      | ok l' => rw [hr] at this; exact hg.trans' this
      | err e => trivial
      | fuel => rw [hr] at this; exact this
      | ub => rw [hr] at this; exact this
    · exact Lexer.Le.refl l hl

theorem Lexer.need_le_bound (c : Char) (l l0 : Lexer) (h : Lexer.Le l0 l) :
    Lexer.need c l < l0.bound := by
  have := h.pe
  have := h.mono
  simp only [Lexer.need, Lexer.bound, Lexer.rest]
  split <;> omega

/-- `skipCommentsGet` ends with a value or an error, and the value is a step. -/
theorem skipCommentsGet_spec (l : Lexer) (h : l.p_ ≤ l.pe_) :
    (l.skipCommentsGet).OkOrErr (Lexer.Step l) := by
  obtain ⟨h1, h2⟩ := Lexer.get_spec l h
  unfold Lexer.skipCommentsGet
  by_cases hc : l.get.1 = '/'
  · have hne : l.get.1 ≠ NUL := by rw [hc]; decide
    obtain ⟨hp, hat⟩ := h2 hne
    obtain ⟨g1, g2⟩ := Lexer.get_spec l.get.2 h1.inRange
    simp only [hc, ne_eq, not_true_eq_false, ↓reduceIte]
    have h12 : Lexer.Le l l.get.2.get.2 := h1.trans' g1
    split
    · have := skipMultilineCommentLoop_spec l.get.2.get.2.bound false l.get.2.get.2.get.1
        l.get.2.get.2.get.2 (Lexer.get_spec _ g1.inRange).1.inRange
        (Lexer.need_le_bound _ _ _ (Lexer.get_spec _ g1.inRange).1)
      unfold Lexer.skipMultilineComment
      cases hr : Lexer.skipMultilineCommentLoop l.get.2.get.2.bound false l.get.2.get.2.get.1
          l.get.2.get.2.get.2 with
      | ok l3 =>
        rw [hr] at this
        have hle : Lexer.Le l l3 := h12.trans' ((Lexer.get_spec _ g1.inRange).1.trans' this)
        refine ⟨hle, fun _ => ?_, fun _ hsp => absurd rfl hsp⟩
        have := g1.mono
        have := ((Lexer.get_spec _ g1.inRange).1.trans' ‹Lexer.Le l.get.2.get.2.get.2 l3›).mono
        show l.p_ < l3.p_
        omega
      | err e => trivial
      | fuel => rw [hr] at this; exact this
      | ub => rw [hr] at this; exact this
    · split
      · have := skipLineLoop_spec l.get.2.get.2.bound l.get.2.get.2.get.1
          l.get.2.get.2.get.2 (Lexer.get_spec _ g1.inRange).1.inRange
          (Lexer.need_le_bound _ _ _ (Lexer.get_spec _ g1.inRange).1)
        cases hr : Lexer.skipLineLoop l.get.2.get.2.bound l.get.2.get.2.get.1
            l.get.2.get.2.get.2 with
        | ok l3 =>
          rw [hr] at this
          have hle : Lexer.Le l l3 := h12.trans' ((Lexer.get_spec _ g1.inRange).1.trans' this)
          refine ⟨hle, fun _ => ?_, fun _ hsp => absurd rfl hsp⟩
          have := g1.mono
          have := ((Lexer.get_spec _ g1.inRange).1.trans' ‹Lexer.Le l.get.2.get.2.get.2 l3›).mono
          show l.p_ < l3.p_
          omega
        | err e => trivial
        | fuel => rw [hr] at this; exact this
        | ub => rw [hr] at this; exact this
      · simp only [Res.OkOrErr, Lexer.Step, Lexer.loadPos, Lexer.At]
        refine ⟨⟨g1.buf.trans h1.buf, g1.src.trans h1.src, g1.pe.trans h1.pe, h1.mono, ?_⟩,
          fun _ => by omega, fun _ _ => ⟨?_, ?_⟩⟩
        · simp only [g1.pe]; exact h1.inRange
        · simp only [g1.pe]; exact hat.1
        · simp only [g1.buf]; rw [← hc]; exact hat.2
  · simp only [ne_eq, hc, not_false_eq_true, ↓reduceIte, Res.OkOrErr]
    exact Lexer.get_step l h

/-- The loop of `skipBlanks` ends with a value or an error; the value is a
character that is no blank, under the cursor unless it is NUL. -/
theorem skipBlanksLoop_spec : ∀ (fuel : Nat) (c : Char) (l : Lexer),
    l.p_ ≤ l.pe_ → Lexer.need c l < fuel → (c ≠ NUL → c ≠ ' ' → Lexer.At c l) →
    (Lexer.skipBlanksLoop fuel c l).OkOrErr fun r =>
      Lexer.Le l r.2 ∧ IsSpaceChar r.1 = false ∧ (r.1 ≠ NUL → Lexer.At r.1 r.2)
        ∧ (r.1 ≠ NUL → r = (c, l) ∨ l.p_ < r.2.p_) := by
  intro fuel
  induction fuel with
  | zero => intro _ _ _ h; omega
  | succ fuel ih =>
    intro c l hl hf hat
    simp only [Lexer.skipBlanksLoop]
    by_cases hsp : IsSpaceChar c = true
    · simp only [hsp, ↓reduceIte]
      have hc : c ≠ NUL := by rintro rfl; revert hsp; decide
      have h1 := skipCommentsGet_spec l hl
      cases hr : l.skipCommentsGet with
      | ok r =>
        rw [hr] at h1
        simp only [Res.bind_ok]
        have h2 := ih r.1 r.2 h1.1.inRange (Lexer.need_step_lt l r h1 c hc fuel hf) h1.2.2
        cases hr2 : Lexer.skipBlanksLoop fuel r.1 r.2 with
        | ok r' =>
          rw [hr2] at h2
          obtain ⟨a1, a2, a3, a4⟩ := h2
          refine ⟨h1.1.trans' a1, a2, a3, fun hne => Or.inr ?_⟩
          rcases a4 hne with a4 | a4
          · have e1 : r'.1 = r.1 := congrArg Prod.fst a4
            have e2 : r'.2 = r.2 := congrArg Prod.snd a4
            rw [e2]
            exact h1.2.1 (by rw [← e1]; exact hne)
          · exact Int.lt_of_le_of_lt h1.1.mono a4
        | err e => trivial
        | fuel => rw [hr2] at h2; exact h2
        | ub => rw [hr2] at h2; exact h2
      | err e => trivial
      | fuel => rw [hr] at h1; exact h1
      | ub => rw [hr] at h1; exact h1
    · have hsp' : IsSpaceChar c = false := by simpa using hsp
      rw [if_neg hsp]
      exact ⟨Lexer.Le.refl l hl, hsp', fun hc => hat hc (by rintro rfl; revert hsp'; decide),
        fun _ => Or.inl rfl⟩

/-- `skipBlanksGet` ends with a value or an error; the value is a character that
is no blank and, unless it is NUL, is under the cursor, which moved. -/
theorem skipBlanksGet_spec (l : Lexer) (h : l.p_ ≤ l.pe_) :
    (l.skipBlanksGet).OkOrErr fun r =>
      Lexer.Le l r.2 ∧ IsSpaceChar r.1 = false ∧ (r.1 ≠ NUL → Lexer.At r.1 r.2 ∧ l.p_ < r.2.p_) := by
  unfold Lexer.skipBlanksGet Lexer.skipBlanks
  have h1 := skipCommentsGet_spec l h
  cases hr : l.skipCommentsGet with
  | ok r =>
    rw [hr] at h1
    simp only [Res.bind_ok]
    have h2 := skipBlanksLoop_spec r.2.bound r.1 r.2 h1.1.inRange
      (Lexer.need_le_bound _ _ _ (Lexer.Le.refl _ h1.1.inRange)) h1.2.2
    cases hr2 : Lexer.skipBlanksLoop r.2.bound r.1 r.2 with
    | ok r' =>
      rw [hr2] at h2
      obtain ⟨a1, a2, a3, a4⟩ := h2
      refine ⟨h1.1.trans' a1, a2, fun hne => ⟨a3 hne, ?_⟩⟩
      rcases a4 hne with a4 | a4
      · have e1 : r'.1 = r.1 := congrArg Prod.fst a4
        have e2 : r'.2 = r.2 := congrArg Prod.snd a4
        rw [e2]
        exact h1.2.1 (by rw [← e1]; exact hne)
      · exact Int.lt_of_le_of_lt h1.1.mono a4
    | err e => trivial
    | fuel => rw [hr2] at h2; exact h2
    | ub => rw [hr2] at h2; exact h2
  | err e => trivial
  | fuel => rw [hr] at h1; exact h1
  | ub => rw [hr] at h1; exact h1

/-! ### Identifiers and the hygiene scan -/

theorem deref_nat (s : List Char) (i : Nat) : deref s (i : Int) = s.getD i NUL := by
  simp [deref]

theorem deref_neg (s : List Char) (p : Int) (h : p < 0) : deref s p = NUL := by
  simp [deref, h]

theorem deref_ne_nul (s : List Char) (p : Int) (h : deref s p ≠ NUL) : 0 ≤ p ∧ p < s.length := by
  unfold deref at h
  split at h
  · exact absurd rfl h
  · rename_i hp
    refine ⟨by omega, ?_⟩
    by_contra hcon
    have : s.length ≤ p.toNat := by omega
    simp [List.getD, List.getElem?_eq_none this] at h

theorem identEnd_spec (l : Lexer) : ∀ (fuel : Nat) (q : Int), (l.pe_ - q).toNat ≤ fuel →
    q ≤ Lexer.identEnd l fuel q
    ∧ (q ≤ l.pe_ → Lexer.identEnd l fuel q ≤ l.pe_)
    ∧ (∀ j, q ≤ j → j < Lexer.identEnd l fuel q → IsIdentOther (deref l.buf j) = true)
    ∧ (Lexer.identEnd l fuel q < l.pe_ → IsIdentOther (deref l.buf (Lexer.identEnd l fuel q)) = false) := by
  intro fuel
  induction fuel with
  | zero =>
    intro q hq
    simp only [Lexer.identEnd]
    exact ⟨Int.le_refl _, id, fun j h1 h2 => by omega, fun h => by omega⟩
  | succ fuel ih =>
    intro q hq
    simp only [Lexer.identEnd]
    split
    · rename_i hc
      obtain ⟨a1, a2, a3, a4⟩ := ih (q + 1) (by omega)
      refine ⟨by omega, fun _ => a2 (by omega), ?_, a4⟩
      intro j h1 h2
      by_cases hj : j = q
      · rw [hj]; exact hc.2
      · exact a3 j (by omega) h2
    · rename_i hc
      refine ⟨Int.le_refl _, id, fun j h1 h2 => by omega, fun h => ?_⟩
      simp only [not_and, Bool.not_eq_true] at hc
      exact hc h

theorem getIdent_spec (l : Lexer) (c : Char) (h : Lexer.At c l) :
    Lexer.Le l l.getIdent.2 ∧ l.getIdent.1.s = l.p_ ∧ 1 ≤ l.getIdent.1.len
    ∧ l.getIdent.2.p_ = l.p_ + l.getIdent.1.len - 1 ∧ l.p_ + l.getIdent.1.len ≤ l.pe_ := by
  obtain ⟨a1, a2, -, -⟩ := identEnd_spec l (l.pe_ - (l.p_ + 1)).toNat (l.p_ + 1) (Nat.le_refl _)
  have hlt := h.1
  have a2' := a2 (by omega)
  have e1 : l.getIdent.1.s = l.p_ := rfl
  have e2 : l.getIdent.1.len
      = (Lexer.identEnd l (l.pe_ - (l.p_ + 1)).toNat (l.p_ + 1) - l.p_).toNat := rfl
  have e3 : l.getIdent.2.p_ = l.p_ + ((l.getIdent.1.len - 1 : Nat) : Int) := rfl
  have e4 : l.getIdent.2.pe_ = l.pe_ := rfl
  refine ⟨⟨rfl, rfl, rfl, ?_, ?_⟩, e1, ?_, ?_, ?_⟩ <;> omega

/-- The loop of `FindParams` ends with a value or an error, and every position
it records passed `CheckParamPrefix` and lies in the span. -/
theorem FindParamsLoop_spec (s : List Char) (params : NameMap) :
    ∀ (fuel : Nat) (c : Char) (lex : Lexer) (acc : List Nat),
      lex.buf = s → lex.p_ ≤ lex.pe_ → lex.pe_ ≤ s.length → (c ≠ NUL → Lexer.At c lex) →
      Lexer.need c lex < fuel →
      (FindParamsLoop s params fuel c lex acc).OkOrErr fun ps =>
        ∃ new : List Nat, ps = acc ++ new ∧ ∀ pos : Nat, pos ∈ new →
          CheckParamPrefix s (pos : Int) 0 = true ∧ lex.p_ ≤ pos ∧ pos < s.length := by
  intro fuel
  induction fuel with
  | zero => intro _ _ _ _ _ _ _ h; omega
  | succ fuel ih =>
    intro c lex acc hbuf hl hpe hat hf
    simp only [FindParamsLoop]
    by_cases hc : c = NUL
    · simp only [hc, ↓reduceIte, Res.OkOrErr]
      exact ⟨[], by simp, by simp⟩
    · simp only [hc, ↓reduceIte]
      have hat' := hat hc
      have hp0 : 0 ≤ lex.p_ ∧ lex.p_ < s.length := by
        apply deref_ne_nul s lex.p_
        rw [← hbuf, ← hat'.2]
        exact hc
      -- the rest of the loop, from a lexer moved on, with more positions recorded
      have hrest : ∀ (lex1 : Lexer) (acc1 : List Nat), Lexer.Le lex lex1 →
          (∃ new1 : List Nat, acc1 = acc ++ new1 ∧ ∀ pos : Nat, pos ∈ new1 →
            CheckParamPrefix s (pos : Int) 0 = true ∧ lex.p_ ≤ pos ∧ pos < s.length) →
          (lex1.skipBlanksGet.bind fun r => FindParamsLoop s params fuel r.1 r.2 acc1).OkOrErr
            fun ps => ∃ new : List Nat, ps = acc ++ new ∧ ∀ pos : Nat, pos ∈ new →
              CheckParamPrefix s (pos : Int) 0 = true ∧ lex.p_ ≤ pos ∧ pos < s.length := by
        intro lex1 acc1 hle hacc
        have h1 := skipBlanksGet_spec lex1 hle.inRange
        cases hr : lex1.skipBlanksGet with
        | ok r =>
          rw [hr] at h1
          obtain ⟨b1, b2, b3⟩ := h1
          simp only [Res.bind_ok]
          have hle2 : Lexer.Le lex r.2 := hle.trans' b1
          have hneed : Lexer.need r.1 r.2 < fuel :=
            Lexer.need_step_lt lex r
              ⟨hle2, fun hne => Int.lt_of_le_of_lt hle.mono (b3 hne).2, fun hne _ => (b3 hne).1⟩
              c hc fuel hf
          have h2 := ih r.1 r.2 acc1 (hle2.buf.trans hbuf) hle2.inRange
            (by rw [hle2.pe]; exact hpe) (fun hne => (b3 hne).1) hneed
          cases hr2 : FindParamsLoop s params fuel r.1 r.2 acc1 with
          | ok ps =>
            rw [hr2] at h2
            obtain ⟨new2, hps, hnew2⟩ := h2
            obtain ⟨new1, hacc1, hnew1⟩ := hacc
            refine ⟨new1 ++ new2, by rw [hps, hacc1, List.append_assoc], ?_⟩
            intro pos hpos
            rcases List.mem_append.1 hpos with hpos | hpos
            · exact hnew1 pos hpos
            · obtain ⟨c1, c2, c3⟩ := hnew2 pos hpos
              have := hle2.mono
              exact ⟨c1, by omega, c3⟩
          | err e => trivial
          | fuel => rw [hr2] at h2; exact h2
          | ub => rw [hr2] at h2; exact h2
        | err e => trivial
        | fuel => rw [hr] at h1; exact h1
        | ub => rw [hr] at h1; exact h1
      by_cases hid : IsIdentFirst c = true
      · simp only [hid, ↓reduceIte]
        obtain ⟨g1, g2, -, -, -⟩ := getIdent_spec lex c hat'
        apply hrest _ _ g1
        have hcast : ((lex.p_.toNat : Nat) : Int) = lex.p_ := by omega
        split
        · split
          · rename_i hcheck
            refine ⟨[lex.getIdent.1.s.toNat], rfl, ?_⟩
            intro pos hpos
            simp only [List.mem_singleton] at hpos
            subst hpos
            rw [g2] at hcheck ⊢
            rw [hcast]
            exact ⟨hcheck, Int.le_refl _, by omega⟩
          · exact ⟨[], by simp, by simp⟩
        · exact ⟨[], by simp, by simp⟩
      · simp only [hid, Bool.false_eq_true, ↓reduceIte]
        exact hrest lex acc (Lexer.Le.refl lex hl) ⟨[], by simp, by simp⟩

/-- `FindParams` ends with a value or an error, and every position it records
passed `CheckParamPrefix` and lies in the span. -/
theorem FindParams_spec (s : List Char) (params : NameMap) :
    (FindParams s params).OkOrErr fun si =>
      si.s = s ∧ ∀ pos : Nat, pos ∈ si.seqPositions →
        CheckParamPrefix s (pos : Int) 0 = true ∧ pos < s.length := by
  unfold FindParams
  split
  · have hl0 : (Lexer.new s 0 s.length).p_ ≤ (Lexer.new s 0 s.length).pe_ := by
      simp only [Lexer.new]; omega
    have h1 := skipBlanksGet_spec (Lexer.new s 0 s.length) hl0
    cases hr : (Lexer.new s 0 s.length).skipBlanksGet with
    | ok r =>
      rw [hr] at h1
      obtain ⟨b1, b2, b3⟩ := h1
      simp only [Res.bind_ok]
      have h2 := FindParamsLoop_spec s params (Lexer.new s 0 s.length).bound r.1 r.2 []
        b1.buf b1.inRange (by rw [b1.pe]; simp [Lexer.new]) (fun hne => (b3 hne).1)
        (Lexer.need_le_bound _ _ _ b1)
      cases hr2 : FindParamsLoop s params (Lexer.new s 0 s.length).bound r.1 r.2 [] with
      | ok ps =>
        rw [hr2] at h2
        obtain ⟨new, hps, hnew⟩ := h2
        rw [Res.bind_ok]
        refine ⟨rfl, fun pos hpos => ?_⟩
        have hpos' : pos ∈ new := by
          have : pos ∈ ps := hpos
          rw [hps] at this
          simpa using this
        obtain ⟨c1, -, c3⟩ := hnew pos hpos'
        exact ⟨c1, c3⟩
      | err e => trivial
      | fuel => rw [hr2] at h2; exact h2
      | ub => rw [hr2] at h2; exact h2
    | err e => trivial
    | fuel => rw [hr] at h1; exact h1
    | ub => rw [hr] at h1; exact h1
  · exact ⟨rfl, by simp⟩

/-! ### `CheckParamPrefix` -/

theorem deref_charBefore (s : List Char) (pos k : Nat) (c : Char)
    (h : charBefore s pos k = some c) : k ≤ pos ∧ deref s ((pos : Int) - k) = c := by
  unfold charBefore at h
  split at h
  · rename_i hk
    refine ⟨hk, ?_⟩
    have e : ((pos : Int) - k) = ((pos - k : Nat) : Int) := by omega
    rw [e, deref_nat]
    simp [List.getD, h]
  · exact absurd h (by simp)

theorem charBefore_pred (s : List Char) (pos k : Nat) (h : 1 ≤ pos) :
    charBefore s (pos - 1) k = charBefore s pos (k + 1) := by
  unfold charBefore
  have e : pos - 1 - k = pos - (k + 1) := by omega
  by_cases hk : k ≤ pos - 1
  · have hk' : k + 1 ≤ pos := by omega
    simp [hk, hk', e]
  · have hk' : ¬ k + 1 ≤ pos := by omega
    simp [hk, hk']

theorem CheckParamPrefixLoop_dot (s : List Char) : ∀ (k : Nat), 1 ≤ k → ∀ (pos n : Nat), pos < n →
    charBefore s pos k = some '.' →
    (∀ j, 1 ≤ j → j < k → ∃ c, charBefore s pos j = some c ∧ IsSpaceChar c = true) →
    CheckParamPrefixLoop s 0 n (pos : Int) = false := by
  intro k
  induction k with
  | zero => intro h; omega
  | succ k ih =>
    intro _ pos n hn hdot hsp
    obtain ⟨n', rfl⟩ : ∃ n', n = n' + 1 := ⟨n - 1, by omega⟩
    by_cases hk : k = 0
    · subst hk
      obtain ⟨h1, h2⟩ := deref_charBefore s pos 1 '.' hdot
      have hge : (pos : Int) - 1 ≥ 0 := by omega
      have h2' : deref s ((pos : Int) - 1) = '.' := by simpa using h2
      have hs : IsSpaceChar '.' = false := by decide
      simp [CheckParamPrefixLoop, hge, h2', hs]
    · obtain ⟨c, hc, hcs⟩ := hsp 1 (by omega) (by omega)
      obtain ⟨h1, h2⟩ := deref_charBefore s pos 1 c hc
      have hge : (pos : Int) - 1 ≥ 0 := by omega
      have h2' : deref s ((pos : Int) - 1) = c := by simpa using h2
      simp only [CheckParamPrefixLoop, hge, ↓reduceIte, h2', hcs]
      have e : ((pos : Int) - 1) = ((pos - 1 : Nat) : Int) := by omega
      rw [e]
      apply ih (by omega) (pos - 1) n' (by omega)
      · rw [charBefore_pred s pos k h1]; exact hdot
      · intro j hj1 hj2
        rw [charBefore_pred s pos j h1]
        exact hsp (j + 1) (by omega) (by omega)

/-- A position that passes `CheckParamPrefix` is not preceded by `.` (whitespace
skipped) and not directly preceded by `::`, `->`, `.*` or `->*`. -/
theorem CheckParamPrefix_sound (s : List Char) (pos : Nat)
    (h : CheckParamPrefix s (pos : Int) 0 = true) :
    ¬ PrecededByDot s pos ∧ ¬ PrecededBy2 s pos ':' ':' ∧ ¬ PrecededBy2 s pos '-' '>'
      ∧ ¬ PrecededBy2 s pos '.' '*' ∧ ¬ PrecededBy3 s pos '-' '>' '*' := by
  unfold CheckParamPrefix at h
  have hn : ((pos : Int) - 0).toNat + 1 = pos + 1 := by omega
  rw [hn] at h
  have two : ∀ a b : Char, PrecededBy2 s pos a b → IsSpaceChar b = false → b ≠ '.' →
      ((a = ':' ∧ b = ':') ∨ (a = '-' ∧ b = '>') ∨ (a = '.' ∧ b = '*')) → False := by
    intro a b ⟨ha, hb⟩ hsp hdot hpat
    obtain ⟨h1, h2⟩ := deref_charBefore s pos 1 b hb
    obtain ⟨h3, h4⟩ := deref_charBefore s pos 2 a ha
    have hge : (pos : Int) - 1 ≥ 0 := by omega
    have hlt : ¬ ((pos : Int) - 2 < 0) := by omega
    have h2' : deref s ((pos : Int) - 1) = b := by simpa using h2
    have h4' : deref s ((pos : Int) - 2) = a := by simpa using h4
    simp only [CheckParamPrefixLoop, hge, ↓reduceIte, h2', hsp, Bool.false_eq_true, hdot, hlt,
      h4', hpat] at h
  refine ⟨?_, ?_, ?_, ?_, ?_⟩
  · rintro ⟨k, hk, hdot, hsp⟩
    rw [CheckParamPrefixLoop_dot s k hk pos (pos + 1) (by omega) hdot hsp] at h
    exact absurd h (by simp)
  · exact fun hp => two ':' ':' hp (by decide) (by decide) (Or.inl ⟨rfl, rfl⟩)
  · exact fun hp => two '-' '>' hp (by decide) (by decide) (Or.inr (Or.inl ⟨rfl, rfl⟩))
  · exact fun hp => two '.' '*' hp (by decide) (by decide) (Or.inr (Or.inr ⟨rfl, rfl⟩))
  · rintro ⟨ha, hb, hc⟩
    obtain ⟨h1, h2⟩ := deref_charBefore s pos 1 '*' hc
    obtain ⟨h3, h4⟩ := deref_charBefore s pos 2 '>' hb
    obtain ⟨h5, h6⟩ := deref_charBefore s pos 3 '-' ha
    have hge : (pos : Int) - 1 ≥ 0 := by omega
    have hlt : ¬ ((pos : Int) - 2 < 0) := by omega
    have hlt3 : ¬ ((pos : Int) - 3 < 0) := by omega
    have h2' : deref s ((pos : Int) - 1) = '*' := by simpa using h2
    have h4' : deref s ((pos : Int) - 2) = '>' := by simpa using h4
    have h6' : deref s ((pos : Int) - 3) = '-' := by simpa using h6
    have hs : IsSpaceChar '*' = false := by decide
    simp [CheckParamPrefixLoop, hge, h2', hlt, h4', hlt3, h6', hs] at h

/-- Directly after a plain operator, and at the start of the span,
`CheckParamPrefix` accepts. -/
theorem CheckParamPrefix_plain (s : List Char) (pos : Nat)
    (h : pos = 0 ∨ IsPlainOperator (deref s ((pos : Int) - 1))) :
    CheckParamPrefix s (pos : Int) 0 = true := by
  unfold CheckParamPrefix
  have hn : ((pos : Int) - 0).toNat + 1 = pos + 1 := by omega
  rw [hn]
  rcases h with rfl | ⟨h1, h2, h3, h4, h5, -⟩
  · simp [CheckParamPrefixLoop]
  · simp only [CheckParamPrefixLoop]
    split
    · simp only [h1, Bool.false_eq_true, ↓reduceIte, h2, h3, h4, h5, and_false, or_self,
        decide_False, Bool.not_false, ite_self]
    · rfl

/-! ### The scan of `FindParams` reaches a bare occurrence -/

theorem IsIdentOther_of_first (c : Char) (h : IsIdentFirst c = true) : IsIdentOther c = true := by
  simp only [IsIdentFirst, IsIdentOther, Bool.or_eq_true, Bool.and_eq_true] at h ⊢
  rcases h with (h | h) | h
  · exact Or.inl (Or.inl (Or.inl h))
  · exact Or.inl (Or.inl (Or.inr h))
  · exact Or.inr h

theorem IsIdentOther_facts (c : Char) (h : IsIdentOther c = true) :
    c ≠ NUL ∧ c ≠ '/' ∧ IsSpaceChar c = false := by
  refine ⟨?_, ?_, ?_⟩
  · rintro rfl; revert h; decide
  · rintro rfl; revert h; decide
  · by_contra hs
    simp only [Bool.not_eq_false] at hs
    simp only [IsSpaceChar, Bool.or_eq_true, beq_iff_eq] at hs
    rcases hs with ((rfl | rfl) | rfl) | rfl <;> revert h <;> decide

theorem Lexer.get_fst (l : Lexer) (h : l.p_ + 1 < l.pe_) : l.get.1 = deref l.buf (l.p_ + 1) := by
  unfold Lexer.get
  have : ¬ (l.p_ + 1 ≥ l.pe_) := by omega
  simp only [this, ↓reduceIte]

/-- A fetch inside the span gives the next character and a lexer over the span. -/
theorem Lexer.get_over (s : List Char) (l : Lexer) (j : Nat) (ho : Lexer.Over s l)
    (hp : l.p_ + 1 = (j : Int)) (hj : j < s.length) (hc : deref s j ≠ NUL) :
    l.get.1 = deref s j ∧ Lexer.Over s l.get.2 ∧ l.get.2.p_ = j := by
  obtain ⟨hb, hs, he⟩ := ho
  have hlt : l.p_ + 1 < l.pe_ := by omega
  have h1 : l.get.1 = deref s j := by rw [Lexer.get_fst l hlt, hb, hp]
  obtain ⟨g1, g2⟩ := Lexer.get_spec l (by omega)
  obtain ⟨g3, -⟩ := g2 (by rw [h1]; exact hc)
  exact ⟨h1, ⟨g1.buf.trans hb, g1.src.trans hs, g1.pe.trans he⟩, by omega⟩

theorem skipCommentsGet_plain (l : Lexer) (h : l.get.1 ≠ '/') :
    l.skipCommentsGet = .ok (l.get.1, l.get.2) := by
  unfold Lexer.skipCommentsGet
  simp only [ne_eq, h, not_false_eq_true, ↓reduceIte]

theorem Lexer.get_fst_end (l : Lexer) (h : l.p_ + 1 ≥ l.pe_) : l.get.1 = NUL := by
  unfold Lexer.get
  simp only [h, ↓reduceIte]

theorem Lexer.get_buf (l : Lexer) : l.get.2.buf = l.buf := by
  unfold Lexer.get
  by_cases hend : l.p_ + 1 ≥ l.pe_
  · simp only [hend, ↓reduceIte]
  · simp only [hend, ↓reduceIte]
    split_ifs <;> rfl

theorem Lexer.get_src (l : Lexer) : l.get.2.src_ = l.src_ := by
  unfold Lexer.get
  by_cases hend : l.p_ + 1 ≥ l.pe_
  · simp only [hend, ↓reduceIte]
  · simp only [hend, ↓reduceIte]
    split_ifs <;> rfl

theorem Lexer.get_pe (l : Lexer) : l.get.2.pe_ = l.pe_ := by
  unfold Lexer.get
  by_cases hend : l.p_ + 1 ≥ l.pe_
  · simp only [hend, ↓reduceIte]
  · simp only [hend, ↓reduceIte]
    split_ifs <;> rfl

/-- Inside the span, where no comment starts, `skipCommentsGet` gives the next
character and a lexer that stands on it; a `/` that opens no comment is given back
as it is. -/
theorem skipCommentsGet_over (s : List Char) (l : Lexer) (j : Nat) (ho : Lexer.Over s l)
    (hp : l.p_ + 1 = (j : Int)) (hj : j < s.length) (hc : deref s j ≠ NUL)
    (hsl : deref s j = '/' →
      deref s ((j + 1 : Nat) : Int) ≠ '/' ∧ deref s ((j + 1 : Nat) : Int) ≠ '*') :
    ∃ l1, l.skipCommentsGet = .ok (deref s j, l1) ∧ Lexer.Over s l1 ∧ l1.p_ = j := by
  obtain ⟨g1, g2, g3⟩ := Lexer.get_over s l j ho hp hj hc
  by_cases h : deref s j = '/'
  · obtain ⟨n1, n2⟩ := hsl h
    have hnext : l.get.2.get.1 ≠ '/' ∧ l.get.2.get.1 ≠ '*' := by
      by_cases hend : l.get.2.p_ + 1 ≥ l.get.2.pe_
      · rw [Lexer.get_fst_end _ hend]
        exact ⟨by decide, by decide⟩
      · rw [Lexer.get_fst _ (by omega), g2.1, g3]
        exact ⟨n1, n2⟩
    have hg : l.get.1 = '/' := by rw [g1, h]
    unfold Lexer.skipCommentsGet
    simp only [hg, ne_eq, not_true_eq_false, ↓reduceIte, hnext.1, hnext.2, h]
    refine ⟨_, rfl, ⟨?_, ?_, ?_⟩, ?_⟩
    · exact (Lexer.get_buf _).trans g2.1
    · exact (Lexer.get_src _).trans g2.2.1
    · exact (Lexer.get_pe _).trans g2.2.2
    · exact g3
  · rw [skipCommentsGet_plain l (by rw [g1]; exact h), g1]
    exact ⟨_, rfl, g2, g3⟩

/-- The facts used on the way to offset `L`: up to `L` there is no NUL, and no
comment starts. -/
theorem reach_facts (s : List Char) (L : Nat) (hpre : NoCommentBefore s L)
    (hstop : IsSpaceChar (deref s L) = false ∧ deref s L ≠ '/' ∧ deref s L ≠ NUL)
    (j : Nat) (hj : j ≤ L) :
    deref s j ≠ NUL ∧
      (deref s j = '/' →
        deref s ((j + 1 : Nat) : Int) ≠ '/' ∧ deref s ((j + 1 : Nat) : Int) ≠ '*') := by
  by_cases h : j = L
  · subst h; exact ⟨hstop.2.2, fun h => absurd h hstop.2.1⟩
  · exact hpre j (by omega)

theorem skipBlanksLoop_reach (s : List Char) (L : Nat) (hL : L < s.length)
    (hpre : NoCommentBefore s L)
    (hstop : IsSpaceChar (deref s L) = false ∧ deref s L ≠ '/' ∧ deref s L ≠ NUL) :
    ∀ (fuel j : Nat) (lex : Lexer), Lexer.Over s lex → lex.p_ = j → j ≤ L →
      Lexer.need (deref s j) lex < fuel →
      ∃ (j' : Nat) (lex' : Lexer),
        Lexer.skipBlanksLoop fuel (deref s j) lex = .ok (deref s j', lex') ∧ Lexer.Over s lex'
          ∧ lex'.p_ = j' ∧ j ≤ j' ∧ j' ≤ L ∧ IsSpaceChar (deref s j') = false := by
  intro fuel
  induction fuel with
  | zero => intro _ _ _ _ _ h; omega
  | succ fuel ih =>
    intro j lex ho hp hj hf
    simp only [Lexer.skipBlanksLoop]
    by_cases hsp : IsSpaceChar (deref s j) = true
    · simp only [hsp, ↓reduceIte]
      have hjL : j < L := by
        by_contra hcon
        have : j = L := by omega
        rw [this, hstop.1] at hsp
        exact absurd hsp (by simp)
      obtain ⟨f2, f1⟩ := reach_facts s L hpre hstop (j + 1) (by omega)
      obtain ⟨l1, e1, o1, p1⟩ :=
        skipCommentsGet_over s lex (j + 1) ho (by rw [hp]; omega) (by omega) f2 f1
      rw [e1]
      simp only [Res.bind_ok]
      have hcj : deref s j ≠ NUL := (reach_facts s L hpre hstop j hj).1
      have hneed : Lexer.need (deref s (j + 1 : Nat)) l1 < fuel := by
        obtain ⟨-, -, he⟩ := ho
        obtain ⟨-, -, he'⟩ := o1
        simp only [Lexer.need, hcj, f2, ↓reduceIte, Lexer.rest] at hf ⊢
        omega
      obtain ⟨j', lex', h1, h2, h3, h4, h5, h6⟩ := ih (j + 1) l1 o1 p1 (by omega) hneed
      exact ⟨j', lex', h1, h2, h3, by omega, h5, h6⟩
    · have hsp' : IsSpaceChar (deref s j) = false := by simpa using hsp
      rw [if_neg hsp]
      exact ⟨j, lex, rfl, ho, hp, Nat.le_refl _, hj, hsp'⟩

theorem skipBlanksGet_reach (s : List Char) (L : Nat) (hL : L < s.length)
    (hpre : NoCommentBefore s L)
    (hstop : IsSpaceChar (deref s L) = false ∧ deref s L ≠ '/' ∧ deref s L ≠ NUL)
    (lex : Lexer) (j : Nat) (ho : Lexer.Over s lex)
    (hp : lex.p_ + 1 = (j : Int)) (hj : j ≤ L) :
    ∃ (j' : Nat) (lex' : Lexer),
      lex.skipBlanksGet = .ok (deref s j', lex') ∧ Lexer.Over s lex'
        ∧ lex'.p_ = j' ∧ j ≤ j' ∧ j' ≤ L ∧ IsSpaceChar (deref s j') = false := by
  obtain ⟨f2, f1⟩ := reach_facts s L hpre hstop j hj
  obtain ⟨l1, e1, o1, p1⟩ := skipCommentsGet_over s lex j ho hp (by omega) f2 f1
  unfold Lexer.skipBlanksGet Lexer.skipBlanks
  rw [e1]
  simp only [Res.bind_ok]
  have hin : l1.p_ ≤ l1.pe_ := by
    obtain ⟨-, -, he'⟩ := o1
    omega
  exact skipBlanksLoop_reach s L hL hpre hstop l1.bound j l1 o1 p1 hj
    (Lexer.need_le_bound _ _ _ (Lexer.Le.refl _ hin))

theorem slice_getD (s : List Char) (pos n : Nat) (name : List Char) (h : slice s pos n = name)
    (hn : name.length = n) (i : Nat) (hi : i < n) :
    pos + i < s.length ∧ deref s ((pos : Int) + i) = name.getD i NUL := by
  unfold slice at h
  have hlen : ((List.drop (pos : Int).toNat s).take n).length = n := by rw [h, hn]
  simp only [Int.toNat_ofNat, List.length_take, List.length_drop] at hlen
  have hlt : pos + i < s.length := by omega
  refine ⟨hlt, ?_⟩
  have e : ((pos : Int) + i) = ((pos + i : Nat) : Int) := by omega
  rw [e, deref_nat, ← h]
  simp only [Int.toNat_ofNat, List.getD_eq_getElem?_getD, List.getElem?_take, hi, ↓reduceIte,
    List.getElem?_drop]

/-- At a token the identifier scan of `getIdent` ends exactly at the end of the
name. -/
theorem getIdent_token (s : List Char) (lex : Lexer) (pos : Nat) (name : List Char)
    (ho : Lexer.Over s lex) (hp : lex.p_ = pos) (ht : TokenAt s pos name) :
    lex.getIdent.1.s = pos ∧ lex.getIdent.1.len = name.length
      ∧ lex.getIdent.2.p_ = (pos : Int) + name.length - 1
      ∧ Lexer.Over s lex.getIdent.2 ∧ 1 ≤ name.length ∧ pos + name.length ≤ s.length
      ∧ IsIdentFirst (deref s pos) = true := by
  obtain ⟨⟨c, tl, rfl, hc, htl⟩, hslice, hend⟩ := ht
  obtain ⟨hb, hsrc, he⟩ := ho
  have hlen1 : 1 ≤ (c :: tl).length := by simp
  have hchars := slice_getD s pos (c :: tl).length (c :: tl) hslice rfl
  have h0 := hchars 0 (by simp)
  simp only [Nat.add_zero, Int.ofNat_zero, Int.add_zero, List.getD_cons_zero, Nat.cast_zero] at h0
  have hlast := hchars ((c :: tl).length - 1) (by omega)
  have hbound : pos + (c :: tl).length ≤ s.length := by omega
  obtain ⟨a1, a2, a3, a4⟩ := identEnd_spec lex (lex.pe_ - (lex.p_ + 1)).toNat (lex.p_ + 1)
    (Nat.le_refl _)
  have hE : Lexer.identEnd lex (lex.pe_ - (lex.p_ + 1)).toNat (lex.p_ + 1)
      = (pos : Int) + (c :: tl).length := by
    have a2' := a2 (by omega)
    rcases Int.lt_trichotomy (Lexer.identEnd lex (lex.pe_ - (lex.p_ + 1)).toNat (lex.p_ + 1))
      ((pos : Int) + (c :: tl).length) with hlt | heq | hgt
    · -- the scan stopped inside the name: the character there is an identifier character
      exfalso
      have hstop := a4 (by omega)
      obtain ⟨i, hi⟩ : ∃ i : Nat, Lexer.identEnd lex (lex.pe_ - (lex.p_ + 1)).toNat (lex.p_ + 1)
          = (pos : Int) + i := ⟨(Lexer.identEnd lex (lex.pe_ - (lex.p_ + 1)).toNat (lex.p_ + 1)
            - pos).toNat, by omega⟩
      rw [hi, hb] at hstop
      have hi1 : 1 ≤ i := by omega
      have hi2 : i < (c :: tl).length := by omega
      rw [(hchars i hi2).2] at hstop
      obtain ⟨i', rfl⟩ : ∃ i', i = i' + 1 := ⟨i - 1, by omega⟩
      simp only [List.length_cons, Nat.add_lt_add_iff_right] at hi2
      simp only [List.getD_eq_getElem?_getD, List.getElem?_cons_succ,
        List.getElem?_eq_getElem hi2, Option.getD_some] at hstop
      rw [htl _ (List.getElem_mem hi2)] at hstop
      exact absurd hstop (by simp)
    · exact heq
    · -- the scan went past the end of the name: the character after it is none
      exfalso
      have := a3 ((pos : Int) + (c :: tl).length) (by omega) hgt
      rw [hb, hend] at this
      exact absurd this (by simp)
  have e2 : lex.getIdent.1.len
      = (Lexer.identEnd lex (lex.pe_ - (lex.p_ + 1)).toNat (lex.p_ + 1) - lex.p_).toNat := rfl
  have e3 : lex.getIdent.2.p_ = lex.p_ + ((lex.getIdent.1.len - 1 : Nat) : Int) := rfl
  have hl : lex.getIdent.1.len = (c :: tl).length := by rw [e2, hE]; omega
  refine ⟨hp, hl, by rw [e3, hl]; omega, ⟨hb, hsrc, he⟩, hlen1, hbound, ?_⟩
  rw [h0.2]
  exact hc

/-- After an identifier the loop of `FindParams` goes on to a value or an error
and keeps what is recorded. -/
theorem FindParams_cont (s : List Char) (params : NameMap) (fuel : Nat) (lex1 : Lexer)
    (acc1 : List Nat) (ho : Lexer.Over s lex1) (hl : lex1.p_ ≤ lex1.pe_)
    (hf : lex1.rest + 1 < fuel + 1) :
    (lex1.skipBlanksGet.bind fun r => FindParamsLoop s params fuel r.1 r.2 acc1).OkOrErr
      fun ps => ∃ new : List Nat, ps = acc1 ++ new := by
  obtain ⟨hb, hsrc, he⟩ := ho
  have h1 := skipBlanksGet_spec lex1 hl
  cases hr : lex1.skipBlanksGet with
  | ok r =>
    rw [hr] at h1
    obtain ⟨b1, b2, b3⟩ := h1
    rw [Res.bind_ok]
    have hneed : Lexer.need r.1 r.2 < fuel := by
      simp only [Lexer.need, Lexer.rest] at hf ⊢
      split
      · omega
      · rename_i hne
        have := (b3 hne).2
        have := b1.pe
        have := b1.inRange
        omega
    have h2 := FindParamsLoop_spec s params fuel r.1 r.2 acc1 (b1.buf.trans hb) b1.inRange
      (by rw [b1.pe, he]) (fun hne => (b3 hne).1) hneed
    cases hr2 : FindParamsLoop s params fuel r.1 r.2 acc1 with
    | ok ps =>
      rw [hr2] at h2
      obtain ⟨new, hps, -⟩ := h2
      exact ⟨new, hps⟩
    | err e => trivial
    | fuel => rw [hr2] at h2; exact h2
    | ub => rw [hr2] at h2; exact h2
  | err e => trivial
  | fuel => rw [hr] at h1; exact h1
  | ub => rw [hr] at h1; exact h1

/-- When the loop of `FindParams` stands on a token that is a parameter name and
passes `CheckParamPrefix`, its offset is recorded. -/
theorem FindParamsLoop_record (s : List Char) (params : NameMap) (pos : Nat) (name : List Char)
    (ht : TokenAt s pos name) (hfind : (NameMap.find params name).isSome = true)
    (hcheck : CheckParamPrefix s (pos : Int) 0 = true)
    (fuel : Nat) (lex : Lexer) (acc : List Nat) (ho : Lexer.Over s lex) (hp : lex.p_ = pos)
    (hf : Lexer.need (deref s pos) lex < fuel) :
    (FindParamsLoop s params fuel (deref s pos) lex acc).OkOrErr fun ps => pos ∈ ps := by
  obtain ⟨t1, t2, t3, t4, t5, t6, t7⟩ := getIdent_token s lex pos name ho hp ht
  obtain ⟨fuel', rfl⟩ : ∃ n, fuel = n + 1 := ⟨fuel - 1, by omega⟩
  have hc : deref s pos ≠ NUL := (IsIdentOther_facts _ (IsIdentOther_of_first _ t7)).1
  obtain ⟨v, hv⟩ := Option.isSome_iff_exists.1 hfind
  simp only [FindParamsLoop, hc, ↓reduceIte, t7, t1, t2, ht.2.1, hv, hcheck, Int.toNat_ofNat]
  have hcont := FindParams_cont s params fuel' lex.getIdent.2 (acc ++ [pos]) t4
    (by rw [t3, t4.2.2]; omega)
    (by
      simp only [Lexer.need, hc, ↓reduceIte, Lexer.rest] at hf
      simp only [Lexer.rest, t3, t4.2.2]
      rw [ho.2.2, hp] at hf
      omega)
  cases hr : (lex.getIdent.2.skipBlanksGet.bind fun r =>
      FindParamsLoop s params fuel' r.1 r.2 (acc ++ [pos])) with
  | ok ps =>
    rw [hr] at hcont
    obtain ⟨new, hps⟩ := hcont
    show pos ∈ ps
    rw [hps]
    simp
  | err e => trivial
  | fuel => rw [hr] at hcont; exact hcont
  | ub => rw [hr] at hcont; exact hcont

/-- From any offset up to a token that no comment precedes and before which no
identifier runs on, the loop of `FindParams` comes to stand on the token and
records it. -/
theorem FindParamsLoop_arrive (s : List Char) (params : NameMap) (P : Nat) (name : List Char)
    (ht : TokenAt s P name) (hfind : (NameMap.find params name).isSome = true)
    (hcheck : CheckParamPrefix s (P : Int) 0 = true)
    (hpre : NoCommentBefore s P) (hstart : StartsToken s P) :
    ∀ (fuel j : Nat) (lex : Lexer) (acc : List Nat), Lexer.Over s lex → lex.p_ = j → j ≤ P →
      Lexer.need (deref s j) lex < fuel →
      (FindParamsLoop s params fuel (deref s j) lex acc).OkOrErr fun ps => P ∈ ps := by
  have hfirst : IsIdentFirst (deref s (P : Nat)) = true ∧ P < s.length := by
    obtain ⟨⟨c, tl, rfl, hc, htl⟩, hslice, hend⟩ := id ht
    have h0 := slice_getD s P (c :: tl).length (c :: tl) hslice rfl 0 (by simp)
    have h2 := h0.2
    simp only [Nat.cast_zero, add_zero, List.getD_cons_zero] at h2
    rw [h2]
    exact ⟨hc, by omega⟩
  have hstop : IsSpaceChar (deref s P) = false ∧ deref s P ≠ '/' ∧ deref s P ≠ NUL := by
    obtain ⟨f1, f2, f3⟩ := IsIdentOther_facts _ (IsIdentOther_of_first _ hfirst.1)
    exact ⟨f3, f2, f1⟩
  intro fuel
  induction fuel using Nat.strong_induction_on with
  | _ fuel ih =>
    intro j lex acc ho hp hj hf
    by_cases hjP : j = P
    · subst hjP
      exact FindParamsLoop_record s params j name ht hfind hcheck fuel lex acc ho hp hf
    · obtain ⟨fuel', rfl⟩ : ∃ n, fuel = n + 1 := ⟨fuel - 1, by omega⟩
      have hnul : deref s j ≠ NUL := (hpre j (by omega)).1
      have hrest : lex.rest + 1 < fuel' + 1 := by
        simpa only [Lexer.need, hnul, ↓reduceIte] using hf
      simp only [FindParamsLoop, hnul, ↓reduceIte]
      -- going on from a lexer whose next character is at `e`, with `j < e ≤ P`
      have hgo : ∀ (lex1 : Lexer) (acc1 : List Nat) (e : Nat), Lexer.Over s lex1 →
          lex1.p_ + 1 = (e : Int) → j < e → e ≤ P →
          (lex1.skipBlanksGet.bind fun r => FindParamsLoop s params fuel' r.1 r.2 acc1).OkOrErr
            fun ps => P ∈ ps := by
        intro lex1 acc1 e ho1 hp1 hje heP
        obtain ⟨j', lex', h1, h2, h3, h4, h5, -⟩ :=
          skipBlanksGet_reach s P hfirst.2 hpre hstop lex1 e ho1 hp1 heP
        rw [h1, Res.bind_ok]
        apply ih fuel' (by omega) j' lex' acc1 h2 h3 h5
        simp only [Lexer.need, Lexer.rest] at hrest ⊢
        rw [h2.2.2, h3]
        rw [ho.2.2, hp] at hrest
        split <;> omega
      have hlast : IsIdentOther (deref s ((P - 1 : Nat) : Int)) = false :=
        hstart (P - 1) (by omega)
      by_cases hid : IsIdentFirst (deref s j) = true
      · simp only [hid, ↓reduceIte]
        -- the identifier ends before the token
        have hat : Lexer.At (deref s j) lex := by
          refine ⟨by rw [ho.2.2, hp]; omega, by rw [ho.1, hp]⟩
        obtain ⟨q1, q2, q3, q4, q5⟩ := getIdent_spec lex (deref s j) hat
        obtain ⟨a1, a2, a3, a4⟩ := identEnd_spec lex (lex.pe_ - (lex.p_ + 1)).toNat (lex.p_ + 1)
          (Nat.le_refl _)
        have e2 : lex.getIdent.1.len
            = (Lexer.identEnd lex (lex.pe_ - (lex.p_ + 1)).toNat (lex.p_ + 1) - lex.p_).toNat := rfl
        have hjne : j ≠ P - 1 := by
          intro hcon
          rw [← hcon, IsIdentOther_of_first _ hid] at hlast
          exact absurd hlast (by simp)
        have hend : Lexer.identEnd lex (lex.pe_ - (lex.p_ + 1)).toNat (lex.p_ + 1)
            ≤ ((P - 1 : Nat) : Int) := by
          by_contra hcon
          have hin := a3 ((P - 1 : Nat) : Int) (by omega) (by omega)
          rw [ho.1, hlast] at hin
          exact absurd hin (by simp)
        exact hgo lex.getIdent.2 _ (j + lex.getIdent.1.len)
          ⟨q1.buf.trans ho.1, q1.src.trans ho.2.1, q1.pe.trans ho.2.2⟩
          (by rw [q4, hp]; omega) (by omega) (by omega)
      · simp only [hid, Bool.false_eq_true, ↓reduceIte]
        exact hgo lex acc (j + 1) ho (by rw [hp]; omega) (by omega) (by omega)

/-! ### `CheckParamPrefix` rejects exactly the qualified offsets -/

theorem charBefore_eq (s : List Char) (pos k : Nat) (hpos : pos ≤ s.length) (hk1 : 1 ≤ k)
    (hk : k ≤ pos) : charBefore s pos k = some (deref s ((pos : Int) - k)) := by
  unfold charBefore
  rw [if_pos hk]
  have e : ((pos : Int) - k) = ((pos - k : Nat) : Int) := by omega
  rw [e, deref_nat]
  have hlt : pos - k < s.length := by omega
  simp [List.getD, List.getElem?_eq_getElem hlt]

theorem charBefore_none (s : List Char) (pos k : Nat) (hk : pos < k) :
    charBefore s pos k = none := by
  unfold charBefore
  rw [if_neg (by omega)]

/-- When the character before the offset is no blank, the offset is qualified
exactly when the text ends in a qualifier there. -/
theorem Qualified_here (s : List Char) (pos : Nat) (c : Char)
    (hc : charBefore s pos 1 = some c) (hns : IsSpaceChar c = false) :
    Qualified s pos ↔ QualifierAt s pos 1 c := by
  constructor
  · rintro ⟨k, c1, hk, ⟨hcb, hns1, hbl⟩, pat⟩
    have hk1 : k = 1 := by
      by_contra hne
      obtain ⟨d, hd, hds⟩ := hbl 1 (by omega) (by omega)
      rw [hc] at hd
      cases hd
      rw [hns] at hds
      exact absurd hds (by simp)
    subst hk1
    rw [hc] at hcb
    cases hcb
    exact pat
  · intro pat
    exact ⟨1, c, Nat.le_refl _, ⟨hc, hns, fun j h1 h2 => by omega⟩, pat⟩

/-- A blank before the offset is skipped. -/
theorem Qualified_skip (s : List Char) (pos : Nat) (c : Char)
    (hc : charBefore s pos 1 = some c) (hsp : IsSpaceChar c = true) :
    Qualified s pos ↔ Qualified s (pos - 1) := by
  have hpos : 1 ≤ pos := (deref_charBefore s pos 1 c hc).1
  have sh : ∀ k, charBefore s (pos - 1) k = charBefore s pos (k + 1) :=
    fun k => charBefore_pred s pos k hpos
  constructor
  · rintro ⟨k, c1, hk, ⟨hcb, hns1, hbl⟩, pat⟩
    have hk1 : k ≠ 1 := by
      rintro rfl
      rw [hc] at hcb
      cases hcb
      rw [hsp] at hns1
      exact absurd hns1 (by simp)
    obtain ⟨k', rfl⟩ : ∃ k', k = k' + 1 := ⟨k - 1, by omega⟩
    refine ⟨k', c1, by omega, ⟨by rw [sh]; exact hcb, hns1, fun j h1 h2 => ?_⟩, ?_⟩
    · rw [sh]; exact hbl (j + 1) (by omega) (by omega)
    · unfold QualifierAt at pat ⊢
      rw [sh, sh]
      exact pat
  · rintro ⟨k', c1, hk, ⟨hcb, hns1, hbl⟩, pat⟩
    refine ⟨k' + 1, c1, by omega, ⟨by rw [← sh]; exact hcb, hns1, fun j h1 h2 => ?_⟩, ?_⟩
    · by_cases hj : j = 1
      · subst hj; exact ⟨c, hc, hsp⟩
      · obtain ⟨j', rfl⟩ : ∃ j', j = j' + 1 := ⟨j - 1, by omega⟩
        rw [← sh]; exact hbl j' (by omega) (by omega)
    · unfold QualifierAt at pat ⊢
      rw [sh, sh] at pat
      exact pat

theorem CheckParamPrefixLoop_iff (s : List Char) : ∀ (n pos : Nat), pos < n → pos ≤ s.length →
    (CheckParamPrefixLoop s 0 n (pos : Int) = false ↔ Qualified s pos) := by
  intro n
  induction n with
  | zero => intro pos h; omega
  | succ n ih =>
    intro pos hn hpos
    by_cases h0 : pos = 0
    · subst h0
      have hq : ¬ Qualified s 0 := by
        rintro ⟨k, c, hk, ⟨hcb, -, -⟩, -⟩
        rw [charBefore_none s 0 k (by omega)] at hcb
        exact absurd hcb (by simp)
      simp [CheckParamPrefixLoop, hq]
    · have hge : (pos : Int) - 1 ≥ 0 := by omega
      have hc1 := charBefore_eq s pos 1 hpos (Nat.le_refl _) (by omega)
      simp only [Nat.cast_one] at hc1
      by_cases hsp : IsSpaceChar (deref s ((pos : Int) - 1)) = true
      · rw [Qualified_skip s pos _ hc1 hsp]
        simp only [CheckParamPrefixLoop, hge, ↓reduceIte, hsp]
        have e : ((pos : Int) - 1) = ((pos - 1 : Nat) : Int) := by omega
        rw [e]
        exact ih (pos - 1) (by omega) (by omega)
      · have hns : IsSpaceChar (deref s ((pos : Int) - 1)) = false := by simpa using hsp
        rw [Qualified_here s pos _ hc1 hns]
        simp only [CheckParamPrefixLoop, hge, ↓reduceIte, hns, Bool.false_eq_true]
        unfold QualifierAt
        generalize deref s ((pos : Int) - 1) = c
        by_cases hdot : c = '.'
        · simp [hdot]
        · simp only [hdot, ↓reduceIte, false_or]
          by_cases h2 : (pos : Int) - 2 < 0
          · have n2 := charBefore_none s pos 2 (by omega)
            have n3 := charBefore_none s pos 3 (by omega)
            simp [h2, n2, n3]
          · have hc2 := charBefore_eq s pos 2 hpos (by omega) (by omega)
            simp only [Nat.cast_ofNat] at hc2
            simp only [h2, ↓reduceIte, Nat.reduceAdd, hc2, Option.some.injEq]
            generalize deref s ((pos : Int) - 2) = c2
            by_cases hp2 : (c2 = ':' ∧ c = ':') ∨ (c2 = '-' ∧ c = '>') ∨ (c2 = '.' ∧ c = '*')
            · simp only [hp2, ↓reduceIte, true_iff]
              rcases hp2 with h | h | h
              · exact Or.inl h
              · exact Or.inr (Or.inl h)
              · exact Or.inr (Or.inr (Or.inl h))
            · simp only [hp2, ↓reduceIte]
              have hp2a : ¬ (c2 = ':' ∧ c = ':') := fun h => hp2 (Or.inl h)
              have hp2b : ¬ (c2 = '-' ∧ c = '>') := fun h => hp2 (Or.inr (Or.inl h))
              have hp2c : ¬ (c2 = '.' ∧ c = '*') := fun h => hp2 (Or.inr (Or.inr h))
              by_cases h3 : (pos : Int) - 3 < 0
              · have n3 := charBefore_none s pos 3 (by omega)
                simp [h3, n3, hp2a, hp2b, hp2c]
              · have hc3 := charBefore_eq s pos 3 hpos (by omega) (by omega)
                simp only [Nat.cast_ofNat] at hc3
                simp [h3, hc3, hp2a, hp2b, hp2c]

/-- `CheckParamPrefix` accepts an offset of the span exactly when it is not
qualified. -/
theorem CheckParamPrefix_iff (s : List Char) (pos : Nat) (hpos : pos ≤ s.length) :
    CheckParamPrefix s (pos : Int) 0 = true ↔ ¬ Qualified s pos := by
  unfold CheckParamPrefix
  have hn : ((pos : Int) - 0).toNat + 1 = pos + 1 := by omega
  rw [hn, ← CheckParamPrefixLoop_iff s (pos + 1) pos (by omega) hpos]
  simp

/-! ### Bare occurrences are recorded -/

theorem TokenAt_facts (s : List Char) (P : Nat) (name : List Char) (ht : TokenAt s P name) :
    IsIdentFirst (deref s (P : Nat)) = true ∧ P < s.length
      ∧ IsSpaceChar (deref s P) = false ∧ deref s P ≠ '/' ∧ deref s P ≠ NUL := by
  obtain ⟨⟨c, tl, rfl, hc, htl⟩, hslice, hend⟩ := id ht
  have h0 := slice_getD s P (c :: tl).length (c :: tl) hslice rfl 0 (by simp)
  have h2 := h0.2
  simp only [Nat.cast_zero, add_zero, List.getD_cons_zero] at h2
  rw [h2]
  obtain ⟨f1, f2, f3⟩ := IsIdentOther_facts _ (IsIdentOther_of_first _ hc)
  exact ⟨hc, by omega, f3, f2, f1⟩

theorem find_isSome_length (params : NameMap) (name : List Char)
    (h : (NameMap.find params name).isSome = true) : params.length > 0 := by
  cases params with
  | nil => simp [NameMap.find] at h
  | cons _ _ => simp

/-- The lexer `FindParams` builds runs over the span, one before its start. -/
theorem Lexer.over_span (s : List Char) :
    Lexer.Over s (Lexer.new s 0 s.length) ∧ (Lexer.new s 0 s.length).p_ + 1 = ((0 : Nat) : Int) := by
  refine ⟨⟨rfl, rfl, ?_⟩, ?_⟩ <;> simp [Lexer.new]

theorem OkOrErr_bind_mk (s : List Char) (pos : Nat) (r : Res (List Nat))
    (h : r.OkOrErr fun ps => pos ∈ ps) :
    (r.bind fun ps => (.ok { s := s, seqPositions := ps } : Res SeqInsertable)).OkOrErr
      fun si => pos ∈ si.seqPositions := by
  cases r with
  | ok ps => exact h
  | err e => trivial
  | fuel => exact h
  | ub => exact h

/-- An occurrence of a parameter name is recorded when it is a whole token that is
not qualified and no comment starts before it; the scan ends with a value or a
`BlError`, never out of fuel. -/
theorem FindParams_records (s : List Char) (params : NameMap) (pos : Nat) (name : List Char)
    (ht : TokenAt s pos name) (hfind : (NameMap.find params name).isSome = true)
    (hpre : NoCommentBefore s pos) (hstart : StartsToken s pos) (hq : ¬ Qualified s pos) :
    (FindParams s params).OkOrErr fun si => pos ∈ si.seqPositions := by
  obtain ⟨t1, t2, t3, t4, t5⟩ := TokenAt_facts s pos name ht
  have hlen := find_isSome_length params name hfind
  have hcheck := (CheckParamPrefix_iff s pos (by omega)).2 hq
  obtain ⟨ho, hp⟩ := Lexer.over_span s
  obtain ⟨j', lex', h1, h2, h3, h4, h5, -⟩ :=
    skipBlanksGet_reach s pos t2 hpre ⟨t3, t4, t5⟩ (Lexer.new s 0 s.length) 0 ho hp (by omega)
  unfold FindParams
  rw [if_pos hlen, h1, Res.bind_ok]
  apply OkOrErr_bind_mk
  apply FindParamsLoop_arrive s params pos name ht hfind hcheck hpre hstart _ j' lex' [] h2 h3 h5
  simp only [Lexer.need, Lexer.rest, Lexer.bound]
  rw [h2.2.2, h3]
  simp only [Lexer.new]
  split <;> omega

theorem getD_append_length (a b : List Char) : (a ++ b).getD a.length NUL = b.headD NUL := by
  induction a with
  | nil => cases b <;> rfl
  | cons x a ih => simpa [List.getD] using ih

theorem tokenAt_append (pre name rest : List Char) (hid : IsIdent name) (he : EndsIdent rest) :
    TokenAt (pre ++ (name ++ rest)) pre.length name := by
  refine ⟨hid, ?_, ?_⟩
  · simp [slice]
  · have e : ((pre.length : Int) + name.length) = (((pre ++ name).length : Nat) : Int) := by
      rw [List.length_append]; omega
    rw [e, deref_nat, ← List.append_assoc, getD_append_length]
    exact he

/-- A parameter name at the very start of the span is recorded. -/
theorem FindParams_start (params : NameMap) (name rest : List Char) (hid : IsIdent name)
    (he : EndsIdent rest) (hfind : (NameMap.find params name).isSome = true) :
    (FindParams (name ++ rest) params).OkOrErr fun si => 0 ∈ si.seqPositions := by
  have ht : TokenAt (name ++ rest) 0 name := tokenAt_append [] name rest hid he
  refine FindParams_records _ params 0 name ht hfind (fun i hi => by omega)
    (fun i hi => by omega) ?_
  exact (CheckParamPrefix_iff _ 0 (Nat.zero_le _)).1 (CheckParamPrefix_plain _ 0 (Or.inl rfl))

/-- A parameter name directly after a plain operator is recorded, when no `/` (so
no comment) and no NUL stands before the operator. -/
theorem FindParams_after_operator (params : NameMap) (pre : List Char) (op : Char)
    (name rest : List Char) (hpre : ∀ c ∈ pre, c ≠ '/' ∧ c ≠ NUL) (hop : IsPlainOperator op)
    (hid : IsIdent name) (he : EndsIdent rest)
    (hfind : (NameMap.find params name).isSome = true) :
    (FindParams (pre ++ op :: (name ++ rest)) params).OkOrErr
      fun si => pre.length + 1 ∈ si.seqPositions := by
  have ht : TokenAt (pre ++ op :: (name ++ rest)) (pre.length + 1) name := by
    have := tokenAt_append (pre ++ [op]) name rest hid he
    simpa using this
  have hat : ∀ i : Nat, i < pre.length →
      deref (pre ++ op :: (name ++ rest)) i ≠ '/' ∧ deref (pre ++ op :: (name ++ rest)) i ≠ NUL := by
    intro i hi
    rw [deref_nat]
    have : (pre ++ op :: (name ++ rest)).getD i NUL = pre[i] := by
      simp [List.getD, List.getElem?_append_left hi, List.getElem?_eq_getElem hi]
    rw [this]
    exact hpre _ (List.getElem_mem _)
  have hop' : deref (pre ++ op :: (name ++ rest)) (pre.length : Nat) = op := by
    rw [deref_nat, getD_append_length]
    rfl
  have hL : pre.length + 1 ≤ (pre ++ op :: (name ++ rest)).length := by
    simp only [List.length_append, List.length_cons]
    omega
  generalize pre ++ op :: (name ++ rest) = s at ht hat hop' hL ⊢
  generalize pre.length = L at ht hat hop' hL ⊢
  have hfacts : ∀ i : Nat, i < L + 1 → deref s i ≠ '/' ∧ deref s i ≠ NUL := by
    intro i hi
    by_cases h : i = L
    · subst h
      rw [hop']
      exact ⟨hop.2.2.2.2.2.2.1, hop.2.2.2.2.2.2.2⟩
    · exact hat i (by omega)
  refine FindParams_records s params (L + 1) name ht hfind
    (fun i hi => ⟨(hfacts i hi).2, fun h => absurd h (hfacts i hi).1⟩) ?_ ?_
  · intro i hi
    have : i = L := by omega
    subst this
    rw [hop']
    exact hop.2.2.2.2.2.1
  · apply (CheckParamPrefix_iff s (L + 1) hL).1
    apply CheckParamPrefix_plain
    right
    have e : (((L + 1 : Nat) : Int) - 1) = (L : Int) := by omega
    rw [e, hop']
    exact hop

/-! ### Spans without `/`: there is no comment, so nothing is thrown -/

theorem deref_mem (s : List Char) (p : Int) : deref s p = NUL ∨ deref s p ∈ s := by
  unfold deref
  split
  · exact Or.inl rfl
  · by_cases h : p.toNat < s.length
    · right
      simp [List.getD, List.getElem?_eq_getElem h]
    · left
      simp [List.getD, List.getElem?_eq_none (Nat.le_of_not_lt h)]

theorem Lexer.get_noSlash (l : Lexer) (h : ∀ c ∈ l.buf, c ≠ '/') : l.get.1 ≠ '/' := by
  unfold Lexer.get
  by_cases hend : l.p_ + 1 ≥ l.pe_
  · simp only [hend, ↓reduceIte]
    decide
  · simp only [hend, ↓reduceIte]
    rcases deref_mem l.buf (l.p_ + 1) with h1 | h1
    · rw [h1]; decide
    · exact h _ h1

theorem skipBlanksLoop_noSlash : ∀ (fuel : Nat) (c : Char) (l : Lexer),
    (∀ c ∈ l.buf, c ≠ '/') →
    (∀ e, Lexer.skipBlanksLoop fuel c l ≠ .err e)
      ∧ ∀ r, Lexer.skipBlanksLoop fuel c l = .ok r → r.2.buf = l.buf := by
  intro fuel
  induction fuel with
  | zero => intro c l _; exact ⟨fun e h => by simp [Lexer.skipBlanksLoop] at h,
      fun r h => by simp [Lexer.skipBlanksLoop] at h⟩
  | succ fuel ih =>
    intro c l hl
    unfold Lexer.skipBlanksLoop
    split
    · rw [skipCommentsGet_plain l (Lexer.get_noSlash l hl), Res.bind_ok]
      have hb := Lexer.get_buf l
      obtain ⟨i1, i2⟩ := ih l.get.1 l.get.2 (by rw [hb]; exact hl)
      exact ⟨i1, fun r h => (i2 r h).trans hb⟩
    · exact ⟨fun e h => by simp at h, fun r h => by
        simp only [Res.ok.injEq] at h
        rw [← h]⟩

theorem skipBlanksGet_noSlash (l : Lexer) (hl : ∀ c ∈ l.buf, c ≠ '/') :
    (∀ e, l.skipBlanksGet ≠ .err e) ∧ ∀ r, l.skipBlanksGet = .ok r → r.2.buf = l.buf := by
  unfold Lexer.skipBlanksGet Lexer.skipBlanks
  rw [skipCommentsGet_plain l (Lexer.get_noSlash l hl), Res.bind_ok]
  have hb := Lexer.get_buf l
  obtain ⟨i1, i2⟩ := skipBlanksLoop_noSlash l.get.2.bound l.get.1 l.get.2 (by rw [hb]; exact hl)
  exact ⟨i1, fun r h => (i2 r h).trans hb⟩

theorem FindParamsLoop_noSlash (s : List Char) (params : NameMap) (hs : ∀ c ∈ s, c ≠ '/') :
    ∀ (fuel : Nat) (c : Char) (lex : Lexer) (acc : List Nat), lex.buf = s →
      ∀ e, FindParamsLoop s params fuel c lex acc ≠ .err e := by
  intro fuel
  induction fuel with
  | zero => intro c lex acc _ e h; simp [FindParamsLoop] at h
  | succ fuel ih =>
    intro c lex acc hb e
    have step : ∀ (lex1 : Lexer) (acc1 : List Nat), lex1.buf = s →
        (lex1.skipBlanksGet.bind fun r => FindParamsLoop s params fuel r.1 r.2 acc1) ≠ .err e := by
      intro lex1 acc1 hb1
      obtain ⟨i1, i2⟩ := skipBlanksGet_noSlash lex1 (by rw [hb1]; exact hs)
      cases hr : lex1.skipBlanksGet with
      | ok r => rw [Res.bind_ok]; exact ih r.1 r.2 acc1 ((i2 r hr).trans hb1) e
      | err e1 => exact absurd hr (i1 e1)
      | fuel => intro h; simp [Res.bind] at h
      | ub => intro h; simp [Res.bind] at h
    unfold FindParamsLoop
    split
    · intro h; simp at h
    · split
      · exact step _ _ hb
      · exact step _ _ hb

/-- On a span without `/` the scan of `FindParams` returns: nothing is thrown. -/
theorem FindParams_noSlash (s : List Char) (params : NameMap) (hs : ∀ c ∈ s, c ≠ '/') :
    ∃ si, FindParams s params = .ok si := by
  have hspec := FindParams_spec s params
  cases hr : FindParams s params with
  | ok si => exact ⟨si, rfl⟩
  | fuel => rw [hr] at hspec; exact absurd hspec id
  | ub => rw [hr] at hspec; exact absurd hspec id
  | err e =>
    exfalso
    unfold FindParams at hr
    split at hr
    · obtain ⟨i1, i2⟩ := skipBlanksGet_noSlash (Lexer.new s 0 s.length) hs
      cases hr1 : (Lexer.new s 0 s.length).skipBlanksGet with
      | ok r =>
        rw [hr1, Res.bind_ok] at hr
        have hb : r.2.buf = s := i2 r hr1
        have hne := FindParamsLoop_noSlash s params hs (Lexer.new s 0 s.length).bound r.1 r.2 [] hb
        cases hr2 : FindParamsLoop s params (Lexer.new s 0 s.length).bound r.1 r.2 [] with
        | ok ps => rw [hr2] at hr; simp [Res.bind] at hr
        | err e2 => exact hne e2 hr2
        | fuel => rw [hr2] at hr; simp [Res.bind] at hr
        | ub => rw [hr2] at hr; simp [Res.bind] at hr
      | err e1 => exact i1 e1 hr1
      | fuel => rw [hr1] at hr; simp [Res.bind] at hr
      | ub => rw [hr1] at hr; simp [Res.bind] at hr
    · simp at hr

/-! ### `FindParams` filters the identifiers of the scan -/

theorem recordedOf_append (s : List Char) (params : NameMap) (toks : List Token) (t : Token) :
    recordedOf s params (toks ++ [t]) =
      match NameMap.find params (slice s t.s t.len) with
      | some _ =>
        if CheckParamPrefix s t.s 0 = true then recordedOf s params toks ++ [t.s.toNat]
        else recordedOf s params toks
      | none => recordedOf s params toks := by
  unfold recordedOf
  rw [List.filter_append, List.map_append]
  cases h : NameMap.find params (slice s t.s t.len) with
  | none => simp [List.filter, h]
  | some v =>
    by_cases hc : CheckParamPrefix s t.s 0 = true
    · simp [List.filter, h, hc]
    · simp [List.filter, h, hc]

theorem FindParamsLoop_identScan (s : List Char) (params : NameMap) :
    ∀ (n : Nat) (c : Char) (lex : Lexer) (toks : List Token),
      FindParamsLoop s params n c lex (recordedOf s params toks)
        = (identScanLoop n c lex toks).bind fun ts => .ok (recordedOf s params ts) := by
  intro n
  induction n with
  | zero => intro c lex toks; rfl
  | succ n ih =>
    intro c lex toks
    simp only [FindParamsLoop, identScanLoop]
    split
    · rfl
    · split
      · rw [← recordedOf_append]
        cases hr : lex.getIdent.2.skipBlanksGet with
        | ok r => simp only [Res.bind_ok]; exact ih _ _ _
        | err e => rfl
        | fuel => rfl
        | ub => rfl
      · cases hr : lex.skipBlanksGet with
        | ok r => simp only [Res.bind_ok]; exact ih _ _ _
        | err e => rfl
        | fuel => rfl
        | ub => rfl

/-- With parameters, `FindParams` keeps of the identifiers of the scan those that
are parameter names and pass `CheckParamPrefix`. -/
theorem FindParams_identScan (s : List Char) (params : NameMap) (h : params.length > 0) :
    FindParams s params
      = (identScan s).bind fun toks => .ok { s := s, seqPositions := recordedOf s params toks } := by
  unfold FindParams identScan
  rw [if_pos h]
  cases hr : (Lexer.new s 0 s.length).skipBlanksGet with
  | ok r =>
    simp only [Res.bind_ok]
    have := FindParamsLoop_identScan s params (Lexer.new s 0 s.length).bound r.1 r.2 []
    have h0 : recordedOf s params [] = [] := rfl
    rw [h0] at this
    rw [this]
    cases identScanLoop (Lexer.new s 0 s.length).bound r.1 r.2 [] <;> rfl
  | err e => rfl
  | fuel => rfl
  | ub => rfl

theorem deref_beyond (s : List Char) (p : Int) (h : (s.length : Int) ≤ p) : deref s p = NUL := by
  unfold deref
  split
  · rfl
  · have : s.length ≤ p.toNat := by omega
    simp [List.getD, List.getElem?_eq_none this]

theorem not_Qualified_of_none (s : List Char) (pos : Nat) (h : charBefore s pos 1 = none) :
    ¬ Qualified s pos := by
  rintro ⟨k, c, hk, ⟨hcb, -, hbl⟩, -⟩
  by_cases hk1 : k = 1
  · subst hk1
    rw [h] at hcb
    exact absurd hcb (by simp)
  · obtain ⟨d, hd, -⟩ := hbl 1 (Nat.le_refl _) (by omega)
    rw [h] at hd
    exact absurd hd (by simp)

/-- `CheckParamPrefix`, called with the start of the span as its bound, accepts
exactly the offsets that are not qualified. -/
theorem CheckParamPrefix_iff_int (s : List Char) (p : Int) :
    CheckParamPrefix s p 0 = true ↔ ¬ Qualified s p.toNat := by
  by_cases hneg : p < 0
  · have h0 : p.toNat = 0 := by omega
    have hq : ¬ Qualified s p.toNat := by
      rw [h0]
      exact not_Qualified_of_none s 0 (charBefore_none s 0 1 (by omega))
    have hn : (p - 0).toNat + 1 = 1 := by omega
    have hlt : ¬ (p - 1 ≥ 0) := by omega
    simp only [CheckParamPrefix, hn, CheckParamPrefixLoop, hlt, ↓reduceIte, hq, not_false_eq_true]
  · obtain ⟨pos, rfl⟩ : ∃ pos : Nat, p = pos := ⟨p.toNat, by omega⟩
    simp only [Int.toNat_ofNat]
    by_cases hle : pos ≤ s.length
    · exact CheckParamPrefix_iff s pos hle
    · have hq : ¬ Qualified s pos := by
        apply not_Qualified_of_none
        unfold charBefore
        have : s.length ≤ pos - 1 := by omega
        simp [List.getElem?_eq_none this]
      have hn : ((pos : Int) - 0).toNat + 1 = pos + 1 := by omega
      have hge : (pos : Int) - 1 ≥ 0 := by omega
      have hc : deref s ((pos : Int) - 1) = NUL := deref_beyond s _ (by omega)
      have f1 : IsSpaceChar NUL = false := by decide
      have f2 : NUL ≠ '.' := by decide
      have f3 : NUL ≠ ':' := by decide
      have f4 : NUL ≠ '>' := by decide
      have f5 : NUL ≠ '*' := by decide
      simp only [CheckParamPrefix, hn, CheckParamPrefixLoop, hge, ↓reduceIte, hc, f1,
        Bool.false_eq_true, f2, f3, f4, f5, and_false, or_self, decide_False, Bool.not_false,
        ite_self, hq, not_false_eq_true]

/-- C10: `FindParams` never records a qualified offset (going back over blanks,
the text before it ends in `.`, `::`, `->`, `.*` or `->*`), so none preceded by `.`
after whitespace or directly by `::`, `->`, `.*`, `->*`; of the identifiers its scan
recognises it records, in scan order, every one that is a parameter name and is
not qualified; an unqualified whole-token occurrence of a parameter name before
which no comment starts is recognised and recorded, such as one at the start of
the span or directly after a plain operator like `+`; the scan ends with a value
or a `BlError`, and with a value on every span without `/`; with parameter `x`,
`obj.x + x` yields the offset 8 alone. -/
theorem C10_bare_occurrences_recorded (params : NameMap) :
    (∀ s : List Char, (FindParams s params).OkOrErr fun si =>
        ∀ pos : Nat, pos ∈ si.seqPositions →
          ¬ Qualified s pos ∧ ¬ PrecededByDot s pos ∧ ¬ PrecededBy2 s pos ':' ':'
            ∧ ¬ PrecededBy2 s pos '-' '>' ∧ ¬ PrecededBy2 s pos '.' '*'
            ∧ ¬ PrecededBy3 s pos '-' '>' '*')
    ∧ (∀ (s : List Char) (toks : List Token), identScan s = .ok toks →
        ∃ si, FindParams s params = .ok si
          ∧ si.seqPositions.Sublist (toks.map fun t => t.s.toNat)
          ∧ ∀ t ∈ toks, (NameMap.find params (slice s t.s t.len)).isSome = true →
              ¬ Qualified s t.s.toNat → t.s.toNat ∈ si.seqPositions)
    ∧ (∀ (s : List Char) (pos : Nat) (name : List Char), TokenAt s pos name →
        (NameMap.find params name).isSome = true →
        NoCommentBefore s pos → StartsToken s pos → ¬ Qualified s pos →
        (FindParams s params).OkOrErr fun si => pos ∈ si.seqPositions)
    ∧ (∀ name rest : List Char, IsIdent name → EndsIdent rest →
        (NameMap.find params name).isSome = true →
        (FindParams (name ++ rest) params).OkOrErr fun si => 0 ∈ si.seqPositions)
    ∧ (∀ (pre : List Char) (op : Char) (name rest : List Char),
        (∀ c ∈ pre, c ≠ '/' ∧ c ≠ NUL) → IsPlainOperator op → IsIdent name → EndsIdent rest →
        (NameMap.find params name).isSome = true →
        (FindParams (pre ++ op :: (name ++ rest)) params).OkOrErr
          fun si => pre.length + 1 ∈ si.seqPositions)
    ∧ (∀ s : List Char, (∀ c ∈ s, c ≠ '/') → ∃ si, FindParams s params = .ok si)
    ∧ FindParams "obj.x + x".toList [("x".toList, 0)] = .ok ⟨"obj.x + x".toList, [8]⟩ := by
  refine ⟨fun s => ?_, fun s toks hscan => ?_,
    fun s pos name ht hfind hpre hstart hq =>
      FindParams_records s params pos name ht hfind hpre hstart hq,
    fun name rest hid he hfind => FindParams_start params name rest hid he hfind,
    fun pre op name rest hpre hop hid he hfind =>
      FindParams_after_operator params pre op name rest hpre hop hid he hfind,
    fun s hs => FindParams_noSlash s params hs, by decide!⟩
  · have hspec := FindParams_spec s params
    cases hr : FindParams s params with
    | ok si =>
      rw [hr] at hspec
      intro pos hpos
      obtain ⟨hc, hlt⟩ := hspec.2 pos hpos
      exact ⟨(CheckParamPrefix_iff s pos (by omega)).1 hc, CheckParamPrefix_sound s pos hc⟩
    | err e => trivial
    | fuel => rw [hr] at hspec; exact hspec
    | ub => rw [hr] at hspec; exact hspec
  · by_cases hlen : params.length > 0
    · refine ⟨⟨s, recordedOf s params toks⟩, ?_, ?_, ?_⟩
      · rw [FindParams_identScan s params hlen, hscan]
        rfl
      · exact (List.filter_sublist _).map _
      · intro t ht hfind hq
        refine List.mem_map.2 ⟨t, List.mem_filter.2 ⟨ht, ?_⟩, rfl⟩
        simp only [hfind, Bool.true_and]
        exact (CheckParamPrefix_iff_int s t.s).2 hq
    · have hnil : params = [] := List.eq_nil_of_length_eq_zero (by omega)
      subst hnil
      refine ⟨⟨s, []⟩, by simp [FindParams], List.nil_sublist _, ?_⟩
      intro t _ hfind
      simp [NameMap.find] at hfind

/-- C10 at the span `a+x*2` with the parameter `x`: the scan recognises the
identifiers at the offsets 0 and 2, and the `x` after `+` is the one recorded. -/
theorem C10_bare_occurrences_recorded_witness :
    ((FindParams "a+x*2".toList [("x".toList, 0)]).OkOrErr fun si => 2 ∈ si.seqPositions)
    ∧ FindParams "a+x*2".toList [("x".toList, 0)] = .ok ⟨"a+x*2".toList, [2]⟩
    ∧ (identScan "a+x*2".toList).bind (fun toks => .ok (toks.map fun t => t.s.toNat))
        = .ok [0, 2] :=
  ⟨(C10_bare_occurrences_recorded [("x".toList, 0)]).2.2.2.2.1 "a".toList '+' "x".toList
      "*2".toList (by decide) (by unfold IsPlainOperator; decide)
      ⟨'x', [], rfl, by decide, by simp⟩ (by unfold EndsIdent; decide) (by decide),
   by decide!, by decide!⟩

/-- C13 (code defect): `CheckKeyword` classifies the identifiers `BL_retu` and
`BL_retur`, proper prefixes of `BL_return`, as `BL_return`, so that the ordinary
declaration `int BL_retu = 0;` is rejected; the three keywords themselves, and the
extensions and the other prefixes tried, are classified by exact match. -/
theorem C13_keyword_prefix_accepted :
    CheckKeyword "BL_retu".toList 0 7 = .BL_return
    ∧ CheckKeyword "BL_retur".toList 0 8 = .BL_return
    ∧ Parser.new prefixKeywordSrc = .err ⟨1, 5, "Can't use BL_return outside BL_func"⟩
    ∧ CheckKeyword "BL_func".toList 0 7 = .BL_func
    ∧ CheckKeyword "BL_call".toList 0 7 = .BL_call
    ∧ CheckKeyword "BL_return".toList 0 9 = .BL_return
    ∧ CheckKeyword "BL_returns".toList 0 10 = .CODE
    ∧ CheckKeyword "BL_funcs".toList 0 8 = .CODE
    ∧ CheckKeyword "BL_calls".toList 0 8 = .CODE
    ∧ CheckKeyword "BL_fun".toList 0 6 = .CODE
    ∧ CheckKeyword "BL_ret".toList 0 6 = .CODE := by
  decide!

/-- C14 (code defect): on a unit that parses and validates, `gen` throws a
`BlError`: the line `/* a` of the first chunk, handed alone to `CheckBlInclude`,
is an unclosed block comment. -/
theorem C14_gen_throws_after_validation :
    (∃ P, Parser.new commentLinesSrc = .ok P
        ∧ P.items_.map (fun i => i.s.s) = [commentLinesSrc]
        ∧ P.gen "in.cxx".toList = .err ⟨1, 4, "Multi-line comments are not closed"⟩)
    ∧ flatco commentLinesSrc "in.cxx".toList = .err ⟨1, 4, "Multi-line comments are not closed"⟩
    ∧ CheckBlInclude "/* a".toList = .err ⟨1, 4, "Multi-line comments are not closed"⟩ :=
  ⟨⟨validated commentLinesSrc, by decide!, by decide!, by decide!⟩, by decide!, by decide!⟩

/-- C12 (code defect): when a line of the first chunk before the include line opens
a block comment, `gen` throws instead of writing the chunk; without such a line the
first include line of `flatco.h` gets `//`, a later one in the same chunk or in a
later chunk is written as it is, and `myflatco.h` is left alone. -/
theorem C12_include_after_comment_line :
    flatco commentThenIncludeSrc "in.cxx".toList
      = .err ⟨1, 4, "Multi-line comments are not closed"⟩
    ∧ flatco twoIncludesSrc "in.cxx".toList = .ok
        "\n#line 1 \"in.cxx\"\n#include <a.h>\n//#include \"flatco.h\"\nint x;\n#include \"flatco.h\"\n".toList
    ∧ flatco includeLaterChunkSrc "in.cxx".toList = .ok
        "\n#line 1 \"in.cxx\"\n//#include \"flatco.h\"\n\n#line 2 \"in.cxx\"\n\n#include \"flatco.h\"\n".toList
    ∧ flatco "#include <dir/flatco.h>  \n".toList "in.cxx".toList = .ok
        "\n#line 1 \"in.cxx\"\n//#include <dir/flatco.h>  \n".toList
    ∧ flatco "#include \"myflatco.h\"\n".toList "in.cxx".toList = .ok
        "\n#line 1 \"in.cxx\"\n#include \"myflatco.h\"\n".toList := by
  decide!

/-- C15 (code defect): `ParseBlCall` accepts the calls `F(1,)`, `F(,1)` and
`F(1,,2)`: the empty argument is dropped without error, the calls are recorded
with the arguments `1`, `1` and `1`, `2`, they pass the validation, and `gen` expands
`F(1,,2)` as `F(1, 2)`. -/
theorem C15_empty_argument_dropped :
    (ParseBlCall (lexerAtStart "BL_call(F(1,))".toList) [] [] []).bind
        (fun r => .ok (r.2.2.map fun c => c.params.map fun p => String.mk p.s)) = .ok [["1"]]
    ∧ topCallArgs trailingCommaSrc = .ok [["1"]]
    ∧ topCallArgs leadingCommaSrc = .ok [["1"]]
    ∧ topCallArgs doubleCommaSrc = .ok [["1", "2"]]
    ∧ flatco doubleCommaSrc "in.cxx".toList = .ok
        "\n#line 1 \"in.cxx\"\n\ndo \x7bint  _BLparam0_a=1;int  _BLparam0_b=2;\n#line 1 \"in.cxx\"\n _BLexit0:;\x7dwhile(0)\n#line 2 \"in.cxx\"\n;".toList := by
  decide!

/-- C16 (code defect): a blank before the target makes `ParseBlCall` throw: the
range given to `reset` is too long by the blanks before the target, and the lexer
meets the closing `)` of `BL_call( .. )`.  Without that blank the call is recorded
with its name, target and argument; blanks elsewhere do no harm. -/
theorem C16_blank_before_target_rejected :
    Parser.new blankBeforeTargetSrc = .err ⟨2, 20, "BL_call syntax error after ')'"⟩
    ∧ topCallTexts noBlankBeforeTargetSrc = .ok [("F", "r ", ["1"])]
    ∧ topCallTexts blanksNoTargetSrc = .ok [("F", "", ["1 ", "2 "])] := by
  decide!

/-- C18 (code defect): the column recorded for a call, and reported by the
validation errors raised for it, is not the column of the callee name: it is 1
too large for a top-level call without target, 2 too large with a target or
inside a body, 3 too large for a call with target inside a body; the row is right.
The lexer of a parameter list is built with the column of its bracket, and the
column reported for a duplicated parameter is the one of its name. -/
theorem C18_call_column_shifted :
    topCallPositions topCallSrc = .ok [(2, 10)]
    ∧ topCallSrc[32]? = some 'F' ∧ lineColAt topCallSrc 32 = (2, 9)
    ∧ Parser.new undefinedTopSrc = .err ⟨2, 10, "BL_call undefined BL_func"⟩
    ∧ undefinedTopSrc[32]? = some 'G' ∧ lineColAt undefinedTopSrc 32 = (2, 9)
    ∧ Parser.new undefinedTargetSrc = .err ⟨1, 15, "BL_call undefined BL_func"⟩
    ∧ undefinedTargetSrc[12]? = some 'G' ∧ lineColAt undefinedTargetSrc 12 = (1, 13)
    ∧ Parser.new arityColSrc = .err ⟨2, 33,
        "The number of parameters of the calling and called functions are not equal"⟩
    ∧ arityColSrc[59]? = some 'F' ∧ lineColAt arityColSrc 59 = (2, 31)
    ∧ Parser.new selfCallSrc = .err ⟨1, 43, "BL_call itself"⟩
    ∧ selfCallSrc[39]? = some 'F' ∧ lineColAt selfCallSrc 39 = (1, 40)
    ∧ Parser.new voidBodySrc = .err ⟨2, 37,
        "The caller needs a return value but the called BL_func returns void"⟩
    ∧ voidBodySrc[77]? = some 'L' ∧ lineColAt voidBodySrc 77 = (2, 34)
    ∧ Parser.new duplicateParamSrc = .err ⟨1, 30, "BL_func parameter is duplicated"⟩
    ∧ duplicateParamSrc[29]? = some 'a' ∧ lineColAt duplicateParamSrc 29 = (1, 30) := by
  decide!

/-! ### The identifiers of the scan of `FindParams` -/

/-- The token `getIdent` reads where an identifier starts is an identifier of the
span. -/
theorem getIdent_isIdentOf (s : List Char) (lex : Lexer) (c : Char) (hbuf : lex.buf = s)
    (hpe : lex.pe_ = s.length) (hat : Lexer.At c lex) (hc : c ≠ NUL)
    (hid : IsIdentFirst c = true) : Token.IsIdentOf s lex.getIdent.1 := by
  obtain ⟨a1, a2, a3, a4⟩ := identEnd_spec lex (lex.pe_ - (lex.p_ + 1)).toNat (lex.p_ + 1)
    (Nat.le_refl _)
  obtain ⟨q1, q2, q3, q4, q5⟩ := getIdent_spec lex c hat
  have hp0 : 0 ≤ lex.p_ ∧ lex.p_ < s.length := by
    apply deref_ne_nul s lex.p_
    rw [← hbuf, ← hat.2]
    exact hc
  have e2 : lex.getIdent.1.len
      = (Lexer.identEnd lex (lex.pe_ - (lex.p_ + 1)).toNat (lex.p_ + 1) - lex.p_).toNat := rfl
  have hend : lex.getIdent.1.s + lex.getIdent.1.len
      = Lexer.identEnd lex (lex.pe_ - (lex.p_ + 1)).toNat (lex.p_ + 1) := by
    rw [q2, e2]; omega
  refine ⟨by rw [q2]; exact hp0.1, by rw [q2]; omega, q3, ?_, ?_, ?_⟩
  · rw [q2, ← hbuf, ← hat.2]; exact hid
  · intro j h1 h2
    rw [← hbuf]
    exact a3 j (by rw [q2] at h1; omega) (by rw [hend] at h2; exact h2)
  · rw [hend]
    by_cases hlt : Lexer.identEnd lex (lex.pe_ - (lex.p_ + 1)).toNat (lex.p_ + 1) < lex.pe_
    · rw [← hbuf]; exact a4 hlt
    · rw [deref_beyond s _ (by omega)]
      decide

/-- The loop that collects the identifiers ends with a value or an error; every
token it adds is an identifier of the span, and each starts after the end of the
one before. -/
theorem identScanLoop_spec (s : List Char) :
    ∀ (fuel : Nat) (c : Char) (lex : Lexer) (toks : List Token),
      lex.buf = s → lex.p_ ≤ lex.pe_ → lex.pe_ = s.length → (c ≠ NUL → Lexer.At c lex) →
      Lexer.need c lex < fuel →
      (identScanLoop fuel c lex toks).OkOrErr fun ts =>
        ∃ new : List Token, ts = toks ++ new
          ∧ (∀ t ∈ new, Token.IsIdentOf s t ∧ lex.p_ ≤ t.s)
          ∧ new.Pairwise fun a b => a.s + (a.len : Int) ≤ b.s := by
  intro fuel
  induction fuel with
  | zero => intro _ _ _ _ _ _ _ h; omega
  | succ fuel ih =>
    intro c lex toks hbuf hl hpe hat hf
    simp only [identScanLoop]
    by_cases hc : c = NUL
    · simp only [hc, ↓reduceIte, Res.OkOrErr]
      exact ⟨[], by simp, by simp, List.Pairwise.nil⟩
    · simp only [hc, ↓reduceIte]
      have hat' := hat hc
      -- the rest of the loop from a lexer `lex1` moved on to at least `lo`
      have hrest : ∀ (lex1 : Lexer) (toks1 : List Token) (lo : Int), Lexer.Le lex lex1 →
          lo ≤ lex1.p_ + 1 →
          (lex1.skipBlanksGet.bind fun r => identScanLoop fuel r.1 r.2 toks1).OkOrErr
            fun ts => ∃ new : List Token, ts = toks1 ++ new
              ∧ (∀ t ∈ new, Token.IsIdentOf s t ∧ lo ≤ t.s)
              ∧ new.Pairwise fun a b => a.s + (a.len : Int) ≤ b.s := by
        intro lex1 toks1 lo hle hlo
        have h1 := skipBlanksGet_spec lex1 hle.inRange
        cases hr : lex1.skipBlanksGet with
        | ok r =>
          rw [hr] at h1
          obtain ⟨b1, b2, b3⟩ := h1
          simp only [Res.bind_ok]
          have hle2 : Lexer.Le lex r.2 := hle.trans' b1
          have hneed : Lexer.need r.1 r.2 < fuel :=
            Lexer.need_step_lt lex r
              ⟨hle2, fun hne => Int.lt_of_le_of_lt hle.mono (b3 hne).2, fun hne _ => (b3 hne).1⟩
              c hc fuel hf
          have h2 := ih r.1 r.2 toks1 (hle2.buf.trans hbuf) hle2.inRange
            (by rw [hle2.pe]; exact hpe) (fun hne => (b3 hne).1) hneed
          cases hr2 : identScanLoop fuel r.1 r.2 toks1 with
          | ok ts =>
            rw [hr2] at h2
            obtain ⟨new, hts, hnew, hpw⟩ := h2
            refine ⟨new, hts, fun t ht => ?_, hpw⟩
            obtain ⟨g1, g2⟩ := hnew t ht
            refine ⟨g1, ?_⟩
            -- a token was added, so the character returned was not NUL
            by_cases hne : r.1 = NUL
            · exfalso
              rw [hne] at hr2
              cases fuel with
              | zero => simp [identScanLoop] at hr2
              | succ n =>
                simp only [identScanLoop, ↓reduceIte, Res.ok.injEq] at hr2
                rw [← hr2] at hts
                have : new = [] := by simpa using hts
                rw [this] at ht
                exact absurd ht (List.not_mem_nil _)
            · have := (b3 hne).2
              omega
          | err e => trivial
          | fuel => rw [hr2] at h2; exact h2
          | ub => rw [hr2] at h2; exact h2
        | err e => trivial
        | fuel => rw [hr] at h1; exact h1
        | ub => rw [hr] at h1; exact h1
      by_cases hid : IsIdentFirst c = true
      · simp only [hid, ↓reduceIte]
        obtain ⟨g1, g2, g3, g4, g5⟩ := getIdent_spec lex c hat'
        have hgood := getIdent_isIdentOf s lex c hbuf hpe hat' hc hid
        have h3 := hrest lex.getIdent.2 (toks ++ [lex.getIdent.1])
          (lex.getIdent.1.s + lex.getIdent.1.len) g1 (by rw [g2, g4]; omega)
        cases hr : lex.getIdent.2.skipBlanksGet.bind
            fun r => identScanLoop fuel r.1 r.2 (toks ++ [lex.getIdent.1]) with
        | ok ts =>
          rw [hr] at h3
          obtain ⟨new, hts, hnew, hpw⟩ := h3
          refine ⟨lex.getIdent.1 :: new, by rw [hts]; simp, ?_, ?_⟩
          · intro t ht
            rcases List.mem_cons.1 ht with rfl | ht
            · exact ⟨hgood, by rw [g2]⟩
            · obtain ⟨k1, k2⟩ := hnew t ht
              refine ⟨k1, ?_⟩
              rw [g2] at k2
              omega
          · exact List.Pairwise.cons (fun t ht => (hnew t ht).2) hpw
        | err e => trivial
        | fuel => rw [hr] at h3; exact h3
        | ub => rw [hr] at h3; exact h3
      · simp only [hid, Bool.false_eq_true, ↓reduceIte]
        have h3 := hrest lex toks lex.p_ (Lexer.Le.refl lex hl) (by omega)
        cases hr : lex.skipBlanksGet.bind fun r => identScanLoop fuel r.1 r.2 toks with
        | ok ts =>
          rw [hr] at h3
          exact h3
        | err e => trivial
        | fuel => rw [hr] at h3; exact h3
        | ub => rw [hr] at h3; exact h3

/-- The scan ends with a value or an error; its tokens are identifiers of the
span, each after the end of the one before. -/
theorem identScan_spec (s : List Char) :
    (identScan s).OkOrErr fun toks =>
      (∀ t ∈ toks, Token.IsIdentOf s t) ∧ toks.Pairwise fun a b => a.s + (a.len : Int) ≤ b.s := by
  unfold identScan
  have hl0 : (Lexer.new s 0 s.length).p_ ≤ (Lexer.new s 0 s.length).pe_ := by
    simp only [Lexer.new]; omega
  have h1 := skipBlanksGet_spec (Lexer.new s 0 s.length) hl0
  cases hr : (Lexer.new s 0 s.length).skipBlanksGet with
  | ok r =>
    rw [hr] at h1
    obtain ⟨b1, b2, b3⟩ := h1
    simp only [Res.bind_ok]
    have h2 := identScanLoop_spec s (Lexer.new s 0 s.length).bound r.1 r.2 []
      b1.buf b1.inRange (by rw [b1.pe]; simp [Lexer.new]) (fun hne => (b3 hne).1)
      (Lexer.need_le_bound _ _ _ b1)
    cases hr2 : identScanLoop (Lexer.new s 0 s.length).bound r.1 r.2 [] with
    | ok ts =>
      rw [hr2] at h2
      obtain ⟨new, hts, hnew, hpw⟩ := h2
      simp only [List.nil_append] at hts
      subst hts
      exact ⟨fun t ht => (hnew t ht).1, hpw⟩
    | err e => trivial
    | fuel => rw [hr2] at h2; exact h2
    | ub => rw [hr2] at h2; exact h2
  | err e => trivial
  | fuel => rw [hr] at h1; exact h1
  | ub => rw [hr] at h1; exact h1

/-! ### What stands before an identifier of the scan -/

theorem Lexer.get_cur (l : Lexer) :
    (l.get.2.pe_ ≤ l.get.2.p_ ∨ l.get.1 = deref l.get.2.buf l.get.2.p_)
      ∧ (l.get.1 ≠ NUL → l.get.2.p_ = l.p_ + 1 ∧ l.p_ + 1 < l.pe_) := by
  unfold Lexer.get
  by_cases hend : l.p_ + 1 ≥ l.pe_
  · simp only [hend, ↓reduceIte]
    exact ⟨Or.inl (Int.le_refl _), fun h => absurd rfl h⟩
  · simp only [hend, ↓reduceIte]
    refine ⟨Or.inr ?_, fun _ => ⟨?_, by omega⟩⟩ <;> split_ifs <;> rfl

theorem skipMultilineCommentLoop_cur : ∀ (fuel : Nat) (findStar : Bool) (c : Char) (l l' : Lexer),
    (l.pe_ ≤ l.p_ ∨ c = deref l.buf l.p_) →
    Lexer.skipMultilineCommentLoop fuel findStar c l = .ok l' →
    l'.pe_ ≤ l'.p_ ∨ deref l'.buf l'.p_ = '/' := by
  intro fuel
  induction fuel with
  | zero => intro _ _ _ _ _ h; simp [Lexer.skipMultilineCommentLoop] at h
  | succ fuel ih =>
    intro fs c l l' hcur h
    simp only [Lexer.skipMultilineCommentLoop] at h
    split at h
    · exact absurd h (by simp)
    · split at h
      · exact ih _ _ _ _ (Lexer.get_cur l).1 h
      · split at h
        · rename_i hc
          simp only [Res.ok.injEq] at h
          subst h
          rcases hcur with hcur | hcur
          · exact Or.inl hcur
          · exact Or.inr (by rw [← hcur, hc])
        · exact ih _ _ _ _ (Lexer.get_cur l).1 h

theorem skipLineLoop_cur : ∀ (fuel : Nat) (c : Char) (l l' : Lexer),
    (l.pe_ ≤ l.p_ ∨ c = deref l.buf l.p_) →
    Lexer.skipLineLoop fuel c l = .ok l' →
    l'.pe_ ≤ l'.p_ ∨ deref l'.buf l'.p_ = NUL ∨ deref l'.buf l'.p_ = '\n' := by
  intro fuel
  induction fuel with
  | zero => intro _ _ _ _ h; simp [Lexer.skipLineLoop] at h
  | succ fuel ih =>
    intro c l l' hcur h
    simp only [Lexer.skipLineLoop] at h
    split at h
    · exact ih _ _ _ (Lexer.get_cur l).1 h
    · rename_i hc
      simp only [Res.ok.injEq] at h
      subst h
      rcases hcur with hcur | hcur
      · exact Or.inl hcur
      · right
        rw [← hcur]
        by_cases h0 : c = NUL
        · exact Or.inl h0
        · right
          by_contra hn
          exact hc ⟨h0, hn⟩

/-- What `skipCommentsGet` returns: the character under the cursor when that one
is an identifier character; and a character that is neither NUL nor a blank is the one next
to the old cursor. -/
theorem skipCommentsGet_cur (l : Lexer) (r : Char × Lexer) (h : l.skipCommentsGet = .ok r) :
    Lexer.Shown r.1 r.2
      ∧ (r.1 ≠ NUL → IsSpaceChar r.1 = false →
          r.2.p_ = l.p_ + 1 ∧ l.p_ + 1 < l.pe_ ∧ r.2.buf = l.buf) := by
  obtain ⟨c1, c2⟩ := Lexer.get_cur l
  unfold Lexer.skipCommentsGet at h
  by_cases hc : l.get.1 = '/'
  · have hne : l.get.1 ≠ NUL := by rw [hc]; decide
    simp only [hc, ne_eq, not_true_eq_false, ↓reduceIte] at h
    have hsp : IsSpaceChar ' ' = true := by decide
    split at h
    · unfold Lexer.skipMultilineComment at h
      obtain ⟨l3, h3, hr⟩ := Res.bind_eq_ok h
      simp only [Res.ok.injEq] at hr
      subst hr
      have := skipMultilineCommentLoop_cur _ _ _ _ l3 (Lexer.get_cur l.get.2.get.2).1 h3
      refine ⟨fun hlt hf => ?_, fun _ hs => absurd hsp (by rw [hs]; simp)⟩
      rcases this with this | this
      · exact absurd hlt (by simp only []; omega)
      · exfalso
        simp only [] at hf
        rw [this] at hf
        exact absurd hf (by decide)
    · split at h
      · obtain ⟨l3, h3, hr⟩ := Res.bind_eq_ok h
        simp only [Res.ok.injEq] at hr
        subst hr
        have := skipLineLoop_cur _ _ _ l3 (Lexer.get_cur l.get.2.get.2).1 h3
        refine ⟨fun hlt hf => ?_, fun _ hs => absurd hsp (by rw [hs]; simp)⟩
        rcases this with this | this | this
        · exact absurd hlt (by simp only []; omega)
        · exfalso
          simp only [] at hf
          rw [this] at hf
          exact absurd hf (by decide)
        · exfalso
          simp only [] at hf
          rw [this] at hf
          exact absurd hf (by decide)
      · simp only [Res.ok.injEq] at h
        subst h
        have hb : l.get.2.get.2.buf = l.get.2.buf := Lexer.get_buf _
        have hb1 : l.get.2.buf = l.buf := Lexer.get_buf _
        have hpe : l.get.2.get.2.pe_ = l.get.2.pe_ := Lexer.get_pe _
        obtain ⟨d1, d2⟩ := c2 hne
        refine ⟨fun hlt _ => ?_, fun _ _ => ⟨d1, d2, ?_⟩⟩
        · simp only [Lexer.loadPos, hb, hpe] at hlt ⊢
          rcases c1 with c1 | c1
          · omega
          · rw [← c1, hc]
        · simp only [Lexer.loadPos, hb, hb1]
  · simp only [ne_eq, hc, not_false_eq_true, ↓reduceIte, Res.ok.injEq] at h
    subst h
    refine ⟨fun hlt _ => ?_, fun hne _ => ⟨(c2 hne).1, (c2 hne).2, Lexer.get_buf l⟩⟩
    have hlt' : l.get.2.p_ < l.get.2.pe_ := hlt
    rcases c1 with c1 | c1
    · omega
    · exact c1

theorem skipBlanksLoop_cur : ∀ (fuel : Nat) (c : Char) (l : Lexer) (r : Char × Lexer),
    Lexer.Shown c l → Lexer.skipBlanksLoop fuel c l = .ok r →
    IsSpaceChar r.1 = false ∧ (r = (c, l) ∨ (r.1 ≠ NUL → Lexer.PrevNotOther r.2)) := by
  intro fuel
  induction fuel with
  | zero => intro _ _ _ _ h; simp [Lexer.skipBlanksLoop] at h
  | succ fuel ih =>
    intro c l r hsh h
    simp only [Lexer.skipBlanksLoop] at h
    by_cases hsp : IsSpaceChar c = true
    · simp only [hsp, ↓reduceIte] at h
      obtain ⟨r1, h1, h2⟩ := Res.bind_eq_ok h
      obtain ⟨s1, s2⟩ := skipCommentsGet_cur l r1 h1
      obtain ⟨i1, i2⟩ := ih r1.1 r1.2 r s1 h2
      refine ⟨i1, Or.inr fun hne => ?_⟩
      rcases i2 with i2 | i2
      · have e1 : r.1 = r1.1 := congrArg Prod.fst i2
        have e2 : r.2 = r1.2 := congrArg Prod.snd i2
        obtain ⟨k1, k2, k3⟩ := s2 (by rw [← e1]; exact hne) (by rw [← e1]; exact i1)
        unfold Lexer.PrevNotOther
        rw [e2, k1, k3]
        have e : l.p_ + 1 - 1 = l.p_ := by omega
        rw [e]
        by_contra hcon
        simp only [Bool.not_eq_false] at hcon
        have hcd := hsh (by omega) hcon
        rw [← hcd] at hcon
        have := (IsIdentOther_facts c hcon).2.2
        rw [hsp] at this
        exact absurd this (by simp)
      · exact i2 hne
    · have hsp' : IsSpaceChar c = false := by simpa using hsp
      rw [if_neg hsp] at h
      simp only [Res.ok.injEq] at h
      subst h
      exact ⟨hsp', Or.inl rfl⟩

/-- The character `skipBlanksGet` returns stands next to the old cursor, or after a
character that is no identifier character. -/
theorem skipBlanksGet_cur (l : Lexer) (r : Char × Lexer) (h : l.skipBlanksGet = .ok r)
    (hne : r.1 ≠ NUL) :
    (r.2.p_ = l.p_ + 1 ∧ r.2.buf = l.buf) ∨ Lexer.PrevNotOther r.2 := by
  unfold Lexer.skipBlanksGet Lexer.skipBlanks at h
  obtain ⟨r1, h1, h2⟩ := Res.bind_eq_ok h
  obtain ⟨s1, s2⟩ := skipCommentsGet_cur l r1 h1
  obtain ⟨i1, i2⟩ := skipBlanksLoop_cur _ r1.1 r1.2 r s1 h2
  rcases i2 with i2 | i2
  · have e1 : r.1 = r1.1 := congrArg Prod.fst i2
    have e2 : r.2 = r1.2 := congrArg Prod.snd i2
    obtain ⟨k1, k2, k3⟩ := s2 (by rw [← e1]; exact hne) (by rw [← e1]; exact i1)
    exact Or.inl ⟨by rw [e2]; exact k1, by rw [e2]; exact k3⟩
  · exact Or.inr (i2 hne)

theorem LeftComplete_of_prev (s : List Char) (p : Int)
    (h : IsIdentOther (deref s (p - 1)) = false) : LeftComplete s p := by
  intro j hj hf
  by_cases e : j = p - 1
  · rw [e] at hf
    rw [IsIdentOther_of_first _ hf] at h
    exact absurd h (by simp)
  · exact ⟨p - 1, by omega, by omega, h⟩

theorem LeftComplete_step (s : List Char) (p : Int) (h : LeftComplete s p)
    (hf : IsIdentFirst (deref s p) = false) : LeftComplete s (p + 1) := by
  intro j hj hjf
  by_cases e : j = p
  · rw [e] at hjf
    rw [hf] at hjf
    exact absurd hjf (by simp)
  · obtain ⟨k, k1, k2, k3⟩ := h j (by omega) hjf
    exact ⟨k, k1, by omega, k3⟩

/-- Every token the loop adds starts where no earlier identifier runs up to. -/
theorem identScanLoop_left (s : List Char) :
    ∀ (fuel : Nat) (c : Char) (lex : Lexer) (toks ts : List Token),
      lex.buf = s → lex.p_ ≤ lex.pe_ → lex.pe_ = s.length → (c ≠ NUL → Lexer.At c lex) →
      (c ≠ NUL → IsIdentOther c = true → LeftComplete s lex.p_) →
      identScanLoop fuel c lex toks = .ok ts →
      ∃ new : List Token, ts = toks ++ new ∧ ∀ t ∈ new, LeftComplete s t.s := by
  intro fuel
  induction fuel with
  | zero => intro _ _ _ _ _ _ _ _ _ h; simp [identScanLoop] at h
  | succ fuel ih =>
    intro c lex toks ts hbuf hl hpe hat hinv h
    simp only [identScanLoop] at h
    by_cases hc : c = NUL
    · simp only [hc, ↓reduceIte, Res.ok.injEq] at h
      exact ⟨[], by simp [h], by simp⟩
    · simp only [hc, ↓reduceIte] at h
      have hat' := hat hc
      by_cases hid : IsIdentFirst c = true
      · simp only [hid, ↓reduceIte] at h
        obtain ⟨r, hr, h2⟩ := Res.bind_eq_ok h
        obtain ⟨g1, g2, g3, g4, g5⟩ := getIdent_spec lex c hat'
        have hgood := getIdent_isIdentOf s lex c hbuf hpe hat' hc hid
        have hsp := skipBlanksGet_spec lex.getIdent.2 g1.inRange
        rw [hr] at hsp
        obtain ⟨b1, b2, b3⟩ := hsp
        have hle2 : Lexer.Le lex r.2 := g1.trans' b1
        have hb2 : r.2.buf = s := hle2.buf.trans hbuf
        obtain ⟨new, hts, hnew⟩ := ih r.1 r.2 _ ts hb2 hle2.inRange
          (by rw [hle2.pe]; exact hpe) (fun hne => (b3 hne).1)
          (fun hne ho => by
            rcases skipBlanksGet_cur _ r hr hne with ⟨k1, k2⟩ | k
            · exfalso
              have hat2 := (b3 hne).1.2
              rw [hb2, k1, g4] at hat2
              have hlast := hgood.2.2.2.2.2
              rw [g2] at hlast
              have e : lex.p_ + lex.getIdent.1.len - 1 + 1 = lex.p_ + lex.getIdent.1.len := by
                omega
              rw [e] at hat2
              rw [← hat2, ho] at hlast
              exact absurd hlast (by simp)
            · unfold Lexer.PrevNotOther at k
              rw [hb2] at k
              exact LeftComplete_of_prev s _ k) h2
        refine ⟨lex.getIdent.1 :: new, by rw [hts]; simp, fun t ht => ?_⟩
        rcases List.mem_cons.1 ht with rfl | ht
        · rw [g2]
          exact hinv hc (IsIdentOther_of_first c hid)
        · exact hnew t ht
      · simp only [hid, Bool.false_eq_true, ↓reduceIte] at h
        have hid' : IsIdentFirst c = false := by simpa using hid
        obtain ⟨r, hr, h2⟩ := Res.bind_eq_ok h
        have hsp := skipBlanksGet_spec lex hl
        rw [hr] at hsp
        obtain ⟨b1, b2, b3⟩ := hsp
        have hb2 : r.2.buf = s := b1.buf.trans hbuf
        exact ih r.1 r.2 _ ts hb2 b1.inRange (by rw [b1.pe]; exact hpe) (fun hne => (b3 hne).1)
          (fun hne ho => by
            have hcd : c = deref s lex.p_ := by rw [← hbuf]; exact hat'.2
            rcases skipBlanksGet_cur _ r hr hne with ⟨k1, k2⟩ | k
            · rw [k1]
              by_cases hco : IsIdentOther c = true
              · exact LeftComplete_step s _ (hinv hc hco) (by rw [← hcd]; exact hid')
              · apply LeftComplete_of_prev
                have e : lex.p_ + 1 - 1 = lex.p_ := by omega
                rw [e, ← hcd]
                simpa using hco
            · unfold Lexer.PrevNotOther at k
              rw [hb2] at k
              exact LeftComplete_of_prev s _ k) h2

/-- Every identifier of the scan starts where no earlier identifier runs up to. -/
theorem identScan_left (s : List Char) (toks : List Token) (h : identScan s = .ok toks) :
    ∀ t ∈ toks, LeftComplete s t.s := by
  unfold identScan at h
  obtain ⟨r, hr, h2⟩ := Res.bind_eq_ok h
  have hl0 : (Lexer.new s 0 s.length).p_ ≤ (Lexer.new s 0 s.length).pe_ := by
    simp only [Lexer.new]; omega
  have hsp := skipBlanksGet_spec (Lexer.new s 0 s.length) hl0
  rw [hr] at hsp
  obtain ⟨b1, b2, b3⟩ := hsp
  have hb2 : r.2.buf = s := b1.buf
  obtain ⟨new, hts, hnew⟩ := identScanLoop_left s _ r.1 r.2 [] toks hb2 b1.inRange
    (by rw [b1.pe]; simp [Lexer.new]) (fun hne => (b3 hne).1)
    (fun hne _ => by
      rcases skipBlanksGet_cur _ r hr hne with ⟨k1, k2⟩ | k
      · rw [k1]
        intro j hj hf
        exfalso
        simp only [Lexer.new] at hj
        rw [deref_neg s j (by omega)] at hf
        exact absurd hf (by decide)
      · unfold Lexer.PrevNotOther at k
        rw [hb2] at k
        exact LeftComplete_of_prev s _ k) h2
  simp only [List.nil_append] at hts
  subst hts
  exact hnew

/-! ### C19: the offsets of `FindParams` -/

theorem NameMap.find_mem (m : NameMap) (key : List Char) (h : (NameMap.find m key).isSome = true) :
    ∃ v : Nat, (key, v) ∈ m := by
  induction m with
  | nil => simp [NameMap.find] at h
  | cons e m ih =>
    obtain ⟨k, v⟩ := e
    simp only [NameMap.find] at h
    by_cases hk : k = key
    · exact ⟨v, by rw [hk]; exact List.mem_cons_self _ _⟩
    · rw [if_neg hk] at h
      obtain ⟨w, hw⟩ := ih h
      exact ⟨w, List.mem_cons_of_mem _ hw⟩

/-- The text of an identifier token is an identifier that stands at the token's
offset and ends there. -/
theorem Token.IsIdentOf.tokenAt {s : List Char} {t : Token} (h : Token.IsIdentOf s t) :
    (slice s t.s t.len).length = t.len ∧ TokenAt s t.s.toNat (slice s t.s t.len) := by
  obtain ⟨h0, h1, h2, h3, h4, h5⟩ := h
  have hlen : (slice s t.s t.len).length = t.len := by
    unfold slice
    simp only [List.length_take, List.length_drop]
    omega
  have hpos : ((t.s.toNat : Nat) : Int) = t.s := Int.toNat_of_nonneg h0
  have hsl : slice s (t.s.toNat : Int) t.len = slice s t.s t.len := by rw [hpos]
  have hget : ∀ i : Nat, i < t.len →
      deref s (t.s + i) = (slice s t.s t.len).getD i NUL := by
    intro i hi
    have := (slice_getD s t.s.toNat t.len (slice s t.s t.len) hsl hlen i hi).2
    rw [hpos] at this
    exact this
  refine ⟨hlen, ?_, ?_, ?_⟩
  · cases hn : slice s t.s t.len with
    | nil => rw [hn] at hlen; simp at hlen; omega
    | cons c rest =>
      refine ⟨c, rest, rfl, ?_, ?_⟩
      · have := hget 0 (by omega)
        rw [hn] at this
        simp only [Nat.cast_zero, add_zero, List.getD_cons_zero] at this
        rw [← this]
        exact h3
      · intro x hx
        obtain ⟨i, hi, rfl⟩ := List.getElem_of_mem hx
        have hlr : rest.length + 1 = t.len := by rw [← hlen, hn]; simp
        have := hget (i + 1) (by omega)
        rw [hn] at this
        simp only [List.getD_cons_succ] at this
        rw [List.getD_eq_getElem _ _ hi] at this
        rw [← this]
        exact h4 _ (by push_cast; omega) (by push_cast; omega)
  · rw [hlen, hsl]
  · rw [hlen, hpos]
    exact h5

/-- The offsets of `FindParams`: for every span and every parameter set,
`FindParams` returns a value or throws; the offsets it returns are strictly
increasing, and at each stands a parameter name that lies within the span: the text
at the offset is the name, the name plus the offset does not pass the end of the
span, no identifier character follows the name and no identifier that starts
earlier runs up to the offset (a digit may stand before it). With the empty
parameter set no offset is recorded. In `a+b*a` with the parameters `a, b` the
offsets are 0, 2 and 4. -/
theorem FindParams_offsets (s : List Char) (params : NameMap) :
    ((FindParams s params).OkOrErr fun si =>
        si.s = s
        ∧ si.seqPositions.Pairwise (fun a b => a < b)
        ∧ ∀ pos ∈ si.seqPositions, ∃ name : List Char,
            (∃ v : Nat, (name, v) ∈ params)
            ∧ pos + name.length ≤ s.length
            ∧ TokenAt s pos name
            ∧ LeftComplete s pos)
    ∧ FindParams s [] = .ok ⟨s, []⟩
    ∧ FindParams twiceSrc abParams = .ok ⟨twiceSrc, [0, 2, 4]⟩ := by
  refine ⟨?_, by simp [FindParams], by decide!⟩
  by_cases hp : params.length > 0
  · rw [FindParams_identScan s params hp]
    have h1 := identScan_spec s
    cases hr : identScan s with
    | ok toks =>
      rw [hr] at h1
      obtain ⟨hid, hpw⟩ := h1
      have hleft := identScan_left s toks hr
      simp only [Res.bind_ok, Res.OkOrErr]
      refine ⟨trivial, ?_, ?_⟩
      · unfold recordedOf
        rw [List.pairwise_map]
        refine List.Pairwise.sublist (List.filter_sublist _) ?_
        refine List.Pairwise.imp_of_mem ?_ hpw
        intro a b ha hb hab
        have ga := hid a ha
        have gb := hid b hb
        have := ga.2.2.1
        have := ga.1
        have := gb.1
        omega
      · intro pos hpos
        unfold recordedOf at hpos
        obtain ⟨t, ht, rfl⟩ := List.mem_map.1 hpos
        obtain ⟨htm, hf⟩ := List.mem_filter.1 ht
        simp only [Bool.and_eq_true] at hf
        obtain ⟨vlen, vtok⟩ := (hid t htm).tokenAt
        refine ⟨slice s t.s t.len, NameMap.find_mem params _ hf.1, ?_, vtok, ?_⟩
        · rw [vlen]
          have := (hid t htm).1
          have := (hid t htm).2.1
          omega
        · rw [Int.toNat_of_nonneg (hid t htm).1]
          exact hleft t htm
    | err e => simp [Res.bind_err, Res.OkOrErr]
    | fuel => rw [hr] at h1; exact h1
    | ub => rw [hr] at h1; exact h1
  · simp [FindParams, hp, Res.OkOrErr]

/-- C19 (code defect): `FindParams` does not read numbers as tokens; a digit is
passed as a character of its own and a letter that follows it starts an identifier.
In the span `x = 2.0f;`, scanned for the parameter `f`, the offset 7 is recorded,
where `f` is the suffix of the number `2.0` and the character before it, `0`, is
an identifier character: what stands at the offset is no complete identifier. So
it is with `0xa` for the parameter `xa`, `1e5` for `e5` and `10L` for `L`; inside an
identifier that starts with a letter (`x2f`) nothing is recorded. The expansion of
a call then writes `2.0_BLparam0_f` for the number. -/
theorem C19_number_suffix_recorded :
    FindParams "x = 2.0f;".toList [("f".toList, 0)] = .ok ⟨"x = 2.0f;".toList, [7]⟩
    ∧ "x = 2.0f;".toList[6]? = some '0' ∧ IsIdentOther '0' = true
    ∧ "x = 2.0f;".toList[7]? = some 'f'
    ∧ ¬ StartsToken "x = 2.0f;".toList 7
    ∧ FindParams "y = 0xa + xa;".toList [("xa".toList, 0)]
        = .ok ⟨"y = 0xa + xa;".toList, [5, 10]⟩
    ∧ FindParams "y = 1e5 + e5;".toList [("e5".toList, 0)]
        = .ok ⟨"y = 1e5 + e5;".toList, [5, 10]⟩
    ∧ FindParams "y = 10L + L;".toList [("L".toList, 0)]
        = .ok ⟨"y = 10L + L;".toList, [6, 10]⟩
    ∧ FindParams "y = x2f + f;".toList [("f".toList, 0)]
        = .ok ⟨"y = x2f + f;".toList, [10]⟩
    ∧ flatco numberSuffixSrc "in.cxx".toList
        = .ok "\n#line 1 \"in.cxx\"\nint y;\n\n#line 2 \"in.cxx\"\n\ndo \x7bfloat  _BLparam0_f=1;\n#line 2 \"in.cxx\"\n y = 2.0_BLparam0_f * _BLparam0_f; _BLexit0:;\x7dwhile(0)\n#line 3 \"in.cxx\"\n;\n".toList := by
  refine ⟨by decide!, by decide!, by decide!, by decide!, fun h => ?_, by decide!, by decide!,
    by decide!, by decide!, by decide!⟩
  exact absurd (h 6 rfl) (by decide!)

/-! ### C20: `FromSeqInsertable` -/

theorem seqTag_eq (q : Nat) (hq : q < 2 ^ 64) : seqTag q = tagOf q := by
  unfold seqTag tagOf
  apply List.take_of_length_le
  have h := Nat.toDigitsCore_length 16 (by decide) (q + 1) q 16 (by omega) (by decide)
  have e : hex q = Nat.toDigitsCore 16 (q + 1) q [] := rfl
  simp only [List.length_append, e]
  have : "_BLparam".toList.length = 8 := by decide
  have : "_".toList.length = 1 := by decide
  omega

theorem cutAt_ne_nil (s : List Char) (prev : Nat) (ps : List Nat) : cutAt s prev ps ≠ [] := by
  cases ps <;> simp [cutAt]

theorem joinWith_cons (tag x : List Char) (xs : List (List Char)) (h : xs ≠ []) :
    joinWith tag (x :: xs) = x ++ tag ++ joinWith tag xs := by
  cases xs with
  | nil => exact absurd rfl h
  | cons y ys => rfl

theorem cutAt_length (s : List Char) (prev : Nat) (ps : List Nat) :
    (cutAt s prev ps).length = ps.length + 1 := by
  induction ps generalizing prev with
  | nil => rfl
  | cons p ps ih => simp [cutAt, ih]

theorem drop_of_le (s : List Char) (prev p : Nat) (h : prev ≤ p) :
    s.drop p = (s.drop prev).drop (p - prev) := by
  rw [List.drop_drop]
  congr 1
  omega

theorem cutAt_flatten (s : List Char) (prev : Nat) (ps : List Nat)
    (hlo : ∀ p ∈ ps, prev ≤ p) (hs : ps.Pairwise fun a b => a < b) :
    (cutAt s prev ps).flatten = s.drop prev := by
  induction ps generalizing prev with
  | nil => simp [cutAt]
  | cons p ps ih =>
    have h1 : prev ≤ p := hlo p (List.mem_cons_self _ _)
    obtain ⟨hp, hs'⟩ := List.pairwise_cons.1 hs
    simp only [cutAt, List.flatten_cons, ih p (fun x hx => Nat.le_of_lt (hp x hx)) hs']
    rw [drop_of_le s prev p h1]
    exact List.take_append_drop _ _

theorem cutAt_take (s : List Char) (prev : Nat) (ps : List Nat)
    (hlo : ∀ p ∈ ps, prev ≤ p) (hs : ps.Pairwise fun a b => a < b)
    (i : Nat) (hi : i < ps.length) :
    ((cutAt s prev ps).take (i + 1)).flatten = (s.drop prev).take (ps.get ⟨i, hi⟩ - prev) := by
  induction ps generalizing prev i with
  | nil => simp at hi
  | cons p ps ih =>
    have h1 : prev ≤ p := hlo p (List.mem_cons_self _ _)
    obtain ⟨hp, hs'⟩ := List.pairwise_cons.1 hs
    simp only [cutAt, List.take_succ_cons, List.flatten_cons]
    cases i with
    | zero => simp
    | succ i =>
      have hi' : i < ps.length := by simpa using hi
      have := ih p (fun x hx => Nat.le_of_lt (hp x hx)) hs' i hi'
      have hlt : p < ps.get ⟨i, hi'⟩ := hp _ (List.get_mem _ _ _)
      simp only [List.get_eq_getElem, List.getElem_cons_succ] at this hlt ⊢
      rw [this, drop_of_le s prev p h1, ← List.take_add]
      congr 1
      omega

theorem joinWith_length (tag : List Char) (xs : List (List Char)) (h : xs ≠ []) :
    (joinWith tag xs).length + tag.length = xs.flatten.length + xs.length * tag.length := by
  induction xs with
  | nil => exact absurd rfl h
  | cons x xs ih =>
    cases xs with
    | nil => simp [joinWith]
    | cons y ys =>
      have := ih (by simp)
      simp only [joinWith, List.length_append, List.flatten_cons, List.length_cons] at this ⊢
      linarith

theorem joinWith_nil (xs : List (List Char)) : joinWith [] xs = xs.flatten := by
  induction xs with
  | nil => rfl
  | cons x xs ih =>
    cases xs with
    | nil => simp [joinWith]
    | cons y ys => simp only [joinWith, List.append_nil, ih, List.flatten_cons]

/-- The loop of `FromSeqInsertable` appends the tag and the pieces cut at the
remaining offsets. -/
theorem fromSeqLoop_eq (s tag : List Char) (hsz : s.length < 2 ^ 64) :
    ∀ (ps : List Nat) (prev : Nat) (acc : List Char),
      (∀ p ∈ ps, prev ≤ p) → (ps.Pairwise fun a b => a < b) → (∀ p ∈ prev :: ps, p ≤ s.length) →
      fromSeqLoop s tag prev ps acc = .ok (acc ++ tag ++ joinWith tag (cutAt s prev ps)) := by
  intro ps
  induction ps with
  | nil =>
    intro prev acc _ _ hin
    have : ¬ prev > s.length := by
      have := hin prev (List.mem_cons_self _ _)
      omega
    simp only [fromSeqLoop, substr, this, ↓reduceIte, Res.bind_ok, cutAt, joinWith]
    rw [List.take_of_length_le (by simp)]
  | cons p ps ih =>
    intro prev acc hlo hs hin
    have h1 : prev ≤ p := hlo p (List.mem_cons_self _ _)
    obtain ⟨hp, hs'⟩ := List.pairwise_cons.1 hs
    have h2 : p ≤ s.length := hin p (List.mem_cons_of_mem _ (List.mem_cons_self _ _))
    have h3 : ¬ prev > s.length := by omega
    have e : (((p : Int) - (prev : Int)) % 2 ^ 64).toNat = p - prev := by
      have : ((p : Int) - (prev : Int)) % 2 ^ 64 = (p : Int) - (prev : Int) :=
        Int.emod_eq_of_lt (by omega) (by omega)
      rw [this]
      omega
    simp only [fromSeqLoop, substr, h3, ↓reduceIte, Res.bind_ok, e]
    rw [ih p _ (fun x hx => Nat.le_of_lt (hp x hx)) hs'
      (fun x hx => hin x (List.mem_cons_of_mem _ hx))]
    simp only [cutAt, joinWith_cons _ _ _ (cutAt_ne_nil s p ps), List.append_assoc]

/-- `FromSeqInsertable` returns the pieces cut at the offsets with the tag between
them. -/
theorem FromSeqInsertable_eq (s : List Char) (offs : List Nat) (q : Nat)
    (hs : offs.Pairwise fun a b => a < b) (hin : ∀ p ∈ offs, p ≤ s.length)
    (hsz : s.length < 2 ^ 64) :
    FromSeqInsertable ⟨s, offs⟩ q = .ok (joinWith (seqTag q) (cutAt s 0 offs)) := by
  cases offs with
  | nil => simp [FromSeqInsertable, cutAt, joinWith]
  | cons p0 rest =>
    obtain ⟨hp, hs'⟩ := List.pairwise_cons.1 hs
    have h0 : ¬ 0 > s.length := by omega
    simp only [FromSeqInsertable, substr, h0, ↓reduceIte, Res.bind_ok, List.drop_zero]
    rw [fromSeqLoop_eq s _ hsz rest p0 _ (fun x hx => Nat.le_of_lt (hp x hx)) hs' hin]
    simp only [cutAt, joinWith_cons _ _ _ (cutAt_ne_nil s p0 rest), List.drop_zero,
      Nat.sub_zero]

/-- C20 (FromSeqInsertable inserts the tag before each offset): for a text shorter
than 2^64 bytes (its length is a `size_t`) whose offsets are strictly increasing and
within the text, and a sequence id below 2^64, `FromSeqInsertable` returns a value:
the text cut into pieces at the offsets, with the tag `_BLparam<q in hex>_` between
each two pieces. The pieces are one more than the offsets, the first `i + 1` of them
make up the text before offset `i`, and together they are the text: deleting the
tags gives back the original. The result is longer than the text by the number of
offsets times the length of the tag; with no offsets the text is returned unchanged.
The digits are lowercase: the tag of 255 is `_BLparamff_`. -/
theorem C20_tags_inserted_at_offsets (s : List Char) (offs : List Nat) (q : Nat)
    (hs : offs.Pairwise fun a b => a < b) (hin : ∀ p ∈ offs, p ≤ s.length)
    (hsz : s.length < 2 ^ 64) (hq : q < 2 ^ 64) :
    (∃ pieces : List (List Char),
        FromSeqInsertable ⟨s, offs⟩ q = .ok (joinWith (tagOf q) pieces)
        ∧ pieces.length = offs.length + 1
        ∧ pieces.flatten = s
        ∧ (∀ (i : Nat) (hi : i < offs.length),
            (pieces.take (i + 1)).flatten = s.take (offs.get ⟨i, hi⟩))
        ∧ joinWith [] pieces = s
        ∧ (joinWith (tagOf q) pieces).length = s.length + offs.length * (tagOf q).length)
    ∧ FromSeqInsertable ⟨s, []⟩ q = .ok s
    ∧ tagOf 255 = "_BLparamff_".toList := by
  have hfl : (cutAt s 0 offs).flatten = s := by
    rw [cutAt_flatten s 0 offs (fun _ _ => Nat.zero_le _) hs, List.drop_zero]
  refine ⟨⟨cutAt s 0 offs, ?_, cutAt_length s 0 offs, hfl, ?_, ?_, ?_⟩, rfl, by decide⟩
  · rw [← seqTag_eq q hq]
    exact FromSeqInsertable_eq s offs q hs hin hsz
  · intro i hi
    rw [cutAt_take s 0 offs (fun _ _ => Nat.zero_le _) hs i hi, List.drop_zero, Nat.sub_zero]
  · rw [joinWith_nil, hfl]
  · have := joinWith_length (tagOf q) (cutAt s 0 offs) (cutAt_ne_nil s 0 offs)
    rw [hfl, cutAt_length, Nat.add_mul] at this
    omega

/-- C20 at the text `a+b*a` with the offsets 0, 2, 4 and the sequence id 26: the tag
`_BLparam1a_` stands before each `a` and before `b`. -/
theorem C20_tags_inserted_at_offsets_witness :
    FromSeqInsertable ⟨"a+b*a".toList, [0, 2, 4]⟩ 26
        = .ok "_BLparam1a_a+_BLparam1a_b*_BLparam1a_a".toList
      ∧ ∃ pieces : List (List Char),
        FromSeqInsertable ⟨"a+b*a".toList, [0, 2, 4]⟩ 26 = .ok (joinWith (tagOf 26) pieces)
        ∧ pieces.flatten = "a+b*a".toList :=
  ⟨by decide!,
    (C20_tags_inserted_at_offsets "a+b*a".toList [0, 2, 4] 26 (by decide) (by decide)
      (by decide) (by decide)).1.imp fun _ h => ⟨h.1, h.2.2.1⟩⟩

/-! ### C11: the lexer over a whole text, and the lines of `GetRidBlInclude` -/

/-- A successful `strncmp` over `n` bytes: the bytes compared are those of the
literal, up to the literal's end. -/
theorem strncmpEq_true (buf : List Char) (a : Int) (lit : List Char) :
    ∀ (n i : Nat), strncmpEq buf a lit n i = true →
      ∀ k : Nat, i ≤ k → k < i + n → (∀ j : Nat, i ≤ j → j ≤ k → lit.getD j NUL ≠ NUL) →
        deref buf (a + k) = lit.getD k NUL := by
  intro n
  induction n with
  | zero => intro i _ k h1 h2; omega
  | succ n ih =>
    intro i h k h1 h2 hl
    simp only [strncmpEq] at h
    by_cases hxy : deref buf (a + i) = lit.getD i NUL
    · simp only [hxy, ne_eq, not_true_eq_false, ↓reduceIte] at h
      by_cases h0 : lit.getD i NUL = NUL
      · exact absurd h0 (hl i (Nat.le_refl _) h1)
      · simp only [h0, ↓reduceIte] at h
        by_cases hk : k = i
        · rw [hk]; exact hxy
        · exact ih (i + 1) h k (by omega) (by omega) (fun j hj1 hj2 => hl j (by omega) hj2)
    · rw [if_pos hxy] at h
      exact absurd h (by simp)

/-- A word whose characters stand in the text from offset `p` on occurs in it. -/
theorem infix_of_deref (s w : List Char) (p : Int) (hw : w ≠ [])
    (hn : ∀ c ∈ w, c ≠ NUL) (h : ∀ k : Nat, k < w.length → deref s (p + k) = w.getD k NUL) :
    w <:+: s := by
  have hlen : 0 < w.length := List.length_pos.2 hw
  have hne : ∀ k : Nat, k < w.length → deref s (p + k) ≠ NUL := by
    intro k hk
    rw [h k hk, List.getD_eq_getElem _ _ hk]
    exact hn _ (List.getElem_mem _)
  have h0 := deref_ne_nul s (p + (0 : Nat)) (hne 0 hlen)
  have h1 := deref_ne_nul s (p + ((w.length - 1 : Nat) : Int)) (hne _ (by omega))
  have hp : ((p.toNat : Nat) : Int) = p := Int.toNat_of_nonneg (by omega)
  have hsl : (s.drop p.toNat).take w.length = w := by
    apply List.ext_getElem
    · simp only [List.length_take, List.length_drop]
      omega
    · intro k hk1 hk2
      have := h k hk2
      rw [List.getD_eq_getElem _ _ hk2] at this
      have e : deref s (p + k) = s.getD (p.toNat + k) NUL := by
        rw [← deref_nat]
        congr 1
        push_cast
        omega
      have hlt : p.toNat + k < s.length := by omega
      rw [← this, e, List.getD_eq_getElem _ _ hlt]
      simp only [List.getElem_take, List.getElem_drop]
  refine ⟨s.take p.toNat, (s.drop p.toNat).drop w.length, ?_⟩
  have := List.take_append_drop w.length (s.drop p.toNat)
  rw [hsl] at this
  rw [List.append_assoc, this, List.take_append_drop]

theorem deref_mem_of_lt (s : List Char) (p : Int) (h0 : 0 ≤ p) (h1 : p < s.length) :
    deref s p ∈ s := by
  have hp : ((p.toNat : Nat) : Int) = p := Int.toNat_of_nonneg h0
  rw [← hp, deref_nat, List.getD_eq_getElem _ _ (by omega)]
  exact List.getElem_mem _

/-- A fetch in a text without NUL: the next character, or NUL at the end. -/
theorem Lexer.get_good (s : List Char) (hnul : ∀ c ∈ s, c ≠ NUL) (l : Lexer)
    (ho : Lexer.Over s l) (h0 : -1 ≤ l.p_) (h1 : l.p_ ≤ l.pe_) :
    Lexer.Good s l.get.1 l.get.2 ∧ (l.get.1 ≠ NUL → l.get.2.p_ = l.p_ + 1) := by
  obtain ⟨g1, g2⟩ := Lexer.get_spec l h1
  have hov : Lexer.Over s l.get.2 := ⟨g1.buf.trans ho.1, g1.src.trans ho.2.1, g1.pe.trans ho.2.2⟩
  refine ⟨⟨hov, by have := g1.mono; omega, g1.inRange, fun hc => (g2 hc).2, fun hc => ?_⟩,
    fun hc => (g2 hc).1⟩
  by_cases hend : l.p_ + 1 ≥ l.pe_
  · unfold Lexer.get
    simp only [hend, ↓reduceIte]
  · exfalso
    have hlt : l.p_ + 1 < l.pe_ := by omega
    have := Lexer.get_fst l hlt
    rw [hc, ho.1] at this
    have hm := deref_mem_of_lt s (l.p_ + 1) (by omega) (by rw [← ho.2.2]; exact hlt)
    rw [← this] at hm
    exact hnul _ hm rfl

theorem Lexer.need_congr (c : Char) (l l' : Lexer) (hp : l'.p_ = l.p_) (hpe : l'.pe_ = l.pe_) :
    Lexer.need c l' = Lexer.need c l := by
  simp only [Lexer.need, Lexer.rest, hp, hpe]

theorem Lexer.get_advance (l : Lexer) (h : l.p_ < l.pe_) : l.p_ < l.get.2.p_ := by
  unfold Lexer.get
  by_cases hend : l.p_ + 1 ≥ l.pe_
  · simp only [hend, ↓reduceIte]
    exact h
  · simp only [hend, ↓reduceIte]
    split_ifs <;> simp

/-- The loop of `getString` in a text without NUL: it stops on the closing quote, or
throws for a literal that is not closed on its line. -/
theorem getStringLoop_good (s : List Char) (hnul : ∀ c ∈ s, c ≠ NUL) (start : Char) :
    ∀ (fuel : Nat) (c : Char) (l : Lexer), Lexer.Good s c l → Lexer.need c l < fuel →
      (∃ l' : Lexer, Lexer.getStringLoop start fuel c l = .ok l' ∧ Lexer.Over s l'
          ∧ l.p_ ≤ l'.p_ ∧ l'.p_ < l'.pe_ ∧ -1 ≤ l'.p_)
      ∨ ∃ e : BlError, Lexer.getStringLoop start fuel c l = .err e ∧ LiteralError e := by
  intro fuel
  induction fuel with
  | zero => intro _ _ _ h; omega
  | succ fuel ih =>
    intro c l hg hf
    simp only [Lexer.getStringLoop]
    obtain ⟨ho, h0, h1, hat, hend⟩ := hg
    by_cases hc : c ≠ NUL ∧ c ≠ start
    · rw [if_pos hc]
      obtain ⟨k1, k2⟩ := Lexer.get_good s hnul l ho h0 h1
      have hmono := (Lexer.get_spec l h1).1.mono
      have hn1 : Lexer.need l.get.1 l.get.2 < fuel := Lexer.need_get_lt l h1 c hc.1 fuel hf
      -- the loop from the next character
      have hnext : (∃ l' : Lexer, Lexer.getStringLoop start fuel l.get.1 l.get.2 = .ok l'
            ∧ Lexer.Over s l' ∧ l.p_ ≤ l'.p_ ∧ l'.p_ < l'.pe_ ∧ -1 ≤ l'.p_)
          ∨ ∃ e : BlError, Lexer.getStringLoop start fuel l.get.1 l.get.2 = .err e
            ∧ LiteralError e := by
        rcases ih l.get.1 l.get.2 k1 hn1 with ⟨l', e1, e2, e3, e4⟩ | h
        · exact Or.inl ⟨l', e1, e2, Int.le_trans hmono e3, e4⟩
        · exact Or.inr h
      by_cases hnl : c = '\n'
      · rw [if_pos hnl]
        exact Or.inr ⟨_, rfl, Or.inl rfl⟩
      rw [if_neg hnl]
      by_cases hbs : c = '\\'
      · rw [if_pos hbs]
        by_cases hg1 : l.get.1 ≠ NUL
        · rw [if_pos hg1]
          obtain ⟨m1, m2⟩ := Lexer.get_good s hnul l.get.2 k1.1 k1.2.1 k1.2.2.1
          have hmono2 := (Lexer.get_spec l.get.2 k1.2.2.1).1.mono
          have hpos : 0 < fuel := by omega
          have hn2 : Lexer.need l.get.2.get.1 l.get.2.get.2 < fuel - 1 :=
            Lexer.need_get_lt l.get.2 k1.2.2.1 l.get.1 hg1 (fuel - 1) (by omega)
          rcases ih l.get.2.get.1 l.get.2.get.2 m1 (by omega) with ⟨l', e1, e2, e3, e4⟩ | h
          · exact Or.inl ⟨l', e1, e2, by omega, e4⟩
          · exact Or.inr h
        · rw [if_neg hg1]
          exact hnext
      · rw [if_neg hbs]
        exact hnext
    · rw [if_neg hc]
      by_cases hc0 : c = NUL
      · rw [if_pos hc0]
        exact Or.inr ⟨_, rfl, Or.inr rfl⟩
      · rw [if_neg hc0]
        exact Or.inl ⟨l, rfl, ho, Int.le_refl _, (hat hc0).1, h0⟩

/-- `prepare` on a unit without functions and calls changes nothing. -/
theorem prepare_plain (l : Lexer) (items : List CxxItem) :
    Parser.prepare { lex_ := l, items_ := items, funcs_ := [], calls_ := [], name2Func_ := [] }
      = .ok { lex_ := l, items_ := items, funcs_ := [], calls_ := [], name2Func_ := [] } := by
  rfl

/-- A line that `CheckBlInclude` accepts holds the text `flatco.h`. -/
theorem CheckBlInclude_true (t : List Char) (h : CheckBlInclude t = .ok true) :
    "flatco.h".toList <:+: t := by
  unfold CheckBlInclude at h
  obtain ⟨r0, e0, h⟩ := Res.bind_eq_ok h
  by_cases c1 : r0.1 = NUL
  · rw [if_pos c1] at h; exact absurd h (by simp)
  rw [if_neg c1] at h
  by_cases c2 : r0.1 ≠ '#'
  · rw [if_pos c2] at h; exact absurd h (by simp)
  rw [if_neg c2] at h
  obtain ⟨r1, e1, h⟩ := Res.bind_eq_ok h
  by_cases c3 : IsIdentFirst r1.1 = false
  · rw [if_pos c3] at h; exact absurd h (by simp)
  rw [if_neg c3] at h
  simp only [] at h
  by_cases c4 : strncmpEq t r1.2.getIdent.1.s "include".toList r1.2.getIdent.1.len 0 = false
  · rw [if_pos c4] at h; exact absurd h (by simp)
  rw [if_neg c4] at h
  obtain ⟨r2, e2, h⟩ := Res.bind_eq_ok h
  by_cases c5 : r2.1 ≠ '<' ∧ r2.1 ≠ '"'
  · rw [if_pos c5] at h; exact absurd h (by simp)
  rw [if_neg c5] at h
  generalize lastNonSpace t _ _ _ _ = o at h
  cases o with
  | none => exact absurd h (by simp)
  | some p =>
    simp only [] at h
    by_cases c6 : r2.2.p_ + 8 ≥ p
    · rw [if_pos c6] at h; exact absurd h (by simp)
    rw [if_neg c6] at h
    by_cases c7 : strncmpEq t (p - 8) "flatco.h".toList 8 0 = false
    · rw [if_pos c7] at h; exact absurd h (by simp)
    have hcmp : strncmpEq t (p - 8) "flatco.h".toList 8 0 = true := by simpa using c7
    apply infix_of_deref t "flatco.h".toList (p - 8) (by decide) (by decide)
    intro k hk
    have hk8 : k < 8 := by simpa using hk
    refine strncmpEq_true t (p - 8) "flatco.h".toList 8 0 hcmp k (Nat.zero_le _)
      (by omega) (fun j _ hj => ?_)
    have hj8 : j < 8 := by omega
    interval_cases j <;> decide

theorem takeWhile_get {α : Type} (p : α → Bool) :
    ∀ (l : List α) (i : Nat), i < (l.takeWhile p).length → ∃ x, l[i]? = some x ∧ p x = true := by
  intro l
  induction l with
  | nil => intro i h; simp at h
  | cons a l ih =>
    intro i h
    by_cases ha : p a = true
    · rw [List.takeWhile_cons_of_pos ha] at h
      cases i with
      | zero => exact ⟨a, by simp, ha⟩
      | succ i =>
        obtain ⟨x, h1, h2⟩ := ih i (by simpa using h)
        exact ⟨x, by simpa using h1, h2⟩
    · rw [List.takeWhile_cons_of_neg ha] at h
      simp at h

theorem takeWhile_end {α : Type} (p : α → Bool) :
    ∀ (l : List α), (l.takeWhile p).length < l.length →
      ∃ x, l[(l.takeWhile p).length]? = some x ∧ p x = false := by
  intro l
  induction l with
  | nil => intro h; simp at h
  | cons a l ih =>
    intro h
    by_cases ha : p a = true
    · rw [List.takeWhile_cons_of_pos ha] at h ⊢
      obtain ⟨x, h1, h2⟩ := ih (by simpa using h)
      exact ⟨x, by simpa using h1, h2⟩
    · rw [List.takeWhile_cons_of_neg ha]
      exact ⟨a, by simp, by simpa using ha⟩

theorem take_length_takeWhile {α : Type} (p : α → Bool) :
    ∀ (l : List α), l.take (l.takeWhile p).length = l.takeWhile p := by
  intro l
  induction l with
  | nil => rfl
  | cons a l ih =>
    by_cases ha : p a = true
    · rw [List.takeWhile_cons_of_pos ha]
      simp [ih]
    · rw [List.takeWhile_cons_of_neg ha]
      rfl

theorem takeWhile_all {α : Type} (p : α → Bool) (l : List α)
    (h : l.length ≤ (l.takeWhile p).length) : l.takeWhile p = l := by
  have := take_length_takeWhile p l
  rw [← this]
  exact List.take_of_length_le h

/-- No newline stands in a line. -/
theorem lineFrom_no_newline (s : List Char) (off i : Nat) (h : i < (lineFrom s off).length) :
    s[off + i]? ≠ some '\n' := by
  obtain ⟨x, h1, h2⟩ := takeWhile_get (fun c => decide (c ≠ '\n')) (s.drop off) i h
  rw [List.getElem?_drop] at h1
  rw [h1]
  intro e
  simp only [Option.some.injEq] at e
  rw [e] at h2
  simp at h2

/-- The line the loop of `GetRidBlInclude` cuts at `off` is the line from `off`. -/
theorem getRid_line_none (s : List Char) (off : Nat) (h : findNewline s off = none) :
    s.drop off = lineFrom s off := by
  unfold findNewline at h
  split_ifs at h with h1
  by_cases ho : off ≤ s.length
  · exact (takeWhile_all _ _ (by
      simp only [List.length_drop]
      simp only [not_lt] at h1
      omega)).symm
  · unfold lineFrom
    rw [List.drop_eq_nil_of_le (by omega)]
    rfl

theorem getRid_line_some (s : List Char) (off q : Nat) (h : findNewline s off = some q) :
    (s.drop off).take (q - off) = lineFrom s off := by
  unfold findNewline at h
  split_ifs at h with h1
  simp only [Option.some.injEq] at h
  rw [← h, Nat.add_sub_cancel]
  exact take_length_takeWhile _ _

theorem lineFrom_within (s : List Char) (off : Nat) : lineFrom s off <:+: s :=
  ( List.takeWhile_prefix _).isInfix.trans (List.drop_suffix _ _).isInfix

/-- Without the text `flatco.h` in it, the text is written as it is. -/
theorem GetRidResult_same (s out : List Char) (h : GetRidResult s out)
    (hf : ¬ "flatco.h".toList <:+: s) : out = s := by
  rcases h with h | ⟨off, -, -, h, -, -⟩
  · exact h.1
  · exfalso
    apply hf
    exact List.IsInfix.trans (CheckBlInclude_true _ h) (lineFrom_within s off)

/-- C21 (code defect): a block comment that ends with `**/` is not taken as closed
(`skipMultilineComment` forgets the star it has seen when the next character is a
star), so `getBrackets` on `(/* x **/) y` finds no closing bracket and throws, and so
it does on `(/***/)`. With comments that end in a single star, with literals and
with nested brackets the span ends at the matching bracket, the cursor on it, and a
bracket that is not closed is an error. -/
theorem C21_double_star_comment_not_closed :
    bracketSpan "(/* x **/) y".toList = .err ⟨1, 12, "Multi-line comments are not closed"⟩
    ∧ bracketSpan "(/***/)".toList = .err ⟨1, 7, "Multi-line comments are not closed"⟩
    ∧ bracketSpan "(/* x */) y".toList = .ok (0, 9, 8)
    ∧ bracketSpan "(/**/)".toList = .ok (0, 6, 5)
    ∧ bracketSpan "(a(b)c) d)".toList = .ok (0, 7, 6)
    ∧ bracketSpan "(/* ) */)".toList = .ok (0, 9, 8)
    ∧ bracketSpan "(x/*)*/ ) y".toList = .ok (0, 9, 8)
    ∧ bracketSpan "(a // )\n) x".toList = .ok (0, 9, 8)
    ∧ bracketSpan "(\")\" ')' ) x".toList = .ok (0, 10, 9)
    ∧ bracketSpan "<a<b>c> d>".toList = .ok (0, 7, 6)
    ∧ bracketSpan "[a(])]".toList = .ok (0, 4, 3)
    ∧ bracketSpan "(a".toList = .err ⟨1, 2, "No matched right bracket till end of file"⟩ :=
  ⟨by decide!, by decide!, by decide!, by decide!, by decide!, by decide!, by decide!,
    by decide!, by decide!, by decide!, by decide!, by decide!⟩

/-- C22 (code defect): `getType` takes every identifier that is a beginning of `const`
or of `volatile` for a qualifier, so the parameter names `c` and `v` are read as
part of the type and the parameter list `(int c, int v)` is rejected; with the
names `a` and `b` the two parameters are recorded. The identifiers `const`,
`volatile` are qualifiers, `constant` is none. -/
theorem C22_qualifier_prefix_taken :
    Parser.new shortNamesSrc = .err ⟨1, 24, "Identifier should start with A-Za-z_"⟩
    ∧ paramTexts plainNamesSrc = .ok [[("int ", "a"), ("int ", "b")]]
    ∧ notQualifier "c".toList ⟨1, 1, 0, 1⟩ = false
    ∧ notQualifier "v".toList ⟨1, 1, 0, 1⟩ = false
    ∧ notQualifier "con".toList ⟨1, 1, 0, 3⟩ = false
    ∧ notQualifier "vol".toList ⟨1, 1, 0, 3⟩ = false
    ∧ notQualifier "const".toList ⟨1, 1, 0, 5⟩ = false
    ∧ notQualifier "volatile".toList ⟨1, 1, 0, 8⟩ = false
    ∧ notQualifier "constant".toList ⟨1, 1, 0, 8⟩ = true
    ∧ notQualifier "a".toList ⟨1, 1, 0, 1⟩ = true
    ∧ Parser.new "BL_func(x) void F(int con) \x7b \x7d".toList
        = .err ⟨1, 25, "Identifier should start with A-Za-z_"⟩
    ∧ Parser.new "BL_func(x) int c(int a) \x7b BL_return(a); \x7d".toList
        = .err ⟨1, 17, "Identifier should start with A-Za-z_"⟩ := by
  decide!

/-- C24 (code defect): in the body `BL_retur\n(1); x` the identifier `BL_retur` is
taken for `BL_return`; `ParseBlReturn` then skips 9 bytes with `skipGet`, which does
not count the newline among them, and the chunk `; x ` that stands in line 2 of
the input is recorded with row 1. After the keyword `BL_return` itself the row is
2. `skipGet` never changes the row. -/
theorem C24_row_lost_after_keyword_prefix :
    bodyItems prefixReturnSrc = .ok [[(1, true, " "), (1, false, ""), (1, true, "; x ")]]
    ∧ prefixReturnSrc[33]? = some ';' ∧ lineColAt prefixReturnSrc 33 = (2, 4)
    ∧ slice prefixReturnSrc 33 4 = "; x ".toList
    ∧ bodyItems returnNewlineSrc = .ok [[(1, true, " "), (2, false, ""), (2, true, "; x ")]]
    ∧ returnNewlineSrc[34]? = some ';' ∧ lineColAt returnNewlineSrc 34 = (2, 4)
    ∧ (∀ (l : Lexer) (n : Nat), (l.skipGet n).2.row_ = l.row_) := by
  refine ⟨by decide!, by decide!, by decide!, by decide!, by decide!, by decide!, by decide!,
    fun l n => ?_⟩
  unfold Lexer.skipGet
  simp only []
  split <;> rfl

/-- C25 (code defect): a comment that stands right after an identifier is scanned
as code, because after an identifier the next character is read by `skipGet`, not
by `skipCommentsGet`. At top level `int x/*BL_return()*/;` is rejected for its
`BL_return`, in a body `x/*BL_return()*/` records a return site and
`else// BL_call(G())` a call; with a blank between the identifier and the comment
nothing is recorded. -/
theorem C25_comment_after_identifier_scanned :
    Parser.new commentAfterIdentSrc = .err ⟨1, 8, "Can't use BL_return outside BL_func"⟩
    ∧ (Parser.new commentAfterBlankSrc).bind (fun P => .ok (P.items_.map fun i => String.mk i.s.s))
        = .ok ["int x /*BL_return()*/;"]
    ∧ Parser.new lineCommentAfterIdentSrc = .err ⟨1, 50, "BL_call undefined BL_func"⟩
    ∧ bodyItems lineCommentAfterBlankSrc
        = .ok [[(1, true, " if (a) b; else // BL_call(G())\n c; ")]]
    ∧ returnCounts bodyCommentAfterIdentSrc = .ok [1]
    ∧ bodyItems bodyCommentAfterIdentSrc
        = .ok [[(1, true, " x/*"), (1, false, ""), (1, true, "*/; ")]] := by
  decide!

/-- C26 (code defect): `FindParams` does not read literals: with the parameter `a`,
the span `puts("a"); use(a);` yields the offsets 6 and 15, the first inside the
string literal, and the expansion writes `puts("_BLparam0_a")`. The same holds for
a character literal; a `//` inside a literal hides the rest of the line, and a
`/*` inside a literal is an error. -/
theorem C26_literal_contents_recorded :
    FindParams "puts(\"a\"); use(a);".toList [("a".toList, 0)]
      = .ok ⟨"puts(\"a\"); use(a);".toList, [6, 15]⟩
    ∧ "puts(\"a\"); use(a);".toList[6]? = some 'a'
    ∧ "puts(\"a\"); use(a);".toList[5]? = some '"'
    ∧ "puts(\"a\"); use(a);".toList[7]? = some '"'
    ∧ flatco literalSrc "in.cxx".toList = .ok
        "\n#line 1 \"in.cxx\"\n\ndo \x7bint  _BLparam0_a=1;\n#line 1 \"in.cxx\"\n puts(\"_BLparam0_a\"); use(_BLparam0_a); _BLexit0:;\x7dwhile(0)\n#line 2 \"in.cxx\"\n;".toList
    ∧ FindParams "c = 'a'; use(a);".toList [("a".toList, 0)]
      = .ok ⟨"c = 'a'; use(a);".toList, [5, 13]⟩
    ∧ FindParams "puts(\"//\"); use(a);".toList [("a".toList, 0)]
      = .ok ⟨"puts(\"//\"); use(a);".toList, []⟩
    ∧ FindParams "puts(\"/*\"); use(a);".toList [("a".toList, 0)]
      = .err ⟨1, 19, "Multi-line comments are not closed"⟩ := by
  decide!

/-- C27 (code defect): the condition `p_ > last` asserted by `getSizeFrom` is false
at the call `checkAddCode` that ends the constructor, for the empty input, for
an input that ends with a call and for one that ends with a function; it is false
at every call that measures an empty chunk, for which `checkAddCode` adds no
item. For an input that ends with code it holds. -/
theorem C27_empty_chunk_fails_assertion :
    tailAssert [] = .ok false
    ∧ (Parser.parse []).bind (fun P => .ok P.items_) = .ok []
    ∧ tailAssert "BL_call(F())".toList = .ok false
    ∧ tailAssert "BL_func(x) void F() \x7b\x7d".toList = .ok false
    ∧ tailAssert "int x;".toList = .ok true
    ∧ (∀ l : Lexer, l.getSizeFromAssert l.p_ = false)
    ∧ (∀ (P : Parser) (row col : Nat), P.checkAddCode row col P.lex_.p_ = P) := by
  refine ⟨by decide!, by decide!, by decide!, by decide!, by decide!, fun l => ?_,
    fun P row col => ?_⟩
  · simp [Lexer.getSizeFromAssert]
  · simp [Parser.checkAddCode, Lexer.getSizeFrom]

/-! ### C23: the expansion ends -/

/-! ### C23: the recursion of `expand` -/

/-- The functions after one call is resolved. -/
theorem prepareCall_funcs (m : NameMap) (i j : Nat) (c : CallItem) (st st' : PrepState)
    (h : prepareCall m i j c st = .ok st') :
    ∃ k, NameMap.find m c.name = some k ∧ st'.funcs
      = List.modify (fun f => { f with callers := f.callers ++ [i] }) k
          (List.modify
            (fun f => { f with calls := List.modify (fun c => { c with funcIndex := k }) j f.calls })
            i st.funcs) := by
  unfold prepareCall at h
  cases hfind : NameMap.find m c.name with
  | none => rw [hfind] at h; simp at h
  | some k =>
    rw [hfind] at h
    refine ⟨k, rfl, ?_⟩
    simp only at h
    split at h
    · exact absurd h (by simp)
    · split at h
      · exact absurd h (by simp)
      · split at h
        · exact absurd h (by simp)
        · split at h
          · exact absurd h (by simp)
          · split at h
            · exact absurd h (by simp)
            · simp only [Res.ok.injEq] at h
              rw [← h]

/-- The calls of a function after one call is resolved. -/
theorem prepareCall_calls (m : NameMap) (i j : Nat) (c : CallItem) (st st' : PrepState)
    (h : prepareCall m i j c st = .ok st') :
    ∃ k, NameMap.find m c.name = some k ∧ ∀ x : Nat,
      (st'.funcs[x]?).map (fun f => f.calls)
        = (st.funcs[x]?).map fun f =>
            if i = x then List.modify (fun c => { c with funcIndex := k }) j f.calls else f.calls := by
  obtain ⟨k, hk, hf⟩ := prepareCall_funcs m i j c st st' h
  refine ⟨k, hk, fun x => ?_⟩
  rw [hf]
  simp only [List.getElem?_modify, Option.map_eq_map, Option.map_map]
  cases st.funcs[x]? with
  | none => rfl
  | some f =>
    simp only [Option.map_some', Function.comp_apply]
    by_cases h1 : k = x <;> by_cases h2 : i = x <;> simp [h1, h2]

theorem callNames_getElem? (funcs : List FuncItem) (x : Nat) :
    (callNames funcs)[x]? = (funcs[x]?).map fun f => f.calls.map fun c => c.name := by
  simp [callNames]

/-- One resolved call: the names stay, and the call at `(i, j)` is resolved too. -/
theorem prepareCall_resolved (m : NameMap) (i j : Nat) (c : CallItem) (st st' : PrepState)
    (h : prepareCall m i j c st = .ok st')
    (hc : ∀ f, st.funcs[i]? = some f → ∀ c0, f.calls[j]? = some c0 → c0.name = c.name)
    (hR : ResolvedTo m st.funcs i j) :
    callNames st'.funcs = callNames st.funcs ∧ ResolvedTo m st'.funcs i (j + 1) := by
  obtain ⟨k, hk, hcalls⟩ := prepareCall_calls m i j c st st' h
  constructor
  · apply List.ext_getElem?
    intro x
    rw [callNames_getElem?, callNames_getElem?]
    have := congrArg (Option.map fun cs : List CallItem => cs.map fun c => c.name) (hcalls x)
    simp only [Option.map_map] at this
    rw [show ((fun f : FuncItem => f.calls.map fun c => c.name)
        = (fun cs : List CallItem => cs.map fun c => c.name) ∘ fun f => f.calls) from rfl, this]
    cases st.funcs[x]? with
    | none => rfl
    | some f =>
      simp only [Option.map_some', Function.comp_apply]
      congr 1
      split
      · apply List.ext_getElem?
        intro y
        simp only [List.getElem?_map, List.getElem?_modify]
        cases f.calls[y]? with
        | none => rfl
        | some c0 =>
          simp only [Option.map_some']
          split <;> rfl
      · rfl
  · intro x f' hf' y c' hc' hd
    have hx := hcalls x
    rw [hf'] at hx
    cases hfx : st.funcs[x]? with
    | none => rw [hfx] at hx; simp at hx
    | some f =>
      rw [hfx] at hx
      simp only [Option.map_some', Option.some.injEq] at hx
      rw [hx] at hc'
      by_cases hix : i = x
      · subst hix
        simp only [↓reduceIte, List.getElem?_modify] at hc'
        cases hfy : f.calls[y]? with
        | none => rw [hfy] at hc'; simp at hc'
        | some c0 =>
          rw [hfy] at hc'
          simp only [Option.map_eq_map, Option.map_some', Option.some.injEq] at hc'
          by_cases hjy : j = y
          · subst hjy
            simp only [↓reduceIte] at hc'
            rw [← hc']
            simp only []
            rw [hc f hfx c0 hfy]
            exact hk
          · simp only [hjy, ↓reduceIte] at hc'
            rw [← hc']
            refine hR i f hfx y c0 hfy ?_
            rcases hd with hd | ⟨-, hd⟩
            · exact Or.inl hd
            · exact Or.inr ⟨rfl, by omega⟩
      · simp only [hix, ↓reduceIte] at hc'
        refine hR x f hfx y c' hc' ?_
        rcases hd with hd | ⟨hd, -⟩
        · exact Or.inl hd
        · exact absurd hd.symm hix

/-- The loop over the calls of function `i`: the names stay, and the calls it went
through are resolved. -/
theorem prepareCallsOf_resolved (m : NameMap) (i : Nat) (N : List (List (List Char))) :
    ∀ (cs : List CallItem) (j : Nat) (st st' : PrepState),
      prepareCallsOf m i cs j st = .ok st' → callNames st.funcs = N →
      (∀ (y : Nat) (c : CallItem), cs[y]? = some c →
        (N[i]?).bind (fun l => l[j + y]?) = some c.name) →
      ResolvedTo m st.funcs i j →
      callNames st'.funcs = N ∧ ResolvedTo m st'.funcs i (j + cs.length) := by
  intro cs
  induction cs with
  | nil =>
    intro j st st' h hN _ hR
    simp only [prepareCallsOf, Res.ok.injEq] at h
    subst h
    exact ⟨hN, hR⟩
  | cons c rest ih =>
    intro j st st' h hN hcs hR
    simp only [prepareCallsOf] at h
    obtain ⟨st1, h1, h2⟩ := Res.bind_eq_ok h
    have hc : ∀ f, st.funcs[i]? = some f → ∀ c0, f.calls[j]? = some c0 → c0.name = c.name := by
      intro f hf c0 hc0
      have h0 := hcs 0 c (by simp)
      rw [← hN, callNames_getElem?, hf] at h0
      simp only [Option.map_some', Option.some_bind, Nat.add_zero, List.getElem?_map, hc0,
        Option.some.injEq] at h0
      exact h0
    obtain ⟨hN1, hR1⟩ := prepareCall_resolved m i j c st st1 h1 hc hR
    obtain ⟨hN2, hR2⟩ := ih (j + 1) st1 st' h2 (hN1.trans hN)
      (fun y c' hy => by
        have := hcs (y + 1) c' (by simpa using hy)
        rw [show j + 1 + y = j + (y + 1) by omega]
        exact this) hR1
    refine ⟨hN2, ?_⟩
    rw [show j + (c :: rest).length = j + 1 + rest.length by simp; omega]
    exact hR2

/-- The second loop of `prepare`: the names stay, and the calls of the functions it
went through are resolved. -/
theorem prepareCalls_resolved (m : NameMap) (N : List (List (List Char))) :
    ∀ (fs : List FuncItem) (i : Nat) (st st' : PrepState),
      prepareCalls m fs i st = .ok st' → callNames st.funcs = N →
      (∀ (idx : Nat) (f : FuncItem), fs[idx]? = some f →
        N[i + idx]? = some (f.calls.map fun c => c.name)) →
      ResolvedTo m st.funcs i 0 →
      callNames st'.funcs = N ∧ ResolvedTo m st'.funcs (i + fs.length) 0 := by
  intro fs
  induction fs with
  | nil =>
    intro i st st' h hN _ hR
    simp only [prepareCalls, Res.ok.injEq] at h
    subst h
    exact ⟨hN, hR⟩
  | cons func rest ih =>
    intro i st st' h hN hfs hR
    simp only [prepareCalls] at h
    obtain ⟨st1, h1, h2⟩ := Res.bind_eq_ok h
    have hNi : N[i]? = some (func.calls.map fun c => c.name) := hfs 0 func (by simp)
    obtain ⟨hN1, hR1⟩ := prepareCallsOf_resolved m i N func.calls 0 st st1 h1 hN
      (fun y c hy => by
        rw [hNi]
        simp only [Option.some_bind, Nat.zero_add, List.getElem?_map, hy, Option.map_some'])
      hR
    have hR1' : ResolvedTo m st1.funcs (i + 1) 0 := by
      intro x f hf y c hc hd
      refine hR1 x f hf y c hc ?_
      rcases hd with hd | ⟨-, hd⟩
      · by_cases hxi : x = i
        · right
          refine ⟨hxi, ?_⟩
          have hlen : f.calls.length = func.calls.length := by
            have := callNames_getElem? st1.funcs x
            rw [hN1, hxi, hNi, ← hxi, hf] at this
            simp only [Option.map_some', Option.some.injEq] at this
            have := congrArg List.length this
            simpa using this.symm
          have := (List.getElem?_eq_some.1 hc).1
          omega
        · left; omega
      · omega
    obtain ⟨hN2, hR2⟩ := ih (i + 1) st1 st' h2 hN1
      (fun idx f hf => by
        have := hfs (idx + 1) f (by simpa using hf)
        rw [show i + 1 + idx = i + (idx + 1) by omega]
        exact this) hR1'
    refine ⟨hN2, ?_⟩
    rw [show i + (func :: rest).length = i + 1 + rest.length by simp; omega]
    exact hR2

/-- What a successful `prepare` leaves in the functions: every call in a body carries
the index of the function it names, and the graph of these indices has no cycle. -/
theorem prepare_resolved (P P' : Parser) (hn : P.name2Func_ = [])
    (hcallers : ∀ f ∈ P.funcs_, f.callers = []) (h : P.prepare = .ok P') :
    P'.lex_ = P.lex_ ∧ P'.funcs_.length = P.funcs_.length
      ∧ (∀ i k, resolvedEdge P' i k → callEdge P i k ∧ k < P'.funcs_.length)
      ∧ ∀ v, ¬ Relation.TransGen (resolvedEdge P') v v := by
  have h0 := h
  unfold Parser.prepare at h
  obtain ⟨r1, h1, h⟩ := Res.bind_eq_ok h
  obtain ⟨st, h2, h⟩ := Res.bind_eq_ok h
  obtain ⟨calls1, h3, h⟩ := Res.bind_eq_ok h
  obtain ⟨ss, h4, h⟩ := Res.bind_eq_ok h
  split at h
  · obtain ⟨x, -, hx⟩ := Res.bind_eq_ok h
    exact absurd hx (by simp)
  simp only [Res.ok.injEq] at h
  obtain ⟨m, fs⟩ := r1
  simp only at h2 h3 h4 h
  have h1' := h1
  rw [hn] at h1'
  obtain ⟨hlen, hm, hnone, hsome, hsame⟩ := prepareFuncs_table _ _ _ _ h1'
  have hNfs : callNames fs = callNames P.funcs_ := by
    apply List.ext_getElem?
    intro x
    rw [callNames_getElem?, callNames_getElem?]
    cases hx : P.funcs_[x]? with
    | none =>
      have : fs[x]? = none := by
        rw [List.getElem?_eq_none_iff] at hx ⊢
        omega
      rw [this]
    | some f =>
      obtain ⟨f', hf', heq⟩ := hsame x f hx
      rw [hf']
      simp only [Option.map_some', Option.some.injEq]
      rw [heq]
  obtain ⟨hN, hR⟩ := prepareCalls_resolved m (callNames fs) fs 0 _ st h2 rfl
    (fun idx f hf => by rw [Nat.zero_add, callNames_getElem?, hf]; rfl)
    (fun x f _ y c _ hd => by rcases hd with hd | ⟨-, hd⟩ <;> omega)
  have hlen2 : st.funcs.length = fs.length := by
    have := congrArg List.length hN
    simpa [callNames] using this
  have hfuncs : P'.funcs_ = st.funcs := by rw [← h]
  have hedge : ∀ i k, resolvedEdge P' i k → callEdge P i k ∧ k < P'.funcs_.length := by
    rintro i k ⟨f, c, hf, hc, hck⟩
    rw [hfuncs] at hf ⊢
    obtain ⟨y, hy⟩ := List.mem_iff_getElem?.1 hc
    have hi : i < fs.length := by
      rw [← hlen2]
      exact (List.getElem?_eq_some.1 hf).1
    have hfind := hR i f hf y c hy (Or.inl (by omega))
    rw [hck] at hfind
    have hk := hm _ _ hfind
    refine ⟨?_, by omega⟩
    -- the call with the same name in the function as scanned
    have hi' : i < P.funcs_.length := by omega
    have hnames := callNames_getElem? st.funcs i
    rw [hN, hNfs, callNames_getElem?, hf, List.getElem?_eq_getElem hi'] at hnames
    simp only [Option.map_some', Option.some.injEq] at hnames
    have hy0 : (P.funcs_[i].calls.map fun c => c.name)[y]? = some c.name := by
      rw [hnames]
      simp [hy]
    simp only [List.getElem?_map, Option.map_eq_some'] at hy0
    obtain ⟨c0, hc0, hc0n⟩ := hy0
    -- the function the name table gives for the name
    have hk' : k < P.funcs_.length := by omega
    have hg : (P.funcs_[k]).nameText P.lex_.buf = c.name := by
      by_contra hne
      have hex : ∃ f1 ∈ P.funcs_, f1.nameText P.lex_.buf = c.name := by
        by_contra hno
        have := hnone c.name (fun f1 hf1 he => hno ⟨f1, hf1, he⟩)
        rw [this] at hfind
        exact absurd hfind (by simp)
      obtain ⟨f1, hf1, he⟩ := hex
      obtain ⟨idx, hidx⟩ := List.mem_iff_getElem?.1 hf1
      have := hsome idx f1 hidx
      rw [he, hfind] at this
      simp only [Option.some.injEq] at this
      subst this
      rw [List.getElem?_eq_getElem hk'] at hidx
      simp only [Option.some.injEq] at hidx
      rw [hidx] at hne
      exact hne he
    exact ⟨P.funcs_[i], P.funcs_[k], c0, List.getElem?_eq_getElem hi',
      List.getElem?_eq_getElem hk', List.mem_iff_getElem?.2 ⟨y, hc0⟩, by rw [hc0n, hg]⟩
  refine ⟨by rw [← h], by rw [hfuncs, hlen2, hlen], hedge, fun v hv => ?_⟩
  have hcyc : OnCycle P v := Relation.TransGen.mono (fun a b hab => (hedge a b hab).1) hv
  obtain ⟨row, col, names, herr, -⟩ :=
    prepare_cycle_error P hn hcallers v hcyc m fs st calls1 h1 h2 h3
  rw [herr] at h0
  exact absurd h0 (by simp)

/-- A relation without cycle on the numbers below `n` has a rank below `n` that falls
along it. -/
theorem exists_rank (E : Nat → Nat → Prop) (n : Nat) (hE : ∀ i k, E i k → k < n)
    (hacyc : ∀ v, ¬ Relation.TransGen E v v) :
    ∃ rank : Nat → Nat, (∀ v w, E v w → rank w < rank v) ∧ ∀ v, v < n → rank v < n := by
  classical
  refine ⟨fun v => ((Finset.range n).filter fun w => Relation.TransGen E v w).card, ?_, ?_⟩
  · intro v w hvw
    apply Finset.card_lt_card
    rw [Finset.ssubset_iff_of_subset]
    · refine ⟨w, ?_, ?_⟩
      · exact Finset.mem_filter.2 ⟨Finset.mem_range.2 (hE v w hvw), Relation.TransGen.single hvw⟩
      · intro hw
        exact hacyc w (Finset.mem_filter.1 hw).2
    · intro x hx
      obtain ⟨h1, h2⟩ := Finset.mem_filter.1 hx
      exact Finset.mem_filter.2 ⟨h1, Relation.TransGen.head hvw h2⟩
  · intro v hv
    have hsub : ((Finset.range n).filter fun w => Relation.TransGen E v w)
        ⊆ (Finset.range n).erase v := by
      intro x hx
      obtain ⟨h1, h2⟩ := Finset.mem_filter.1 hx
      refine Finset.mem_erase.2 ⟨?_, h1⟩
      rintro rfl
      exact hacyc x h2
    have := Finset.card_le_card hsub
    rw [Finset.card_erase_of_mem (Finset.mem_range.2 hv), Finset.card_range] at this
    show ((Finset.range n).filter fun w => Relation.TransGen E v w).card < n
    omega

theorem Res.bind_ne_fuel {α β : Type} {x : Res α} {f : α → Res β} (hx : x ≠ .fuel)
    (hf : ∀ a, x = .ok a → f a ≠ .fuel) : x.bind f ≠ .fuel := by
  cases x with
  | ok a => exact hf a rfl
  | err e => simp [Res.bind]
  | fuel => exact absurd rfl hx
  | ub => simp [Res.bind]

theorem substr_ne_fuel (s : List Char) (pos count : Nat) : substr s pos count ≠ .fuel := by
  unfold substr
  split <;> simp

theorem fromSeqLoop_ne_fuel (s tag : List Char) :
    ∀ (ps : List Nat) (prev : Nat) (acc : List Char), fromSeqLoop s tag prev ps acc ≠ .fuel := by
  intro ps
  induction ps with
  | nil =>
    intro prev acc
    simp only [fromSeqLoop]
    exact Res.bind_ne_fuel (substr_ne_fuel _ _ _) (fun _ _ => by simp)
  | cons p ps ih =>
    intro prev acc
    simp only [fromSeqLoop]
    exact Res.bind_ne_fuel (substr_ne_fuel _ _ _) (fun _ _ => ih _ _)

theorem FromSeqInsertable_ne_fuel (si : SeqInsertable) (seq : Nat) :
    FromSeqInsertable si seq ≠ .fuel := by
  unfold FromSeqInsertable
  split
  · simp
  · exact Res.bind_ne_fuel (substr_ne_fuel _ _ _) (fun _ _ => fromSeqLoop_ne_fuel _ _ _ _ _)

theorem fromSeqAll_ne_fuel (seq : Nat) : ∀ vs : List SeqInsertable, fromSeqAll seq vs ≠ .fuel := by
  intro vs
  induction vs with
  | nil => simp [fromSeqAll]
  | cons v rest ih =>
    simp only [fromSeqAll]
    exact Res.bind_ne_fuel (FromSeqInsertable_ne_fuel _ _)
      (fun _ _ => Res.bind_ne_fuel ih (fun _ _ => by simp))

theorem emitParams_ne_fuel (buf : List Char) (seq : Nat) (params : List (List Char)) :
    ∀ (ps : List FuncParam) (i : Nat) (g : GenState),
      emitParams buf seq params ps i g ≠ .fuel := by
  intro ps
  induction ps with
  | nil => intro i g; simp [emitParams]
  | cons pi rest ih =>
    intro i g
    simp only [emitParams]
    split
    · simp
    · exact ih _ _

/-- The loop over the items of a function does not run out of depth when the nested
expansions of the calls of the function do not. -/
theorem expandItems_ne_fuel (f : List Char) (func : FuncItem) (seq : Nat) (lval : List Char)
    (recurse : Nat → List Char → List (List Char) → GenState → Res GenState)
    (hrec : ∀ call ∈ func.calls, ∀ lv ps g, recurse call.funcIndex lv ps g ≠ .fuel) :
    ∀ (items : List CxxItem) (g : GenState),
      expandItems f func seq lval recurse items g ≠ .fuel := by
  intro items
  induction items with
  | nil => intro g; simp [expandItems]
  | cons item rest ih =>
    intro g
    simp only [expandItems]
    refine Res.bind_ne_fuel ?_ (fun _ _ => ih _)
    split
    · exact Res.bind_ne_fuel (FromSeqInsertable_ne_fuel _ _) (fun _ _ => by simp)
    · split
      · simp
      · rename_i call hcall
        refine Res.bind_ne_fuel (fromSeqAll_ne_fuel _ _) (fun ps _ => ?_)
        exact Res.bind_ne_fuel (FromSeqInsertable_ne_fuel _ _)
          (fun lv _ => hrec call (List.mem_iff_getElem?.2 ⟨_, hcall⟩) _ _ _)
    · split
      · simp
      · exact Res.bind_ne_fuel (FromSeqInsertable_ne_fuel _ _) (fun _ _ => by simp)
    · simp

/-- The loop over the items of a function depends on the nested expansion only at
the calls of the function. -/
theorem expandItems_congr (f : List Char) (func : FuncItem) (seq : Nat) (lval : List Char)
    (r1 r2 : Nat → List Char → List (List Char) → GenState → Res GenState)
    (hrec : ∀ call ∈ func.calls, ∀ lv ps g, r1 call.funcIndex lv ps g = r2 call.funcIndex lv ps g) :
    ∀ (items : List CxxItem) (g : GenState),
      expandItems f func seq lval r1 items g = expandItems f func seq lval r2 items g := by
  intro items
  induction items with
  | nil => intro g; simp [expandItems]
  | cons item rest ih =>
    intro g
    simp only [expandItems]
    have ih' : (fun g1 => expandItems f func seq lval r1 rest g1)
        = fun g1 => expandItems f func seq lval r2 rest g1 := funext ih
    rw [ih']
    cases item.kind with
    | CODE => rfl
    | BL_func => rfl
    | BL_return => rfl
    | BL_call =>
      simp only []
      cases hcall : func.calls[item.index]? with
      | none => rfl
      | some call =>
        simp only []
        have hr : (fun params : List (List Char) =>
              (FromSeqInsertable call.lval seq).bind fun lv => r1 call.funcIndex lv params g)
            = fun params : List (List Char) =>
              (FromSeqInsertable call.lval seq).bind fun lv => r2 call.funcIndex lv params g := by
          funext ps
          congr 1
          funext lv
          exact hrec call (List.mem_iff_getElem?.2 ⟨_, hcall⟩) _ _ _
        rw [hr]

theorem expand_succ (buf : List Char) (funcs : List FuncItem) (f : List Char) (d idx : Nat)
    (lval : List Char) (params : List (List Char)) (g : GenState) :
    expand buf funcs f (d + 1) idx lval params g
      = match funcs[idx]? with
        | none => .ub
        | some func =>
          (emitParams buf g.seq params func.params 0
            (({ g with seq := g.seq + 1, seqs := g.seqs ++ [g.seq] } : GenState).write
              "do \x7b".toList)).bind fun g2 =>
            (expandItems f func g.seq lval (expand buf funcs f d) func.items g2).bind
              fun g3 => .ok (g3.write (exitLabel g.seq ++ ":;\x7dwhile(0)".toList)) := rfl

/-- With a rank that falls along the calls, `expand` does not run out of a depth
above the rank of the function, and its outcome does not depend on the depth. -/
theorem expand_ranked (buf : List Char) (funcs : List FuncItem) (f : List Char)
    (rank : Nat → Nat)
    (hrank : ∀ i fn c, funcs[i]? = some fn → c ∈ fn.calls → rank c.funcIndex < rank i) :
    ∀ (d idx : Nat), rank idx < d → ∀ (lval : List Char) (params : List (List Char))
      (g : GenState),
      expand buf funcs f d idx lval params g ≠ .fuel
        ∧ expand buf funcs f (d + 1) idx lval params g = expand buf funcs f d idx lval params g := by
  intro d
  induction d with
  | zero => intro idx h; omega
  | succ d ih =>
    intro idx hlt lval params g
    cases hfn : funcs[idx]? with
    | none => simp [expand, hfn]
    | some func =>
      have hcallee : ∀ call ∈ func.calls, rank call.funcIndex < d := by
        intro call hc
        have := hrank idx func call hfn hc
        omega
      constructor
      · rw [expand_succ buf funcs f d idx lval params g]
        simp only [hfn]
        refine Res.bind_ne_fuel (emitParams_ne_fuel _ _ _ _ _ _) (fun g2 _ => ?_)
        refine Res.bind_ne_fuel ?_ (fun _ _ => by simp)
        exact expandItems_ne_fuel f func _ _ _
          (fun call hc lv ps g' => (ih call.funcIndex (hcallee call hc) lv ps g').1) _ _
      · rw [expand_succ buf funcs f (d + 1) idx lval params g,
          expand_succ buf funcs f d idx lval params g]
        simp only [hfn]
        have hc := expandItems_congr f func g.seq lval (expand buf funcs f (d + 1))
          (expand buf funcs f d)
          (fun call hc lv ps g' => (ih call.funcIndex (hcallee call hc) lv ps g').2)
        have hc' : (fun g2 => expandItems f func g.seq lval (expand buf funcs f (d + 1))
              func.items g2)
            = fun g2 => expandItems f func g.seq lval (expand buf funcs f d) func.items g2 :=
          funext fun g2 => hc func.items g2
        simp only [hc']

/-- From a depth above the rank on, the outcome of `expand` is the same. -/
theorem expand_stable (buf : List Char) (funcs : List FuncItem) (f : List Char)
    (rank : Nat → Nat)
    (hrank : ∀ i fn c, funcs[i]? = some fn → c ∈ fn.calls → rank c.funcIndex < rank i)
    (d0 idx : Nat) (h0 : rank idx < d0) (lval : List Char) (params : List (List Char))
    (g : GenState) :
    ∀ d, d0 ≤ d → expand buf funcs f d idx lval params g = expand buf funcs f d0 idx lval params g := by
  intro d hd
  induction d with
  | zero =>
    have : d0 = 0 := by omega
    rw [this]
  | succ d ih =>
    by_cases hle : d0 ≤ d
    · rw [(expand_ranked buf funcs f rank hrank d idx (by omega) lval params g).2]
      exact ih hle
    · have : d0 = d + 1 := by omega
      rw [this]

/-- The top-level calls after `prepare` carry the index the name table gives. -/
theorem prepareTopCalls_index (m : NameMap) :
    ∀ (cs r : List CallItem), prepareTopCalls m cs = .ok r →
      ∀ c ∈ r, ∃ key, NameMap.find m key = some c.funcIndex := by
  intro cs
  induction cs with
  | nil =>
    intro r h c hc
    simp only [prepareTopCalls, Res.ok.injEq] at h
    rw [← h] at hc
    exact absurd hc (List.not_mem_nil _)
  | cons c0 rest ih =>
    intro r h c hc
    simp only [prepareTopCalls] at h
    cases hfind : NameMap.find m c0.name with
    | none => rw [hfind] at h; exact absurd h (by simp)
    | some k =>
      rw [hfind] at h
      simp only at h
      obtain ⟨r', hr', h⟩ := Res.bind_eq_ok h
      simp only [Res.ok.injEq] at h
      rw [← h] at hc
      rcases List.mem_cons.1 hc with rfl | hc
      · exact ⟨c0.name, hfind⟩
      · exact ih r' hr' c hc

/-- C23 (the recursion of expand ends): for every unit on which the construction of
the parser, with `prepare`, succeeds, the graph of the calls as `expand` follows them
(from a function to the index each call in its body carries) has no cycle, and
every call, in a body or at top level, carries the index of a function. So for
every function and every depth bound that is at least the number of `BL_func`
definitions, `expand` does not run out of the bound, and its outcome is the one
for the bound equal to that number: the depth of the recursion never exceeds the
number of definitions. -/
theorem C23_expand_within_depth (src : List Char) (P : Parser) (h : Parser.new src = .ok P) :
    (∀ v, ¬ Relation.TransGen (resolvedEdge P) v v)
    ∧ (∀ i k, resolvedEdge P i k → k < P.funcs_.length)
    ∧ (∀ c ∈ P.calls_, c.funcIndex < P.funcs_.length)
    ∧ ∀ (f : List Char) (idx : Nat), idx < P.funcs_.length →
        ∀ (d : Nat), P.funcs_.length ≤ d →
        ∀ (lval : List Char) (params : List (List Char)) (g : GenState),
          expand P.lex_.buf P.funcs_ f d idx lval params g ≠ .fuel
          ∧ expand P.lex_.buf P.funcs_ f d idx lval params g
              = expand P.lex_.buf P.funcs_ f P.funcs_.length idx lval params g := by
  unfold Parser.new at h
  obtain ⟨P0, hparse, hprep⟩ := Res.bind_eq_ok h
  obtain ⟨hn, hfresh⟩ := parse_fresh src P0 hparse
  obtain ⟨hlex, hlen, hedge, hacyc⟩ := prepare_resolved P0 P hn (fun f hf => (hfresh f hf).1) hprep
  obtain ⟨rank, hr1, hr2⟩ := exists_rank (resolvedEdge P) P.funcs_.length
    (fun i k hik => (hedge i k hik).2) hacyc
  have hrank : ∀ i fn c, P.funcs_[i]? = some fn → c ∈ fn.calls → rank c.funcIndex < rank i :=
    fun i fn c hfn hc => hr1 i c.funcIndex ⟨fn, c, hfn, hc, rfl⟩
  refine ⟨hacyc, fun i k hik => (hedge i k hik).2, ?_, ?_⟩
  · intro c hc
    -- the top-level calls are resolved by the third loop
    have hprep' := hprep
    unfold Parser.prepare at hprep'
    obtain ⟨r1, h1, hp⟩ := Res.bind_eq_ok hprep'
    obtain ⟨st, h2, hp⟩ := Res.bind_eq_ok hp
    obtain ⟨calls1, h3, hp⟩ := Res.bind_eq_ok hp
    obtain ⟨ss, h4, hp⟩ := Res.bind_eq_ok hp
    split at hp
    · obtain ⟨x, -, hx⟩ := Res.bind_eq_ok hp
      exact absurd hx (by simp)
    simp only [Res.ok.injEq] at hp
    have hcalls : P.calls_ = calls1 := by rw [← hp]
    rw [hcalls] at hc
    obtain ⟨key, hkey⟩ := prepareTopCalls_index r1.1 P0.calls_ calls1 h3 c hc
    have h1' : prepareFuncs P0.lex_.buf P0.funcs_ 0 [] = .ok (r1.1, r1.2) := by
      rw [← hn]; exact h1
    obtain ⟨hl, hm, -⟩ := prepareFuncs_table _ _ _ _ h1'
    have := hm key _ hkey
    omega
  · intro f idx hidx d hd lval params g
    have hlt : rank idx < P.funcs_.length := hr2 idx hidx
    exact ⟨(expand_ranked P.lex_.buf P.funcs_ f rank hrank d idx (by omega) lval params g).1,
      expand_stable P.lex_.buf P.funcs_ f rank hrank P.funcs_.length idx hlt lval params g d hd⟩

/-- C23 at the unit in which `G` calls `Add` and the top level calls `G`: two
definitions, and the expansion of `G` within depth 2. -/
theorem C23_expand_within_depth_witness :
    (validated nestedSrc).funcs_.length = 2
    ∧ expand (validated nestedSrc).lex_.buf (validated nestedSrc).funcs_ "in.cxx".toList 2 1
        "x ".toList ["2".toList] ⟨[], 0, []⟩ ≠ .fuel :=
  ⟨by decide!,
    ((C23_expand_within_depth nestedSrc (validated nestedSrc) (by decide!)).2.2.2
      "in.cxx".toList 1 (by decide!) 2 (by decide!) "x ".toList ["2".toList] ⟨[], 0, []⟩).1⟩

/-! ### C7, C17: the first loop of `prepare` -/

/-- The return check of one function with sites of one kind: no error, and the flag
is the kind of the first site (the flag as found, when there is no site). -/
theorem checkReturns_uniform (rs : List ReturnItem) (b : Bool) (h : UniformReturns rs) :
    checkReturns rs true b = .ok (flagAfter rs b) := by
  cases rs with
  | nil => rfl
  | cons r0 rest =>
    have := checkReturns_agree rest r0.isVoid fun x hx =>
      h x (List.mem_cons_of_mem _ hx) r0 (List.mem_cons_self _ _)
    simpa [checkReturns, ReturnItem.isVoid, flagAfter] using this

/-- The loop after the first site, when it ends without error: the sites agree with
the flag, which it returns. -/
theorem checkReturns_ok_rest (rs : List ReturnItem) (k v : Bool)
    (h : checkReturns rs false k = .ok v) : v = k ∧ ∀ r ∈ rs, r.isVoid = k := by
  induction rs with
  | nil =>
    simp only [checkReturns, Res.ok.injEq] at h
    exact ⟨h.symm, fun r hr => absurd hr (List.not_mem_nil _)⟩
  | cons r rs ih =>
    simp only [checkReturns, Bool.false_eq_true, ↓reduceIte] at h
    split at h
    · exact absurd h (by simp)
    · rename_i hne
      have hr : r.isVoid = k := by
        simp only [ne_eq, not_not] at hne
        exact hne.symm
      obtain ⟨hv, hall⟩ := ih h
      refine ⟨hv, fun x hx => ?_⟩
      rcases List.mem_cons.1 hx with rfl | hx
      · exact hr
      · exact hall x hx

/-- The return check of one function, when it raises no error: the sites are of
one kind, and the flag is that kind. -/
theorem checkReturns_ok (rs : List ReturnItem) (b v : Bool)
    (h : checkReturns rs true b = .ok v) :
    UniformReturns rs ∧ v = flagAfter rs b := by
  cases rs with
  | nil =>
    simp only [checkReturns, Res.ok.injEq] at h
    exact ⟨fun r hr => absurd hr (List.not_mem_nil _), h.symm⟩
  | cons r0 rest =>
    simp only [checkReturns, ↓reduceIte] at h
    obtain ⟨hv, hall⟩ := checkReturns_ok_rest rest _ v h
    have hall' : ∀ x ∈ r0 :: rest, x.isVoid = r0.isVoid := by
      intro x hx
      rcases List.mem_cons.1 hx with rfl | hx
      · rfl
      · exact hall x hx
    exact ⟨fun x hx y hy => (hall' x hx).trans (hall' y hy).symm, hv⟩

/-- The first loop of `prepare` over definitions with new names that differ from one
another, each with sites of one kind: no error; every function gets its flag, and a
name is in the table afterwards exactly when it was or is one of the names. -/
theorem prepareFuncs_clean (buf : List Char) :
    ∀ (fs : List FuncItem) (i : Nat) (m : NameMap),
      (∀ f ∈ fs, NameMap.find m (f.nameText buf) = none) → DistinctNames buf fs →
      (∀ f ∈ fs, UniformReturns f.returns) →
      ∃ m' : NameMap, prepareFuncs buf fs i m = .ok (m', fs.map FuncItem.flagged)
        ∧ ∀ key, NameMap.find m' key = none ↔
            (NameMap.find m key = none ∧ ∀ f ∈ fs, f.nameText buf ≠ key) := by
  intro fs
  induction fs with
  | nil =>
    intro i m _ _ _
    exact ⟨m, rfl, fun key => ⟨fun h => ⟨h, fun f hf => absurd hf (List.not_mem_nil _)⟩,
      fun h => h.1⟩⟩
  | cons f rest ih =>
    intro i m hnew hd hu
    have hf0 : NameMap.find m (slice buf f.name.s f.name.len) = none :=
      hnew f (List.mem_cons_self _ _)
    have hins : NameMap.insert m (slice buf f.name.s f.name.len) i
        = (m ++ [(slice buf f.name.s f.name.len, i)], true) := by
      simp [NameMap.insert, hf0]
    have happ : ∀ key, NameMap.find (m ++ [(slice buf f.name.s f.name.len, i)]) key = none ↔
        (NameMap.find m key = none ∧ f.nameText buf ≠ key) := by
      intro key
      rw [NameMap.find_append]
      cases hk : NameMap.find m key with
      | some v => simp
      | none => simp [NameMap.find, FuncItem.nameText]
    unfold DistinctNames at hd
    simp only [List.map_cons, List.nodup_cons, List.mem_map, not_exists, not_and] at hd
    obtain ⟨m', e, hm'⟩ := ih (i + 1) (m ++ [(slice buf f.name.s f.name.len, i)])
      (fun g hg => (happ _).2 ⟨hnew g (List.mem_cons_of_mem _ hg), fun h => hd.1 g hg h.symm⟩)
      hd.2 (fun g hg => hu g (List.mem_cons_of_mem _ hg))
    refine ⟨m', ?_, fun key => ?_⟩
    · simp only [prepareFuncs, hins, Bool.true_eq_false, ↓reduceIte,
        checkReturns_uniform f.returns f.retvoid (hu f (List.mem_cons_self _ _)), Res.bind_ok, e,
        List.map_cons]
      rfl
    · rw [hm' key, happ key]
      constructor
      · rintro ⟨⟨h1, h2⟩, h3⟩
        refine ⟨h1, fun g hg => ?_⟩
        rcases List.mem_cons.1 hg with rfl | hg
        · exact h2
        · exact h3 g hg
      · rintro ⟨h1, h2⟩
        exact ⟨⟨h1, h2 f (List.mem_cons_self _ _)⟩, fun g hg => h2 g (List.mem_cons_of_mem _ hg)⟩

/-- The first loop of `prepare`, when it raises no error: every function has sites of
one kind and gets its flag. -/
theorem prepareFuncs_ok (buf : List Char) :
    ∀ (fs : List FuncItem) (i : Nat) (m m' : NameMap) (fs' : List FuncItem),
      prepareFuncs buf fs i m = .ok (m', fs') →
      fs' = fs.map FuncItem.flagged ∧ ∀ f ∈ fs, UniformReturns f.returns := by
  intro fs
  induction fs with
  | nil =>
    intro i m m' fs' h
    simp only [prepareFuncs, Res.ok.injEq, Prod.mk.injEq] at h
    exact ⟨h.2.symm, fun f hf => absurd hf (List.not_mem_nil _)⟩
  | cons f rest ih =>
    intro i m m' fs' h
    simp only [prepareFuncs] at h
    split at h
    · exact absurd h (by simp)
    · obtain ⟨rv, hrv, h⟩ := Res.bind_eq_ok h
      obtain ⟨r, hr, h⟩ := Res.bind_eq_ok h
      simp only [Res.ok.injEq, Prod.mk.injEq] at h
      obtain ⟨hu, hv⟩ := checkReturns_ok _ _ _ hrv
      obtain ⟨e, hall⟩ := ih _ _ r.1 r.2 hr
      refine ⟨?_, fun g hg => ?_⟩
      · rw [← h.2, e, hv]
        rfl
      · rcases List.mem_cons.1 hg with rfl | hg
        · exact hu
        · exact hall g hg

theorem map_modify_same {α β : Type} (h : α → β) (g : α → α) (hg : ∀ x, h (g x) = h x) :
    ∀ (l : List α) (k : Nat), (List.modify g k l).map h = l.map h := by
  intro l
  induction l with
  | nil => intro k; cases k <;> rfl
  | cons a l ih =>
    intro k
    cases k with
    | zero => simp [List.modify, hg]
    | succ k =>
      have := ih k
      simp only [List.modify_succ_cons, List.map_cons, this]

/-- Resolving a call changes neither the name, nor the returns, nor the flag of a
function. -/
theorem prepareCall_kept (m : NameMap) (i j : Nat) (c : CallItem) (st st' : PrepState)
    (h : prepareCall m i j c st = .ok st') :
    st'.funcs.map FuncItem.kept = st.funcs.map FuncItem.kept := by
  obtain ⟨k, -, e⟩ := prepareCall_funcs m i j c st st' h
  rw [e]
  exact (map_modify_same FuncItem.kept _ (by intro x; rfl) _ _).trans
    (map_modify_same FuncItem.kept _ (by intro x; rfl) _ _)

theorem prepareCallsOf_kept (m : NameMap) (i : Nat) :
    ∀ (cs : List CallItem) (j : Nat) (st st' : PrepState),
      prepareCallsOf m i cs j st = .ok st' →
      st'.funcs.map FuncItem.kept = st.funcs.map FuncItem.kept := by
  intro cs
  induction cs with
  | nil =>
    intro j st st' h
    simp only [prepareCallsOf, Res.ok.injEq] at h
    rw [h]
  | cons c rest ih =>
    intro j st st' h
    simp only [prepareCallsOf] at h
    obtain ⟨st1, h1, h2⟩ := Res.bind_eq_ok h
    rw [ih _ _ _ h2, prepareCall_kept m i j c st st1 h1]

theorem prepareCalls_kept (m : NameMap) :
    ∀ (fs : List FuncItem) (i : Nat) (st st' : PrepState),
      prepareCalls m fs i st = .ok st' →
      st'.funcs.map FuncItem.kept = st.funcs.map FuncItem.kept := by
  intro fs
  induction fs with
  | nil =>
    intro i st st' h
    simp only [prepareCalls, Res.ok.injEq] at h
    rw [h]
  | cons f rest ih =>
    intro i st st' h
    simp only [prepareCalls] at h
    obtain ⟨st1, h1, h2⟩ := Res.bind_eq_ok h
    rw [ih _ _ _ h2, prepareCallsOf_kept m i _ _ _ _ h1]

/-- After a successful `prepare` of a fresh state: as many functions as before, each
with the name and the `BL_return` sites it had, sites of one kind, and in `retvoid`
that kind, void for a function without site. -/
theorem prepare_flags (P P' : Parser) (hfresh : P.Fresh) (h : P.prepare = .ok P') :
    P'.funcs_.map FuncItem.kept
        = P.funcs_.map (fun f => (f.name, f.returns, returnKind f.returns))
    ∧ ∀ f ∈ P.funcs_, UniformReturns f.returns := by
  unfold Parser.prepare at h
  obtain ⟨r1, h1, h⟩ := Res.bind_eq_ok h
  obtain ⟨st, h2, h⟩ := Res.bind_eq_ok h
  obtain ⟨calls1, -, h⟩ := Res.bind_eq_ok h
  obtain ⟨ss, -, h⟩ := Res.bind_eq_ok h
  split at h
  · obtain ⟨x, -, hx⟩ := Res.bind_eq_ok h
    exact absurd hx (by simp)
  simp only [Res.ok.injEq] at h
  obtain ⟨e, hu⟩ := prepareFuncs_ok _ _ _ _ r1.1 r1.2 h1
  have hk := prepareCalls_kept _ _ _ _ _ h2
  simp only at hk
  refine ⟨?_, hu⟩
  rw [← h]
  simp only
  rw [hk, e, List.map_map]
  apply List.map_congr_left
  intro f hf
  have hrv := (hfresh.2 f hf).2
  cases hr : f.returns with
  | nil => simp [FuncItem.kept, FuncItem.flagged, returnKind, flagAfter, hr, hrv]
  | cons r rest => simp [FuncItem.kept, FuncItem.flagged, returnKind, flagAfter, hr]

/-- The first loop of `prepare` stops at a function whose name is new and whose
`BL_return` sites are mixed, when the functions before it pass. -/
theorem prepare_mixed_error (P : Parser) (hn : P.name2Func_ = [])
    (fs₁ fs₂ : List FuncItem) (f : FuncItem) (r0 r : ReturnItem) (pre post : List ReturnItem)
    (hP : P.funcs_ = fs₁ ++ f :: fs₂) (hd : DistinctNames P.lex_.buf (fs₁ ++ [f]))
    (hu : ∀ g ∈ fs₁, UniformReturns g.returns)
    (hf : f.returns = r0 :: (pre ++ r :: post)) (hpre : ∀ x ∈ pre, x.isVoid = r0.isVoid)
    (hr : r.isVoid ≠ r0.isVoid) :
    P.prepare = .err ⟨r.row, r.col, inconsistentMsg⟩ := by
  unfold DistinctNames at hd
  rw [List.map_append, List.nodup_append] at hd
  obtain ⟨hd1, -, hd3⟩ := hd
  obtain ⟨m, h1, hm⟩ := prepareFuncs_clean P.lex_.buf fs₁ 0 [] (fun _ _ => rfl) hd1 hu
  have hfind : NameMap.find m (slice P.lex_.buf f.name.s f.name.len) = none := by
    refine (hm _).2 ⟨rfl, fun g hg hname => ?_⟩
    exact hd3 (List.mem_map.2 ⟨g, hg, rfl⟩) (by rw [hname]; simp [FuncItem.nameText])
  have hmix : checkReturns f.returns true f.retvoid = .err ⟨r.row, r.col, inconsistentMsg⟩ := by
    rw [hf]
    simpa [checkReturns] using checkReturns_disagree pre post r r0.isVoid hpre hr
  simp [Parser.prepare, hP, hn, prepareFuncs_append, h1, prepareFuncs, NameMap.insert, hfind, hmix]

/-- The first loop of `prepare` stops at a function that has the name of an earlier
one, when the functions before it pass. -/
theorem prepare_duplicate_error (P : Parser) (hn : P.name2Func_ = [])
    (fs₁ fs₂ : List FuncItem) (f g : FuncItem) (hP : P.funcs_ = fs₁ ++ f :: fs₂) (hg : g ∈ fs₁)
    (hname : g.nameText P.lex_.buf = f.nameText P.lex_.buf)
    (hd : DistinctNames P.lex_.buf fs₁) (hu : ∀ h ∈ fs₁, UniformReturns h.returns) :
    P.prepare = .err ⟨f.name.row, f.name.col, "Duplicated BL_func"⟩ := by
  obtain ⟨m, h1, hm⟩ := prepareFuncs_clean P.lex_.buf fs₁ 0 [] (fun _ _ => rfl) hd hu
  have hfind : NameMap.find m (slice P.lex_.buf f.name.s f.name.len) ≠ none := by
    intro h0
    exact ((hm _).1 h0).2 g hg hname
  cases hv : NameMap.find m (slice P.lex_.buf f.name.s f.name.len) with
  | none => exact absurd hv hfind
  | some idx =>
    simp [Parser.prepare, hP, hn, prepareFuncs_append, h1, prepareFuncs, NameMap.insert, hv]

/-- The construction fails for every unit in which a function has the name of an
earlier one. -/
theorem prepare_duplicate_fails (P : Parser) (hn : P.name2Func_ = [])
    (fs₁ fs₂ : List FuncItem) (f g : FuncItem) (hP : P.funcs_ = fs₁ ++ f :: fs₂) (hg : g ∈ fs₁)
    (hname : g.nameText P.lex_.buf = f.nameText P.lex_.buf) : ∃ e, P.prepare = .err e := by
  have h0 := prepareFuncs_okOrErr P.lex_.buf fs₁ 0 []
  cases h1 : prepareFuncs P.lex_.buf fs₁ 0 [] with
  | ok r =>
    obtain ⟨idx, hidx⟩ := List.mem_iff_getElem?.1 hg
    obtain ⟨-, -, -, hfind, -⟩ := prepareFuncs_table _ _ _ _ h1
    have hf : NameMap.find r.1 (slice P.lex_.buf f.name.s f.name.len) = some idx := by
      have := hfind idx g hidx
      rw [hname] at this
      exact this
    exact ⟨⟨f.name.row, f.name.col, "Duplicated BL_func"⟩,
      by simp [Parser.prepare, hP, hn, prepareFuncs_append, h1, prepareFuncs, NameMap.insert, hf]⟩
  | err e => exact ⟨e, by simp [Parser.prepare, hP, hn, prepareFuncs_append, h1]⟩
  | fuel => rw [h1] at h0; exact absurd h0 id
  | ub => rw [h1] at h0; exact absurd h0 id

/-- C7 (the return check, as it is reached): in every unit the scan accepts, the
return check of a function whose `BL_return` sites are of one kind raises no error
and yields that kind (void for a function without site); when the names of the
definitions differ from one another and every function has sites of one kind, the
first loop of `prepare` raises no error and stores that kind in every `retvoid`; after
a successful construction every function has the name and the sites the scan
recorded, sites of one kind, and that kind in `retvoid`. When the sites of a function
are mixed, its name and the names of the definitions before it differ from one
another and the definitions before it have sites of one kind, the construction
fails with the inconsistency error at the row and column recorded for the first
site whose kind differs from that of the first site of the function. -/
theorem C7_return_consistency (src : List Char) (P : Parser) (hparse : Parser.parse src = .ok P) :
    (∀ f ∈ P.funcs_, UniformReturns f.returns →
        checkReturns f.returns true f.retvoid = .ok (returnKind f.returns))
    ∧ (DistinctNames P.lex_.buf P.funcs_ → (∀ f ∈ P.funcs_, UniformReturns f.returns) →
        ∃ m : NameMap, prepareFuncs P.lex_.buf P.funcs_ 0 P.name2Func_
          = .ok (m, P.funcs_.map fun f => { f with retvoid := returnKind f.returns }))
    ∧ (∀ P' : Parser, Parser.new src = .ok P' →
        P'.funcs_.map FuncItem.kept
            = P.funcs_.map (fun f => (f.name, f.returns, returnKind f.returns))
        ∧ ∀ f ∈ P.funcs_, UniformReturns f.returns)
    ∧ ∀ (fs₁ fs₂ : List FuncItem) (f : FuncItem) (r0 r : ReturnItem) (pre post : List ReturnItem),
        P.funcs_ = fs₁ ++ f :: fs₂ → DistinctNames P.lex_.buf (fs₁ ++ [f]) →
        (∀ g ∈ fs₁, UniformReturns g.returns) →
        f.returns = r0 :: (pre ++ r :: post) → (∀ x ∈ pre, x.isVoid = r0.isVoid) →
        r.isVoid ≠ r0.isVoid →
        Parser.new src = .err ⟨r.row, r.col, inconsistentMsg⟩ := by
  have hfresh := parse_fresh src P hparse
  have hflag : ∀ f ∈ P.funcs_, flagAfter f.returns f.retvoid = returnKind f.returns := by
    intro f hf
    rw [(hfresh.2 f hf).2]
    rfl
  refine ⟨fun f hf hu => ?_, fun hd hu => ?_, fun P' hP' => ?_, ?_⟩
  · rw [checkReturns_uniform f.returns f.retvoid hu, hflag f hf]
  · obtain ⟨m, h1, -⟩ := prepareFuncs_clean P.lex_.buf P.funcs_ 0 P.name2Func_
      (fun f _ => by rw [hfresh.1]; rfl) hd hu
    refine ⟨m, ?_⟩
    rw [h1]
    congr 2
    apply List.map_congr_left
    intro f hf
    simp only [FuncItem.flagged, hflag f hf]
  · rw [new_of_parse src P hparse] at hP'
    exact prepare_flags P P' hfresh hP'
  · intro fs₁ fs₂ f r0 r pre post hP hd hu hf hpre hr
    rw [new_of_parse src P hparse]
    exact prepare_mixed_error P hfresh.1 fs₁ fs₂ f r0 r pre post hP hd hu hf hpre hr

/-- C7 at the unit `mixedReturnsSrc`: the construction fails at the third `BL_return`
of `G`, the first without a value, with the row and column recorded for it (the
bracket of that site stands at line 3, column 59; the body lexer records 60); and
at the unit `uniformReturnsSrc` it succeeds, with the flags value, void, void. -/
theorem C7_return_consistency_witness :
    Parser.new mixedReturnsSrc = .err ⟨3, 60, inconsistentMsg⟩
    ∧ (funcAt (parsed mixedReturnsSrc) 1).returns.map (fun r => (r.isVoid, r.row, r.col))
        = [(false, 3, 32), (false, 3, 46), (true, 3, 60), (true, 3, 73)]
    ∧ mixedReturnsSrc[102]? = some '(' ∧ lineColAt mixedReturnsSrc 102 = (3, 59)
    ∧ (validated uniformReturnsSrc).funcs_.map (fun f => (f.returns.map ReturnItem.isVoid, f.retvoid))
        = [([false, false], false), ([true], true), ([], true)] :=
  ⟨(C7_return_consistency mixedReturnsSrc (parsed mixedReturnsSrc) (by decide!)).2.2.2
      [funcAt (parsed mixedReturnsSrc) 0] [] (funcAt (parsed mixedReturnsSrc) 1)
      ⟨3, 32, ⟨['1'], []⟩⟩ ⟨3, 60, ⟨[], []⟩⟩ [⟨3, 46, ⟨['2'], []⟩⟩] [⟨3, 73, ⟨[], []⟩⟩]
      (by decide!) (by unfold DistinctNames; decide!) (by unfold UniformReturns; decide!)
      (by decide!) (by decide!) (by decide!),
    by decide!, by decide!, by decide!, by decide!⟩

/-- C7 (counterexample): in the unit `duplicateThenMixedSrc` the second definition
of `F` has a `BL_return` without a value and one with a value, and the construction
fails with `Duplicated BL_func` at its name, not with the inconsistency error; in the
unit `twoMixedSrc` both functions have mixed sites, and the error is at the site of
the first function, none is raised at the site of `G`. -/
theorem C7_other_error_comes_first :
    Parser.new duplicateThenMixedSrc = .err ⟨3, 16, "Duplicated BL_func"⟩
    ∧ (funcAt (parsed duplicateThenMixedSrc) 1).returns.map (fun r => (r.isVoid, r.row, r.col))
        = [(true, 3, 32), (false, 3, 45)]
    ∧ Parser.new twoMixedSrc = .err ⟨2, 45, inconsistentMsg⟩
    ∧ (funcAt (parsed twoMixedSrc) 0).returns.map (fun r => (r.isVoid, r.row, r.col))
        = [(true, 2, 32), (false, 2, 45)]
    ∧ (funcAt (parsed twoMixedSrc) 1).returns.map (fun r => (r.isVoid, r.row, r.col))
        = [(false, 3, 32), (true, 3, 46)] := by
  decide!

/-- C17 (a name defined twice, as the first loop reaches it): in every unit the scan
accepts, when a `BL_func` has the name of an earlier one the construction of the
parser fails; when moreover the definitions before it have names that differ from
one another and each has `BL_return` sites of one kind, the error is
`Duplicated BL_func` with the row and column of the name of that later definition. -/
theorem C17_duplicate_function_rejected (src : List Char) (P : Parser)
    (hparse : Parser.parse src = .ok P) (fs₁ fs₂ : List FuncItem) (f g : FuncItem)
    (hP : P.funcs_ = fs₁ ++ f :: fs₂) (hg : g ∈ fs₁)
    (hname : g.nameText P.lex_.buf = f.nameText P.lex_.buf) :
    (∃ e, Parser.new src = .err e)
    ∧ (DistinctNames P.lex_.buf fs₁ → (∀ h ∈ fs₁, UniformReturns h.returns) →
        Parser.new src = .err ⟨f.name.row, f.name.col, "Duplicated BL_func"⟩) := by
  have hfresh := parse_fresh src P hparse
  rw [new_of_parse src P hparse]
  exact ⟨prepare_duplicate_fails P hfresh.1 fs₁ fs₂ f g hP hg hname,
    fun hd hu => prepare_duplicate_error P hfresh.1 fs₁ fs₂ f g hP hg hname hd hu⟩

/-- C17 at the unit with the definitions `F`, `G`, `F`: the error names line 4,
column 17, where the name of the second definition of `F` stands. -/
theorem C17_duplicate_function_rejected_witness :
    Parser.new duplicateAfterCodeSrc = .err ⟨4, 17, "Duplicated BL_func"⟩
    ∧ duplicateAfterCodeSrc[84]? = some 'F' ∧ lineColAt duplicateAfterCodeSrc 84 = (4, 17)
    ∧ (funcAt (parsed duplicateAfterCodeSrc) 2).name = ⟨4, 17, 84, 1⟩ :=
  ⟨(C17_duplicate_function_rejected duplicateAfterCodeSrc (parsed duplicateAfterCodeSrc)
      (by decide!) [funcAt (parsed duplicateAfterCodeSrc) 0, funcAt (parsed duplicateAfterCodeSrc) 1]
      [] (funcAt (parsed duplicateAfterCodeSrc) 2) (funcAt (parsed duplicateAfterCodeSrc) 0)
      (by decide!) (List.mem_cons_self _ _) (by decide!)).2
      (by unfold DistinctNames; decide!) (by unfold UniformReturns; decide!),
   by decide!, by decide!, by decide!⟩

/-- C17 (counterexample): in the unit `mixedThenDuplicateSrc` the name `F` is defined
twice, and the construction fails with the inconsistency error at the second
`BL_return` of the first definition, not with `Duplicated BL_func`. -/
theorem C17_inconsistency_comes_first :
    Parser.new mixedThenDuplicateSrc = .err ⟨2, 45, inconsistentMsg⟩
    ∧ (parsed mixedThenDuplicateSrc).funcs_.map
          (fun f => (String.mk (f.nameText mixedThenDuplicateSrc), f.name.row, f.name.col))
        = [("F", 2, 16), ("F", 3, 16)]
    ∧ (funcAt (parsed mixedThenDuplicateSrc) 0).returns.map (fun r => (r.isVoid, r.row, r.col))
        = [(true, 2, 32), (false, 2, 45)] := by
  decide!

/-! ### C11: units without keyword -/

theorem skipMultilineCommentLoop_err : ∀ (fuel : Nat) (findStar : Bool) (c : Char) (l : Lexer)
    (e : BlError), Lexer.skipMultilineCommentLoop fuel findStar c l = .err e →
    e.s = "Multi-line comments are not closed" := by
  intro fuel
  induction fuel with
  | zero => intro _ _ _ _ h; simp [Lexer.skipMultilineCommentLoop] at h
  | succ fuel ih =>
    intro fs c l e h
    simp only [Lexer.skipMultilineCommentLoop] at h
    split at h
    · simp only [Res.err.injEq] at h
      rw [← h]
    · split at h
      · exact ih _ _ _ _ h
      · split at h
        · exact absurd h (by simp)
        · exact ih _ _ _ _ h

theorem skipLineLoop_noerr : ∀ (fuel : Nat) (c : Char) (l : Lexer) (e : BlError),
    Lexer.skipLineLoop fuel c l ≠ .err e := by
  intro fuel
  induction fuel with
  | zero => intro _ _ _ h; simp [Lexer.skipLineLoop] at h
  | succ fuel ih =>
    intro c l e h
    simp only [Lexer.skipLineLoop] at h
    split at h
    · exact ih _ _ _ h
    · exact absurd h (by simp)

/-- The character a fetch returns, unless it is NUL, is the one under the new cursor,
next to the old one. -/
theorem Lexer.get_char (l : Lexer) (h : l.get.1 ≠ NUL) :
    l.get.1 = deref l.buf (l.p_ + 1) ∧ l.get.2.p_ = l.p_ + 1 := by
  obtain ⟨c1, c2⟩ := Lexer.get_cur l
  obtain ⟨d1, d2⟩ := c2 h
  exact ⟨Lexer.get_fst l d2, d1⟩

/-- An error of `skipCommentsGet` is that of a block comment that is not closed, and
`/*` stands in the text. -/
theorem skipCommentsGet_err (l : Lexer) (e : BlError) (h : l.skipCommentsGet = .err e) :
    e.s = "Multi-line comments are not closed" ∧ "/*".toList <:+: l.buf := by
  unfold Lexer.skipCommentsGet at h
  by_cases hc : l.get.1 = '/'
  · simp only [hc, ne_eq, not_true_eq_false, ↓reduceIte] at h
    split at h
    · rename_i hstar
      have hne : l.get.1 ≠ NUL := by rw [hc]; decide
      have hne2 : l.get.2.get.1 ≠ NUL := by rw [hstar]; decide
      obtain ⟨a1, a2⟩ := Lexer.get_char l hne
      obtain ⟨b1, b2⟩ := Lexer.get_char l.get.2 hne2
      rw [Lexer.get_buf, a2] at b1
      constructor
      · unfold Lexer.skipMultilineComment at h
        cases hr : Lexer.skipMultilineCommentLoop l.get.2.get.2.bound false l.get.2.get.2.get.1
            l.get.2.get.2.get.2 with
        | ok l3 => rw [hr] at h; exact absurd h (by simp)
        | err e' =>
          rw [hr] at h
          simp only [Res.bind_err, Res.err.injEq] at h
          rw [← h]
          exact skipMultilineCommentLoop_err _ _ _ _ _ hr
        | fuel => rw [hr] at h; exact absurd h (by simp)
        | ub => rw [hr] at h; exact absurd h (by simp)
      · apply infix_of_deref l.buf "/*".toList (l.p_ + 1) (by decide) (by decide)
        intro k hk
        have hk2 : k < 2 := by simpa using hk
        interval_cases k
        · simpa [hc] using a1.symm
        · have e1 : l.p_ + 1 + ((1 : Nat) : Int) = l.p_ + 1 + 1 := by omega
          rw [e1, ← b1, hstar]
          rfl
    · split at h
      · cases hr : Lexer.skipLineLoop l.get.2.get.2.bound l.get.2.get.2.get.1
            l.get.2.get.2.get.2 with
        | ok l3 => rw [hr] at h; exact absurd h (by simp)
        | err e' => exact absurd hr (skipLineLoop_noerr _ _ _ _)
        | fuel => rw [hr] at h; exact absurd h (by simp)
        | ub => rw [hr] at h; exact absurd h (by simp)
      · exact absurd h (by simp)
  · simp only [ne_eq, hc, not_false_eq_true, ↓reduceIte] at h
    exact absurd h (by simp)

theorem skipCommentsGet_buf (l : Lexer) (r : Char × Lexer) (hl : l.p_ ≤ l.pe_)
    (h : l.skipCommentsGet = .ok r) : r.2.buf = l.buf := by
  have := skipCommentsGet_spec l hl
  rw [h] at this
  exact this.1.buf

/-- NUL comes from `skipCommentsGet` at the end of a text without NUL only. -/
theorem skipCommentsGet_fin (s : List Char) (hnul : ∀ c ∈ s, c ≠ NUL) (l : Lexer)
    (ho : Lexer.Over s l) (h0 : -1 ≤ l.p_) (h1 : l.p_ ≤ l.pe_) (r : Char × Lexer)
    (h : l.skipCommentsGet = .ok r) (hr : r.1 = NUL) : r.2.p_ = r.2.pe_ := by
  unfold Lexer.skipCommentsGet at h
  by_cases hc : l.get.1 = '/'
  · exfalso
    simp only [hc, ne_eq, not_true_eq_false, ↓reduceIte] at h
    split at h
    · obtain ⟨l3, -, h3⟩ := Res.bind_eq_ok h
      simp only [Res.ok.injEq] at h3
      rw [← h3] at hr
      have hr' : ' ' = NUL := hr
      exact absurd hr' (by decide)
    · split at h
      · obtain ⟨l3, -, h3⟩ := Res.bind_eq_ok h
        simp only [Res.ok.injEq] at h3
        rw [← h3] at hr
        have hr' : ' ' = NUL := hr
        exact absurd hr' (by decide)
      · simp only [Res.ok.injEq] at h
        rw [← h] at hr
        have hr' : '/' = NUL := hr
        exact absurd hr' (by decide)
  · simp only [ne_eq, hc, not_false_eq_true, ↓reduceIte, Res.ok.injEq] at h
    rw [← h] at hr ⊢
    exact (Lexer.get_good s hnul l ho h0 h1).1.2.2.2.2 hr

/-- One step of `skipCommentsGet` in a text without NUL: a value with the properties the
scanning loops rely on, or the error of a block comment that is not closed. -/
theorem skipCommentsGet_free (s : List Char) (hnul : ∀ c ∈ s, c ≠ NUL) (l : Lexer)
    (ho : Lexer.Over s l) (h0 : -1 ≤ l.p_) (h1 : l.p_ ≤ l.pe_) :
    (∃ r : Char × Lexer, l.skipCommentsGet = .ok r ∧ Lexer.Over s r.2 ∧ -1 ≤ r.2.p_
        ∧ r.2.p_ ≤ r.2.pe_ ∧ l.p_ ≤ r.2.p_ ∧ (r.1 ≠ NUL → l.p_ < r.2.p_)
        ∧ (r.1 ≠ NUL → r.1 ≠ ' ' → Lexer.At r.1 r.2) ∧ (r.1 = NUL → r.2.p_ = r.2.pe_)
        ∧ Lexer.Shown r.1 r.2
        ∧ (r.1 ≠ NUL → IsSpaceChar r.1 = false → r.2.p_ = l.p_ + 1))
    ∨ ∃ e : BlError, l.skipCommentsGet = .err e
        ∧ e.s = "Multi-line comments are not closed" ∧ "/*".toList <:+: s := by
  have hs := skipCommentsGet_spec l h1
  cases hr : l.skipCommentsGet with
  | ok r =>
    rw [hr] at hs
    obtain ⟨s1, s2, s3⟩ := hs
    obtain ⟨c1, c2⟩ := skipCommentsGet_cur l r hr
    refine Or.inl ⟨r, rfl, ⟨s1.buf.trans ho.1, s1.src.trans ho.2.1, s1.pe.trans ho.2.2⟩, ?_,
      s1.inRange, s1.mono, s2, s3, skipCommentsGet_fin s hnul l ho h0 h1 r hr, c1,
      fun hn hsp => (c2 hn hsp).1⟩
    have := s1.mono
    omega
  | err e =>
    obtain ⟨e1, e2⟩ := skipCommentsGet_err l e hr
    rw [ho.1] at e2
    exact Or.inr ⟨e, rfl, e1, e2⟩
  | fuel => rw [hr] at hs; exact absurd hs id
  | ub => rw [hr] at hs; exact absurd hs id

/-- The loop of `skipBlanks` in a text without NUL: a character that is no blank, with
the properties the scanning loops rely on, or the error of a block comment that is not
closed. -/
theorem skipBlanksLoop_free (s : List Char) (hnul : ∀ c ∈ s, c ≠ NUL) :
    ∀ (fuel : Nat) (c : Char) (l : Lexer), Lexer.Over s l → -1 ≤ l.p_ → l.p_ ≤ l.pe_ →
      (c ≠ NUL → c ≠ ' ' → Lexer.At c l) → (c = NUL → l.p_ = l.pe_) →
      Lexer.need c l < fuel →
      (∃ r : Char × Lexer, Lexer.skipBlanksLoop fuel c l = .ok r ∧ Lexer.Over s r.2
          ∧ -1 ≤ r.2.p_ ∧ r.2.p_ ≤ r.2.pe_ ∧ l.p_ ≤ r.2.p_
          ∧ (r.1 ≠ NUL → Lexer.At r.1 r.2) ∧ (r.1 = NUL → r.2.p_ = r.2.pe_)
          ∧ IsSpaceChar r.1 = false)
      ∨ ∃ e : BlError, Lexer.skipBlanksLoop fuel c l = .err e
          ∧ e.s = "Multi-line comments are not closed" ∧ "/*".toList <:+: s := by
  intro fuel
  induction fuel with
  | zero => intro _ _ _ _ _ _ _ h; omega
  | succ fuel ih =>
    intro c l ho h0 h1 hat hfin hf
    by_cases hsp : IsSpaceChar c = true
    · have hc : c ≠ NUL := by rintro rfl; revert hsp; decide
      rcases skipCommentsGet_free s hnul l ho h0 h1 with
        ⟨r1, e1, o1, lo1, hi1, m1, lt1, at1, fin1, sh1, nx1⟩ | ⟨e, e1, e2⟩
      · have hneed : Lexer.need r1.1 r1.2 < fuel := by
          have q1 := o1.2.2
          have q2 := ho.2.2
          simp only [Lexer.need, hc, ↓reduceIte, Lexer.rest] at hf ⊢
          split
          · omega
          · rename_i hne
            have := lt1 hne
            omega
        have hstep : Lexer.skipBlanksLoop (fuel + 1) c l = Lexer.skipBlanksLoop fuel r1.1 r1.2 := by
          simp only [Lexer.skipBlanksLoop, hsp, ↓reduceIte, e1, Res.bind_ok]
        rw [hstep]
        rcases ih r1.1 r1.2 o1 lo1 hi1 at1 fin1 hneed with
          ⟨r, e, o, lo, hi, m, a, fin, nsp⟩ | ⟨e, e3, e4⟩
        · exact Or.inl ⟨r, e, o, lo, hi, by omega, a, fin, nsp⟩
        · exact Or.inr ⟨e, e3, e4⟩
      · refine Or.inr ⟨e, ?_, e2⟩
        simp only [Lexer.skipBlanksLoop, hsp, ↓reduceIte, e1, Res.bind_err]
    · have hsp' : IsSpaceChar c = false := by simpa using hsp
      refine Or.inl ⟨(c, l), ?_, ho, h0, h1, Int.le_refl _, fun hc => ?_, hfin, hsp'⟩
      · simp only [Lexer.skipBlanksLoop, hsp, Bool.false_eq_true, ↓reduceIte]
      · exact hat hc (by rintro rfl; revert hsp'; decide)

/-- `skipBlanksGet` in a text without NUL. -/
theorem skipBlanksGet_free (s : List Char) (hnul : ∀ c ∈ s, c ≠ NUL) (l : Lexer)
    (ho : Lexer.Over s l) (h0 : -1 ≤ l.p_) (h1 : l.p_ ≤ l.pe_) :
    (∃ r : Char × Lexer, l.skipBlanksGet = .ok r ∧ Lexer.Over s r.2
        ∧ -1 ≤ r.2.p_ ∧ r.2.p_ ≤ r.2.pe_ ∧ l.p_ ≤ r.2.p_
        ∧ (r.1 ≠ NUL → Lexer.At r.1 r.2) ∧ (r.1 = NUL → r.2.p_ = r.2.pe_)
        ∧ IsSpaceChar r.1 = false)
    ∨ ∃ e : BlError, l.skipBlanksGet = .err e
        ∧ e.s = "Multi-line comments are not closed" ∧ "/*".toList <:+: s := by
  unfold Lexer.skipBlanksGet Lexer.skipBlanks
  rcases skipCommentsGet_free s hnul l ho h0 h1 with
    ⟨r1, e1, o1, lo1, hi1, m1, lt1, at1, fin1, sh1, nx1⟩ | ⟨e, e1, e2⟩
  · rw [e1, Res.bind_ok]
    rcases skipBlanksLoop_free s hnul r1.2.bound r1.1 r1.2 o1 lo1 hi1 at1 fin1
      (Lexer.need_le_bound _ _ _ (Lexer.Le.refl _ hi1)) with
      ⟨r, e, o, lo, hi, m, a, fin, nsp⟩ | ⟨e, e3, e4⟩
    · exact Or.inl ⟨r, e, o, lo, hi, by omega, a, fin, nsp⟩
    · exact Or.inr ⟨e, e3, e4⟩
  · exact Or.inr ⟨e, by rw [e1]; rfl, e2⟩

theorem strncmpEq_upto (buf : List Char) (a : Int) (lit : List Char) :
    ∀ (n i : Nat), strncmpEq buf a lit n i = true →
      ∀ k : Nat, i ≤ k → k < i + n → (∀ j : Nat, i ≤ j → j < k → lit.getD j NUL ≠ NUL) →
        deref buf (a + k) = lit.getD k NUL := by
  intro n
  induction n with
  | zero => intro i _ k h1 h2; omega
  | succ n ih =>
    intro i h k h1 h2 hl
    simp only [strncmpEq] at h
    by_cases hxy : deref buf (a + i) = lit.getD i NUL
    · by_cases hk : k = i
      · rw [hk]; exact hxy
      · simp only [hxy, ne_eq, not_true_eq_false, ↓reduceIte] at h
        have h0 : lit.getD i NUL ≠ NUL := hl i (Nat.le_refl _) (by omega)
        simp only [h0, ↓reduceIte] at h
        exact ih (i + 1) h k (by omega) (by omega) (fun j hj1 hj2 => hl j (by omega) hj2)
    · rw [if_pos hxy] at h
      exact absurd h (by simp)

/-- The bytes of the text from an offset on, when they are those of a word. -/
theorem slice_of_deref (s w : List Char) (p : Int) (h0 : 0 ≤ p) (hlen : p + w.length ≤ s.length)
    (h : ∀ k : Nat, k < w.length → deref s (p + k) = w.getD k NUL) : slice s p w.length = w := by
  unfold slice
  have hp : ((p.toNat : Nat) : Int) = p := Int.toNat_of_nonneg h0
  apply List.ext_getElem
  · simp only [List.length_take, List.length_drop]
    omega
  · intro k hk1 hk2
    have := h k hk2
    rw [List.getD_eq_getElem _ _ hk2] at this
    have e : deref s (p + k) = s.getD (p.toNat + k) NUL := by
      rw [← deref_nat]
      congr 1
      push_cast
      omega
    have hlt : p.toNat + k < s.length := by omega
    rw [← this, e, List.getD_eq_getElem _ _ hlt]
    simp only [List.getElem_take, List.getElem_drop]

theorem takeWhile_eq_take {α : Type} (p : α → Bool) :
    ∀ (l : List α) (n : Nat), (∀ k x, k < n → l[k]? = some x → p x = true) →
      (∀ x, l[n]? = some x → p x = false) → n ≤ l.length → l.takeWhile p = l.take n := by
  intro l
  induction l with
  | nil => intro n _ _ hn; simp
  | cons a l ih =>
    intro n h1 h2 hn
    cases n with
    | zero =>
      have := h2 a (by simp)
      simp [List.takeWhile, this]
    | succ n =>
      have ha := h1 0 a (by omega) (by simp)
      rw [List.takeWhile_cons_of_pos ha, List.take_succ_cons]
      congr 1
      exact ih n (fun k x hk hx => h1 (k + 1) x (by omega) (by simpa using hx))
        (fun x hx => h2 x (by simpa using hx)) (by simpa using hn)

/-- The run of identifier characters from the start of an identifier of the text is
that identifier. -/
theorem identRunAt_token (s : List Char) (t : Token) (hid : Token.IsIdentOf s t) :
    identRunAt s t.s.toNat = slice s t.s t.len := by
  obtain ⟨h0, h1, h2, h3, h4, h5⟩ := hid
  have hp : ((t.s.toNat : Nat) : Int) = t.s := Int.toNat_of_nonneg h0
  unfold identRunAt slice
  apply takeWhile_eq_take
  · intro k x hk hx
    rw [List.getElem?_drop] at hx
    have e : deref s (t.s + k) = x := by
      have e' : t.s + k = ((t.s.toNat + k : Nat) : Int) := by push_cast; omega
      rw [e', deref_nat, List.getD_eq_getElem?_getD, hx]
      rfl
    rw [← e]
    by_cases hk0 : k = 0
    · subst hk0
      simpa using IsIdentOther_of_first _ h3
    · exact h4 _ (by omega) (by omega)
  · intro x hx
    rw [List.getElem?_drop] at hx
    have e : deref s (t.s + t.len) = x := by
      have e' : t.s + t.len = ((t.s.toNat + t.len : Nat) : Int) := by push_cast; omega
      rw [e', deref_nat, List.getD_eq_getElem?_getD, hx]
      rfl
    rw [← e]
    exact h5
  · simp only [List.length_drop]
    omega

/-- `CheckKeyword` finds no keyword in an identifier of the text that is none of the
keyword texts. -/
theorem CheckKeyword_token (s : List Char) (t : Token) (hid : Token.IsIdentOf s t)
    (hk : ¬ KeywordLike (slice s t.s t.len)) : CheckKeyword s t.s t.len = .CODE := by
  obtain ⟨h0, h1, h2, h3, h4, h5⟩ := hid
  -- an identifier character is not NUL
  have hchar : ∀ k : Nat, k < t.len → deref s (t.s + k) ≠ NUL := by
    intro k hk'
    by_cases hk0 : k = 0
    · subst hk0
      simpa using (IsIdentOther_facts _ (IsIdentOther_of_first _ h3)).1
    · exact (IsIdentOther_facts _ (h4 _ (by omega) (by omega))).1
  unfold CheckKeyword
  by_cases hpre : t.len < 7 ∨ deref s t.s ≠ 'B' ∨ deref s (t.s + 1) ≠ 'L' ∨ deref s (t.s + 2) ≠ '_'
  · rw [if_pos hpre]
  · rw [if_neg hpre]
    simp only [not_or, not_lt, ne_eq, not_not] at hpre
    obtain ⟨hn, hB, hL, hU⟩ := hpre
    -- when the comparison with `lit` succeeds, the identifier is `BL_` and a beginning of `lit`
    have key : ∀ (lit : List Char), (∀ k : Nat, k < lit.length → lit.getD k NUL ≠ NUL) →
        4 ≤ lit.length →
        strncmpEq s (t.s + 3) lit (t.len - 3) 0 = true →
        t.len ≤ 3 + lit.length
          ∧ slice s t.s t.len = "BL_".toList ++ lit.take (t.len - 3) := by
      intro lit hlit hl4 hcmp
      have hle : t.len ≤ 3 + lit.length := by
        by_contra hgt
        have := strncmpEq_upto s (t.s + 3) lit (t.len - 3) 0 hcmp lit.length (Nat.zero_le _)
          (by omega) (fun j _ hj => hlit j hj)
        rw [List.getD_eq_default _ _ (Nat.le_refl _)] at this
        have e : t.s + 3 + (lit.length : Int) = t.s + ((3 + lit.length : Nat) : Int) := by
          push_cast; omega
        rw [e] at this
        exact hchar (3 + lit.length) (by omega) this
      refine ⟨hle, ?_⟩
      have hwl : ("BL_".toList ++ lit.take (t.len - 3)).length = t.len := by
        simp only [List.length_append, List.length_take]
        have : "BL_".toList.length = 3 := by decide
        omega
      have := slice_of_deref s ("BL_".toList ++ lit.take (t.len - 3)) t.s h0 (by rw [hwl]; exact h1)
        (by
          intro k hk'
          rw [hwl] at hk'
          by_cases hk3 : k < 3
          · interval_cases k
            · simpa using hB
            · simpa using hL
            · simpa using hU
          · have h' := strncmpEq_upto s (t.s + 3) lit (t.len - 3) 0 hcmp (k - 3) (Nat.zero_le _)
              (by omega) (fun j _ hj => hlit j (by omega))
            have e : t.s + 3 + ((k - 3 : Nat) : Int) = t.s + k := by omega
            rw [e] at h'
            rw [h']
            have hk4 : k - 3 < (lit.take (t.len - 3)).length := by
              simp only [List.length_take]
              omega
            have e3 : "BL_".toList.length = 3 := by decide
            rw [List.getD_eq_getElem?_getD, List.getD_eq_getElem?_getD,
              List.getElem?_append_right (by omega), e3, List.getElem?_take]
            have : k - 3 < t.len - 3 := by omega
            simp [this])
      rw [hwl] at this
      exact this
    by_cases c1 : strncmpEq s (t.s + 3) "func".toList (t.len - 3) 0 = true
    · exfalso
      obtain ⟨k1, k2⟩ := key "func".toList (by decide) (by decide) c1
      have e4 : "func".toList.length = 4 := by decide
      have hl : t.len = 7 := by omega
      rw [hl] at k2
      exact hk (by rw [hl, k2]; exact Or.inl (by decide))
    · rw [if_neg c1]
      by_cases c2 : strncmpEq s (t.s + 3) "call".toList (t.len - 3) 0 = true
      · exfalso
        obtain ⟨k1, k2⟩ := key "call".toList (by decide) (by decide) c2
        have e4 : "call".toList.length = 4 := by decide
        have hl : t.len = 7 := by omega
        rw [hl] at k2
        exact hk (by rw [hl, k2]; exact Or.inr (Or.inl (by decide)))
      · rw [if_neg c2]
        by_cases c3 : strncmpEq s (t.s + 3) "return".toList (t.len - 3) 0 = true
        · exfalso
          obtain ⟨k1, k2⟩ := key "return".toList (by decide) (by decide) c3
          have e6 : "return".toList.length = 6 := by decide
          have hl : t.len = 7 ∨ t.len = 8 ∨ t.len = 9 := by omega
          rcases hl with hl | hl | hl <;> rw [hl] at k2 <;> apply hk <;> rw [hl, k2]
          · exact Or.inr (Or.inr (Or.inl (by decide)))
          · exact Or.inr (Or.inr (Or.inr (Or.inl (by decide))))
          · exact Or.inr (Or.inr (Or.inr (Or.inr (by decide))))
        · rw [if_neg c3]

/-- Where the loop of `getString` stops without error stands the closing quote. -/
theorem getStringLoop_close (start : Char) :
    ∀ (fuel : Nat) (c : Char) (l l' : Lexer), l.p_ ≤ l.pe_ → (c ≠ NUL → Lexer.At c l) →
      Lexer.getStringLoop start fuel c l = .ok l' → deref l'.buf l'.p_ = start := by
  intro fuel
  induction fuel with
  | zero => intro _ _ _ _ _ h; simp [Lexer.getStringLoop] at h
  | succ fuel ih =>
    intro c l l' hl hat h
    simp only [Lexer.getStringLoop] at h
    obtain ⟨g1, g2⟩ := Lexer.get_spec l hl
    obtain ⟨k1, k2⟩ := Lexer.get_spec l.get.2 g1.inRange
    by_cases hc : c ≠ NUL ∧ c ≠ start
    · rw [if_pos hc] at h
      split at h
      · exact absurd h (by simp)
      · split at h
        · split at h
          · exact ih _ _ _ k1.inRange (fun hne => (k2 hne).2) h
          · exact ih _ _ _ g1.inRange (fun hne => (g2 hne).2) h
        · exact ih _ _ _ g1.inRange (fun hne => (g2 hne).2) h
    · rw [if_neg hc] at h
      split at h
      · exact absurd h (by simp)
      · rename_i hc0
        simp only [Res.ok.injEq] at h
        rw [← h]
        have hcs : c = start := by
          by_contra hne
          exact hc ⟨hc0, hne⟩
        rw [← (hat hc0).2, hcs]

/-- The top-level scan of a text without NUL in which no identifier is a keyword: it
runs to the end of the text and changes nothing but the lexer, or throws for a
literal that is not closed on its line or a block comment that is not closed. -/
theorem topLoop_free (s : List Char) (hnul : ∀ c ∈ s, c ≠ NUL) (hk : NoKeywordToken s) :
    ∀ (fuel : Nat) (t : TopScan), Lexer.Fair s t.c t.P.lex_ → Lexer.need t.c t.P.lex_ < fuel →
      (∃ l : Lexer, topLoop fuel t = .ok { t with c := NUL, P := { t.P with lex_ := l } }
        ∧ l.buf = s ∧ l.p_ = s.length)
      ∨ ∃ e : BlError, topLoop fuel t = .err e ∧ ScanError s e := by
  intro fuel
  induction fuel with
  | zero => intro _ _ h; omega
  | succ fuel ih =>
    intro t hg hf
    obtain ⟨c, P, row, col, p⟩ := t
    simp only at hg hf ⊢
    simp only [topLoop]
    by_cases hc : c = NUL
    · simp only [hc, ↓reduceIte]
      subst hc
      exact Or.inl ⟨P.lex_, rfl, hg.over.1, by rw [hg.fin rfl, hg.over.2.2]⟩
    · simp only [hc, ↓reduceIte]
      obtain ⟨ho, h0, h1, hat, hfin, hsh, hleft⟩ := hg
      -- the rest of the loop from a fair state further on
      have hrest : ∀ r : Char × Lexer, Lexer.Fair s r.1 r.2 → (r.1 ≠ NUL → P.lex_.p_ < r.2.p_) →
          (∃ l : Lexer,
            topLoop fuel
                { c := r.1, P := { P with lex_ := r.2 }, row := row, col := col, p := p }
              = .ok { c := NUL, P := { P with lex_ := l }, row := row, col := col, p := p }
            ∧ l.buf = s ∧ l.p_ = s.length)
          ∨ ∃ e : BlError,
            topLoop fuel
                { c := r.1, P := { P with lex_ := r.2 }, row := row, col := col, p := p }
              = .err e ∧ ScanError s e := by
        intro r hg2 hlt
        have hneed : Lexer.need r.1 r.2 < fuel := by
          have e1 := hg2.over.2.2
          have e2 := ho.2.2
          have e3 := hg2.hi
          simp only [Lexer.need, hc, ↓reduceIte, Lexer.rest] at hf ⊢
          split
          · omega
          · rename_i hne
            have := hlt hne
            omega
        exact ih _ hg2 hneed
      -- a step of `skipCommentsGet` from a lexer whose cursor stands on `d`, no identifier
      -- character unless the state before was fair for it
      have hstep : ∀ l2 : Lexer, Lexer.Over s l2 → -1 ≤ l2.p_ → l2.p_ ≤ l2.pe_ →
          P.lex_.p_ ≤ l2.p_ →
          (IsIdentOther (deref s l2.p_) = true → LeftComplete s l2.p_
            ∧ IsIdentFirst (deref s l2.p_) = false) →
          (∃ r : Char × Lexer, l2.skipCommentsGet = .ok r ∧ Lexer.Fair s r.1 r.2
            ∧ (r.1 ≠ NUL → P.lex_.p_ < r.2.p_))
          ∨ ∃ e : BlError, l2.skipCommentsGet = .err e ∧ ScanError s e := by
        intro l2 o2 lo2 hi2 m2 hprev
        rcases skipCommentsGet_free s hnul l2 o2 lo2 hi2 with
          ⟨r, e1, o1, lo1, hi1, m1, lt1, at1, fin1, sh1, nx1⟩ | ⟨e, e1, e2, e3⟩
        · refine Or.inl ⟨r, e1, ⟨o1, lo1, hi1, at1, fin1, sh1, fun hio => ?_⟩, fun hne => ?_⟩
          · obtain ⟨f1, f2, f3⟩ := IsIdentOther_facts r.1 hio
            rw [nx1 f1 f3]
            by_cases hd : IsIdentOther (deref s l2.p_) = true
            · exact LeftComplete_step s _ (hprev hd).1 (hprev hd).2
            · apply LeftComplete_of_prev
              have e : l2.p_ + 1 - 1 = l2.p_ := by omega
              rw [e]
              simpa using hd
          · have := lt1 hne
            omega
        · exact Or.inr ⟨e, e1, Or.inr ⟨e2, e3⟩⟩
      by_cases hqc : c = '"' ∨ c = '\''
      · simp only [hqc, ↓reduceIte]
        have hcsp : c ≠ ' ' := by rcases hqc with rfl | rfl <;> decide
        have hat' := hat hc hcsp
        have hcm : c ∈ s := by
          rw [hat'.2, ho.1]
          exact deref_mem_of_lt s _
            (by
              by_contra hneg
              have := deref_neg s P.lex_.p_ (by omega)
              rw [← ho.1, ← hat'.2] at this
              exact hc this)
            (by rw [← ho.2.2]; exact hat'.1)
        have hquote : HasQuote s := ⟨c, hcm, hqc⟩
        unfold Lexer.getString
        obtain ⟨k1, k2⟩ := Lexer.get_good s hnul P.lex_ ho h0 h1
        have hmono := (Lexer.get_spec P.lex_ h1).1
        rcases getStringLoop_good s hnul c P.lex_.bound P.lex_.get.1 P.lex_.get.2 k1
          (Lexer.need_le_bound _ _ _ hmono) with ⟨l2, e1, o2, m2, lt2, n2⟩ | ⟨e, e1, e2⟩
        · rw [e1]
          simp only [Res.bind_ok]
          have hclose := getStringLoop_close c _ _ _ l2 hmono.inRange
            (fun hne => k1.2.2.2.1 hne) e1
          rw [o2.1] at hclose
          have hm := hmono.mono
          rcases hstep l2 o2 n2 (Int.le_of_lt lt2) (by omega)
            (fun hio => by
              exfalso
              rw [hclose] at hio
              rcases hqc with rfl | rfl <;> exact absurd hio (by decide)) with
            ⟨r, er, gr, lr⟩ | ⟨e, er, ee⟩
          · rw [er, Res.bind_ok]
            exact hrest r gr lr
          · rw [er]
            exact Or.inr ⟨e, rfl, ee⟩
        · rw [e1]
          exact Or.inr ⟨e, rfl, Or.inl ⟨e2, hquote⟩⟩
      simp only [hqc, ↓reduceIte]
      by_cases hid : IsIdentFirst c = true
      · simp only [hid, ↓reduceIte]
        have hcsp : c ≠ ' ' := by rintro rfl; revert hid; decide
        have hat' := hat hc hcsp
        have htok := getIdent_isIdentOf s P.lex_ c ho.1 ho.2.2 hat' hc hid
        obtain ⟨g1, g2, g3, g4, g5⟩ := getIdent_spec P.lex_ c hat'
        have hlen : P.lex_.peekIdent.len = P.lex_.getIdent.1.len := rfl
        have hs' : P.lex_.peekIdent.s = P.lex_.getIdent.1.s := rfl
        have hcode : CheckKeyword P.lex_.buf P.lex_.peekIdent.s P.lex_.peekIdent.len = .CODE := by
          rw [ho.1, hlen, hs']
          apply CheckKeyword_token s _ htok
          rw [← identRunAt_token s _ htok]
          have hp0 := htok.1
          have hpn : ((P.lex_.getIdent.1.s.toNat : Nat) : Int) = P.lex_.getIdent.1.s :=
            Int.toNat_of_nonneg hp0
          apply hk
          · have := htok.2.1
            have := htok.2.2.1
            omega
          · rw [← deref_nat, hpn]
            exact htok.2.2.2.1
          · rw [hpn, g2]
            exact hleft (IsIdentOther_of_first c hid)
        rw [hcode]
        simp only []
        unfold Lexer.skipSkipBlanksGet
        -- the state after `skipGet`
        have hsg : Lexer.Over s (P.lex_.skipGet P.lex_.peekIdent.len).2
            ∧ (P.lex_.skipGet P.lex_.peekIdent.len).2.p_ = P.lex_.p_ + P.lex_.peekIdent.len
            ∧ ((P.lex_.skipGet P.lex_.peekIdent.len).1 ≠ NUL →
                Lexer.At (P.lex_.skipGet P.lex_.peekIdent.len).1
                  (P.lex_.skipGet P.lex_.peekIdent.len).2)
            ∧ ((P.lex_.skipGet P.lex_.peekIdent.len).1 = NUL →
                (P.lex_.skipGet P.lex_.peekIdent.len).2.p_
                  = (P.lex_.skipGet P.lex_.peekIdent.len).2.pe_)
            ∧ IsIdentOther (P.lex_.skipGet P.lex_.peekIdent.len).1 = false := by
          unfold Lexer.skipGet
          simp only []
          rw [hlen]
          have hlast := htok.2.2.2.2.2
          rw [g2] at hlast
          by_cases hin : P.lex_.p_ + (P.lex_.getIdent.1.len : Int) < P.lex_.pe_
          · simp only [hin, ↓reduceIte]
            refine ⟨ho, trivial, fun _ => ⟨hin, rfl⟩, fun h0' => ?_, ?_⟩
            · exfalso
              have hm := deref_mem_of_lt s (P.lex_.p_ + (P.lex_.getIdent.1.len : Int)) (by omega)
                (by rw [← ho.2.2]; exact hin)
              simp only [] at h0'
              rw [ho.1] at h0'
              rw [h0'] at hm
              exact hnul _ hm rfl
            · rw [ho.1]
              exact hlast
          · simp only [hin, ↓reduceIte]
            exact ⟨ho, trivial, fun h => absurd rfl h, fun _ => by omega,
              by decide⟩
        obtain ⟨sg1, sg2, sg3, sg4, sg5⟩ := hsg
        unfold Lexer.skipBlanks
        have hshown : Lexer.Shown (P.lex_.skipGet P.lex_.peekIdent.len).1
            (P.lex_.skipGet P.lex_.peekIdent.len).2 := by
          intro hlt hio
          by_cases hz : (P.lex_.skipGet P.lex_.peekIdent.len).1 = NUL
          · have := sg4 hz
            omega
          · exact (sg3 hz).2
        have hhi : (P.lex_.skipGet P.lex_.peekIdent.len).2.p_
            ≤ (P.lex_.skipGet P.lex_.peekIdent.len).2.pe_ := by
          have q1 := sg1.2.2
          have q2 := ho.2.2
          have q3 : (P.lex_.peekIdent.len : Int) = P.lex_.getIdent.1.len := by rw [hlen]
          omega
        rcases skipBlanksLoop_free s hnul _ (P.lex_.skipGet P.lex_.peekIdent.len).1
          (P.lex_.skipGet P.lex_.peekIdent.len).2 sg1 (by rw [sg2]; omega)
          hhi (fun hne _ => sg3 hne) sg4
          (Lexer.need_le_bound _ _ _ (Lexer.Le.refl _ hhi)) with
          ⟨r, e, o, lo, hi, m, a, fin, nsp⟩ | ⟨e, e3, e4, e5⟩
        · rw [e, Res.bind_ok]
          obtain ⟨-, halt⟩ := skipBlanksLoop_cur _ _ _ r hshown e
          refine hrest r ⟨o, lo, hi, fun hne _ => a hne, fin, ?_, fun hio => ?_⟩
            (fun _ => by rw [sg2] at m; omega)
          · intro hlt _
            by_cases hz : r.1 = NUL
            · have := fin hz
              omega
            · rw [o.1]
              rw [(a hz).2, o.1]
          · have hne := (IsIdentOther_facts r.1 hio).1
            rcases halt with halt | halt
            · exfalso
              have q1 : r.1 = (P.lex_.skipGet P.lex_.peekIdent.len).1 := congrArg Prod.fst halt
              rw [q1, sg5] at hio
              exact absurd hio (by simp)
            · have := halt hne
              unfold Lexer.PrevNotOther at this
              rw [o.1] at this
              exact LeftComplete_of_prev s _ this
        · rw [e3]
          exact Or.inr ⟨e, rfl, Or.inr ⟨e4, e5⟩⟩
      · simp only [hid, Bool.false_eq_true, ↓reduceIte]
        have hid' : IsIdentFirst c = false := by simpa using hid
        rcases hstep P.lex_ ho h0 h1 (Int.le_refl _)
          (fun hio => by
            have hlt : P.lex_.p_ < P.lex_.pe_ := by
              by_contra hge
              rw [deref_beyond s _ (by rw [← ho.2.2]; omega)] at hio
              exact absurd hio (by decide)
            have hcd := hsh hlt (by rw [ho.1]; exact hio)
            rw [ho.1] at hcd
            rw [← hcd]
            exact ⟨hleft (by rw [hcd]; exact hio), hid'⟩) with
          ⟨r, er, gr, lr⟩ | ⟨e, er, ee⟩
        · rw [er, Res.bind_ok]
          exact hrest r gr lr
        · rw [er]
          exact Or.inr ⟨e, rfl, ee⟩

/-- Where no comment starts at the next character, `skipCommentsGet` is `get`, up to
the line and column the lexer keeps after a `/`. -/
theorem skipCommentsGet_local (l : Lexer)
    (hloc : l.get.1 = '/' → l.get.2.get.1 ≠ '/' ∧ l.get.2.get.1 ≠ '*') :
    ∃ r : Char × Lexer, l.skipCommentsGet = .ok r ∧ r.1 = l.get.1 ∧ r.2.p_ = l.get.2.p_
      ∧ r.2.row_ = l.get.2.row_ ∧ r.2.col_ = l.get.2.col_ := by
  by_cases hc : l.get.1 = '/'
  · obtain ⟨n1, n2⟩ := hloc hc
    unfold Lexer.skipCommentsGet
    simp only [hc, ne_eq, not_true_eq_false, ↓reduceIte, n1, n2]
    exact ⟨_, rfl, rfl, rfl, rfl, rfl⟩
  · rw [skipCommentsGet_plain l hc]
    exact ⟨_, rfl, rfl, rfl, rfl, rfl⟩

/-- The scan of a non-empty text without NUL that does not begin with a comment and in
which no identifier is a keyword: one code chunk with the whole text, at line 1, the
assertion of `getSizeFrom` holding at the only call; or an error for a literal that is
not closed on its line or a block comment that is not closed. -/
theorem parse_free (src : List Char) (hnul : ∀ c ∈ src, c ≠ NUL) (hk : NoKeywordToken src)
    (hne : src ≠ []) (hstart : ¬ StartsWithComment src) :
    (∃ (l : Lexer) (col : Nat), Parser.parse src
        = .ok { lex_ := l,
                items_ := [{ row := 1, col := col, kind := .CODE, s := { s := src, seqPositions := [] },
                             index := 0 }],
                funcs_ := [], calls_ := [], name2Func_ := [] }
      ∧ tailAssert src = .ok true)
    ∨ ∃ e : BlError, Parser.parse src = .err e ∧ tailAssert src = .err e ∧ ScanError src e := by
  have hlen : 0 < src.length := List.length_pos.2 hne
  obtain ⟨ho, hp⟩ := Lexer.over_span src
  have hp1 : (Lexer.new src 0 src.length).p_ = -1 := by simp [Lexer.new]
  have hpe : (Lexer.new src 0 src.length).pe_ = src.length := ho.2.2
  obtain ⟨k1, k2⟩ := Lexer.get_good src hnul (Lexer.new src 0 src.length) ho (by omega) (by omega)
  have hlt : (Lexer.new src 0 src.length).p_ + 1 < (Lexer.new src 0 src.length).pe_ := by omega
  have hc : (Lexer.new src 0 src.length).get.1 ≠ NUL := by
    intro h
    have := k1.2.2.2.2 h
    have e := Lexer.get_fst _ hlt
    rw [h, ho.1, hp1] at e
    have hm := deref_mem_of_lt src (-1 + 1) (by omega) (by omega)
    rw [← e] at hm
    exact hnul _ hm rfl
  have hp0 : (Lexer.new src 0 src.length).get.2.p_ = 0 := by rw [k2 hc, hp1]; rfl
  have hrow : (Lexer.new src 0 src.length).get.2.row_ = 1 := by
    unfold Lexer.get
    have : ¬ ((Lexer.new src 0 src.length).p_ + 1 ≥ (Lexer.new src 0 src.length).pe_) := by omega
    simp only [this, ↓reduceIte]
    have h2 : (Lexer.new src 0 src.length).p_ < (Lexer.new src 0 src.length).src_ := by
      simp [Lexer.new]
    simp only [h2, true_or, ↓reduceIte]
    split_ifs <;> simp [Lexer.new]
  -- no comment starts at the first character
  have hloc : (Lexer.new src 0 src.length).get.1 = '/' →
      (Lexer.new src 0 src.length).get.2.get.1 ≠ '/'
        ∧ (Lexer.new src 0 src.length).get.2.get.1 ≠ '*' := by
    intro h1
    have e0 := Lexer.get_fst _ hlt
    rw [ho.1, hp1] at e0
    have key : ∀ d : Char, (Lexer.new src 0 src.length).get.2.get.1 = d → d ≠ NUL →
        src.take 2 = ['/', d] := by
      intro d hd hdn
      obtain ⟨a1, a2⟩ := Lexer.get_char (Lexer.new src 0 src.length).get.2 (by rw [hd]; exact hdn)
      rw [Lexer.get_buf, ho.1, hp0, hd] at a1
      rw [h1] at e0
      cases src with
      | nil => exact absurd rfl hne
      | cons a rest =>
        cases rest with
        | nil =>
          exfalso
          have : deref [a] (0 + 1) = NUL := by simp [deref]
          rw [this] at a1
          exact hdn a1
        | cons b rest =>
          have ea : deref (a :: b :: rest) (-1 + 1) = a := rfl
          have eb : deref (a :: b :: rest) (0 + 1) = b := rfl
          rw [ea] at e0
          rw [eb] at a1
          simp [← e0, ← a1]
    constructor
    · intro h2
      exact hstart (Or.inl (key '/' h2 (by decide)))
    · intro h2
      exact hstart (Or.inr (key '*' h2 (by decide)))
  obtain ⟨r, er, cr, pr, rr, -⟩ := skipCommentsGet_local (Lexer.new src 0 src.length) hloc
  rcases skipCommentsGet_free src hnul (Lexer.new src 0 src.length) ho (by omega) (by omega) with
    ⟨r', e1, o1, lo1, hi1, m1, lt1, at1, fin1, sh1, nx1⟩ | ⟨e, e1, -⟩
  swap
  · rw [er] at e1
    exact absurd e1 (by simp)
  rw [er] at e1
  simp only [Res.ok.injEq] at e1
  subst e1
  have hfair : Lexer.Fair src r.1 r.2 := by
    refine ⟨o1, lo1, hi1, at1, fin1, sh1, fun _ => ?_⟩
    rw [pr, hp0]
    intro j hj hf
    rw [deref_neg src j hj] at hf
    exact absurd hf (by decide)
  have hneed : Lexer.need r.1 r.2 < (Lexer.new src 0 src.length).bound := by
    rw [cr, Lexer.need_congr _ _ r.2 pr (by rw [o1.2.2, Lexer.get_pe, hpe])]
    exact Lexer.need_le_bound _ _ _ (Lexer.get_spec _ (by omega)).1
  unfold Parser.parse tailAssert
  simp only []
  rw [er, Res.bind_ok, Res.bind_ok]
  rcases topLoop_free src hnul hk (Lexer.new src 0 src.length).bound
    { c := r.1,
      P := { lex_ := r.2, items_ := [], funcs_ := [], calls_ := [], name2Func_ := [] },
      row := r.2.row_, col := r.2.col_, p := r.2.p_ } hfair hneed with ⟨l, e, hb, hend⟩ | ⟨e, e1, e2⟩
  · left
    rw [e, Res.bind_ok, Res.bind_ok]
    refine ⟨l, r.2.col_, ?_, ?_⟩
    · simp only [Parser.checkAddCode, Lexer.getSizeFrom, hend, pr, rr, hp0, hrow, sub_zero,
        Int.toNat_ofNat, hlen, ↓reduceIte, List.nil_append, hb]
      simp [slice]
    · simp only [Lexer.getSizeFromAssert, hend, pr, hp0]
      simp only [Res.ok.injEq, decide_eq_true_eq]
      omega
  · right
    rw [e1]
    exact ⟨e, rfl, rfl, e2⟩

/-- The translation of such a text: the marker of line 1 and what `GetRidBlInclude`
writes for the text, or the error of the scan. -/
theorem flatco_free (src f : List Char) (hnul : ∀ c ∈ src, c ≠ NUL) (hk : NoKeywordToken src)
    (hne : src ≠ []) (hstart : ¬ StartsWithComment src) :
    flatco src f = ((GetRidBlInclude src).bind fun t => .ok (lineMarker 1 f ++ t))
      ∨ ∃ e : BlError, flatco src f = .err e ∧ ScanError src e := by
  rcases parse_free src hnul hk hne hstart with ⟨l, col, e, -⟩ | ⟨e, e1, -, e2⟩
  · left
    unfold flatco Parser.new
    rw [e, Res.bind_ok, prepare_plain, Res.bind_ok]
    simp only [Parser.gen, genItems, ↓reduceIte]
    cases GetRidBlInclude src <;> simp [Res.bind, GenState.write]
  · right
    unfold flatco Parser.new
    rw [e1]
    exact ⟨e, rfl, e2⟩

/-- On a line without NUL, `CheckBlInclude` returns a value or throws for a block
comment that is not closed on the line. -/
theorem CheckBlInclude_free (t : List Char) (hnul : ∀ c ∈ t, c ≠ NUL) :
    (∃ b : Bool, CheckBlInclude t = .ok b)
    ∨ ∃ e : BlError, CheckBlInclude t = .err e
        ∧ e.s = "Multi-line comments are not closed" ∧ "/*".toList <:+: t := by
  unfold CheckBlInclude
  obtain ⟨ho, -⟩ := Lexer.over_span t
  have hp1 : (Lexer.new t 0 t.length).p_ = -1 := by simp [Lexer.new]
  rcases skipBlanksGet_free t hnul (Lexer.new t 0 t.length) ho (by omega)
    (by rw [hp1, ho.2.2]; omega) with ⟨r0, e0, o0, lo0, hi0, -, a0, -, -⟩ | ⟨e, e0, m0, i0⟩
  swap
  · rw [e0]; exact Or.inr ⟨e, rfl, m0, i0⟩
  rw [e0, Res.bind_ok]
  by_cases c1 : r0.1 = NUL
  · rw [if_pos c1]; exact Or.inl ⟨_, rfl⟩
  rw [if_neg c1]
  by_cases c2 : r0.1 ≠ '#'
  · rw [if_pos c2]; exact Or.inl ⟨_, rfl⟩
  rw [if_neg c2]
  rcases skipBlanksGet_free t hnul r0.2 o0 lo0 hi0 with
    ⟨r1, e1, o1, lo1, hi1, -, a1, -, -⟩ | ⟨e, e1, m1, i1⟩
  swap
  · rw [e1]; exact Or.inr ⟨e, rfl, m1, i1⟩
  rw [e1, Res.bind_ok]
  by_cases c3 : IsIdentFirst r1.1 = false
  · rw [if_pos c3]; exact Or.inl ⟨_, rfl⟩
  rw [if_neg c3]
  simp only []
  split_ifs with c4
  · exact Or.inl ⟨_, rfl⟩
  have hne1 : r1.1 ≠ NUL := by
    rintro h
    rw [h] at c3
    exact c3 (by decide)
  obtain ⟨i1, -⟩ := getIdent_spec r1.2 r1.1 (a1 hne1)
  rcases skipBlanksGet_free t hnul r1.2.getIdent.2
    ⟨i1.buf.trans o1.1, i1.src.trans o1.2.1, i1.pe.trans o1.2.2⟩
    (by have := i1.mono; omega) i1.inRange with
    ⟨r2, e2, -⟩ | ⟨e, e2, m2, i2⟩
  swap
  · rw [e2]; exact Or.inr ⟨e, rfl, m2, i2⟩
  rw [e2, Res.bind_ok]
  by_cases c5 : r2.1 ≠ '<' ∧ r2.1 ≠ '"'
  · rw [if_pos c5]; exact Or.inl ⟨_, rfl⟩
  rw [if_neg c5]
  generalize lastNonSpace t _ _ _ _ = o
  cases o with
  | none => exact Or.inl ⟨_, rfl⟩
  | some p =>
    simp only []
    split_ifs <;> exact Or.inl ⟨_, rfl⟩

/-- What `GetRidBlInclude` does with the lines of a text: `GetRidResult`, or the error
of a block comment that is not closed on a line. -/
theorem getRidLoop_free (s : List Char) (hnul : ∀ c ∈ s, c ≠ NUL) :
    ∀ (fuel off : Nat), off ≤ s.length → IsLineStart s off → s.length - off < fuel →
      (∀ o : Nat, o < off → IsLineStart s o → CheckBlInclude (lineFrom s o) = .ok false) →
      (∃ out : List Char, getRidLoop s fuel off = .ok out ∧ GetRidResult s out)
      ∨ ∃ e : BlError, getRidLoop s fuel off = .err e
          ∧ e.s = "Multi-line comments are not closed" ∧ "/*".toList <:+: s := by
  intro fuel
  induction fuel with
  | zero => intro _ _ _ h; omega
  | succ fuel ih =>
    intro off hoff hstart hf hbefore
    have hline : (findNewline s off = none → s.drop off = lineFrom s off)
        ∧ ∀ q, findNewline s off = some q → (s.drop off).take (q - off) = lineFrom s off :=
      ⟨getRid_line_none s off, getRid_line_some s off⟩
    rcases CheckBlInclude_free (lineFrom s off)
      (fun c hc => hnul c ((lineFrom_within s off).subset hc)) with ⟨b, hb⟩ | ⟨e, he, hm, hi⟩
    swap
    · refine Or.inr ⟨e, ?_, hm, hi.trans (lineFrom_within s off)⟩
      cases hq : findNewline s off with
      | none => simp only [getRidLoop, hq, hline.1 hq, he, Res.bind_err]
      | some q => simp only [getRidLoop, hq, hline.2 q hq, he, Res.bind_err]
    -- no line starts inside the line from `off`
    have hin : ∀ o : Nat, off < o → o ≤ (lineFrom s off).length + off → ¬ IsLineStart s o := by
      intro o h1 h2 hls
      rcases hls with h0 | h0
      · omega
      · have := lineFrom_no_newline s off (o - 1 - off) (by omega)
        have e : off + (o - 1 - off) = o - 1 := by omega
        rw [e] at this
        exact this h0
    cases hq : findNewline s off with
    | none =>
      simp only [getRidLoop, hq, getRid_line_none s off hq, hb, Res.bind_ok]
      cases b with
      | true =>
        exact Or.inl ⟨_, rfl, Or.inr ⟨off, hoff, hstart, hb, hbefore,
          by rw [getRid_line_none s off hq]⟩⟩
      | false =>
        refine Or.inl ⟨s, rfl, Or.inl ⟨rfl, fun o ho hls => ?_⟩⟩
        have hlen : s.length ≤ (lineFrom s off).length + off := by
          unfold findNewline at hq
          split_ifs at hq with h
          exact Nat.le_of_not_lt h
        rcases Nat.lt_trichotomy o off with h | h | h
        · exact hbefore o h hls
        · rw [h]; exact hb
        · exact absurd hls (hin o h (by omega))
    | some q =>
      simp only [getRidLoop, hq, getRid_line_some s off q hq, hb, Res.bind_ok]
      cases b with
      | true => exact Or.inl ⟨_, rfl, Or.inr ⟨off, hoff, hstart, hb, hbefore, rfl⟩⟩
      | false =>
        simp only [Bool.false_eq_true, ↓reduceIte]
        have hq' : q = (lineFrom s off).length + off ∧ q < s.length := by
          unfold findNewline at hq
          split_ifs at hq with h
          simp only [Option.some.injEq] at hq
          exact ⟨hq.symm, by rw [← hq]; exact h⟩
        obtain ⟨x, hx1, hx2⟩ := takeWhile_end (fun c => decide (c ≠ '\n')) (s.drop off)
          (by
            have : (lineFrom s off).length < s.length - off := by omega
            simpa [lineFrom] using this)
        have hnl : s[q]? = some '\n' := by
          rw [List.getElem?_drop] at hx1
          have e : off + (List.takeWhile (fun c => decide (c ≠ '\n')) (s.drop off)).length = q := by
            rw [hq'.1]
            unfold lineFrom
            omega
          rw [e] at hx1
          rw [hx1]
          simp at hx2
          rw [hx2]
        refine ih (q + 1) (by omega) (Or.inr (by simpa using hnl)) (by omega) fun o ho hls => ?_
        rcases Nat.lt_trichotomy o off with h | h | h
        · exact hbefore o h hls
        · rw [h]; exact hb
        · exact absurd hls (hin o h (by omega))

theorem GetRidBlInclude_free (s : List Char) (hnul : ∀ c ∈ s, c ≠ NUL) :
    (∃ out : List Char, GetRidBlInclude s = .ok out ∧ GetRidResult s out)
    ∨ ∃ e : BlError, GetRidBlInclude s = .err e
        ∧ e.s = "Multi-line comments are not closed" ∧ "/*".toList <:+: s :=
  getRidLoop_free s hnul (s.length + 1) 0 (Nat.zero_le _) (Or.inl rfl) (by omega)
    (fun o ho => absurd ho (Nat.not_lt_zero o))

theorem strncmpEq_of_match (buf : List Char) (a : Int) (lit : List Char) :
    ∀ (n i : Nat), (∀ k : Nat, i ≤ k → k < i + n → deref buf (a + k) = lit.getD k NUL) →
      strncmpEq buf a lit n i = true := by
  intro n
  induction n with
  | zero => intro i _; rfl
  | succ n ih =>
    intro i h
    simp only [strncmpEq]
    have h0 := h i (Nat.le_refl _) (by omega)
    simp only [h0, ne_eq, not_true_eq_false, ↓reduceIte]
    split
    · rfl
    · exact ih (i + 1) fun k hk1 hk2 => h k (by omega) (by omega)

/-- The backward scan of `CheckBlInclude` over the blanks at the end of the line stops
on the closing delimiter. -/
theorem lastNonSpace_close (s : List Char) (p0 : Int) (c : Char) (pc : Nat) (hp0 : p0 ≤ pc)
    (hc : deref s pc = c) (hns : IsSpaceChar c = false) :
    ∀ (k n : Nat), k < n →
      (∀ j : Nat, pc < j → j < pc + 1 + k → IsSpaceChar (deref s j) = true) →
      lastNonSpace s p0 c n ((pc + 1 + k : Nat) : Int) = some (pc : Int) := by
  intro k
  induction k with
  | zero =>
    intro n hn _
    cases n with
    | zero => omega
    | succ n =>
      simp only [lastNonSpace]
      have e : ((pc + 1 + 0 : Nat) : Int) - 1 = pc := by push_cast; omega
      rw [e]
      simp only [ge_iff_le, hp0, ↓reduceIte, hc, hns, Bool.false_eq_true, ne_eq,
        not_true_eq_false]
  | succ k ih =>
    intro n hn hsp
    cases n with
    | zero => omega
    | succ n =>
      simp only [lastNonSpace]
      have e : ((pc + 1 + (k + 1) : Nat) : Int) - 1 = ((pc + 1 + k : Nat) : Int) := by
        push_cast; omega
      rw [e]
      have hge : ((pc + 1 + k : Nat) : Int) ≥ p0 := by push_cast; omega
      simp only [hge, ↓reduceIte, hsp (pc + 1 + k) (by omega) (by omega)]
      exact ih n (by omega) fun j h1 h2 => hsp j h1 (by omega)

/-- `CheckBlInclude` accepts a line in which, at the offsets given, stand blanks, `#`,
blanks, `include`, blanks, an opening delimiter, the name `flatco.h` at the start or
after `/`, the closing delimiter, and blanks to the end. -/
theorem CheckBlInclude_at (s : List Char) (L1 L2 L3 pc : Nat) (o cl : Char)
    (h1 : ∀ j : Nat, j < L1 → IsSpaceChar (deref s j) = true) (h2 : deref s L1 = '#')
    (h12 : L1 < L2) (h3 : ∀ j : Nat, L1 < j → j < L2 → IsSpaceChar (deref s j) = true)
    (h4 : ∀ k : Nat, k < 7 → deref s ((L2 : Int) + k) = "include".toList.getD k NUL)
    (h23 : L2 + 7 ≤ L3) (h5 : ∀ j : Nat, L2 + 7 ≤ j → j < L3 → IsSpaceChar (deref s j) = true)
    (h6 : deref s L3 = o) (hoc : (o = '<' ∧ cl = '>') ∨ (o = '"' ∧ cl = '"'))
    (h3c : L3 + 9 ≤ pc)
    (h7 : ∀ k : Nat, k < 8 → deref s ((pc : Int) - 8 + k) = "flatco.h".toList.getD k NUL)
    (h8 : deref s pc = cl) (hlen : pc < s.length)
    (h9 : ∀ j : Nat, pc < j → j < s.length → IsSpaceChar (deref s j) = true)
    (h10 : L3 + 9 = pc ∨ deref s ((pc : Int) - 9) = '/') :
    CheckBlInclude s = .ok true := by
  have hsp : ∀ c : Char, IsSpaceChar c = true → c ≠ NUL ∧ c ≠ '/' := by
    intro c hc
    constructor <;> rintro rfl <;> revert hc <;> decide
  have hinc : ∀ k : Nat, k < 7 → deref s ((L2 + k : Nat) : Int) ≠ NUL
      ∧ deref s ((L2 + k : Nat) : Int) ≠ '/' ∧ IsIdentOther (deref s ((L2 + k : Nat) : Int)) = true := by
    intro k hk
    have e : ((L2 + k : Nat) : Int) = (L2 : Int) + k := by rfl
    rw [e, h4 k hk]
    interval_cases k <;> decide
  have ho_facts : IsSpaceChar o = false ∧ o ≠ '/' ∧ o ≠ NUL ∧ IsIdentOther o = false := by
    rcases hoc with ⟨rfl, -⟩ | ⟨rfl, -⟩ <;> decide
  have hcl_facts : IsSpaceChar cl = false := by
    rcases hoc with ⟨-, rfl⟩ | ⟨-, rfl⟩ <;> decide
  -- no comment starts before the opening delimiter
  have hpre : NoCommentBefore s L3 := by
    intro i hi
    by_cases c1 : i < L1
    · have := hsp _ (h1 i c1)
      exact ⟨this.1, fun h => absurd h this.2⟩
    by_cases c2 : i = L1
    · subst c2
      rw [h2]
      exact ⟨by decide, fun h => absurd h (by decide)⟩
    by_cases c3 : i < L2
    · have := hsp _ (h3 i (by omega) c3)
      exact ⟨this.1, fun h => absurd h this.2⟩
    by_cases c4 : i < L2 + 7
    · have := hinc (i - L2) (by omega)
      have e : L2 + (i - L2) = i := by omega
      rw [e] at this
      exact ⟨this.1, fun h => absurd h this.2.1⟩
    · have := hsp _ (h5 i (by omega) hi)
      exact ⟨this.1, fun h => absurd h this.2⟩
  have hpreL : ∀ L : Nat, L ≤ L3 → NoCommentBefore s L := fun L hL i hi => hpre i (by omega)
  have hL3 : L3 < s.length := by omega
  unfold CheckBlInclude
  obtain ⟨ho, hp⟩ := Lexer.over_span s
  -- blanks, then `#`
  obtain ⟨j0, l0, e0, o0, p0, a0, b0, c0⟩ := skipBlanksGet_reach s L1 (by omega)
    (hpreL L1 (by omega)) (by rw [h2]; exact ⟨by decide, by decide, by decide⟩)
    (Lexer.new s 0 s.length) 0 ho hp (Nat.zero_le _)
  have hj0 : j0 = L1 := by
    by_contra hne
    have := h1 j0 (by omega)
    rw [this] at c0
    exact absurd c0 (by simp)
  subst hj0
  rw [e0, Res.bind_ok]
  simp only [h2]
  rw [if_neg (by decide), if_neg (by decide)]
  -- blanks, then `include`
  have hi0 := hinc 0 (by omega)
  obtain ⟨j1, l1, e1, o1, p1, a1, b1, c1⟩ := skipBlanksGet_reach s L2 (by omega)
    (hpreL L2 (by omega))
    (by
      have := IsIdentOther_facts _ hi0.2.2
      exact ⟨this.2.2, this.2.1, this.1⟩)
    l0 (j0 + 1) o0 (by rw [p0]; rfl) (by omega)
  have hj1 : j1 = L2 := by
    by_contra hne
    have := h3 j1 (by omega) (by omega)
    rw [this] at c1
    exact absurd c1 (by simp)
  subst hj1
  rw [e1, Res.bind_ok]
  have hfirst : IsIdentFirst (deref s (j1 : Nat)) = true := by
    have := h4 0 (by omega)
    simp only [Nat.cast_zero, add_zero] at this
    rw [this]
    decide
  simp only [hfirst, Bool.true_eq_false, ↓reduceIte]
  have htok : TokenAt s j1 "include".toList := by
    refine ⟨⟨'i', "nclude".toList, rfl, by decide, by decide⟩, ?_, ?_⟩
    · have := slice_of_deref s "include".toList j1 (by omega)
        (by
          have : "include".toList.length = 7 := by decide
          rw [this]
          push_cast
          omega)
        (fun k hk => h4 k (by simpa using hk))
      simpa using this
    · have e7 : ((j1 : Int) + ("include".toList.length : Nat)) = ((j1 + 7 : Nat) : Int) := by
        have : "include".toList.length = 7 := by decide
        rw [this]
        rfl
      rw [e7]
      by_cases hb : j1 + 7 = L3
      · rw [hb, h6]
        exact ho_facts.2.2.2
      · have := h5 (j1 + 7) (Nat.le_refl _) (by omega)
        by_contra hcon
        simp only [Bool.not_eq_false] at hcon
        have := (IsIdentOther_facts _ hcon).2.2
        simp_all
  obtain ⟨t1, t2, t3, t4, -, -, -⟩ := getIdent_token s l1 j1 "include".toList o1 p1 htok
  have e7 : "include".toList.length = 7 := by decide
  rw [e7] at t2 t3
  have hcmp : strncmpEq s l1.getIdent.1.s "include".toList l1.getIdent.1.len 0 = true := by
    rw [t1, t2]
    exact strncmpEq_of_match s _ _ 7 0 fun k _ hk => h4 k (by omega)
  simp only [hcmp, Bool.true_eq_false, ↓reduceIte]
  -- blanks, then the opening delimiter
  obtain ⟨j2, l2, e2, o2, p2, a2, b2, c2⟩ := skipBlanksGet_reach s L3 hL3 hpre
    (by rw [h6]; exact ⟨ho_facts.1, ho_facts.2.1, ho_facts.2.2.1⟩)
    l1.getIdent.2 (j1 + 7) t4 (by rw [t3]; omega) h23
  have hj2 : j2 = L3 := by
    by_contra hne
    have := h5 j2 (by omega) (by omega)
    rw [this] at c2
    exact absurd c2 (by simp)
  subst hj2
  rw [e2, Res.bind_ok]
  simp only [h6]
  have hoo : ¬ (o ≠ '<' ∧ o ≠ '"') := by
    rcases hoc with ⟨rfl, -⟩ | ⟨rfl, -⟩ <;> simp
  rw [if_neg hoo]
  have hclose : (if o = '<' then '>' else o) = cl := by
    rcases hoc with ⟨rfl, rfl⟩ | ⟨rfl, rfl⟩ <;> simp
  simp only [hclose, p2]
  have hlast : lastNonSpace s (j2 : Int) cl ((s.length : Int) - (j2 : Int)).toNat (s.length : Int)
      = some (pc : Int) := by
    have e : s.length = pc + 1 + (s.length - pc - 1) := by omega
    have := lastNonSpace_close s (j2 : Int) cl pc (by omega) h8 hcl_facts
      (s.length - pc - 1) ((s.length : Int) - (j2 : Int)).toNat (by omega)
      (fun j hj1 hj2 => h9 j hj1 (by omega))
    rw [← e] at this
    exact this
  rw [hlast]
  simp only []
  have hge : ¬ ((j2 : Int) + 8 ≥ (pc : Int)) := by omega
  rw [if_neg hge]
  have hcmp2 : strncmpEq s ((pc : Int) - 8) "flatco.h".toList 8 0 = true :=
    strncmpEq_of_match s _ _ 8 0 fun k _ hk => h7 k (by omega)
  simp only [hcmp2, Bool.true_eq_false, ↓reduceIte]
  rcases h10 with h10 | h10
  · have : (j2 : Int) + 9 = (pc : Int) := by omega
    rw [if_pos this]
  · split
    · rfl
    · simp [h10]

/-- A character of a segment of a text, read through `deref`. -/
theorem deref_segment (pre mid post : List Char) (j : Nat) (h1 : pre.length ≤ j)
    (h2 : j < pre.length + mid.length) :
    deref (pre ++ (mid ++ post)) (j : Int) = mid.getD (j - pre.length) NUL
      ∧ mid.getD (j - pre.length) NUL ∈ mid := by
  have hk : j - pre.length < mid.length := by omega
  rw [deref_nat, List.getD_eq_getElem?_getD, List.getElem?_append_right h1,
    List.getElem?_append_left hk, List.getElem?_eq_getElem hk]
  rw [List.getD_eq_getElem _ _ hk]
  exact ⟨rfl, List.getElem_mem _⟩

/-- `CheckBlInclude` accepts every `#include` line of flatco.h. -/
theorem CheckBlInclude_include (line : List Char) (h : IsFlatcoInclude line) :
    CheckBlInclude line = .ok true := by
  obtain ⟨b1, b2, b3, b4, dir, o, cl, hline, hbl, hoc, hdir⟩ := h
  have e7 : "include".toList.length = 7 := by decide
  have e8 : "flatco.h".toList.length = 8 := by decide
  have hb : ∀ c, (c ∈ b1 ∨ c ∈ b2 ∨ c ∈ b3 ∨ c ∈ b4) → IsSpaceChar c = true := by
    intro c hc
    apply hbl c
    simp only [List.mem_append]
    tauto
  have hlen : line.length
      = b1.length + 1 + b2.length + 7 + b3.length + 1 + dir.length + 8 + 1 + b4.length := by
    rw [hline]
    simp only [List.length_append, List.length_cons, e7, e8]
    omega
  have f1 : ∀ j : Nat, j < b1.length → IsSpaceChar (deref line j) = true := by
    have s1 : line = [] ++ (b1 ++ '#' :: (b2 ++ ("include".toList ++ (b3 ++ o :: (dir ++ ("flatco.h".toList ++ cl :: b4)))))) := by
      rw [hline]; rfl
    intro j hj
    obtain ⟨q1, q2⟩ := deref_segment [] b1 _ j (Nat.zero_le _) (by simpa using hj)
    rw [s1, q1]
    exact hb _ (Or.inl q2)
  have f2 : deref line (b1.length : Nat) = '#' := by
    have s2 : line = b1 ++ (['#'] ++ (b2 ++ ("include".toList ++ (b3 ++ o :: (dir ++ ("flatco.h".toList ++ cl :: b4)))))) := by
      rw [hline]; rfl
    obtain ⟨q1, -⟩ := deref_segment b1 ['#'] _ b1.length (Nat.le_refl _) (by simp)
    rw [s2, q1]
    simp
  have f3 : ∀ j : Nat, b1.length < j → j < b1.length + 1 + b2.length →
      IsSpaceChar (deref line j) = true := by
    have s3 : line = (b1 ++ ['#']) ++ (b2 ++ ("include".toList ++ (b3 ++ o :: (dir ++ ("flatco.h".toList ++ cl :: b4))))) := by
      rw [hline]; simp only [List.append_assoc, List.cons_append, List.nil_append, List.singleton_append]
    have l3 : (b1 ++ ['#']).length = b1.length + 1 := by simp
    intro j hj1 hj2
    obtain ⟨q1, q2⟩ := deref_segment (b1 ++ ['#']) b2 _ j (by rw [l3]; omega) (by rw [l3]; omega)
    rw [s3, q1]
    exact hb _ (Or.inr (Or.inl q2))
  have f4 : ∀ k : Nat, k < 7 →
      deref line (((b1.length + 1 + b2.length : Nat) : Int) + k) = "include".toList.getD k NUL := by
    have s4 : line = (b1 ++ '#' :: b2) ++ ("include".toList ++ (b3 ++ o :: (dir ++ ("flatco.h".toList ++ cl :: b4)))) := by
      rw [hline]; simp only [List.append_assoc, List.cons_append, List.nil_append, List.singleton_append]
    have l4 : (b1 ++ '#' :: b2).length = b1.length + 1 + b2.length := by
      simp only [List.length_append, List.length_cons]; omega
    intro k hk
    obtain ⟨q1, -⟩ := deref_segment (b1 ++ '#' :: b2) "include".toList _
      (b1.length + 1 + b2.length + k) (by rw [l4]; omega) (by rw [l4, e7]; omega)
    have e : ((b1.length + 1 + b2.length : Nat) : Int) + (k : Int)
        = ((b1.length + 1 + b2.length + k : Nat) : Int) := by push_cast; rfl
    rw [e, s4, q1, l4]
    congr 1
    omega
  have f5 : ∀ j : Nat, b1.length + 1 + b2.length + 7 ≤ j →
      j < b1.length + 1 + b2.length + 7 + b3.length → IsSpaceChar (deref line j) = true := by
    have s5 : line = (b1 ++ '#' :: (b2 ++ "include".toList)) ++ (b3 ++ o :: (dir ++ ("flatco.h".toList ++ cl :: b4))) := by
      rw [hline]; simp only [List.append_assoc, List.cons_append, List.nil_append, List.singleton_append]
    have l5 : (b1 ++ '#' :: (b2 ++ "include".toList)).length = b1.length + 1 + b2.length + 7 := by
      simp only [List.length_append, List.length_cons, e7]; omega
    intro j hj1 hj2
    obtain ⟨q1, q2⟩ := deref_segment (b1 ++ '#' :: (b2 ++ "include".toList)) b3 _ j
      (by rw [l5]; omega) (by rw [l5]; omega)
    rw [s5, q1]
    exact hb _ (Or.inr (Or.inr (Or.inl q2)))
  have f6 : deref line ((b1.length + 1 + b2.length + 7 + b3.length : Nat) : Int) = o := by
    have s6 : line = (b1 ++ '#' :: (b2 ++ ("include".toList ++ b3))) ++ ([o] ++ (dir ++ ("flatco.h".toList ++ cl :: b4))) := by
      rw [hline]; simp only [List.append_assoc, List.cons_append, List.nil_append, List.singleton_append]
    have l6 : (b1 ++ '#' :: (b2 ++ ("include".toList ++ b3))).length
        = b1.length + 1 + b2.length + 7 + b3.length := by
      simp only [List.length_append, List.length_cons, e7]; omega
    obtain ⟨q1, -⟩ := deref_segment (b1 ++ '#' :: (b2 ++ ("include".toList ++ b3))) [o] _
      (b1.length + 1 + b2.length + 7 + b3.length) (by rw [l6]) (by rw [l6]; simp)
    rw [s6, q1, l6]
    simp
  have f7 : ∀ k : Nat, k < 8 →
      deref line (((b1.length + 1 + b2.length + 7 + b3.length + 1 + dir.length + 8 : Nat) : Int)
        - 8 + k) = "flatco.h".toList.getD k NUL := by
    have s8 : line = (b1 ++ '#' :: (b2 ++ ("include".toList ++ (b3 ++ o :: dir)))) ++ ("flatco.h".toList ++ cl :: b4) := by
      rw [hline]; simp only [List.append_assoc, List.cons_append, List.nil_append, List.singleton_append]
    have l8 : (b1 ++ '#' :: (b2 ++ ("include".toList ++ (b3 ++ o :: dir)))).length
        = b1.length + 1 + b2.length + 7 + b3.length + 1 + dir.length := by
      simp only [List.length_append, List.length_cons, e7]; omega
    intro k hk
    obtain ⟨q1, -⟩ := deref_segment (b1 ++ '#' :: (b2 ++ ("include".toList ++ (b3 ++ o :: dir))))
      "flatco.h".toList _ (b1.length + 1 + b2.length + 7 + b3.length + 1 + dir.length + k)
      (by rw [l8]; omega) (by rw [l8, e8]; omega)
    have e : ((b1.length + 1 + b2.length + 7 + b3.length + 1 + dir.length + 8 : Nat) : Int) - 8 + (k : Int)
        = ((b1.length + 1 + b2.length + 7 + b3.length + 1 + dir.length + k : Nat) : Int) := by
      push_cast; omega
    rw [e, s8, q1, l8]
    congr 1
    omega
  have f8 : deref line ((b1.length + 1 + b2.length + 7 + b3.length + 1 + dir.length + 8 : Nat) : Int)
      = cl := by
    have s9 : line = (b1 ++ '#' :: (b2 ++ ("include".toList ++ (b3 ++ o :: (dir ++ "flatco.h".toList))))) ++ ([cl] ++ b4) := by
      rw [hline]; simp only [List.append_assoc, List.cons_append, List.nil_append, List.singleton_append]
    have l9 : (b1 ++ '#' :: (b2 ++ ("include".toList ++ (b3 ++ o :: (dir ++ "flatco.h".toList))))).length
        = b1.length + 1 + b2.length + 7 + b3.length + 1 + dir.length + 8 := by
      simp only [List.length_append, List.length_cons, e7, e8]; omega
    obtain ⟨q1, -⟩ := deref_segment
      (b1 ++ '#' :: (b2 ++ ("include".toList ++ (b3 ++ o :: (dir ++ "flatco.h".toList))))) [cl] _
      (b1.length + 1 + b2.length + 7 + b3.length + 1 + dir.length + 8) (by rw [l9]) (by rw [l9]; simp)
    rw [s9, q1, l9]
    simp
  have f9 : ∀ j : Nat, b1.length + 1 + b2.length + 7 + b3.length + 1 + dir.length + 8 < j →
      j < line.length → IsSpaceChar (deref line j) = true := by
    have s10 : line = (b1 ++ '#' :: (b2 ++ ("include".toList ++ (b3 ++ o :: (dir ++ ("flatco.h".toList ++ [cl])))))) ++ (b4 ++ []) := by
      rw [hline]; simp only [List.append_assoc, List.cons_append, List.nil_append, List.singleton_append, List.append_nil]
    have l10 : (b1 ++ '#' :: (b2 ++ ("include".toList ++ (b3 ++ o :: (dir ++ ("flatco.h".toList ++ [cl])))))).length
        = b1.length + 1 + b2.length + 7 + b3.length + 1 + dir.length + 8 + 1 := by
      simp only [List.length_append, List.length_cons, List.length_nil, e7, e8]; omega
    intro j hj1 hj2
    obtain ⟨q1, q2⟩ := deref_segment
      (b1 ++ '#' :: (b2 ++ ("include".toList ++ (b3 ++ o :: (dir ++ ("flatco.h".toList ++ [cl])))))) b4 []
      j (by rw [l10]; omega) (by rw [l10]; omega)
    rw [s10, q1]
    exact hb _ (Or.inr (Or.inr (Or.inr q2)))
  have f10 : b1.length + 1 + b2.length + 7 + b3.length + 9
        = b1.length + 1 + b2.length + 7 + b3.length + 1 + dir.length + 8
      ∨ deref line (((b1.length + 1 + b2.length + 7 + b3.length + 1 + dir.length + 8 : Nat) : Int) - 9)
        = '/' := by
    have s7 : line = (b1 ++ '#' :: (b2 ++ ("include".toList ++ (b3 ++ [o])))) ++ (dir ++ ("flatco.h".toList ++ cl :: b4)) := by
      rw [hline]; simp only [List.append_assoc, List.cons_append, List.nil_append, List.singleton_append]
    have l7 : (b1 ++ '#' :: (b2 ++ ("include".toList ++ (b3 ++ [o])))).length
        = b1.length + 1 + b2.length + 7 + b3.length + 1 := by
      simp only [List.length_append, List.length_cons, List.length_nil, e7]; omega
    rcases hdir with hd | hd
    · left
      rw [hd]
      rfl
    · right
      have hne : dir ≠ [] := by
        intro h0
        rw [h0] at hd
        simp at hd
      have hpos : 0 < dir.length := List.length_pos.2 hne
      obtain ⟨q1, -⟩ := deref_segment (b1 ++ '#' :: (b2 ++ ("include".toList ++ (b3 ++ [o])))) dir _
        (b1.length + 1 + b2.length + 7 + b3.length + 1 + dir.length - 1)
        (by rw [l7]; omega) (by rw [l7]; omega)
      have e : ((b1.length + 1 + b2.length + 7 + b3.length + 1 + dir.length + 8 : Nat) : Int) - 9
          = ((b1.length + 1 + b2.length + 7 + b3.length + 1 + dir.length - 1 : Nat) : Int) := by
        omega
      rw [e, s7, q1, l7]
      have e2 : b1.length + 1 + b2.length + 7 + b3.length + 1 + dir.length - 1
          - (b1.length + 1 + b2.length + 7 + b3.length + 1) = dir.length - 1 := by omega
      rw [e2, List.getD_eq_getElem?_getD]
      rw [List.getLast?_eq_getElem?] at hd
      rw [hd]
      rfl
  exact CheckBlInclude_at line b1.length (b1.length + 1 + b2.length)
    (b1.length + 1 + b2.length + 7 + b3.length)
    (b1.length + 1 + b2.length + 7 + b3.length + 1 + dir.length + 8) o cl
    f1 f2 (by omega) f3 f4 (by omega) f5 f6 hoc (by omega) f7 f8 (by omega) f9 f10

/-- A text in which every keyword text that starts a run of identifier characters
stands directly after a letter or underscore holds no keyword. -/
theorem NoKeywordToken_of_prev (s : List Char)
    (h : ∀ i : Nat, i < s.length → KeywordLike (identRunAt s i) →
      0 < i ∧ IsIdentFirst (s.getD (i - 1) NUL) = true) : NoKeywordToken s := by
  intro i hi _ hleft hkw
  obtain ⟨hpos, hprev⟩ := h i hi hkw
  obtain ⟨k, k1, k2, -⟩ := hleft ((i - 1 : Nat) : Int) (by omega)
    (by rw [deref_nat]; exact hprev)
  omega

/-- What the translation does with units without keyword that the statement on such
units leaves out: a unit that begins with a comment loses the comment but for its
last character; the scan ends at a NUL byte; a keyword text after a digit is taken for
the keyword; and a line `#i <flatco.h>` is taken for an include line, as every
beginning of `include` is. -/
theorem keywordless_units_left_out :
    flatco "/* c */int x;".toList "in.cxx".toList = .ok "\n#line 1 \"in.cxx\"\n/int x;".toList
    ∧ flatco "// c\nint x;".toList "in.cxx".toList = .ok "\n#line 1 \"in.cxx\"\n\nint x;".toList
    ∧ flatco "// c".toList "in.cxx".toList = .ok []
    ∧ tailAssert "// c".toList = .ok false
    ∧ flatco ("int a;".toList ++ NUL :: "int b;".toList) "in.cxx".toList
        = .ok "\n#line 1 \"in.cxx\"\nint a;".toList
    ∧ flatco "int 1BL_func;".toList "in.cxx".toList
        = .err ⟨1, 13, "Shoud be '(' following BL_func"⟩
    ∧ flatco "int x1BL_func;".toList "in.cxx".toList
        = .ok "\n#line 1 \"in.cxx\"\nint x1BL_func;".toList
    ∧ flatco "#i <flatco.h>\nint x;\n".toList "in.cxx".toList
        = .ok "\n#line 1 \"in.cxx\"\n//#i <flatco.h>\nint x;\n".toList
    ∧ flatco "int x/* don't */;\n".toList "in.cxx".toList
        = .err ⟨1, 18, "String cross over line"⟩
    ∧ flatco "int x;\n/* a\n*/\n".toList "in.cxx".toList
        = .err ⟨1, 4, "Multi-line comments are not closed"⟩ :=
  ⟨by decide!, by decide!, by decide!, by decide!, by decide!, by decide!, by decide!,
    by decide!, by decide!, by decide!⟩

end Flatco
